import Mathlib

/-!
# Half-edge connectivity manager of MCUT: shallow embedding

Embedding of `src/source/halfedge_mesh.cpp` (class `mesh_t`).

Conventions of the embedding.

* A descriptor is an `Option Nat`; `none` is the null descriptor (the value a
  default-constructed descriptor has, see `mesh_t::null_vertex` and friends).
* A `std::map<descriptor, data>` is an association list kept in key order;
  `map_at` is `std::map::at` (it throws, here `error.out_of_range`, on a
  missing key), `map_insert` is `std::map::insert` (it does not overwrite).
* `MCUT_ASSERT` is modelled in the configuration in which assertions are
  compiled in: a failed assertion stops the operation with
  `error.assertion_failed`.
* A mutating member function is a function from the mesh to a result and the
  mesh as it stands when the function returns or stops; a `const` member
  function is a function from the mesh to a result.
* The coordinate type `math::real_number_t` is a type parameter `R`.
-/

namespace mcut

/-- The two ways an operation stops early: a failed `MCUT_ASSERT`, or an
exception thrown by `std::map::at` / `std::vector::at`. -/
inductive error where
  | assertion_failed : error
  | out_of_range : error
deriving DecidableEq

instance {A : Type} [DecidableEq A] : DecidableEq (Except error A) := fun a b =>
  match a, b with
  | Except.ok x, Except.ok y =>
    if h : x = y then isTrue (by rw [h]) else isFalse (fun e => h (Except.ok.inj e))
  | Except.error x, Except.error y =>
    if h : x = y then isTrue (by rw [h]) else isFalse (fun e => h (Except.error.inj e))
  | Except.ok _, Except.error _ => isFalse (fun e => by cases e)
  | Except.error _, Except.ok _ => isFalse (fun e => by cases e)

/-- Modelled from the spec: the descriptor types are declared in
`halfedge_mesh.h`, which is not among the sources; a descriptor is "an
opaque, strongly-typed non-negative integer index", and "a distinguished
sentinel value per category denotes null". Here an index is `some n` and the
sentinel is `none`. -/
abbrev descriptor_t := Option Nat

/-- Modelled from the spec: see `descriptor_t`. -/
abbrev vertex_descriptor_t := descriptor_t

/-- Modelled from the spec: see `descriptor_t`. -/
abbrev halfedge_descriptor_t := descriptor_t

/-- Modelled from the spec: see `descriptor_t`. -/
abbrev edge_descriptor_t := descriptor_t

/-- Modelled from the spec: see `descriptor_t`. -/
abbrev face_descriptor_t := descriptor_t

/-- Source lines 36-39. -/
def null_vertex : vertex_descriptor_t := none

/-- Source lines 41-44. -/
def null_halfedge : halfedge_descriptor_t := none

/-- Source lines 46-49. -/
def null_edge : edge_descriptor_t := none

/-- Source lines 51-54. -/
def null_face : face_descriptor_t := none

/-- Modelled from the spec: the point type `math::vec3` is declared in a
header that is not among the sources; a "3D point/vector type", here over
the coordinate type `R`. -/
structure vec3 (R : Type) where
  x : R
  y : R
  z : R
deriving DecidableEq

/-- Modelled from the spec: the record `vertex_data_t` is declared in
`halfedge_mesh.h`, which is not among the sources; "position (3D point) plus
the set of incident half-edges whose target is this vertex". The member
names are those the sources use. -/
structure vertex_data_t (R : Type) where
  p : vec3 R
  m_halfedges : List halfedge_descriptor_t
deriving DecidableEq

/-- Modelled from the spec: the record `halfedge_data_t` is declared in
`halfedge_mesh.h`, which is not among the sources; "target vertex, opposite
half-edge, next half-edge, previous half-edge, owning edge, owning face".
The member names are those the sources use. -/
structure halfedge_data_t where
  o : halfedge_descriptor_t
  n : halfedge_descriptor_t
  p : halfedge_descriptor_t
  t : vertex_descriptor_t
  e : edge_descriptor_t
  f : face_descriptor_t
deriving DecidableEq

/-- Modelled from the spec: the record `edge_data_t` is declared in
`halfedge_mesh.h`, which is not among the sources; an edge "stores one
representative (primary) half-edge". -/
structure edge_data_t where
  h : halfedge_descriptor_t
deriving DecidableEq

/-- Modelled from the spec: the record `face_data_t` is declared in
`halfedge_mesh.h`, which is not among the sources; "an ordered cyclic
sequence of half-edges (its boundary), stored explicitly". -/
structure face_data_t where
  m_halfedges : List halfedge_descriptor_t
deriving DecidableEq

/-- Modelled from the spec: a default-constructed `halfedge_data_t()` (the
constructor is declared in `halfedge_mesh.h`, not among the sources); every
member is a default-constructed descriptor, which is the null descriptor
(source lines 36-54), and "both half-edges initially have null face". -/
def halfedge_data_new : halfedge_data_t :=
  { o := null_halfedge, n := null_halfedge, p := null_halfedge,
    t := null_vertex, e := null_edge, f := null_face }

/-- Modelled from the spec: a default-constructed `edge_data_t()`, see
`halfedge_data_new`. -/
def edge_data_new : edge_data_t := { h := null_halfedge }

/-- Modelled from the spec: a default-constructed `face_data_t()`, with an
empty boundary. -/
def face_data_new : face_data_t := { m_halfedges := [] }

/-! ## `std::map` keyed by descriptors -/

abbrev map_t (D : Type) := List (descriptor_t × D)

/-- Order of the keys of a map: by index, the null descriptor last. -/
def descriptor_lt : descriptor_t → descriptor_t → Bool
  | some a, some b => decide (a < b)
  | some _, none => true
  | none, _ => false

/-- Lookup `std::map::find`: the stored value, if the key is present. -/
def map_find {D : Type} : map_t D → descriptor_t → Option D
  | [], _ => none
  | kv :: rest, k => if kv.1 = k then some kv.2 else map_find rest k

/-- Member `std::map::count`. -/
def map_count {D : Type} (m : map_t D) (k : descriptor_t) : Nat :=
  if (map_find m k).isSome then 1 else 0

/-- Member `std::map::at`: throws when the key is missing. -/
def map_at {D : Type} (m : map_t D) (k : descriptor_t) : Except error D :=
  match map_find m k with
  | some d => Except.ok d
  | none => Except.error error.out_of_range

/-- Insertion of a key that is not present, keeping the key order. -/
def map_insert_sorted {D : Type} (k : descriptor_t) (d : D) : map_t D → map_t D
  | [] => [(k, d)]
  | kv :: rest =>
    if descriptor_lt k kv.1 then (k, d) :: kv :: rest
    else kv :: map_insert_sorted k d rest

/-- Member `std::map::insert`: the new map and whether the insertion took
place (it does not when the key is already present). -/
def map_insert {D : Type} (m : map_t D) (k : descriptor_t) (d : D) : map_t D × Bool :=
  if (map_find m k).isSome then (m, false) else (map_insert_sorted k d m, true)

/-- A write through a reference to the value stored under `k`. -/
def map_modify {D : Type} (m : map_t D) (k : descriptor_t) (f : D → D) : map_t D :=
  m.map (fun kv => if kv.1 = k then (kv.1, f kv.2) else kv)

/-- Member `std::vector::at`: throws when the index is out of range. -/
def vector_at {A : Type} (v : List A) (i : Nat) : Except error A :=
  match v[i]? with
  | some a => Except.ok a
  | none => Except.error error.out_of_range

/-! ## The mesh -/

/-- Modelled from the spec: the class `mesh_t` is declared in
`halfedge_mesh.h`, which is not among the sources. Its data members, under
the names the sources use: the four storage maps keyed by descriptor and the
four free lists of removed descriptors. -/
structure mesh_t (R : Type) where
  m_vertices : map_t (vertex_data_t R)
  m_edges : map_t edge_data_t
  m_halfedges : map_t halfedge_data_t
  m_faces : map_t face_data_t
  m_vertices_removed : List vertex_descriptor_t
  m_edges_removed : List edge_descriptor_t
  m_halfedges_removed : List halfedge_descriptor_t
  m_faces_removed : List face_descriptor_t
deriving DecidableEq

/-- The mesh built by the constructor `mesh_t::mesh_t()` (line 30). -/
def mesh_t.empty (R : Type) : mesh_t R :=
  { m_vertices := [], m_edges := [], m_halfedges := [], m_faces := [],
    m_vertices_removed := [], m_edges_removed := [], m_halfedges_removed := [],
    m_faces_removed := [] }

/-- A mutating member function: result and mesh at the point where it
returns or stops. -/
def mesh_op (R : Type) (A : Type) : Type := mesh_t R → Except error A × mesh_t R

def mesh_op.pure {R A : Type} (a : A) : mesh_op R A := fun m => (Except.ok a, m)

def mesh_op.bind {R A B : Type} (x : mesh_op R A) (f : A → mesh_op R B) : mesh_op R B :=
  fun m =>
    match x m with
    | (Except.ok a, m1) => f a m1
    | (Except.error e, m1) => (Except.error e, m1)

instance (R : Type) : Monad (mesh_op R) where
  pure := mesh_op.pure
  bind := mesh_op.bind

/-- Modelled from the spec: the macro `MCUT_ASSERT` is defined in a header
that is not among the sources; "an assertion check that halts execution in
debug configurations and is undefined (skipped) in release configurations".
The embedding is of the configuration in which the check is made. -/
def MCUT_ASSERT (c : Bool) : Except error Unit :=
  if c then Except.ok () else Except.error error.assertion_failed

/-- Evaluation of a `const` member function (or of an assertion) inside a
mutating one: the mesh is left as it is. -/
def mesh_op.eval {R A : Type} (f : mesh_t R → Except error A) : mesh_op R A :=
  fun m => (f m, m)

/-- A change of the data members that cannot fail. -/
def mesh_op.update {R : Type} (f : mesh_t R → mesh_t R) : mesh_op R Unit :=
  fun m => (Except.ok (), f m)

variable {R : Type}

/-- Modelled from the spec: the accessor `number_of_internal_vertices` is
declared in `halfedge_mesh.h`, which is not among the sources; the internal
count is the number of slots of the storage map. -/
def number_of_internal_vertices (m : mesh_t R) : Int := m.m_vertices.length

/-- Modelled from the spec: see `number_of_internal_vertices`. -/
def number_of_internal_edges (m : mesh_t R) : Int := m.m_edges.length

/-- Modelled from the spec: see `number_of_internal_vertices`. -/
def number_of_internal_halfedges (m : mesh_t R) : Int := m.m_halfedges.length

/-- Modelled from the spec: see `number_of_internal_vertices`. -/
def number_of_internal_faces (m : mesh_t R) : Int := m.m_faces.length

/-- Modelled from the spec: the removed count is the length of the list of
removed descriptors (declared in `halfedge_mesh.h`). -/
def number_of_vertices_removed (m : mesh_t R) : Int := m.m_vertices_removed.length

/-- Modelled from the spec: see `number_of_vertices_removed`. -/
def number_of_edges_removed (m : mesh_t R) : Int := m.m_edges_removed.length

/-- Modelled from the spec: see `number_of_vertices_removed`. -/
def number_of_halfedges_removed (m : mesh_t R) : Int := m.m_halfedges_removed.length

/-- Modelled from the spec: see `number_of_vertices_removed`. -/
def number_of_faces_removed (m : mesh_t R) : Int := m.m_faces_removed.length

/-- Source lines 59-62. -/
def number_of_vertices (m : mesh_t R) : Int :=
  number_of_internal_vertices m - number_of_vertices_removed m

/-- Source lines 64-67. -/
def number_of_edges (m : mesh_t R) : Int :=
  number_of_internal_edges m - number_of_edges_removed m

/-- Source lines 69-72. -/
def number_of_halfedges (m : mesh_t R) : Int :=
  number_of_internal_halfedges m - number_of_halfedges_removed m

/-- Source lines 74-77. -/
def number_of_faces (m : mesh_t R) : Int :=
  number_of_internal_faces m - number_of_faces_removed m

/-- The descriptor `static_cast<descriptor>(n)` of a count `n`. -/
def descriptor_of_count (n : Int) : descriptor_t := some n.toNat

/-- Source lines 79-86. -/
def source (m : mesh_t R) (h : halfedge_descriptor_t) : Except error vertex_descriptor_t := do
  MCUT_ASSERT (h != null_halfedge)
  let hd ← map_at m.m_halfedges h
  MCUT_ASSERT (hd.o != null_halfedge)
  let ohd ← map_at m.m_halfedges hd.o
  pure ohd.t

/-- Source lines 88-94. -/
def target (m : mesh_t R) (h : halfedge_descriptor_t) : Except error vertex_descriptor_t := do
  MCUT_ASSERT (h != null_halfedge)
  MCUT_ASSERT (map_count m.m_halfedges h == 1)
  let hd ← map_at m.m_halfedges h
  pure hd.t

/-- Source lines 96-102. -/
def opposite (m : mesh_t R) (h : halfedge_descriptor_t) : Except error halfedge_descriptor_t := do
  MCUT_ASSERT (h != null_halfedge)
  MCUT_ASSERT (map_count m.m_halfedges h == 1)
  let hd ← map_at m.m_halfedges h
  pure hd.o

/-- Source lines 104-110. -/
def prev (m : mesh_t R) (h : halfedge_descriptor_t) : Except error halfedge_descriptor_t := do
  MCUT_ASSERT (h != null_halfedge)
  MCUT_ASSERT (map_count m.m_halfedges h == 1)
  let hd ← map_at m.m_halfedges h
  pure hd.p

/-- Source lines 112-118. -/
def next (m : mesh_t R) (h : halfedge_descriptor_t) : Except error halfedge_descriptor_t := do
  MCUT_ASSERT (h != null_halfedge)
  MCUT_ASSERT (map_count m.m_halfedges h == 1)
  let hd ← map_at m.m_halfedges h
  pure hd.n

/-- Source lines 130-137. -/
def set_previous (h prv : halfedge_descriptor_t) : mesh_op R Unit := do
  mesh_op.eval (fun _ => MCUT_ASSERT (h != null_halfedge))
  mesh_op.eval (fun _ => MCUT_ASSERT (prv != null_halfedge))
  mesh_op.eval (fun m => MCUT_ASSERT (map_count m.m_halfedges h == 1))
  mesh_op.update (fun m =>
    { m with m_halfedges := map_modify m.m_halfedges h (fun hd => { hd with p := prv }) })

/-- Source lines 120-128. -/
def set_next (h nxt : halfedge_descriptor_t) : mesh_op R Unit := do
  mesh_op.eval (fun _ => MCUT_ASSERT (h != null_halfedge))
  mesh_op.eval (fun _ => MCUT_ASSERT (nxt != null_halfedge))
  mesh_op.eval (fun m => MCUT_ASSERT (map_count m.m_halfedges h == 1))
  mesh_op.update (fun m =>
    { m with m_halfedges := map_modify m.m_halfedges h (fun hd => { hd with n := nxt }) })
  set_previous nxt h

/-- Source lines 139-145: the edge of a half-edge. -/
def edge (m : mesh_t R) (h : halfedge_descriptor_t) : Except error edge_descriptor_t := do
  MCUT_ASSERT (h != null_halfedge)
  MCUT_ASSERT (map_count m.m_halfedges h == 1)
  let hd ← map_at m.m_halfedges h
  pure hd.e

/-- Source lines 147-153: the face of a half-edge. -/
def face (m : mesh_t R) (h : halfedge_descriptor_t) : Except error face_descriptor_t := do
  MCUT_ASSERT (h != null_halfedge)
  MCUT_ASSERT (map_count m.m_halfedges h == 1)
  let hd ← map_at m.m_halfedges h
  pure hd.f

/-- Source lines 155-174: the end `v` (0 or 1) of an edge. -/
def vertex (m : mesh_t R) (e : edge_descriptor_t) (v : Int) : Except error vertex_descriptor_t := do
  MCUT_ASSERT (e != null_edge)
  MCUT_ASSERT (v == 0 || v == 1)
  MCUT_ASSERT (map_count m.m_edges e == 1)
  let ed ← map_at m.m_edges e
  let h := ed.h
  MCUT_ASSERT (map_count m.m_halfedges h == 1)
  let hd ← map_at m.m_halfedges h
  if v == 1 then do
    let opp := hd.o
    MCUT_ASSERT (map_count m.m_halfedges opp == 1)
    let ohd ← map_at m.m_halfedges opp
    pure ohd.t
  else
    pure hd.t

/-- Source lines 193-213: half-edge `i` (0 or 1) of an edge. -/
def halfedge_e (m : mesh_t R) (e : edge_descriptor_t) (i : Int) : Except error halfedge_descriptor_t := do
  MCUT_ASSERT (i == 0 || i == 1)
  MCUT_ASSERT (e != null_edge)
  MCUT_ASSERT (map_count m.m_edges e == 1)
  let ed ← map_at m.m_edges e
  let h := ed.h
  MCUT_ASSERT (h != null_halfedge)
  if i == 1 then do
    MCUT_ASSERT (map_count m.m_halfedges h == 1)
    let hd ← map_at m.m_halfedges h
    MCUT_ASSERT (hd.o != null_halfedge)
    pure hd.o
  else
    pure h

/-- Source lines 176-180: border test of a half-edge. -/
def is_border_h (m : mesh_t R) (h : halfedge_descriptor_t) : Except error Bool := do
  MCUT_ASSERT (h != null_halfedge)
  let f ← face m h
  pure (f == null_face)

/-- Source lines 182-191: border test of an edge. -/
def is_border_e (m : mesh_t R) (e : edge_descriptor_t) : Except error Bool := do
  MCUT_ASSERT (e != null_edge)
  let h0 ← halfedge_e m e 0
  MCUT_ASSERT (h0 != null_halfedge)
  let h1 ← halfedge_e m e 1
  MCUT_ASSERT (h1 != null_halfedge)
  let b0 ← is_border_h m h0
  if b0 then pure true else is_border_h m h1

/-- Source lines 226-230: the edges of the half-edges incident to `t`. -/
def halfedge_vv_t_edges (m : mesh_t R) :
    List halfedge_descriptor_t → Except error (List edge_descriptor_t)
  | [] => pure []
  | i :: rest => do
    let e ← edge m i
    MCUT_ASSERT (e != null_edge)
    let es ← halfedge_vv_t_edges m rest
    pure (e :: es)

/-- Source lines 232-253: the loop over the half-edges incident to `s`;
`result` is the value of the variable of that name when the loop reaches the
remaining half-edges. -/
def halfedge_vv_loop (m : mesh_t R) (s t : vertex_descriptor_t) (strict_check : Bool)
    (t_edges : List edge_descriptor_t) :
    List halfedge_descriptor_t → halfedge_descriptor_t → Except error halfedge_descriptor_t
  | [], result => pure result
  | i :: rest, result => do
    let s_edge ← edge m i
    if s_edge ∈ t_edges then do
      let src ← source m i
      let same ← (if src = s then do
                    let tgt ← target m i
                    pure (tgt == t)
                  else pure false)
      if same then
        halfedge_vv_loop m s t strict_check t_edges rest i
      else do
        let src1 ← source m i
        MCUT_ASSERT (src1 == t)
        let tgt1 ← target m i
        MCUT_ASSERT (tgt1 == s)
        let h ← opposite m i
        let fh ← face m h
        if fh != null_face || strict_check then
          pure h
        else
          halfedge_vv_loop m s t strict_check t_edges rest i
    else
      halfedge_vv_loop m s t strict_check t_edges rest result

/-- Source lines 215-254: the half-edge between two vertices. -/
def halfedge_vv (m : mesh_t R) (s t : vertex_descriptor_t) (strict_check : Bool) :
    Except error halfedge_descriptor_t := do
  MCUT_ASSERT (map_count m.m_vertices s == 1)
  let svd ← map_at m.m_vertices s
  MCUT_ASSERT (map_count m.m_vertices t == 1)
  let tvd ← map_at m.m_vertices t
  let t_edges ← halfedge_vv_t_edges m tvd.m_halfedges
  halfedge_vv_loop m s t strict_check t_edges svd.m_halfedges null_halfedge

/-- Source lines 256-260: the edge between two vertices. -/
def edge_vv (m : mesh_t R) (s t : vertex_descriptor_t) (strict_check : Bool) :
    Except error edge_descriptor_t := do
  let h ← halfedge_vv m s t strict_check
  if h = null_halfedge then pure null_edge else edge m h

/-- Source lines 274-299. On the fresh path the slot is inserted and its
position assigned; nothing can stop the function between the two, so the
slot is inserted with the position already in place. -/
def add_vertex (x y z : R) : mesh_op R vertex_descriptor_t := fun m =>
  match m.m_vertices_removed with
  | vd :: rest =>
    let m1 := { m with m_vertices_removed := rest }
    if (map_find m1.m_vertices vd).isNone then (Except.error error.assertion_failed, m1)
    else if vd = null_vertex then (Except.error error.assertion_failed, m1)
    else
      (Except.ok vd,
        { m1 with m_vertices :=
            map_modify m1.m_vertices vd (fun d => { d with p := { x := x, y := y, z := z } }) })
  | [] =>
    let vd := descriptor_of_count (number_of_vertices m)
    match map_insert m.m_vertices vd { p := { x := x, y := y, z := z }, m_halfedges := [] } with
    | (mv, true) => (Except.ok vd, { m with m_vertices := mv })
    | (_, false) => (Except.error error.assertion_failed, m)

/-- Source lines 318-338: the slot of the primary half-edge, the oldest
removed one if there is any. -/
def add_edge_h0 : mesh_op R halfedge_descriptor_t := fun m =>
  match m.m_halfedges_removed with
  | h0_idx :: rest =>
    let m1 := { m with m_halfedges_removed := rest }
    if (map_find m1.m_halfedges h0_idx).isNone then (Except.error error.assertion_failed, m1)
    else (Except.ok h0_idx, m1)
  | [] =>
    let h0_idx := descriptor_of_count (number_of_halfedges m)
    match map_insert m.m_halfedges h0_idx halfedge_data_new with
    | (mh, true) => (Except.ok h0_idx, { m with m_halfedges := mh })
    | (_, false) => (Except.error error.assertion_failed, m)

/-- Source lines 340-360: the slot of the second half-edge, the most
recently removed one if there is any. -/
def add_edge_h1 : mesh_op R halfedge_descriptor_t := fun m =>
  match m.m_halfedges_removed.getLast? with
  | some h1_idx =>
    let m1 := { m with m_halfedges_removed := m.m_halfedges_removed.dropLast }
    if (map_find m1.m_halfedges h1_idx).isNone then (Except.error error.assertion_failed, m1)
    else (Except.ok h1_idx, m1)
  | none =>
    let h1_idx := descriptor_of_count (number_of_halfedges m)
    match map_insert m.m_halfedges h1_idx halfedge_data_new with
    | (mh, true) => (Except.ok h1_idx, { m with m_halfedges := mh })
    | (_, false) => (Except.error error.assertion_failed, m)

/-- Source lines 362-382: the slot of the edge, the oldest removed one if
there is any. -/
def add_edge_e : mesh_op R edge_descriptor_t := fun m =>
  match m.m_edges_removed with
  | e_idx :: rest =>
    let m1 := { m with m_edges_removed := rest }
    if (map_find m1.m_edges e_idx).isNone then (Except.error error.assertion_failed, m1)
    else (Except.ok e_idx, m1)
  | [] =>
    let e_idx := descriptor_of_count (number_of_edges m)
    match map_insert m.m_edges e_idx edge_data_new with
    | (me, true) => (Except.ok e_idx, { m with m_edges := me })
    | (_, false) => (Except.error error.assertion_failed, m)

/-- Source lines 408-410 and 415-417: `h` is appended to the incidence list
of a vertex record unless `std::find` finds it there. -/
def push_incident (h : halfedge_descriptor_t) (d : vertex_data_t R) : vertex_data_t R :=
  if h ∈ d.m_halfedges then d else { d with m_halfedges := d.m_halfedges ++ [h] }

/-- Source lines 406-410 and 413-417: the incidence list of the stored
vertex `v` is updated with `h`. -/
def add_edge_incidence (v : vertex_descriptor_t) (h : halfedge_descriptor_t) : mesh_op R Unit :=
  mesh_op.update (fun m =>
    { m with m_vertices := map_modify m.m_vertices v (push_incident h) })

/-- Source lines 313-420. -/
def add_edge (v0 v1 : vertex_descriptor_t) : mesh_op R halfedge_descriptor_t := do
  mesh_op.eval (fun _ => MCUT_ASSERT (v0 != null_vertex))
  mesh_op.eval (fun _ => MCUT_ASSERT (v1 != null_vertex))
  let h0_idx ← add_edge_h0
  let h1_idx ← add_edge_h1
  let e_idx ← add_edge_e
  mesh_op.update (fun m =>
    { m with m_edges := map_modify m.m_edges e_idx (fun d => { d with h := h0_idx }) })
  mesh_op.update (fun m =>
    { m with m_halfedges :=
        (map_modify m.m_halfedges h0_idx (fun d => { d with t := v1, o := h1_idx, e := e_idx })) })
  mesh_op.update (fun m =>
    { m with m_halfedges :=
        (map_modify m.m_halfedges h1_idx (fun d => { d with t := v0, o := h0_idx, e := e_idx })) })
  mesh_op.eval (fun m => MCUT_ASSERT (map_count m.m_vertices v0 == 1))
  add_edge_incidence v0 h1_idx
  mesh_op.eval (fun m => MCUT_ASSERT (map_count m.m_vertices v1 == 1))
  add_edge_incidence v1 h0_idx
  pure h0_idx

/-- Source lines 427-442: the descriptor of the new face, the oldest removed
one if there is any (its boundary list is cleared), together with the flag
`reusing_removed_face_descr`. -/
def add_face_slot : mesh_op R (face_descriptor_t × Bool) := fun m =>
  match m.m_faces_removed with
  | new_face_idx :: rest =>
    let m1 := { m with m_faces_removed := rest }
    if (map_find m1.m_faces new_face_idx).isNone then (Except.error error.assertion_failed, m1)
    else
      (Except.ok (new_face_idx, true),
        { m1 with m_faces :=
            map_modify m1.m_faces new_face_idx (fun _ => { m_halfedges := [] }) })
  | [] => (Except.ok (descriptor_of_count (number_of_faces m), false), m)

/-- Source lines 467-477: the inner loop of the scan; the half-edge of `v1`
on the edge `v0_e`, if there is one. -/
def add_face_scan_v1 (m : mesh_t R) (v0_e : edge_descriptor_t) :
    List halfedge_descriptor_t → Except error (Option halfedge_descriptor_t)
  | [] => pure none
  | v1_h :: rest => do
    let v1_e ← edge m v1_h
    if v0_e = v1_e then pure (some v1_h) else add_face_scan_v1 m v0_e rest

/-- Source lines 459-482: the scan for an edge shared by a half-edge incident
to `v0` and one incident to `v1`. The result is `some v1_h` when
`connecting_edge_exists` is set, with `v1_h` the value of that variable, and
`none` otherwise. -/
def add_face_scan (m : mesh_t R) (v1_halfedges : List halfedge_descriptor_t) :
    List halfedge_descriptor_t → Except error (Option halfedge_descriptor_t)
  | [] => pure none
  | v0_h :: rest => do
    let v0_e ← edge m v0_h
    let r ← add_face_scan_v1 m v0_e v1_halfedges
    match r with
    | some v1_h => pure (some v1_h)
    | none => add_face_scan m v1_halfedges rest

/-- Source lines 493 and 500: `face_data_ptr->m_halfedges.push_back(h)`. The
pointer refers to the stored face when a removed descriptor is reused and to
the local `new_face_data` otherwise; `fd` is the value it points to. -/
def add_face_push (new_face_idx : face_descriptor_t) (reusing : Bool) (fd : face_data_t)
    (h : halfedge_descriptor_t) : mesh_op R face_data_t := fun m =>
  let fd1 : face_data_t := { m_halfedges := fd.m_halfedges ++ [h] }
  if reusing then
    (Except.ok fd1, { m with m_faces := map_modify m.m_faces new_face_idx (fun _ => fd1) })
  else (Except.ok fd1, m)

/-- Source lines 445-505: the body of the first loop of `add_face`, for the
index `i`. -/
def add_face_step (vi : List vertex_descriptor_t) (new_face_idx : face_descriptor_t)
    (reusing : Bool) (fd : face_data_t) (i : Nat) : mesh_op R face_data_t := do
  let v0 ← mesh_op.eval (fun _ => vector_at vi i)
  mesh_op.eval (fun _ => MCUT_ASSERT (v0 != null_vertex))
  let v1 ← mesh_op.eval (fun _ => vector_at vi ((i + 1) % vi.length))
  mesh_op.eval (fun _ => MCUT_ASSERT (v1 != null_vertex))
  let v0_data ← mesh_op.eval (fun m => map_at m.m_vertices v0)
  let v1_data ← mesh_op.eval (fun m => map_at m.m_vertices v1)
  let found ← mesh_op.eval (fun m => add_face_scan m v1_data.m_halfedges v0_data.m_halfedges)
  match found with
  | some v1_h => do
    mesh_op.eval (fun m => MCUT_ASSERT (map_count m.m_halfedges v1_h == 1))
    let _ ← mesh_op.eval (fun m => map_at m.m_halfedges v1_h)
    let fd1 ← add_face_push new_face_idx reusing fd v1_h
    let hd ← mesh_op.eval (fun m => map_at m.m_halfedges v1_h)
    mesh_op.eval (fun _ => MCUT_ASSERT (hd.f == null_face))
    mesh_op.update (fun m =>
      { m with m_halfedges := map_modify m.m_halfedges v1_h (fun d => { d with f := new_face_idx }) })
    pure fd1
  | none => do
    let h ← add_edge v0 v1
    mesh_op.eval (fun m => MCUT_ASSERT (map_count m.m_halfedges h == 1))
    let _ ← mesh_op.eval (fun m => map_at m.m_halfedges h)
    let fd1 ← add_face_push new_face_idx reusing fd h
    let hd ← mesh_op.eval (fun m => map_at m.m_halfedges h)
    mesh_op.eval (fun _ => MCUT_ASSERT (hd.f == null_face))
    mesh_op.update (fun m =>
      { m with m_halfedges := map_modify m.m_halfedges h (fun d => { d with f := new_face_idx }) })
    pure fd1

/-- Source lines 444-506: the first loop of `add_face` over the indices
`is`. -/
def add_face_loop (vi : List vertex_descriptor_t) (new_face_idx : face_descriptor_t)
    (reusing : Bool) : List Nat → face_data_t → mesh_op R face_data_t
  | [], fd => pure fd
  | i :: rest, fd => do
    let fd1 ← add_face_step vi new_face_idx reusing fd i
    add_face_loop vi new_face_idx reusing rest fd1

/-- Source lines 508-511: the new face is stored unless a removed descriptor
was reused. -/
def add_face_store (new_face_idx : face_descriptor_t) (reusing : Bool) (fd : face_data_t) :
    mesh_op R Unit := fun m =>
  if reusing then (Except.ok (), m)
  else if map_count m.m_faces new_face_idx != 0 then (Except.error error.assertion_failed, m)
  else (Except.ok (), { m with m_faces := (map_insert m.m_faces new_face_idx fd).1 })

/-- Source lines 517-521: the second loop of `add_face` over the indices
`is`, linking each boundary half-edge to the next one. -/
def add_face_link (hs : List halfedge_descriptor_t) : List Nat → mesh_op R Unit
  | [] => pure ()
  | i :: rest => do
    let h ← mesh_op.eval (fun _ => vector_at hs i)
    let nh ← mesh_op.eval (fun _ => vector_at hs ((i + 1) % hs.length))
    set_next h nh
    add_face_link hs rest

/-- Source lines 422-524. -/
def add_face (vi : List vertex_descriptor_t) : mesh_op R face_descriptor_t := do
  mesh_op.eval (fun _ => MCUT_ASSERT (decide (3 ≤ vi.length)))
  let slot ← add_face_slot
  let new_face_idx := slot.1
  let reusing := slot.2
  let fd ← add_face_loop vi new_face_idx reusing (List.range vi.length) face_data_new
  add_face_store new_face_idx reusing fd
  add_face_link fd.m_halfedges (List.range fd.m_halfedges.length)
  pure new_face_idx

/-- Source lines 550-555. -/
def get_halfedges_around_face (m : mesh_t R) (f : face_descriptor_t) :
    Except error (List halfedge_descriptor_t) := do
  MCUT_ASSERT (f != null_face)
  MCUT_ASSERT (map_count m.m_faces f == 1)
  let fd ← map_at m.m_faces f
  pure fd.m_halfedges

/-- Source lines 541-546: the loop of `get_vertices_around_face`. -/
def get_vertices_around_face_loop (m : mesh_t R) :
    List halfedge_descriptor_t → Except error (List vertex_descriptor_t)
  | [] => pure []
  | h :: rest => do
    MCUT_ASSERT (map_count m.m_halfedges h == 1)
    let hd ← map_at m.m_halfedges h
    let vs ← get_vertices_around_face_loop m rest
    pure (hd.t :: vs)

/-- Source lines 534-548. -/
def get_vertices_around_face (m : mesh_t R) (f : face_descriptor_t) :
    Except error (List vertex_descriptor_t) := do
  MCUT_ASSERT (f != null_face)
  let halfedges_on_face ← get_halfedges_around_face m f
  get_vertices_around_face_loop m halfedges_on_face

/-- Source lines 582-589. -/
def get_halfedges_around_vertex (m : mesh_t R) (v : vertex_descriptor_t) :
    Except error (List halfedge_descriptor_t) := do
  MCUT_ASSERT (v != null_vertex)
  MCUT_ASSERT (map_count m.m_vertices v == 1)
  let vd ← map_at m.m_vertices v
  pure vd.m_halfedges

/-- Modelled from the spec: `remove_halfedge` is declared in
`halfedge_mesh.h`, which is not among the sources; "a removed element's
descriptor is pushed onto a per-category free list". -/
def remove_halfedge (h : halfedge_descriptor_t) : mesh_op R Unit :=
  mesh_op.update (fun m => { m with m_halfedges_removed := m.m_halfedges_removed ++ [h] })

/-- Modelled from the spec: see `remove_halfedge`. -/
def remove_edge (e : edge_descriptor_t) : mesh_op R Unit :=
  mesh_op.update (fun m => { m with m_edges_removed := m.m_edges_removed ++ [e] })

/-- Modelled from the spec: see `remove_halfedge`. -/
def remove_face (f : face_descriptor_t) : mesh_op R Unit :=
  mesh_op.update (fun m => { m with m_faces_removed := m.m_faces_removed ++ [f] })

/-! ## Meshes reached by creation calls, and their invariants -/

/-- Meshes reached from the empty mesh by calls of `add_vertex`, `add_edge`
and `add_face` that return. -/
inductive Reachable : mesh_t R → Prop where
  | empty : Reachable (mesh_t.empty R)
  | vertex (m m1 : mesh_t R) (x y z : R) (v : vertex_descriptor_t) :
      Reachable m → add_vertex x y z m = (Except.ok v, m1) → Reachable m1
  | edge (m m1 : mesh_t R) (v0 v1 : vertex_descriptor_t) (h : halfedge_descriptor_t) :
      Reachable m → add_edge v0 v1 m = (Except.ok h, m1) → Reachable m1
  | face (m m1 : mesh_t R) (vi : List vertex_descriptor_t) (f : face_descriptor_t) :
      Reachable m → add_face vi m = (Except.ok f, m1) → Reachable m1

/-- Meshes built from the empty mesh by calls of `add_vertex` and of
`add_face` on pairwise distinct vertices that return. -/
inductive Built : mesh_t R → Prop where
  | empty : Built (mesh_t.empty R)
  | vertex (m m1 : mesh_t R) (x y z : R) (v : vertex_descriptor_t) :
      Built m → add_vertex x y z m = (Except.ok v, m1) → Built m1
  | face (m m1 : mesh_t R) (vi : List vertex_descriptor_t) (f : face_descriptor_t) :
      Built m → vi.Nodup → add_face vi m = (Except.ok f, m1) → Built m1

/-- The keys of a storage map are the descriptors `0 .. size - 1`. -/
def dense {D : Type} (mp : map_t D) : Prop :=
  ∀ k : descriptor_t, (map_find mp k).isSome ↔ ∃ n : Nat, k = some n ∧ n < mp.length

/-- Invariant of the vertices, edges and half-edges: nothing is removed, the
keys are dense, the half-edges of an edge are mutual opposites, and the
incidence list of a vertex holds the half-edges that point to it. -/
structure edges_ok (m : mesh_t R) : Prop where
  vr : m.m_vertices_removed = []
  er : m.m_edges_removed = []
  hr : m.m_halfedges_removed = []
  dv : dense m.m_vertices
  de : dense m.m_edges
  dh : dense m.m_halfedges
  hprop : ∀ h hd, map_find m.m_halfedges h = some hd →
    hd.o ≠ h ∧
    (∃ od, map_find m.m_halfedges hd.o = some od ∧ od.o = h ∧ od.e = hd.e) ∧
    (map_find m.m_vertices hd.t).isSome ∧
    (∃ ed, map_find m.m_edges hd.e = some ed ∧ (ed.h = h ∨ ed.h = hd.o))
  eprop : ∀ e ed, map_find m.m_edges e = some ed →
    ∃ hd, map_find m.m_halfedges ed.h = some hd ∧ hd.e = e
  vprop : ∀ v vd, map_find m.m_vertices v = some vd →
    vd.m_halfedges.Nodup ∧
    ∀ h, h ∈ vd.m_halfedges ↔ ∃ hd, map_find m.m_halfedges h = some hd ∧ hd.t = v

/-- The boundary list `hs` is linked: `next` leads from each member to the
one after it, cyclically, and `prev` leads back. -/
def linked_at (m : mesh_t R) (hs : List halfedge_descriptor_t) (i : Nat) : Prop :=
  ∀ (h h1 : halfedge_descriptor_t), hs[i]? = some h → hs[(i + 1) % hs.length]? = some h1 →
    ∃ hd nd, map_find m.m_halfedges h = some hd ∧ hd.n = h1 ∧
      map_find m.m_halfedges h1 = some nd ∧ nd.p = h

/-- The boundary list `hs` of the face `f` is a cycle of `next` whose members
are distinct and report the face `f`, with `prev` the inverse of `next`
along it. -/
def face_cycle (m : mesh_t R) (f : face_descriptor_t) (hs : List halfedge_descriptor_t) : Prop :=
  hs.Nodup ∧
  (∀ h, h ∈ hs → ∃ hd, map_find m.m_halfedges h = some hd ∧ hd.f = f) ∧
  ∀ i : Nat, linked_at m hs i

/-- Invariant of the faces: nothing is removed, the keys are dense, every
stored boundary is a cycle, and a half-edge bound to a face is on the
boundary of that face. -/
structure faces_ok (m : mesh_t R) : Prop where
  fr : m.m_faces_removed = []
  df : dense m.m_faces
  cyc : ∀ f fd, map_find m.m_faces f = some fd → face_cycle m f fd.m_halfedges
  bound : ∀ h hd, map_find m.m_halfedges h = some hd → hd.f ≠ null_face →
    ∃ fd, map_find m.m_faces hd.f = some fd ∧ h ∈ fd.m_halfedges

/-- Invariant of the faces while the first loop of `add_face` runs: `fnew` is
the descriptor of the face under construction and `hs` the boundary
collected so far. -/
structure faces_mid (m : mesh_t R) (fnew : face_descriptor_t)
    (hs : List halfedge_descriptor_t) : Prop where
  fr : m.m_faces_removed = []
  df : dense m.m_faces
  fnew_eq : fnew = some m.m_faces.length
  cyc : ∀ f fd, map_find m.m_faces f = some fd → face_cycle m f fd.m_halfedges
  bound : ∀ h hd, map_find m.m_halfedges h = some hd → hd.f ≠ null_face →
    (∃ fd, map_find m.m_faces hd.f = some fd ∧ h ∈ fd.m_halfedges) ∨ (hd.f = fnew ∧ h ∈ hs)
  mine : ∀ h, h ∈ hs → ∃ hd, map_find m.m_halfedges h = some hd ∧ hd.f = fnew
  nodup : hs.Nodup

/-- The part of a half-edge record that `add_edge` writes. -/
def halfedge_core (hd : halfedge_data_t) :
    halfedge_descriptor_t × vertex_descriptor_t × edge_descriptor_t :=
  (hd.o, hd.t, hd.e)

/-- The meshes `m` and `m1` differ at most in the face, next and previous
members of their half-edges and in their faces. -/
structure same_edges (m m1 : mesh_t R) : Prop where
  v : m1.m_vertices = m.m_vertices
  e : m1.m_edges = m.m_edges
  vr : m1.m_vertices_removed = m.m_vertices_removed
  er : m1.m_edges_removed = m.m_edges_removed
  hr : m1.m_halfedges_removed = m.m_halfedges_removed
  len : m1.m_halfedges.length = m.m_halfedges.length
  core : ∀ h, (map_find m1.m_halfedges h).map halfedge_core =
    (map_find m.m_halfedges h).map halfedge_core

/-- There is a half-edge `h` from `a` to `b`: its target is `b` and the
target of its opposite is `a`. -/
def halfedge_from_to (m : mesh_t R) (h : halfedge_descriptor_t) (a b : vertex_descriptor_t) : Prop :=
  ∃ hd od, map_find m.m_halfedges h = some hd ∧ hd.t = b ∧
    map_find m.m_halfedges hd.o = some od ∧ od.t = a

/-- Some edge connects `a` and `b`. -/
def connected (m : mesh_t R) (a b : vertex_descriptor_t) : Prop :=
  ∃ h, halfedge_from_to m h a b

/-- What a call `add_edge(v0, v1)` that returns `h` does to a mesh `m`
without removed elements, `m1` being the mesh after the call. -/
structure add_edge_post (m m1 : mesh_t R) (v0 v1 : vertex_descriptor_t)
    (h : halfedge_descriptor_t) : Prop where
  v0_some : v0 ≠ null_vertex
  v1_some : v1 ≠ null_vertex
  v0_in : (map_find m.m_vertices v0).isSome
  v1_in : (map_find m.m_vertices v1).isSome
  ret : h = some m.m_halfedges.length
  he : ∀ k, map_find m1.m_halfedges k =
    if k = some (m.m_halfedges.length + 1) then
      some { o := some m.m_halfedges.length, n := null_halfedge, p := null_halfedge, t := v0,
             e := some m.m_edges.length, f := null_face }
    else if k = some m.m_halfedges.length then
      some { o := some (m.m_halfedges.length + 1), n := null_halfedge, p := null_halfedge, t := v1,
             e := some m.m_edges.length, f := null_face }
    else map_find m.m_halfedges k
  ed : ∀ k, map_find m1.m_edges k =
    if k = some m.m_edges.length then some { h := some m.m_halfedges.length }
    else map_find m.m_edges k
  ve : ∀ k, map_find m1.m_vertices k =
    if k = v1 then
      (if v1 = v0 then (map_find m.m_vertices v0).map (push_incident (some (m.m_halfedges.length + 1)))
        else map_find m.m_vertices v1).map (push_incident (some m.m_halfedges.length))
    else if k = v0 then
      (map_find m.m_vertices v0).map (push_incident (some (m.m_halfedges.length + 1)))
    else map_find m.m_vertices k
  hlen : m1.m_halfedges.length = m.m_halfedges.length + 2
  elen : m1.m_edges.length = m.m_edges.length + 1
  vlen : m1.m_vertices.length = m.m_vertices.length
  faces : m1.m_faces = m.m_faces
  vr : m1.m_vertices_removed = m.m_vertices_removed
  er : m1.m_edges_removed = m.m_edges_removed
  hr : m1.m_halfedges_removed = m.m_halfedges_removed
  fr : m1.m_faces_removed = m.m_faces_removed

/-- The mesh `m` with the half-edge `h` bound to the face `f` (source line
505). -/
def bind_face (m : mesh_t R) (h : halfedge_descriptor_t) (f : face_descriptor_t) : mesh_t R :=
  { m with m_halfedges := map_modify m.m_halfedges h (fun d => { d with f := f }) }

/-- The mesh `m` with `nxt` linked after `h` (what `set_next(h, nxt)` does
when it returns). -/
def link_next (m : mesh_t R) (h nxt : halfedge_descriptor_t) : mesh_t R :=
  { m with m_halfedges :=
      (map_modify (map_modify m.m_halfedges h (fun d => { d with n := nxt })) nxt
        (fun d => { d with p := h })) }

/-- Invariant of the faces while the second loop of `add_face` runs: the new
face `fnew` is stored with the boundary `hs`, of which the first `k` members
are linked to their successors. -/
structure faces_link (m : mesh_t R) (fnew : face_descriptor_t)
    (hs : List halfedge_descriptor_t) (k : Nat) : Prop where
  fr : m.m_faces_removed = []
  df : dense m.m_faces
  stored : map_find m.m_faces fnew = some { m_halfedges := hs }
  cyc : ∀ f fd, map_find m.m_faces f = some fd → f ≠ fnew → face_cycle m f fd.m_halfedges
  bound : ∀ h hd, map_find m.m_halfedges h = some hd → hd.f ≠ null_face →
    ∃ fd, map_find m.m_faces hd.f = some fd ∧ h ∈ fd.m_halfedges
  mine : ∀ h, h ∈ hs → ∃ hd, map_find m.m_halfedges h = some hd ∧ hd.f = fnew
  nodup : hs.Nodup
  linked : ∀ i, i < k → linked_at m hs i

/-- The mesh `m1` differs from `m` at most in the next and previous members
of the half-edges of `hs`. -/
structure relinked (m m1 : mesh_t R) (hs : List halfedge_descriptor_t) : Prop where
  same : same_edges m m1
  faces : m1.m_faces = m.m_faces
  fr : m1.m_faces_removed = m.m_faces_removed
  face : ∀ k, (map_find m1.m_halfedges k).map (fun d => d.f) =
    (map_find m.m_halfedges k).map (fun d => d.f)
  other : ∀ k, k ∉ hs → map_find m1.m_halfedges k = map_find m.m_halfedges k

/-- The mesh `m` with the face `f` stored with the boundary `fd` (source
line 510). -/
def store_face (m : mesh_t R) (f : face_descriptor_t) (fd : face_data_t) : mesh_t R :=
  { m with m_faces := map_insert_sorted f fd m.m_faces }

/-- The half-edge reached from `h` by `k` applications of `next`. -/
def next_iter (m : mesh_t R) : Nat → halfedge_descriptor_t → Except error halfedge_descriptor_t
  | 0, h => Except.ok h
  | k + 1, h => do
    let g ← next_iter m k h
    next m g

/-- The mesh after a mutating member function has run. -/
def mesh_after {A : Type} (op : mesh_op R A) (m : mesh_t R) : mesh_t R := (op m).2

/-- One vertex. -/
def mesh_one_vertex : mesh_t Int := mesh_after (add_vertex 0 0 0) (mesh_t.empty Int)

/-- Two vertices. -/
def mesh_two_vertices : mesh_t Int := mesh_after (add_vertex 1 0 0) mesh_one_vertex

/-- Two vertices joined by `add_edge`. -/
def mesh_one_edge : mesh_t Int :=
  mesh_after (add_edge (some 0) (some 1)) mesh_two_vertices

/-- Three vertices. -/
def mesh_three_vertices : mesh_t Int :=
  mesh_after (add_vertex 0 1 0) mesh_two_vertices

/-- One triangle on three vertices. -/
def mesh_triangle : mesh_t Int :=
  mesh_after (add_face [some 0, some 1, some 2]) mesh_three_vertices

/-- A creation call of the construction surface. -/
inductive call (R : Type) where
  | vertex (x y z : R) : call R
  | face (vi : List vertex_descriptor_t) : call R

/-- The mesh after a sequence of creation calls, when every call returns and
every face is given pairwise distinct vertices. -/
def run_calls : mesh_t R → List (call R) → Option (mesh_t R)
  | m, [] => some m
  | m, call.vertex x y z :: rest =>
    match add_vertex x y z m with
    | (Except.ok _, m1) => run_calls m1 rest
    | (Except.error _, _) => none
  | m, call.face vi :: rest =>
    if vi.Nodup then
      match add_face vi m with
      | (Except.ok _, m1) => run_calls m1 rest
      | (Except.error _, _) => none
    else none

/-- The quad on four vertices. -/
def quad (a b c d : Nat) : List vertex_descriptor_t := [some a, some b, some c, some d]

/-- The construction of a cube: 8 vertices, then 6 quads oriented
consistently (each seen counter-clockwise from outside). -/
def cube_calls : List (call Int) :=
  [call.vertex 0 0 0, call.vertex 1 0 0, call.vertex 1 1 0, call.vertex 0 1 0,
   call.vertex 0 0 1, call.vertex 1 0 1, call.vertex 1 1 1, call.vertex 0 1 1,
   call.face (quad 0 3 2 1), call.face (quad 4 5 6 7), call.face (quad 0 1 5 4),
   call.face (quad 1 2 6 5), call.face (quad 2 3 7 6), call.face (quad 3 0 4 7)]

/-- The cube. -/
def mesh_cube : mesh_t Int := (run_calls (mesh_t.empty Int) cube_calls).getD (mesh_t.empty Int)

/-- The triangle with its face 0, its edge 0 and the half-edges 0 and 1 of
that edge removed. -/
def mesh_triangle_edge_removed : mesh_t Int :=
  mesh_after (remove_edge (some 0)) (mesh_after (remove_halfedge (some 1))
    (mesh_after (remove_halfedge (some 0)) (mesh_after (remove_face (some 0)) mesh_triangle)))

/-- The edge `e` joins the vertices `s` and `t`: they are its two ends, in
either order. -/
def edge_joins (m : mesh_t R) (e : edge_descriptor_t) (s t : vertex_descriptor_t) : Prop :=
  (vertex m e 0 = Except.ok s ∧ vertex m e 1 = Except.ok t) ∨
  (vertex m e 0 = Except.ok t ∧ vertex m e 1 = Except.ok s)

/-- No two half-edges lead from the same vertex to the same vertex, and no
half-edge leads from a vertex to itself. -/
def simple (m : mesh_t R) : Prop :=
  (∀ h h1 a b, halfedge_from_to m h a b → halfedge_from_to m h1 a b → h = h1) ∧
  ∀ h a, ¬ halfedge_from_to m h a a

/-- The vertices `a`, `b` are the ends, in either order, of the pair of
index `j` of the vertex list `vi`. -/
def is_side (vi : List vertex_descriptor_t) (j : Nat) (a b : vertex_descriptor_t) : Prop :=
  ∃ v0 v1, vi[j]? = some v0 ∧ vi[(j + 1) % vi.length]? = some v1 ∧
    ((a = v0 ∧ b = v1) ∨ (a = v1 ∧ b = v0))

/-- The pair of index `j` of the vertex list `vi` is not connected in `m`. -/
def side_is_new (m : mesh_t R) (vi : List vertex_descriptor_t) (j : Nat) : Prop :=
  ∃ v0 v1, vi[j]? = some v0 ∧ vi[(j + 1) % vi.length]? = some v1 ∧ ¬ connected m v0 v1

/-- Invariant of the first loop of `add_face(vi)` started on the mesh `m`:
after `k` rounds the mesh is `mx` and the boundary collected is that of
`fx`. -/
structure face_loop (m : mesh_t R) (vi : List vertex_descriptor_t) (fnew : face_descriptor_t)
    (k : Nat) (mx : mesh_t R) (fx : face_data_t) : Prop where
  ok : edges_ok mx
  mid : faces_mid mx fnew fx.m_halfedges
  len : fx.m_halfedges.length = k
  old : ∀ h hd, map_find m.m_halfedges h = some hd →
    ∃ hd1, map_find mx.m_halfedges h = some hd1 ∧ halfedge_core hd1 = halfedge_core hd ∧
      (hd.f ≠ null_face → hd1 = hd)
  hlen : m.m_halfedges.length ≤ mx.m_halfedges.length
  verts : mx.m_vertices.length = m.m_vertices.length
  pos : ∀ v, (map_find mx.m_vertices v).map (fun d => d.p) =
    (map_find m.m_vertices v).map (fun d => d.p)
  sides : ∀ j h, fx.m_halfedges[j]? = some h →
    ∃ v0 v1, vi[j]? = some v0 ∧ vi[(j + 1) % vi.length]? = some v1 ∧
      halfedge_from_to mx h v0 v1 ∧
      (halfedge_from_to m h v0 v1 ∨ (map_find m.m_halfedges h = none ∧ ¬ connected m v0 v1))
  news : ∃ l : List Nat, l.Nodup ∧ (∀ j, j ∈ l ↔ (j < k ∧ side_is_new m vi j)) ∧
    mx.m_edges.length = m.m_edges.length + l.length
  origin : ∀ h a b, halfedge_from_to mx h a b →
    halfedge_from_to m h a b ∨
      (map_find m.m_halfedges h = none ∧ ∃ j, j < k ∧ is_side vi j a b)
  keep : ∀ h a b, halfedge_from_to m h a b → halfedge_from_to mx h a b

/-- One triangle and a fourth vertex. -/
def mesh_triangle_and_vertex : mesh_t Int := mesh_after (add_vertex 1 1 0) mesh_triangle

/-- Two triangles that share the edge between the vertices 0 and 2. -/
def mesh_two_triangles : mesh_t Int :=
  mesh_after (add_face [some 0, some 2, some 3]) mesh_triangle_and_vertex

/-! ## Creation calls on a mesh with removed elements -/

/-- Source lines 526-532: the position of a vertex (the overload of
`vertex` that takes a vertex descriptor). -/
def vertex_p (m : mesh_t R) (vd : vertex_descriptor_t) : Except error (vec3 R) := do
  MCUT_ASSERT (vd != null_vertex)
  MCUT_ASSERT (map_count m.m_vertices vd == 1)
  let vdata ← map_at m.m_vertices vd
  pure vdata.p

/-- Modelled from the spec: `remove_vertex` is declared in
`halfedge_mesh.h`, which is not among the sources; "a removed element's
descriptor is pushed onto a per-category free list". -/
def remove_vertex (v : vertex_descriptor_t) : mesh_op R Unit :=
  mesh_op.update (fun m => { m with m_vertices_removed := m.m_vertices_removed ++ [v] })

/-- Every edge has two half-edge slots: the count invariant of a mesh
without removed elements. -/
def pairs_count (m : mesh_t R) : Prop := m.m_halfedges.length = 2 * m.m_edges.length

/-- Source lines 387-417: the writes of `add_edge` once the slots `h0_idx`,
`h1_idx` and `e_idx` are chosen. -/
def add_edge_write (m : mesh_t R) (v0 v1 : vertex_descriptor_t)
    (h0_idx h1_idx : halfedge_descriptor_t) (e_idx : edge_descriptor_t) : mesh_t R :=
  { m with
    m_edges := map_modify m.m_edges e_idx (fun d => { d with h := h0_idx }),
    m_halfedges :=
      (map_modify
        (map_modify m.m_halfedges h0_idx (fun d => { d with t := v1, o := h1_idx, e := e_idx }))
        h1_idx (fun d => { d with t := v0, o := h0_idx, e := e_idx })),
    m_vertices :=
      (map_modify (map_modify m.m_vertices v0 (push_incident h1_idx)) v1
        (push_incident h0_idx)) }

/-- Source lines 493 and 500: the mesh after `push_back` through
`face_data_ptr`, which writes to the stored face only when a removed
descriptor is reused. -/
def face_push (m : mesh_t R) (new_face_idx : face_descriptor_t) (reusing : Bool)
    (fd1 : face_data_t) : mesh_t R :=
  if reusing then { m with m_faces := map_modify m.m_faces new_face_idx (fun _ => fd1) } else m

/-- The descriptor `k` is stored and not on the list of removed
descriptors. -/
def live {D : Type} (mp : map_t D) (removed : List descriptor_t) (k : descriptor_t) : Prop :=
  (map_find mp k).isSome ∧ k ∉ removed

/-- What a creation call that turns `m` into `m1` keeps: the position of
every vertex; the target, opposite and edge of every live half-edge; the
primary half-edge of every live edge; and the face, next and previous
half-edge of every half-edge bound to a face. Live elements stay live. -/
structure kept (m m1 : mesh_t R) : Prop where
  pos : ∀ v, (map_find m1.m_vertices v).map (fun d => d.p) =
    (map_find m.m_vertices v).map (fun d => d.p)
  halfedges : ∀ h hd, map_find m.m_halfedges h = some hd → h ∉ m.m_halfedges_removed →
    h ∉ m1.m_halfedges_removed ∧
    ∃ hd1, map_find m1.m_halfedges h = some hd1 ∧ halfedge_core hd1 = halfedge_core hd
  edges : ∀ e ed, map_find m.m_edges e = some ed → e ∉ m.m_edges_removed →
    e ∉ m1.m_edges_removed ∧ map_find m1.m_edges e = some ed
  bound : ∀ h hd, map_find m.m_halfedges h = some hd → hd.f ≠ null_face →
    ∃ hd1, map_find m1.m_halfedges h = some hd1 ∧ hd1.f = hd.f ∧ hd1.n = hd.n ∧ hd1.p = hd.p

/-- The half-edge `h` is not live in `m`: it is not stored, or it is on the
list of removed half-edges. -/
def free_halfedge (m : mesh_t R) (h : halfedge_descriptor_t) : Prop :=
  (map_find m.m_halfedges h).isSome → h ∈ m.m_halfedges_removed

/-- The edge `e` is not live in `m`. -/
def free_edge (m : mesh_t R) (e : edge_descriptor_t) : Prop :=
  (map_find m.m_edges e).isSome → e ∈ m.m_edges_removed

/-- What the choice of a half-edge slot `h` does to the mesh (source lines
318-338 and 340-360): `h` was not live, it is stored afterwards, the other
half-edge slots are as before, nothing is added to the list of removed
half-edges, and nothing else changes. -/
structure halfedge_slot (m ma : mesh_t R) (h : halfedge_descriptor_t) : Prop where
  v : ma.m_vertices = m.m_vertices
  e : ma.m_edges = m.m_edges
  f : ma.m_faces = m.m_faces
  vr : ma.m_vertices_removed = m.m_vertices_removed
  er : ma.m_edges_removed = m.m_edges_removed
  fr : ma.m_faces_removed = m.m_faces_removed
  free : free_halfedge m h
  stored : (map_find ma.m_halfedges h).isSome
  old : ∀ k, k ≠ h → map_find ma.m_halfedges k = map_find m.m_halfedges k
  own : ∀ hd, map_find m.m_halfedges h = some hd → map_find ma.m_halfedges h = some hd
  removed : ∀ k, k ∈ ma.m_halfedges_removed → k ∈ m.m_halfedges_removed

/-- What the choice of the edge slot `e` does to the mesh (source lines
362-382). -/
structure edge_slot (m ma : mesh_t R) (e : edge_descriptor_t) : Prop where
  v : ma.m_vertices = m.m_vertices
  h : ma.m_halfedges = m.m_halfedges
  f : ma.m_faces = m.m_faces
  vr : ma.m_vertices_removed = m.m_vertices_removed
  hr : ma.m_halfedges_removed = m.m_halfedges_removed
  fr : ma.m_faces_removed = m.m_faces_removed
  free : free_edge m e
  stored : (map_find ma.m_edges e).isSome
  old : ∀ k, k ≠ e → map_find ma.m_edges k = map_find m.m_edges k
  removed : ∀ k, k ∈ ma.m_edges_removed → k ∈ m.m_edges_removed

/-- The faces other than `fnew` are stored in `m1` as they are in `m`. -/
def faces_kept (fnew : face_descriptor_t) (m m1 : mesh_t R) : Prop :=
  ∀ f, f ≠ fnew → map_find m1.m_faces f = map_find m.m_faces f

/-- The triangle with its face and its edges 0 and 2 removed, half-edges
first: the half-edges 0 and 1 of the edge 0, then the half-edges 4 and 5 of
the edge 2. -/
def mesh_triangle_two_edges_removed : mesh_t Int :=
  mesh_after (remove_edge (some 2)) (mesh_after (remove_halfedge (some 5))
    (mesh_after (remove_halfedge (some 4)) mesh_triangle_edge_removed))

/-- Two vertices, the first of which was removed. -/
def mesh_vertex_removed : mesh_t Int := mesh_after (remove_vertex (some 0)) mesh_two_vertices

/-- The triangle with its face removed. -/
def mesh_triangle_face_removed : mesh_t Int := mesh_after (remove_face (some 0)) mesh_triangle

/-! ## Implicit bounding volume hierarchy: embedding of `src/source/bvh.cpp`

Conventions of the embedding.

* A value of type `int` is an integer and a value of type `unsigned int` a
  natural number below `2 ^ 32`; the conversion of an `int` to `unsigned int`
  is the residue modulo `2 ^ 32`. The arithmetic on `int` is that of the
  integers: it agrees with the machine as long as no operation overflows.
* A shift `1 << n` is defined when `0 <= n <= 30`; a function that evaluates
  one returns an `Option`, `none` standing for a shift that is not defined.
* The three places that project an implicit index to a shallower level
  evaluate `(1.0f / (1 << d)) + ((float)i / (1 << d)) - 1` in floating point
  and convert the result to `int`, which discards the fractional part. A
  `float` is an IEEE 754 binary32 number, a rational with 24 significant
  bits; every conversion and every operation gives the binary32 number
  nearest to the exact result, the one with the even last bit when two are
  equally near (`round_binary32`, `project_binary32`).
  `get_level_rightmost_real_node` and
  `is_real_implicit_tree_node_id_binary32` evaluate the expression this way.
  `is_real_implicit_tree_node_id` and `get_node_ancestor` evaluate it
  exactly, over the rationals: the statements about them are about "the
  projection evaluated exactly". The two evaluations agree as long as the
  index `i` is below `2 ^ 24 - 1`.
-/

/-- The leading zero bits of `x` among its `n` low-order bits, counted from
bit `n - 1` down, for `x < 2 ^ n`. -/
def clz_aux : Nat → Nat → Nat
  | 0, _ => 0
  | n + 1, x => if 2 ^ n ≤ x then 0 else 1 + clz_aux n x

/-- Source lines 30-38, "count leading zeros in 32 bit bitfield". Modelled
from the spec: the body is the compiler intrinsic `__builtin_clz`, which is
not among the sources; it is the number of leading zero bits of a 32-bit
value. For `x = 0` the intrinsic is not defined; the value 32 here is what
the branch for the other compiler (lines 10-20) returns. -/
def clz (x : Nat) : Nat := clz_aux 32 (x % 2 ^ 32)

/-- The conversion of an `int` to `unsigned int`. -/
def to_unsigned (x : Int) : Nat := (x % 2 ^ 32).toNat

/-- Source lines 41-51. -/
def next_power_of_two (x : Int) : Int :=
  let x := x - 1
  let x := Int.lor x (x >>> 1)
  let x := Int.lor x (x >>> 2)
  let x := Int.lor x (x >>> 4)
  let x := Int.lor x (x >>> 8)
  let x := Int.lor x (x >>> 16)
  x + 1

/-- Source lines 60-63; `sizeof(unsigned int) * CHAR_BIT` is 32. -/
def ilog2 (x : Nat) : Int := 32 - (clz x : Int) - 1

/-- Source lines 66-71. -/
def get_leaf_level_from_real_leaf_count (t : Int) : Int :=
  let np2 := next_power_of_two t
  let tLeafLev := ilog2 (to_unsigned np2)
  tLeafLev

/-- Source lines 74-77. -/
def get_level_from_implicit_idx (bvhNodeImplicitIndex : Int) : Int :=
  ilog2 (to_unsigned (bvhNodeImplicitIndex + 1))

/-- The one bits among the `n` low-order bits of `x`. -/
def popcount_aux : Nat → Nat → Nat
  | 0, _ => 0
  | n + 1, x => x % 2 + popcount_aux n (x / 2)

/-- Modelled from the spec: the compiler intrinsic `__builtin_popcount`,
which is not among the sources; the number of one bits of a 32-bit value. -/
def popcount (x : Nat) : Nat := popcount_aux 32 (x % 2 ^ 32)

/-- Source lines 91-94. -/
def get_ostensibly_implicit_bvh_size (t : Int) : Int :=
  2 * t - 1 + (popcount (to_unsigned (next_power_of_two t - t)) : Int)

/-- The expression `1 << n` on `int`: defined when `0 <= n <= 30`. -/
def shift_left_one (n : Int) : Option Int :=
  if 0 ≤ n ∧ n ≤ 30 then some (2 ^ n.toNat) else none

/-- Source lines 97-100. -/
def get_level_leftmost_node (node_level : Int) : Option Int := do
  let s ← shift_left_one node_level
  pure (s - 1)

/-- Source lines 103-106. -/
def get_rightmost_real_leaf (bvhLeafLevelIndex num_real_leaf_nodes_in_bvh : Int) : Option Int := do
  let l ← get_level_leftmost_node bvhLeafLevelIndex
  pure ((l + num_real_leaf_nodes_in_bvh) - 1)

/-- The conversion `(int)` of a floating-point value: the fractional part is
discarded. -/
def float_to_int (x : ℚ) : Int := Int.tdiv x.num x.den

/-- The integer nearest to `q`; when `q` lies midway between two integers,
the even one. -/
def round_half_even (q : ℚ) : Int :=
  let f := ⌊q⌋
  if q - f < 1 / 2 then f
  else if 1 / 2 < q - f then f + 1
  else if f % 2 = 0 then f else f + 1

/-- The binary32 number nearest to `x`, ties to even, for a magnitude below
`2 ^ 128`: with `2 ^ e <= |x| < 2 ^ (e + 1)` the binary32 numbers around `x`
are the multiples of `2 ^ (e - 23)`, and of `2 ^ -149` when `e < -126`. -/
def round_binary32 (x : ℚ) : ℚ :=
  if x = 0 then 0
  else
    let e := max (Int.log 2 |x|) (-126)
    (round_half_even (x / (2 : ℚ) ^ (e - 23)) : ℚ) * (2 : ℚ) ^ (e - 23)

/-- The expression `(int)((1.0f / s0) + ((float)i / s1) - 1)` of source
lines 117, 130 and 142 in binary32 arithmetic: the operands `s0`, `i`, `s1`
are converted to `float`, and each of the two quotients, the sum and the
difference is rounded. -/
def project_binary32 (i s0 s1 : Int) : Int :=
  let a := round_binary32 (1 / round_binary32 (s0 : ℚ))
  let b := round_binary32 (round_binary32 (i : ℚ) / round_binary32 (s1 : ℚ))
  float_to_int (round_binary32 (round_binary32 (a + b) - 1))

/-- Source lines 109-120, with the projection evaluated exactly. -/
def is_real_implicit_tree_node_id (bvhNodeImplicitIndex num_real_leaf_nodes_in_bvh : Int) :
    Option Bool := do
  let t := num_real_leaf_nodes_in_bvh
  let li := get_leaf_level_from_real_leaf_count t
  let i ← get_rightmost_real_leaf li t
  let lq := get_level_from_implicit_idx bvhNodeImplicitIndex
  let s0 ← shift_left_one (li - lq)
  let s1 ← shift_left_one (li - lq)
  let p := float_to_int ((1 : ℚ) / (s0 : ℚ) + (i : ℚ) / (s1 : ℚ) - 1)
  pure (decide (bvhNodeImplicitIndex ≤ p) || p == 0)

/-- Source lines 109-120, with the projection evaluated in binary32
arithmetic, as the machine does. -/
def is_real_implicit_tree_node_id_binary32
    (bvhNodeImplicitIndex num_real_leaf_nodes_in_bvh : Int) : Option Bool := do
  let t := num_real_leaf_nodes_in_bvh
  let li := get_leaf_level_from_real_leaf_count t
  let i ← get_rightmost_real_leaf li t
  let lq := get_level_from_implicit_idx bvhNodeImplicitIndex
  let s0 ← shift_left_one (li - lq)
  let s1 ← shift_left_one (li - lq)
  let p := project_binary32 i s0 s1
  pure (decide (bvhNodeImplicitIndex ≤ p) || p == 0)

/-- Source lines 135-143, with the projection evaluated exactly. -/
def get_node_ancestor (nodeImplicitIndex nodeLevelIndex ancestorLevelIndex : Int) :
    Option Int := do
  let levelDistance := nodeLevelIndex - ancestorLevelIndex
  let s0 ← shift_left_one levelDistance
  let s1 ← shift_left_one levelDistance
  pure (float_to_int ((1 : ℚ) / (s0 : ℚ) + (nodeImplicitIndex : ℚ) / (s1 : ℚ) - 1))

/-- Source lines 146-153. -/
def get_node_mem_index (nodeImplicitIndex leftmostImplicitIndexOnNodeLevel bvh_data_base_offset
    rightmostRealNodeImplicitIndexOnNodeLevel : Int) : Int :=
  bvh_data_base_offset +
    get_ostensibly_implicit_bvh_size
      ((rightmostRealNodeImplicitIndexOnNodeLevel - leftmostImplicitIndexOnNodeLevel) + 1) - 1 -
    (rightmostRealNodeImplicitIndexOnNodeLevel - nodeImplicitIndex)

/-! ### The implicit tree of the specification -/

/-- The five rounds `x |= x >> w` of `next_power_of_two` (source lines
44-48) on a natural number. -/
def smear (n : Nat) : Nat :=
  let x := n ||| n >>> 1
  let x := x ||| x >>> 2
  let x := x ||| x >>> 4
  let x := x ||| x >>> 8
  x ||| x >>> 16

/-- The parent of the node `i` of the implicit tree: "root = 0, children of
`i` are `2i+1` and `2i+2`". -/
def parent (i : Nat) : Nat := (i - 1) / 2

/-- The subtree of the node `q` contains one of the `t` real leaves, which
are the first `t` nodes of the level `L`: some real leaf has `q` as its
ancestor. -/
def real_leaf_below (t L q : Nat) : Prop :=
  ∃ j, j < t ∧ ∃ k, k ≤ L ∧ parent^[k] (2 ^ L - 1 + j) = q

instance real_leaf_below_decidable (t L q : Nat) : Decidable (real_leaf_below t L q) :=
  inferInstanceAs (Decidable (∃ j, j < t ∧ ∃ k, k ≤ L ∧ parent^[k] (2 ^ L - 1 + j) = q))

/-- The node `r` is the rightmost real node of the level `l` of the tree
with `t` leaves on the level `L`: it lies on the level `l`, its subtree
contains a real leaf, and no node of the level to its right has a real leaf
below. -/
def rightmost_real_on_level (t L l r : Nat) : Prop :=
  get_level_from_implicit_idx (r : Int) = (l : Int) ∧ real_leaf_below t L r ∧
  ∀ q : Nat, get_level_from_implicit_idx (q : Int) = (l : Int) → real_leaf_below t L q → q ≤ r

/-- The number of nodes on the level `l` whose subtree contains one of the
`t` real leaves on the level `L`. -/
def level_count (t L l : Nat) : Nat := (t - 1) / 2 ^ (L - l) + 1

/-- The number of such nodes on the levels above the level `l`. -/
def level_offset (t L : Nat) : Nat → Nat
  | 0 => 0
  | l + 1 => level_offset t L l + level_count t L l

/-- Source lines 156-163; a product of two `unsigned int` is the residue
modulo `2 ^ 32`. -/
def expandBits (v : Nat) : Nat :=
  let v := ((v * 0x00010001) % 2 ^ 32) &&& 0xFF0000FF
  let v := ((v * 0x00000101) % 2 ^ 32) &&& 0x0F00F00F
  let v := ((v * 0x00000011) % 2 ^ 32) &&& 0xC30C30C3
  let v := ((v * 0x00000005) % 2 ^ 32) &&& 0x49249249
  v

/-- The library function `std::fmax` on two numbers: the larger one. -/
def fmax (a b : ℚ) : ℚ := if a < b then b else a

/-- The library function `std::fmin` on two numbers: the smaller one. -/
def fmin (a b : ℚ) : ℚ := if b < a then b else a

/-- The conversion `(unsigned int)` of a floating-point value: the
fractional part is discarded. -/
def float_to_unsigned (x : ℚ) : Nat := to_unsigned (float_to_int x)

/-- Source lines 166-177; the sum is taken modulo `2 ^ 32`. -/
def morton3D (x y z : ℚ) : Nat :=
  let x := fmin (fmax (x * 1024) 0) 1023
  let y := fmin (fmax (y * 1024) 0) 1023
  let z := fmin (fmax (z * 1024) 0) 1023
  let xx := expandBits (float_to_unsigned x)
  let yy := expandBits (float_to_unsigned y)
  let zz := expandBits (float_to_unsigned z)
  (xx * 4 + yy * 2 + zz) % 2 ^ 32

/-- The cell of a coordinate: the integer in `[0, 1023]` that `morton3D`
passes to `expandBits` (source lines 168 and 172). -/
def morton_cell (x : ℚ) : Nat := float_to_unsigned (fmin (fmax (x * 1024) 0) 1023)

/-- The number whose binary digit `3 k` is the digit `k` of `v`, for
`k < n`, and whose other digits are zero. -/
def spread : Nat → Nat → Nat
  | 0, _ => 0
  | n + 1, v => v % 2 + 8 * spread n (v / 2)

/-- The number of real nodes on the level `l` of the tree with `t` leaves
on the level `L`: the nodes `2 ^ l - 1 + k`, `k < 2 ^ l`, whose subtree
contains a real leaf. -/
def real_nodes_on_level (t L l : Nat) : Nat :=
  ((List.range (2 ^ l)).filter (fun k => decide (real_leaf_below t L (2 ^ l - 1 + k)))).length

/-! ## Traversals -/

/-- Modelled from the spec: `is_removed` is declared in `halfedge_mesh.h`,
which is not among the sources; a descriptor is removed when it is on the
list of removed descriptors of its category. -/
def is_removed (removed : List descriptor_t) (k : descriptor_t) : Bool := decide (k ∈ removed)

/-- Source lines 593-596 (and 607-610, 621-624, 635-638): the iterator is
shifted to the first element that is not removed. A `const_iterator` of a
map is the part of the map from its position on, and `cend()` is the empty
part. -/
def skip_removed {D : Type} (removed : List descriptor_t) : map_t D → map_t D
  | [] => []
  | kv :: rest => if is_removed removed kv.1 then skip_removed removed rest else kv :: rest

/-- Source lines 591-598. -/
def vertices_begin (m : mesh_t R) : map_t (vertex_data_t R) :=
  skip_removed m.m_vertices_removed m.m_vertices

/-- Source lines 600-603. -/
def vertices_end (_ : mesh_t R) : map_t (vertex_data_t R) := []

/-- Source lines 605-612. -/
def edges_begin (m : mesh_t R) : map_t edge_data_t := skip_removed m.m_edges_removed m.m_edges

/-- Source lines 614-617. -/
def edges_end (_ : mesh_t R) : map_t edge_data_t := []

/-- Source lines 619-626. -/
def halfedges_begin (m : mesh_t R) : map_t halfedge_data_t :=
  skip_removed m.m_halfedges_removed m.m_halfedges

/-- Source lines 628-631. -/
def halfedges_end (_ : mesh_t R) : map_t halfedge_data_t := []

/-- Source lines 633-640. -/
def faces_begin (m : mesh_t R) : map_t face_data_t := skip_removed m.m_faces_removed m.m_faces

/-- Source lines 642-645. -/
def faces_end (_ : mesh_t R) : map_t face_data_t := []

/-- The keys of a map are in increasing order, as those of a `std::map`
are. -/
def map_sorted {D : Type} (mp : map_t D) : Prop :=
  mp.Pairwise (fun a b => descriptor_lt a.1 b.1 = true)

/-- State of a storage map and its list of removed descriptors: the keys
are in order, and the list has no duplicates and holds stored keys only. -/
def storage_ok {D : Type} (mp : map_t D) (removed : List descriptor_t) : Prop :=
  map_sorted mp ∧ removed.Nodup ∧ ∀ k, k ∈ removed → (map_find mp k).isSome

/-- The four storage maps of a mesh and their lists of removed descriptors
are in such a state. -/
def mesh_storage_ok (m : mesh_t R) : Prop :=
  storage_ok m.m_vertices m.m_vertices_removed ∧ storage_ok m.m_edges m.m_edges_removed ∧
  storage_ok m.m_halfedges m.m_halfedges_removed ∧ storage_ok m.m_faces m.m_faces_removed

/-- The iterator `it` is where a traversal starts: it is the end exactly
when no stored element is live, and otherwise it is positioned on a live
element before which no live element comes in the order of the
descriptors. -/
def first_live {D : Type} (mp : map_t D) (removed : List descriptor_t) (it : map_t D) : Prop :=
  (it = [] ↔ ∀ k, (map_find mp k).isSome → k ∈ removed) ∧
  ∀ kv rest, it = kv :: rest →
    live mp removed kv.1 ∧ map_find mp kv.1 = some kv.2 ∧
    ∀ k, live mp removed k → descriptor_lt k kv.1 = false

/-- Modelled from the spec: the iterator types and their `operator++` are
declared in `halfedge_mesh.h`, which is not among the sources; "removed slots
are skipped transparently during iteration, not merely at the boundary". The
descriptors that a loop `for (it = X_begin(); it != X_end(); ++it)` visits:
the stored descriptors that are not removed, in the order of the map. -/
def visit {D : Type} (removed : List descriptor_t) : map_t D → List descriptor_t
  | [] => []
  | kv :: rest => if is_removed removed kv.1 then visit removed rest else kv.1 :: visit removed rest

/-! ## The text format

The text of a file is a list of lines and a line the list of its tokens, the
words that white space separates. A number token carries the value that the
extraction `operator>>` reads from it; the formatting and the parsing of
numbers are those of the stream library and are not modelled. Opening a file
is taken to succeed. -/

/-- A token of a line of text. -/
inductive token_t (R : Type) where
  | word (s : String) : token_t R
  | int (n : Int) : token_t R
  | real (x : R) : token_t R
deriving DecidableEq

/-- A line of text. -/
abbrev line_t (R : Type) := List (token_t R)

/-- Modelled from the spec: the output operator of a descriptor is declared
in `halfedge_mesh.h`, which is not among the sources; a descriptor is printed
as its index ("0-based vertex indices"). The null descriptor, which no
stored element has, is taken to print as the largest `unsigned int`. -/
def descriptor_value : descriptor_t → Int
  | some n => n
  | none => 4294967295

/-- Source lines 671-675: the lines of the vertices `vs`. The value
`stored x` is what reading the printed text of the coordinate `x` gives. -/
def write_off_vertices (stored : R → R) (m : mesh_t R) :
    List vertex_descriptor_t → Except error (List (line_t R))
  | [] => pure []
  | v :: rest => do
    let point ← vertex_p m v
    let lines ← write_off_vertices stored m rest
    pure ([token_t.real (stored point.x), token_t.real (stored point.y),
      token_t.real (stored point.z)] :: lines)

/-- Source lines 693-705: the lines of the faces `fs`. -/
def write_off_faces (m : mesh_t R) : List face_descriptor_t → Except error (List (line_t R))
  | [] => pure []
  | f :: rest => do
    let vertices_around_face ← get_vertices_around_face m f
    MCUT_ASSERT (!vertices_around_face.isEmpty)
    let lines ← write_off_faces m rest
    pure ((token_t.int vertices_around_face.length ::
      vertices_around_face.map (fun i => token_t.int (descriptor_value i))) :: lines)

/-- Source lines 647-708: the text that `write_off` writes. -/
def write_off (stored : R → R) (m : mesh_t R) : Except error (List (line_t R)) := do
  let header : line_t R := [token_t.word "OFF"]
  let counts : line_t R :=
    [token_t.int (number_of_vertices m), token_t.int (number_of_faces m), token_t.int 0]
  let vlines ← write_off_vertices stored m (visit m.m_vertices_removed m.m_vertices)
  let flines ← write_off_faces m (visit m.m_faces_removed m.m_faces)
  pure (header :: counts :: (vlines ++ flines))

/-- How `read_off` ends other than by returning: by `std::exit(1)` after an
error message, or when a mesh operation stops. -/
inductive off_error where
  | exit : off_error
  | stopped (e : error) : off_error
deriving DecidableEq

/-- Source lines 712-719: a line is passed over when it has at most one
character or starts with `#`. Of the lines of the embedding those are the
line without a token and the line whose first token is a word starting with
`#`; a line that is a single one-digit number would be passed over too, and
`write_off` writes none. -/
def line_skipped (s : line_t R) : Bool :=
  match s with
  | [] => true
  | token_t.word w :: _ => w.data.head? == some '#'
  | _ => false

/-- Source lines 712-719, `next_line`: the next line that is not passed
over, and the lines after it. -/
def next_line : List (line_t R) → Option (line_t R × List (line_t R))
  | [] => none
  | s :: rest => if line_skipped s then next_line rest else some (s, rest)

/-- A `std::istringstream`: the tokens not yet read, and whether an
extraction has failed. -/
structure istream_t (R : Type) where
  rest : List (token_t R)
  fail : Bool

/-- A stream over a line. -/
def stream_of (s : line_t R) : istream_t R := { rest := s, fail := false }

/-- The extraction `s >> v` of an `int`: from a stream that has failed or
has no token left nothing is read and `v` keeps its value; a token that is
not an integer makes the extraction fail and `v` zero. -/
def read_int (s : istream_t R) (v : Int) : istream_t R × Int :=
  if s.fail then (s, v)
  else
    match s.rest with
    | [] => ({ s with fail := true }, v)
    | token_t.int n :: rest => ({ rest := rest, fail := false }, n)
    | _ :: _ => ({ s with fail := true }, 0)

/-- The extraction `s >> v` of a `double`, see `read_int`. -/
def read_double [Zero R] (s : istream_t R) (v : R) : istream_t R × R :=
  if s.fail then (s, v)
  else
    match s.rest with
    | [] => ({ s with fail := true }, v)
    | token_t.real x :: rest => ({ rest := rest, fail := false }, x)
    | _ :: _ => ({ s with fail := true }, 0)

/-- The local `std::map<int, vd_t> vmap` of `read_off`. -/
abbrev vmap_t := List (Int × vertex_descriptor_t)

/-- The value `vmap[index]`; a key that is missing is given the
default-constructed descriptor, which is null. -/
def vmap_at (vmap : vmap_t) (index : Int) : vertex_descriptor_t :=
  match vmap.find? (fun kv => kv.1 == index) with
  | some kv => kv.2
  | none => null_vertex

/-- The assignment `vmap[i] = v`. -/
def vmap_set (vmap : vmap_t) (i : Int) (v : vertex_descriptor_t) : vmap_t :=
  if (vmap.find? (fun kv => kv.1 == i)).isSome then
    vmap.map (fun kv => if kv.1 == i then (i, v) else kv)
  else vmap ++ [(i, v)]

/-- Source lines 763-775: the loop over the vertices, with `k` rounds to go
and the counter at `i`. The locals `x`, `y`, `z` are not initialised; `junk`
is the value they hold before the extraction. -/
def read_off_vertices [Zero R] (junk : R) :
    Nat → Int → List (line_t R) → vmap_t → mesh_t R →
      Except off_error (List (line_t R) × vmap_t) × mesh_t R
  | 0, _, lines, vmap, m => (Except.ok (lines, vmap), m)
  | k + 1, i, lines, vmap, m =>
    match next_line lines with
    | none => (Except.error off_error.exit, m)
    | some (info, lines1) =>
      let vtx_line_stream := stream_of info
      let rx := read_double vtx_line_stream junk
      let ry := read_double rx.1 junk
      let rz := read_double ry.1 junk
      match add_vertex rx.2 ry.2 rz.2 m with
      | (Except.ok v, m1) => read_off_vertices junk k (i + 1) lines1 (vmap_set vmap i v) m1
      | (Except.error e, m1) => (Except.error (off_error.stopped e), m1)

/-- Source lines 804-807: the loop that fills the vector `face`, with `n`
rounds to go. The indices are extracted from `info_stream`, the stream over
the line of the counts. -/
def read_off_face (vmap : vmap_t) :
    Nat → istream_t R → Int → istream_t R × List vertex_descriptor_t
  | 0, info_stream, _ => (info_stream, [])
  | n + 1, info_stream, index =>
    let r := read_int info_stream index
    let rest := read_off_face vmap n r.1 r.2
    (rest.1, vmap_at vmap r.2 :: rest.2)

/-- Source lines 787-810: the loop over the faces, with `k` rounds to go.
The locals `n` and `index` are not initialised; `junk` is the value they
hold before the extraction. -/
def read_off_faces (junk : Int) (vmap : vmap_t) :
    Nat → List (line_t R) → istream_t R → mesh_t R → Except off_error Unit × mesh_t R
  | 0, _, _, m => (Except.ok (), m)
  | k + 1, lines, info_stream, m =>
    match next_line lines with
    | none => (Except.error off_error.exit, m)
    | some (info, lines1) =>
      let face_line_stream := stream_of info
      let rn := read_int face_line_stream junk
      if rn.2 < 3 then (Except.error off_error.exit, m)
      else
        let rf := read_off_face vmap rn.2.toNat info_stream junk
        match add_face rf.2 m with
        | (Except.ok _, m1) => read_off_faces junk vmap k lines1 rf.1 m1
        | (Except.error e, m1) => (Except.error (off_error.stopped e), m1)

/-- Source lines 731-740: the header line is the word `OFF`. -/
def is_off_header (header : line_t R) : Bool :=
  match header with
  | [token_t.word w] => w == "OFF"
  | _ => false

/-- Source lines 710-813: `read_off` on the text of the file. The locals
of type `int` and `double` are not initialised; `junk` and `junk_real` are
the values they hold before an extraction. -/
def read_off [Zero R] (junk : Int) (junk_real : R) (text : List (line_t R)) :
    mesh_t R → Except off_error Unit × mesh_t R := fun mesh =>
  match next_line text with
  | none => (Except.error off_error.exit, mesh)
  | some (header, lines) =>
    if !is_off_header header then (Except.error off_error.exit, mesh)
    else
      match next_line lines with
      | none => (Except.error off_error.exit, mesh)
      | some (info, lines1) =>
        let info_stream := stream_of info
        let rv := read_int info_stream junk
        let rf := read_int rv.1 junk
        let re := read_int rf.1 junk
        match read_off_vertices junk_real rv.2.toNat 0 lines1 [] mesh with
        | (Except.error e, mesh1) => (Except.error e, mesh1)
        | (Except.ok (lines2, vmap), mesh1) =>
          read_off_faces junk vmap rf.2.toNat lines2 re.1 mesh1

/-- The text of the triangle. -/
def triangle_text : List (line_t Int) :=
  [[token_t.word "OFF"],
   [token_t.int 3, token_t.int 1, token_t.int 0],
   [token_t.real 0, token_t.real 0, token_t.real 0],
   [token_t.real 1, token_t.real 0, token_t.real 0],
   [token_t.real 0, token_t.real 1, token_t.real 0],
   [token_t.int 3, token_t.int 1, token_t.int 2, token_t.int 0]]

/-! ## Slots and free lists -/

/-- The list `removed` of removed descriptors has no duplicates and holds
keys of the map `mp` only. -/
def free_list_ok {D : Type} (mp : map_t D) (removed : List descriptor_t) : Prop :=
  removed.Nodup ∧ ∀ k, k ∈ removed → (map_find mp k).isSome

/-- State of the slots of a mesh: the keys of each storage map are the
descriptors `0 .. size - 1`, and each list of removed descriptors has no
duplicates and holds stored keys only. -/
structure slots_ok (m : mesh_t R) : Prop where
  dv : dense m.m_vertices
  de : dense m.m_edges
  dh : dense m.m_halfedges
  df : dense m.m_faces
  fv : free_list_ok m.m_vertices m.m_vertices_removed
  fe : free_list_ok m.m_edges m.m_edges_removed
  fh : free_list_ok m.m_halfedges m.m_halfedges_removed
  ff : free_list_ok m.m_faces m.m_faces_removed

/-- The mesh `m1` has the keys, the sizes and the lists of removed
descriptors of the mesh `m`. -/
structure same_keys (m m1 : mesh_t R) : Prop where
  v : ∀ k, (map_find m1.m_vertices k).isSome = (map_find m.m_vertices k).isSome
  e : ∀ k, (map_find m1.m_edges k).isSome = (map_find m.m_edges k).isSome
  h : ∀ k, (map_find m1.m_halfedges k).isSome = (map_find m.m_halfedges k).isSome
  f : ∀ k, (map_find m1.m_faces k).isSome = (map_find m.m_faces k).isSome
  vl : m1.m_vertices.length = m.m_vertices.length
  el : m1.m_edges.length = m.m_edges.length
  hl : m1.m_halfedges.length = m.m_halfedges.length
  fl : m1.m_faces.length = m.m_faces.length
  vr : m1.m_vertices_removed = m.m_vertices_removed
  er : m1.m_edges_removed = m.m_edges_removed
  hr : m1.m_halfedges_removed = m.m_halfedges_removed
  fr : m1.m_faces_removed = m.m_faces_removed

/-- Two vertices whose edge 0, made by `add_edge`, is removed together with
its half-edges 0 and 1. -/
def mesh_one_edge_removed : mesh_t Int :=
  mesh_after (remove_edge (some 0)) (mesh_after (remove_halfedge (some 1))
    (mesh_after (remove_halfedge (some 0)) mesh_one_edge))

/-! ## Facts about the storage maps -/

theorem map_find_modify {D : Type} (m : map_t D) (k : descriptor_t) (f : D → D)
    (k1 : descriptor_t) :
    map_find (map_modify m k f) k1 =
      if k1 = k then (map_find m k).map f else map_find m k1 := by
  induction m with
  | nil => simp [map_modify, map_find]
  | cons kv rest ih =>
    simp only [map_modify, List.map_cons] at ih ⊢
    simp only [map_find]
    rw [ih]
    by_cases h0 : kv.1 = k
    · by_cases h1 : k1 = k
      · subst h1; simp [h0]
      · have h3 : ¬ k = k1 := fun e => h1 e.symm
        simp [h0, h1, h3]
    · by_cases h1 : k1 = k
      · subst h1; simp [h0]
      · simp [h0, h1]

theorem map_modify_length {D : Type} (m : map_t D) (k : descriptor_t) (f : D → D) :
    (map_modify m k f).length = m.length := by
  simp [map_modify]

theorem map_find_insert_sorted {D : Type} (m : map_t D) (k : descriptor_t) (d : D)
    (hk : map_find m k = none) (k1 : descriptor_t) :
    map_find (map_insert_sorted k d m) k1 = if k1 = k then some d else map_find m k1 := by
  induction m with
  | nil =>
    by_cases h : k1 = k
    · subst h; simp [map_insert_sorted, map_find]
    · have h2 : ¬ k = k1 := fun e => h e.symm
      simp [map_insert_sorted, map_find, h, h2]
  | cons kv rest ih =>
    have hk0 : ¬ kv.1 = k := by
      intro e; simp [map_find, e] at hk
    have hrest : map_find rest k = none := by
      simpa [map_find, hk0] using hk
    simp only [map_insert_sorted]
    by_cases hlt : descriptor_lt k kv.1 = true
    · simp only [hlt, if_true]
      by_cases h : k1 = k
      · subst h; simp [map_find]
      · have h2 : ¬ k = k1 := fun e => h e.symm
        simp [map_find, h, h2]
    · simp only [hlt]
      by_cases h0 : kv.1 = k1
      · have : ¬ k1 = k := fun e => hk0 (h0.trans e)
        simp [map_find, h0, this]
      · simp only [map_find, h0, if_false]
        exact ih hrest

theorem map_insert_sorted_length {D : Type} (m : map_t D) (k : descriptor_t) (d : D) :
    (map_insert_sorted k d m).length = m.length + 1 := by
  induction m with
  | nil => simp [map_insert_sorted]
  | cons kv rest ih =>
    simp only [map_insert_sorted]
    split
    · simp
    · simp [ih]

theorem dense_fresh {D : Type} {mp : map_t D} (h : dense mp) :
    map_find mp (some mp.length) = none := by
  have := h (some mp.length)
  cases hf : map_find mp (some mp.length) with
  | none => rfl
  | some d =>
    rw [hf] at this
    simp at this

theorem dense_null {D : Type} {mp : map_t D} (h : dense mp) :
    map_find mp none = none := by
  have := h none
  cases hf : map_find mp none with
  | none => rfl
  | some d =>
    rw [hf] at this
    simp at this

theorem dense_key {D : Type} {mp : map_t D} (h : dense mp) {k : descriptor_t} {d : D}
    (hf : map_find mp k = some d) : ∃ n : Nat, k = some n ∧ n < mp.length := by
  have := (h k).1 (by simp [hf])
  exact this

theorem dense_find {D : Type} {mp : map_t D} (h : dense mp) {n : Nat} (hn : n < mp.length) :
    ∃ d, map_find mp (some n) = some d := by
  have := (h (some n)).2 ⟨n, rfl, hn⟩
  exact Option.isSome_iff_exists.mp this

theorem dense_insert {D : Type} {mp : map_t D} (h : dense mp) (d : D) :
    dense (map_insert_sorted (some mp.length) d mp) := by
  intro k
  rw [map_find_insert_sorted mp _ d (dense_fresh h), map_insert_sorted_length]
  by_cases hk : k = some mp.length
  · subst hk; simp
  · simp only [hk, if_false]
    rw [h k]
    constructor
    · rintro ⟨n, rfl, hn⟩; exact ⟨n, rfl, by omega⟩
    · rintro ⟨n, rfl, hn⟩
      refine ⟨n, rfl, ?_⟩
      have : n ≠ mp.length := fun e => hk (by rw [e])
      omega

theorem dense_modify {D : Type} {mp : map_t D} (h : dense mp) (k : descriptor_t) (f : D → D) :
    dense (map_modify mp k f) := by
  intro k1
  rw [map_find_modify, map_modify_length, ← h k1]
  by_cases hk : k1 = k
  · subst hk; simp
  · simp [hk]

theorem map_insert_fresh {D : Type} {mp : map_t D} (h : dense mp) (d : D) :
    map_insert mp (some mp.length) d = (map_insert_sorted (some mp.length) d mp, true) := by
  simp [map_insert, dense_fresh h]

theorem map_count_eq_one {D : Type} (mp : map_t D) (k : descriptor_t) :
    (map_count mp k == 1) = (map_find mp k).isSome := by
  unfold map_count
  cases map_find mp k <;> simp

theorem map_at_eq_ok {D : Type} {mp : map_t D} {k : descriptor_t} {d : D} :
    map_at mp k = Except.ok d ↔ map_find mp k = some d := by
  unfold map_at
  cases map_find mp k <;> simp

theorem map_at_of_find {D : Type} {mp : map_t D} {k : descriptor_t} {d : D}
    (h : map_find mp k = some d) : map_at mp k = Except.ok d :=
  map_at_eq_ok.2 h

theorem vector_at_eq_ok {A : Type} {v : List A} {i : Nat} {a : A} :
    vector_at v i = Except.ok a ↔ v[i]? = some a := by
  unfold vector_at
  cases v[i]? <;> simp

/-! ## Running mutating member functions -/

theorem bind_run {A B : Type} (x : mesh_op R A) (f : A → mesh_op R B) (m : mesh_t R) :
    (x >>= f) m = match x m with
      | (Except.ok a, m1) => f a m1
      | (Except.error e, m1) => (Except.error e, m1) := rfl

theorem bind_ok {A B : Type} {x : mesh_op R A} {f : A → mesh_op R B} {m m1 : mesh_t R} {a : A}
    (h : x m = (Except.ok a, m1)) : (x >>= f) m = f a m1 := by
  rw [bind_run, h]

theorem bind_error {A B : Type} {x : mesh_op R A} {f : A → mesh_op R B} {m m1 : mesh_t R}
    {e : error} (h : x m = (Except.error e, m1)) : (x >>= f) m = (Except.error e, m1) := by
  rw [bind_run, h]

theorem bind_inv {A B : Type} {x : mesh_op R A} {f : A → mesh_op R B} {m m2 : mesh_t R} {b : B}
    (h : (x >>= f) m = (Except.ok b, m2)) :
    ∃ a m1, x m = (Except.ok a, m1) ∧ f a m1 = (Except.ok b, m2) := by
  rw [bind_run] at h
  rcases hx : x m with ⟨r, m1⟩
  rw [hx] at h
  cases r with
  | error e => simp at h
  | ok a => exact ⟨a, m1, rfl, h⟩

theorem pure_run {A : Type} (a : A) (m : mesh_t R) :
    (pure a : mesh_op R A) m = (Except.ok a, m) := rfl

theorem eval_run {A : Type} (f : mesh_t R → Except error A) (m : mesh_t R) :
    mesh_op.eval f m = (f m, m) := rfl

theorem update_run (f : mesh_t R → mesh_t R) (m : mesh_t R) :
    mesh_op.update f m = (Except.ok (), f m) := rfl

theorem eval_inv {A : Type} {f : mesh_t R → Except error A} {m m1 : mesh_t R} {a : A}
    (h : mesh_op.eval f m = (Except.ok a, m1)) : f m = Except.ok a ∧ m = m1 := by
  rw [eval_run] at h
  simp only [Prod.mk.injEq] at h
  exact ⟨h.1, h.2⟩

theorem assert_eq_ok {c : Bool} {u : Unit} : MCUT_ASSERT c = Except.ok u ↔ c = true := by
  unfold MCUT_ASSERT
  cases c <;> simp

theorem assert_true : MCUT_ASSERT true = Except.ok () := rfl

theorem assert_false : MCUT_ASSERT false = Except.error error.assertion_failed := rfl

theorem except_bind_ok {A B : Type} (a : A) (f : A → Except error B) :
    (Except.ok a >>= f) = f a := rfl

theorem except_bind_error {A B : Type} (e : error) (f : A → Except error B) :
    ((Except.error e : Except error A) >>= f) = Except.error e := rfl

theorem except_bind_inv {A B : Type} {x : Except error A} {f : A → Except error B} {b : B}
    (h : (x >>= f) = Except.ok b) : ∃ a, x = Except.ok a ∧ f a = Except.ok b := by
  cases x with
  | error e => simp [except_bind_error] at h
  | ok a => exact ⟨a, rfl, h⟩

/-! ## What the creation calls do to a mesh without removed elements -/

theorem descriptor_of_count_length (a : Nat) :
    descriptor_of_count ((a : Int) - ((0 : Nat) : Int)) = some a := by
  simp [descriptor_of_count]

theorem add_vertex_run (m : mesh_t R) (x y z : R)
    (hr : m.m_vertices_removed = []) (hd : dense m.m_vertices) :
    add_vertex x y z m =
      (Except.ok (some m.m_vertices.length),
        { m with m_vertices := (map_insert_sorted (some m.m_vertices.length)
            { p := { x := x, y := y, z := z }, m_halfedges := [] } m.m_vertices) }) := by
  unfold add_vertex
  simp only [hr, number_of_vertices, number_of_internal_vertices, number_of_vertices_removed,
    List.length_nil, descriptor_of_count_length, map_insert_fresh hd]

theorem add_edge_h0_run (m : mesh_t R) (hr : m.m_halfedges_removed = [])
    (dh : dense m.m_halfedges) :
    add_edge_h0 m = (Except.ok (some m.m_halfedges.length),
      { m with m_halfedges :=
          (map_insert_sorted (some m.m_halfedges.length) halfedge_data_new m.m_halfedges) }) := by
  unfold add_edge_h0
  simp only [hr, number_of_halfedges, number_of_internal_halfedges, number_of_halfedges_removed,
    List.length_nil, descriptor_of_count_length, map_insert_fresh dh]

theorem add_edge_h1_run (m : mesh_t R) (hr : m.m_halfedges_removed = [])
    (dh : dense m.m_halfedges) :
    add_edge_h1 m = (Except.ok (some m.m_halfedges.length),
      { m with m_halfedges :=
          (map_insert_sorted (some m.m_halfedges.length) halfedge_data_new m.m_halfedges) }) := by
  unfold add_edge_h1
  simp only [hr, number_of_halfedges, number_of_internal_halfedges, number_of_halfedges_removed,
    List.length_nil, descriptor_of_count_length, map_insert_fresh dh, List.getLast?_nil]

theorem add_edge_e_run (m : mesh_t R) (er : m.m_edges_removed = [])
    (de : dense m.m_edges) :
    add_edge_e m = (Except.ok (some m.m_edges.length),
      { m with m_edges :=
          (map_insert_sorted (some m.m_edges.length) edge_data_new m.m_edges) }) := by
  unfold add_edge_e
  simp only [er, number_of_edges, number_of_internal_edges, number_of_edges_removed,
    List.length_nil, descriptor_of_count_length, map_insert_fresh de]

theorem add_edge_inv (m m1 : mesh_t R) (v0 v1 : vertex_descriptor_t) (h : halfedge_descriptor_t)
    (hr : m.m_halfedges_removed = []) (er : m.m_edges_removed = [])
    (dh : dense m.m_halfedges) (de : dense m.m_edges)
    (hrun : add_edge v0 v1 m = (Except.ok h, m1)) : add_edge_post m m1 v0 v1 h := by
  unfold add_edge at hrun
  obtain ⟨u1, ma, e1, hrun1⟩ := bind_inv hrun
  obtain ⟨a1, rfl⟩ := eval_inv e1
  obtain ⟨u2, mb, e2, hrun⟩ := bind_inv hrun1
  obtain ⟨a2, rfl⟩ := eval_inv e2
  clear e1 e2 hrun1
  rw [bind_ok (add_edge_h0_run m hr dh)] at hrun
  have s1 := add_edge_h1_run
    ({ m with m_halfedges :=
        (map_insert_sorted (some m.m_halfedges.length) halfedge_data_new m.m_halfedges) })
    hr (dense_insert dh _)
  rw [bind_ok s1] at hrun
  clear s1
  have s2 := add_edge_e_run
    ({ m with m_halfedges := (map_insert_sorted
        (some (map_insert_sorted (some m.m_halfedges.length) halfedge_data_new m.m_halfedges).length)
        halfedge_data_new
        (map_insert_sorted (some m.m_halfedges.length) halfedge_data_new m.m_halfedges)) })
    er de
  rw [bind_ok s2] at hrun
  clear s2
  simp only [bind_run, update_run, eval_run, add_edge_incidence, map_count_eq_one,
    map_find_modify, map_insert_sorted_length, pure_run] at hrun
  have hv0 : (map_find m.m_vertices v0).isSome = true := by
    cases hc : (map_find m.m_vertices v0).isSome with
    | true => rfl
    | false => simp [hc, assert_false] at hrun
  have hv1 : (map_find m.m_vertices v1).isSome = true := by
    cases hc : (map_find m.m_vertices v1).isSome with
    | true => rfl
    | false =>
      rw [hv0, assert_true] at hrun
      simp only [] at hrun
      by_cases e : v1 = v0
      · rw [e, hv0] at hc; cases hc
      · simp [e, hc, assert_false] at hrun
  have hv1b : (if v1 = v0 then
      Option.map (push_incident (some (m.m_halfedges.length + 1))) (map_find m.m_vertices v0)
      else map_find m.m_vertices v1).isSome = true := by
    split
    · simp [hv0]
    · exact hv1
  rw [hv0, assert_true] at hrun
  simp only [] at hrun
  rw [hv1b, assert_true] at hrun
  simp only [Prod.mk.injEq, Except.ok.injEq] at hrun
  obtain ⟨rfl, rfl⟩ := hrun
  have f0 := dense_fresh dh
  have f1 : map_find (map_insert_sorted (some m.m_halfedges.length) halfedge_data_new m.m_halfedges)
      (some (m.m_halfedges.length + 1)) = none := by
    have := dense_fresh (dense_insert dh halfedge_data_new)
    rwa [map_insert_sorted_length] at this
  have fe := dense_fresh de
  constructor
  · have := assert_eq_ok.1 a1
    simpa using this
  · have := assert_eq_ok.1 a2
    simpa using this
  · exact hv0
  · exact hv1
  · rfl
  · intro k
    simp only [map_find_modify, map_find_insert_sorted _ _ _ f1, map_find_insert_sorted _ _ _ f0]
    by_cases k1 : k = some (m.m_halfedges.length + 1)
    · subst k1; simp [halfedge_data_new, null_halfedge, null_face]
    · by_cases k0 : k = some m.m_halfedges.length
      · subst k0; simp [halfedge_data_new, null_halfedge, null_face]
      · simp [k0, k1]
  · intro k
    simp only [map_find_modify, map_find_insert_sorted _ _ _ fe]
    by_cases k0 : k = some m.m_edges.length
    · subst k0; simp [edge_data_new]
    · simp [k0]
  · intro k
    simp only [map_find_modify]
  · simp [map_modify_length, map_insert_sorted_length]
  · simp [map_modify_length, map_insert_sorted_length]
  · simp [map_modify_length]
  · rfl
  · rfl
  · rfl
  · rfl
  · rfl

/-! ## The invariant of vertices, edges and half-edges is kept -/

theorem dense_nil {D : Type} : dense ([] : map_t D) := by
  intro k
  simp [map_find]

theorem edges_ok_empty : edges_ok (mesh_t.empty R) := by
  constructor
  · rfl
  · rfl
  · rfl
  · exact dense_nil
  · exact dense_nil
  · exact dense_nil
  · intro h hd hf; simp [mesh_t.empty, map_find] at hf
  · intro e ed hf; simp [mesh_t.empty, map_find] at hf
  · intro v vd hf; simp [mesh_t.empty, map_find] at hf

theorem edges_ok_add_vertex {m m1 : mesh_t R} {x y z : R} {v : vertex_descriptor_t}
    (ok : edges_ok m) (hrun : add_vertex x y z m = (Except.ok v, m1)) : edges_ok m1 := by
  rw [add_vertex_run m x y z ok.vr ok.dv] at hrun
  simp only [Prod.mk.injEq, Except.ok.injEq] at hrun
  obtain ⟨rfl, rfl⟩ := hrun
  have fresh := dense_fresh ok.dv
  constructor
  · exact ok.vr
  · exact ok.er
  · exact ok.hr
  · exact dense_insert ok.dv _
  · exact ok.de
  · exact ok.dh
  · intro h hd hf
    obtain ⟨p1, p2, p3, p4⟩ := ok.hprop h hd hf
    refine ⟨p1, p2, ?_, p4⟩
    show (map_find (map_insert_sorted _ _ _) hd.t).isSome = true
    rw [map_find_insert_sorted _ _ _ fresh]
    split
    · rfl
    · exact p3
  · exact ok.eprop
  · intro v vd hf
    change map_find (map_insert_sorted _ _ _) v = some vd at hf
    rw [map_find_insert_sorted _ _ _ fresh] at hf
    by_cases hv : v = some m.m_vertices.length
    · simp only [hv, if_true, Option.some.injEq] at hf
      subst hf
      refine ⟨List.nodup_nil, ?_⟩
      intro h
      simp only [List.not_mem_nil, false_iff, not_exists, not_and]
      intro hd hf ht
      have := (ok.hprop h hd hf).2.2.1
      rw [ht, hv, fresh] at this
      cases this
    · simp only [hv, if_false] at hf
      exact ok.vprop v vd hf

theorem edges_ok_same_edges {m m1 : mesh_t R} (ok : edges_ok m) (s : same_edges m m1) :
    edges_ok m1 := by
  have key : ∀ h hd1, map_find m1.m_halfedges h = some hd1 →
      ∃ hd, map_find m.m_halfedges h = some hd ∧ hd.o = hd1.o ∧ hd.t = hd1.t ∧ hd.e = hd1.e := by
    intro h hd1 hf
    have := s.core h
    rw [hf] at this
    cases hm : map_find m.m_halfedges h with
    | none => rw [hm] at this; simp at this
    | some hd =>
      rw [hm] at this
      simp only [Option.map_some', Option.some.injEq, halfedge_core, Prod.mk.injEq] at this
      exact ⟨hd, rfl, this.1.symm, this.2.1.symm, this.2.2.symm⟩
  have key2 : ∀ h hd, map_find m.m_halfedges h = some hd →
      ∃ hd1, map_find m1.m_halfedges h = some hd1 ∧ hd1.o = hd.o ∧ hd1.t = hd.t ∧ hd1.e = hd.e := by
    intro h hd hf
    have := s.core h
    rw [hf] at this
    cases hm : map_find m1.m_halfedges h with
    | none => rw [hm] at this; simp at this
    | some hd1 =>
      rw [hm] at this
      simp only [Option.map_some', Option.some.injEq, halfedge_core, Prod.mk.injEq] at this
      exact ⟨hd1, rfl, this.1, this.2.1, this.2.2⟩
  constructor
  · rw [s.vr]; exact ok.vr
  · rw [s.er]; exact ok.er
  · rw [s.hr]; exact ok.hr
  · rw [s.v]; exact ok.dv
  · rw [s.e]; exact ok.de
  · intro k
    rw [s.len, ← ok.dh k]
    have := s.core k
    cases h1 : map_find m1.m_halfedges k <;> cases h2 : map_find m.m_halfedges k <;>
      simp [h1, h2] at this ⊢
  · intro h hd1 hf
    obtain ⟨hd, hm, eo, et, ee⟩ := key h hd1 hf
    obtain ⟨p1, ⟨od, q1, q2, q3⟩, p3, ⟨ed, r1, r2⟩⟩ := ok.hprop h hd hm
    obtain ⟨od1, s1, s2, s3, s4⟩ := key2 _ od q1
    refine ⟨?_, ⟨od1, ?_, ?_, ?_⟩, ?_, ⟨ed, ?_, ?_⟩⟩
    · rw [← eo]; exact p1
    · rw [← eo]; exact s1
    · rw [s2]; exact q2
    · rw [s4, q3, ee]
    · rw [s.v, ← et]; exact p3
    · rw [s.e, ← ee]; exact r1
    · rw [← eo]; exact r2
  · intro e ed hf
    rw [s.e] at hf
    obtain ⟨hd, q1, q2⟩ := ok.eprop e ed hf
    obtain ⟨hd1, s1, _, _, s4⟩ := key2 _ hd q1
    exact ⟨hd1, s1, by rw [s4, q2]⟩
  · intro v vd hf
    rw [s.v] at hf
    obtain ⟨p1, p2⟩ := ok.vprop v vd hf
    refine ⟨p1, ?_⟩
    intro h
    rw [p2 h]
    constructor
    · rintro ⟨hd, q1, q2⟩
      obtain ⟨hd1, s1, _, s3, _⟩ := key2 _ hd q1
      exact ⟨hd1, s1, by rw [s3, q2]⟩
    · rintro ⟨hd1, q1, q2⟩
      obtain ⟨hd, s1, _, s3, _⟩ := key h hd1 q1
      exact ⟨hd, s1, by rw [s3, q2]⟩

theorem dense_not_ge {D : Type} {mp : map_t D} (h : dense mp) {n : Nat} (hn : mp.length ≤ n) :
    map_find mp (some n) = none := by
  cases hf : map_find mp (some n) with
  | none => rfl
  | some d =>
    obtain ⟨k, e, hk⟩ := dense_key h hf
    simp only [Option.some.injEq] at e
    omega

theorem dense_of_insert_eqs {D : Type} {mp mp1 : map_t D} (h : dense mp) (d : D)
    (hf : ∀ k, map_find mp1 k = if k = some mp.length then some d else map_find mp k)
    (hl : mp1.length = mp.length + 1) : dense mp1 := by
  intro k
  rw [hf k, hl]
  by_cases hk : k = some mp.length
  · subst hk; simp
  · simp only [hk, if_false]
    rw [h k]
    constructor
    · rintro ⟨n, rfl, hn⟩; exact ⟨n, rfl, by omega⟩
    · rintro ⟨n, rfl, hn⟩
      refine ⟨n, rfl, ?_⟩
      have : n ≠ mp.length := fun e => hk (by rw [e])
      omega

theorem push_incident_new (h : halfedge_descriptor_t) (d : vertex_data_t R)
    (hn : h ∉ d.m_halfedges) :
    push_incident h d = { d with m_halfedges := d.m_halfedges ++ [h] } := by
  simp [push_incident, hn]

/-- The incidence lists after `add_edge`: the list of `v0` gets the second
half-edge, the list of `v1` the primary one. -/
theorem add_edge_post_vertex {m m1 : mesh_t R} {v0 v1 : vertex_descriptor_t}
    {h : halfedge_descriptor_t} (ok : edges_ok m) (post : add_edge_post m m1 v0 v1 h)
    (v : vertex_descriptor_t) (vd1 : vertex_data_t R)
    (hf : map_find m1.m_vertices v = some vd1) :
    ∃ vd, map_find m.m_vertices v = some vd ∧ vd1.p = vd.p ∧
      vd1.m_halfedges = vd.m_halfedges ++
        ((if v = v0 then [some (m.m_halfedges.length + 1)] else []) ++
          (if v = v1 then [some m.m_halfedges.length] else [])) := by
  have notin : ∀ (w : vertex_descriptor_t) (wd : vertex_data_t R) (n : Nat),
      map_find m.m_vertices w = some wd → m.m_halfedges.length ≤ n →
      some n ∉ wd.m_halfedges := by
    intro w wd n hw hn hmem
    obtain ⟨hd, q, _⟩ := ((ok.vprop w wd hw).2 (some n)).1 hmem
    rw [dense_not_ge ok.dh hn] at q
    cases q
  rw [post.ve v] at hf
  obtain ⟨d0, hd0⟩ := Option.isSome_iff_exists.mp post.v0_in
  obtain ⟨d1, hd1⟩ := Option.isSome_iff_exists.mp post.v1_in
  by_cases e1 : v = v1
  · subst e1
    by_cases e0 : v = v0
    · subst e0
      simp only [if_true, hd0, Option.map_some', Option.some.injEq] at hf
      have n1 := notin v d0 (m.m_halfedges.length + 1) hd0 (by omega)
      rw [push_incident_new _ _ n1] at hf
      have n0 : some m.m_halfedges.length ∉ d0.m_halfedges ++ [some (m.m_halfedges.length + 1)] := by
        have := notin v d0 m.m_halfedges.length hd0 (by omega)
        simp [this]
      rw [push_incident_new _ _ n0] at hf
      subst hf
      exact ⟨d0, hd0, rfl, by simp⟩
    · simp only [if_true, e0, if_false, hd1, Option.map_some', Option.some.injEq] at hf
      have n0 := notin v d1 m.m_halfedges.length hd1 (by omega)
      rw [push_incident_new _ _ n0] at hf
      subst hf
      exact ⟨d1, hd1, rfl, by simp [e0]⟩
  · by_cases e0 : v = v0
    · subst e0
      simp only [e1, if_false, if_true, hd0, Option.map_some', Option.some.injEq] at hf
      have n1 := notin v d0 (m.m_halfedges.length + 1) hd0 (by omega)
      rw [push_incident_new _ _ n1] at hf
      subst hf
      exact ⟨d0, hd0, rfl, by simp [e1]⟩
    · simp only [e1, e0, if_false] at hf
      exact ⟨vd1, hf, rfl, by simp [e0, e1]⟩

theorem add_edge_post_vertex_some {m m1 : mesh_t R} {v0 v1 : vertex_descriptor_t}
    {h : halfedge_descriptor_t} (post : add_edge_post m m1 v0 v1 h)
    (v : vertex_descriptor_t) :
    (map_find m1.m_vertices v).isSome = (map_find m.m_vertices v).isSome := by
  rw [post.ve v]
  obtain ⟨d0, hd0⟩ := Option.isSome_iff_exists.mp post.v0_in
  obtain ⟨d1, hd1⟩ := Option.isSome_iff_exists.mp post.v1_in
  by_cases e1 : v = v1
  · subst e1
    by_cases e0 : v = v0
    · subst e0; simp [hd0]
    · simp [e0, hd1]
  · by_cases e0 : v = v0
    · subst e0; simp [e1, hd0]
    · simp [e0, e1]

/-- A half-edge record of the mesh before `add_edge` is not changed. -/
theorem add_edge_post_old {m m1 : mesh_t R} {v0 v1 : vertex_descriptor_t}
    {h : halfedge_descriptor_t} (ok : edges_ok m) (post : add_edge_post m m1 v0 v1 h)
    (k : halfedge_descriptor_t) (hd : halfedge_data_t)
    (hf : map_find m.m_halfedges k = some hd) : map_find m1.m_halfedges k = some hd := by
  obtain ⟨n, rfl, hn⟩ := dense_key ok.dh hf
  rw [post.he]
  have a : ¬ (some n : descriptor_t) = some (m.m_halfedges.length + 1) := by
    simp only [Option.some.injEq]; omega
  have b : ¬ (some n : descriptor_t) = some m.m_halfedges.length := by
    simp only [Option.some.injEq]; omega
  simp only [a, b, if_false]
  exact hf

theorem add_edge_post_old_edge {m m1 : mesh_t R} {v0 v1 : vertex_descriptor_t}
    {h : halfedge_descriptor_t} (ok : edges_ok m) (post : add_edge_post m m1 v0 v1 h)
    (k : edge_descriptor_t) (ed : edge_data_t)
    (hf : map_find m.m_edges k = some ed) : map_find m1.m_edges k = some ed := by
  obtain ⟨n, rfl, hn⟩ := dense_key ok.de hf
  rw [post.ed]
  have a : ¬ (some n : descriptor_t) = some m.m_edges.length := by
    simp only [Option.some.injEq]; omega
  simp only [a, if_false]
  exact hf

/-- The half-edge records of the mesh after `add_edge`. -/
theorem add_edge_post_cases {m m1 : mesh_t R} {v0 v1 : vertex_descriptor_t}
    {h : halfedge_descriptor_t} (post : add_edge_post m m1 v0 v1 h)
    (k : halfedge_descriptor_t) (hd : halfedge_data_t)
    (hf : map_find m1.m_halfedges k = some hd) :
    (k = some (m.m_halfedges.length + 1) ∧
      hd = { o := some m.m_halfedges.length, n := null_halfedge, p := null_halfedge, t := v0,
             e := some m.m_edges.length, f := null_face }) ∨
    (k = some m.m_halfedges.length ∧
      hd = { o := some (m.m_halfedges.length + 1), n := null_halfedge, p := null_halfedge, t := v1,
             e := some m.m_edges.length, f := null_face }) ∨
    (k ≠ some (m.m_halfedges.length + 1) ∧ k ≠ some m.m_halfedges.length ∧
      map_find m.m_halfedges k = some hd) := by
  rw [post.he] at hf
  by_cases a : k = some (m.m_halfedges.length + 1)
  · left
    simp only [a, if_true, Option.some.injEq] at hf
    exact ⟨a, hf.symm⟩
  · by_cases b : k = some m.m_halfedges.length
    · right; left
      simp only [a, b, if_true, if_false, Option.some.injEq] at hf
      have c : ¬ m.m_halfedges.length = m.m_halfedges.length + 1 := by omega
      simp only [c, if_false, Option.some.injEq] at hf
      exact ⟨b, hf.symm⟩
    · right; right
      simp only [a, b, if_false] at hf
      exact ⟨a, b, hf⟩

theorem add_edge_post_h1 {m m1 : mesh_t R} {v0 v1 : vertex_descriptor_t}
    {h : halfedge_descriptor_t} (post : add_edge_post m m1 v0 v1 h) :
    map_find m1.m_halfedges (some (m.m_halfedges.length + 1)) =
      some { o := some m.m_halfedges.length, n := null_halfedge, p := null_halfedge, t := v0,
             e := some m.m_edges.length, f := null_face } := by
  rw [post.he]; simp

theorem add_edge_post_h0 {m m1 : mesh_t R} {v0 v1 : vertex_descriptor_t}
    {h : halfedge_descriptor_t} (post : add_edge_post m m1 v0 v1 h) :
    map_find m1.m_halfedges (some m.m_halfedges.length) =
      some { o := some (m.m_halfedges.length + 1), n := null_halfedge, p := null_halfedge, t := v1,
             e := some m.m_edges.length, f := null_face } := by
  rw [post.he]; simp

theorem add_edge_post_e {m m1 : mesh_t R} {v0 v1 : vertex_descriptor_t}
    {h : halfedge_descriptor_t} (post : add_edge_post m m1 v0 v1 h) :
    map_find m1.m_edges (some m.m_edges.length) = some { h := some m.m_halfedges.length } := by
  rw [post.ed]; simp

theorem edges_ok_add_edge_post {m m1 : mesh_t R} {v0 v1 : vertex_descriptor_t}
    {h : halfedge_descriptor_t} (ok : edges_ok m) (post : add_edge_post m m1 v0 v1 h) :
    edges_ok m1 := by
  have vsome := add_edge_post_vertex_some post
  constructor
  · rw [post.vr]; exact ok.vr
  · rw [post.er]; exact ok.er
  · rw [post.hr]; exact ok.hr
  · intro k
    rw [vsome k, post.vlen]
    exact ok.dv k
  · exact dense_of_insert_eqs ok.de _ post.ed post.elen
  · intro k
    rw [post.he k, post.hlen]
    by_cases a : k = some (m.m_halfedges.length + 1)
    · subst a; simp
    · by_cases b : k = some m.m_halfedges.length
      · subst b; simp
      · simp only [a, b, if_false]
        rw [ok.dh k]
        constructor
        · rintro ⟨n, rfl, hn⟩; exact ⟨n, rfl, by omega⟩
        · rintro ⟨n, rfl, hn⟩
          refine ⟨n, rfl, ?_⟩
          have a1 : n ≠ m.m_halfedges.length + 1 := fun e => a (by rw [e])
          have b1 : n ≠ m.m_halfedges.length := fun e => b (by rw [e])
          omega
  · intro k hd hf
    rcases add_edge_post_cases post k hd hf with ⟨rfl, rfl⟩ | ⟨rfl, rfl⟩ | ⟨a, b, hold⟩
    · refine ⟨?_, ⟨_, add_edge_post_h0 post, rfl, rfl⟩, ?_, ⟨_, add_edge_post_e post, Or.inr rfl⟩⟩
      · simp
      · rw [vsome]; exact post.v0_in
    · refine ⟨?_, ⟨_, add_edge_post_h1 post, rfl, rfl⟩, ?_, ⟨_, add_edge_post_e post, Or.inl rfl⟩⟩
      · simp
      · rw [vsome]; exact post.v1_in
    · obtain ⟨p1, ⟨od, q1, q2, q3⟩, p3, ⟨ed, r1, r2⟩⟩ := ok.hprop k hd hold
      refine ⟨p1, ⟨od, add_edge_post_old ok post _ _ q1, q2, q3⟩, ?_,
        ⟨ed, add_edge_post_old_edge ok post _ _ r1, r2⟩⟩
      rw [vsome]; exact p3
  · intro e ed hf
    rw [post.ed] at hf
    by_cases a : e = some m.m_edges.length
    · simp only [a, if_true, Option.some.injEq] at hf
      subst hf
      exact ⟨_, add_edge_post_h0 post, a.symm⟩
    · simp only [a, if_false] at hf
      obtain ⟨hd, q1, q2⟩ := ok.eprop e ed hf
      exact ⟨hd, add_edge_post_old ok post _ _ q1, q2⟩
  · intro v vd1 hf
    obtain ⟨vd, hv, _, hl⟩ := add_edge_post_vertex ok post v vd1 hf
    obtain ⟨nd, mem⟩ := ok.vprop v vd hv
    have notin : ∀ n : Nat, m.m_halfedges.length ≤ n → some n ∉ vd.m_halfedges := by
      intro n hn hmem
      obtain ⟨hd, q, _⟩ := (mem (some n)).1 hmem
      rw [dense_not_ge ok.dh hn] at q
      cases q
    have n0 := notin m.m_halfedges.length (by omega)
    have n1 := notin (m.m_halfedges.length + 1) (by omega)
    constructor
    · rw [hl, List.nodup_append]
      refine ⟨nd, ?_, ?_⟩
      · split <;> split <;> simp
      · intro a ha hb
        have : a = some (m.m_halfedges.length + 1) ∨ a = some m.m_halfedges.length := by
          rw [List.mem_append] at hb
          rcases hb with hb | hb
          · split at hb
            · left; simpa using hb
            · simp at hb
          · split at hb
            · right; simpa using hb
            · simp at hb
        rcases this with rfl | rfl
        · exact n1 ha
        · exact n0 ha
    · intro k
      rw [hl]
      constructor
      · intro hk
        rw [List.mem_append] at hk
        rcases hk with hk | hk
        · obtain ⟨hd, q1, q2⟩ := (mem k).1 hk
          exact ⟨hd, add_edge_post_old ok post _ _ q1, q2⟩
        · rw [List.mem_append] at hk
          rcases hk with hk | hk
          · by_cases e0 : v = v0
            · simp only [e0, if_true, List.mem_singleton] at hk
              subst hk
              exact ⟨_, add_edge_post_h1 post, e0.symm⟩
            · simp [e0] at hk
          · by_cases e1 : v = v1
            · simp only [e1, if_true, List.mem_singleton] at hk
              subst hk
              exact ⟨_, add_edge_post_h0 post, e1.symm⟩
            · simp [e1] at hk
      · rintro ⟨hd, q1, q2⟩
        rcases add_edge_post_cases post k hd q1 with ⟨rfl, rfl⟩ | ⟨rfl, rfl⟩ | ⟨a, b, hold⟩
        · simp only at q2
          simp [q2]
        · simp only at q2
          simp [q2]
        · rw [List.mem_append]
          left
          exact (mem k).2 ⟨hd, hold, q2⟩

theorem edges_ok_add_edge {m m1 : mesh_t R} {v0 v1 : vertex_descriptor_t}
    {h : halfedge_descriptor_t} (ok : edges_ok m)
    (hrun : add_edge v0 v1 m = (Except.ok h, m1)) : edges_ok m1 :=
  edges_ok_add_edge_post ok (add_edge_inv m m1 v0 v1 h ok.hr ok.er ok.dh ok.de hrun)

/-! ## The navigation queries -/

theorem bne_null_iff (h : descriptor_t) : (h != (none : descriptor_t)) = true ↔ h ≠ none := by
  cases h <;> simp

theorem some_bne_null (n : Nat) : ((some n : descriptor_t) != (none : descriptor_t)) = true := by
  simp

theorem accessor_run (m : mesh_t R) (h : halfedge_descriptor_t) (g : halfedge_data_t → descriptor_t) :
    (do
      MCUT_ASSERT (h != null_halfedge)
      MCUT_ASSERT (map_count m.m_halfedges h == 1)
      let hd ← map_at m.m_halfedges h
      pure (g hd) : Except error descriptor_t) =
    match h, map_find m.m_halfedges h with
    | some _, some hd => Except.ok (g hd)
    | _, _ => Except.error error.assertion_failed := by
  cases h with
  | none => simp [null_halfedge, assert_false, except_bind_error]
  | some n =>
    cases hf : map_find m.m_halfedges (some n) with
    | none =>
      simp [null_halfedge, some_bne_null, assert_true, except_bind_ok, map_count_eq_one, hf,
        assert_false, except_bind_error]
    | some hd =>
      simp [null_halfedge, some_bne_null, assert_true, except_bind_ok, map_count_eq_one, hf,
        map_at_of_find hf]

theorem accessor_ok (m : mesh_t R) (h : halfedge_descriptor_t) (g : halfedge_data_t → descriptor_t)
    (r : descriptor_t) :
    (match h, map_find m.m_halfedges h with
      | some _, some hd => Except.ok (g hd)
      | _, _ => (Except.error error.assertion_failed : Except error descriptor_t)) = Except.ok r ↔
    h ≠ none ∧ ∃ hd, map_find m.m_halfedges h = some hd ∧ g hd = r := by
  cases h with
  | none => simp
  | some n =>
    cases hf : map_find m.m_halfedges (some n) with
    | none => simp
    | some hd => simp

theorem edge_eq_ok {m : mesh_t R} {h : halfedge_descriptor_t} {e : edge_descriptor_t} :
    edge m h = Except.ok e ↔ h ≠ none ∧ ∃ hd, map_find m.m_halfedges h = some hd ∧ hd.e = e := by
  unfold edge
  rw [accessor_run m h (fun hd => hd.e), accessor_ok]

theorem face_eq_ok {m : mesh_t R} {h : halfedge_descriptor_t} {f : face_descriptor_t} :
    face m h = Except.ok f ↔ h ≠ none ∧ ∃ hd, map_find m.m_halfedges h = some hd ∧ hd.f = f := by
  unfold face
  rw [accessor_run m h (fun hd => hd.f), accessor_ok]

theorem target_eq_ok {m : mesh_t R} {h : halfedge_descriptor_t} {v : vertex_descriptor_t} :
    target m h = Except.ok v ↔ h ≠ none ∧ ∃ hd, map_find m.m_halfedges h = some hd ∧ hd.t = v := by
  unfold target
  rw [accessor_run m h (fun hd => hd.t), accessor_ok]

theorem opposite_eq_ok {m : mesh_t R} {h o : halfedge_descriptor_t} :
    opposite m h = Except.ok o ↔ h ≠ none ∧ ∃ hd, map_find m.m_halfedges h = some hd ∧ hd.o = o := by
  unfold opposite
  rw [accessor_run m h (fun hd => hd.o), accessor_ok]

theorem next_eq_ok {m : mesh_t R} {h n : halfedge_descriptor_t} :
    next m h = Except.ok n ↔ h ≠ none ∧ ∃ hd, map_find m.m_halfedges h = some hd ∧ hd.n = n := by
  unfold next
  rw [accessor_run m h (fun hd => hd.n), accessor_ok]

theorem prev_eq_ok {m : mesh_t R} {h p : halfedge_descriptor_t} :
    prev m h = Except.ok p ↔ h ≠ none ∧ ∃ hd, map_find m.m_halfedges h = some hd ∧ hd.p = p := by
  unfold prev
  rw [accessor_run m h (fun hd => hd.p), accessor_ok]

theorem source_eq_ok {m : mesh_t R} {h : halfedge_descriptor_t} {v : vertex_descriptor_t} :
    source m h = Except.ok v ↔
      h ≠ none ∧ ∃ hd od, map_find m.m_halfedges h = some hd ∧ hd.o ≠ none ∧
        map_find m.m_halfedges hd.o = some od ∧ od.t = v := by
  unfold source
  cases h with
  | none => simp [null_halfedge, assert_false, except_bind_error]
  | some n =>
    cases hf : map_find m.m_halfedges (some n) with
    | none =>
      have : map_at m.m_halfedges (some n) = Except.error error.out_of_range := by
        simp [map_at, hf]
      simp [null_halfedge, some_bne_null, assert_true, except_bind_ok, this, except_bind_error]
    | some hd =>
      simp only [null_halfedge, bne_self_eq_false, Bool.not_false, ne_eq, not_false_eq_true,
        true_and, Option.some.injEq, exists_and_left, exists_eq_left']
      have e1 : ((some n : descriptor_t) != none) = true := by simp
      rw [e1, assert_true, except_bind_ok, map_at_of_find hf, except_bind_ok]
      cases ho : hd.o with
      | none => simp [assert_false, except_bind_error]
      | some k =>
        have e2 : ((some k : descriptor_t) != none) = true := by simp
        rw [e2, assert_true, except_bind_ok]
        cases hof : map_find m.m_halfedges (some k) with
        | none =>
          have : map_at m.m_halfedges (some k) = Except.error error.out_of_range := by
            simp [map_at, hof]
          simp [this, except_bind_error]
        | some od =>
          rw [map_at_of_find hof, except_bind_ok]
          simp [pure, Except.pure]

/-! ## The scan of `add_face` for a connecting edge -/

theorem add_face_scan_v1_inv (m : mesh_t R) (v0_e : edge_descriptor_t)
    (l : List halfedge_descriptor_t) (r : Option halfedge_descriptor_t)
    (hrun : add_face_scan_v1 m v0_e l = Except.ok r) :
    (∀ h, r = some h → h ∈ l ∧ edge m h = Except.ok v0_e) ∧
    (r = none → ∀ h, h ∈ l → ∃ e, edge m h = Except.ok e ∧ e ≠ v0_e) := by
  induction l with
  | nil =>
    simp only [add_face_scan_v1, pure, Except.pure, Except.ok.injEq] at hrun
    subst hrun
    simp
  | cons a rest ih =>
    simp only [add_face_scan_v1] at hrun
    obtain ⟨e, he, hrun⟩ := except_bind_inv hrun
    by_cases c : v0_e = e
    · simp only [c, if_true, pure, Except.pure, Except.ok.injEq] at hrun
      subst hrun
      subst c
      simp [he]
    · simp only [c, if_false] at hrun
      obtain ⟨i1, i2⟩ := ih hrun
      constructor
      · intro h hr
        obtain ⟨p, q⟩ := i1 h hr
        exact ⟨List.mem_cons_of_mem _ p, q⟩
      · intro hr h hmem
        rcases List.mem_cons.1 hmem with rfl | hmem
        · exact ⟨e, he, fun x => c x.symm⟩
        · exact i2 hr h hmem

theorem add_face_scan_inv (m : mesh_t R) (l1 l0 : List halfedge_descriptor_t)
    (r : Option halfedge_descriptor_t)
    (hrun : add_face_scan m l1 l0 = Except.ok r) :
    (∀ h, r = some h → h ∈ l1 ∧ ∃ h0, h0 ∈ l0 ∧ ∃ e, edge m h0 = Except.ok e ∧ edge m h = Except.ok e) ∧
    (r = none → ∀ h0, h0 ∈ l0 → ∀ h, h ∈ l1 →
      ∃ e0 e1, edge m h0 = Except.ok e0 ∧ edge m h = Except.ok e1 ∧ e0 ≠ e1) := by
  induction l0 with
  | nil =>
    simp only [add_face_scan, pure, Except.pure, Except.ok.injEq] at hrun
    subst hrun
    simp
  | cons a rest ih =>
    simp only [add_face_scan] at hrun
    obtain ⟨e, he, hrun⟩ := except_bind_inv hrun
    obtain ⟨r1, hr1, hrun⟩ := except_bind_inv hrun
    obtain ⟨s1, s2⟩ := add_face_scan_v1_inv m e l1 r1 hr1
    cases r1 with
    | some h1 =>
      simp only [pure, Except.pure, Except.ok.injEq] at hrun
      subst hrun
      obtain ⟨p, q⟩ := s1 h1 rfl
      constructor
      · intro h hh
        simp only [Option.some.injEq] at hh
        subst hh
        exact ⟨p, a, List.mem_cons_self _ _, e, he, q⟩
      · intro hh; cases hh
    | none =>
      simp only at hrun
      obtain ⟨i1, i2⟩ := ih hrun
      constructor
      · intro h hr
        obtain ⟨p, h0, q1, q2⟩ := i1 h hr
        exact ⟨p, h0, List.mem_cons_of_mem _ q1, q2⟩
      · intro hr h0 hmem h hm1
        rcases List.mem_cons.1 hmem with rfl | hmem
        · obtain ⟨e1, q1, q2⟩ := s2 rfl h hm1
          exact ⟨e, e1, he, q1, fun x => q2 x.symm⟩
        · exact i2 hr h0 hmem h hm1

/-! ## One round of the first loop of `add_face` -/

theorem add_face_push_run (fnew : face_descriptor_t) (fd : face_data_t)
    (h : halfedge_descriptor_t) (m : mesh_t R) :
    add_face_push fnew false fd h m = (Except.ok { m_halfedges := fd.m_halfedges ++ [h] }, m) := by
  simp [add_face_push]

theorem update_inv {f : mesh_t R → mesh_t R} {m m1 : mesh_t R} {u : Unit}
    (h : mesh_op.update f m = (Except.ok u, m1)) : m1 = f m := by
  rw [update_run] at h
  simp only [Prod.mk.injEq] at h
  exact h.2.symm

theorem pure_inv {A : Type} {a b : A} {m m1 : mesh_t R}
    (h : (pure a : mesh_op R A) m = (Except.ok b, m1)) : b = a ∧ m1 = m := by
  rw [pure_run] at h
  simp only [Prod.mk.injEq, Except.ok.injEq] at h
  exact ⟨h.1.symm, h.2.symm⟩

theorem add_face_step_inv {m m1 : mesh_t R} {vi : List vertex_descriptor_t}
    {fnew : face_descriptor_t} {fd fd1 : face_data_t} {i : Nat}
    (hrun : add_face_step vi fnew false fd i m = (Except.ok fd1, m1)) :
    ∃ v0 v1 d0 d1 r h,
      vi[i]? = some v0 ∧ v0 ≠ none ∧ vi[(i + 1) % vi.length]? = some v1 ∧ v1 ≠ none ∧
      map_find m.m_vertices v0 = some d0 ∧ map_find m.m_vertices v1 = some d1 ∧
      add_face_scan m d1.m_halfedges d0.m_halfedges = Except.ok r ∧
      fd1 = { m_halfedges := fd.m_halfedges ++ [h] } ∧
      ((r = some h ∧ (∃ hd, map_find m.m_halfedges h = some hd ∧ hd.f = null_face) ∧
          m1 = bind_face m h fnew) ∨
       (r = none ∧ ∃ me, add_edge v0 v1 m = (Except.ok h, me) ∧
          (∃ hd, map_find me.m_halfedges h = some hd ∧ hd.f = null_face) ∧
          m1 = bind_face me h fnew)) := by
  unfold add_face_step at hrun
  obtain ⟨v0, ma, e1, hrun1⟩ := bind_inv hrun
  obtain ⟨a1, rfl⟩ := eval_inv e1
  obtain ⟨u2, mb, e2, hrun2⟩ := bind_inv hrun1
  obtain ⟨a2, rfl⟩ := eval_inv e2
  obtain ⟨v1, mc, e3, hrun3⟩ := bind_inv hrun2
  obtain ⟨a3, rfl⟩ := eval_inv e3
  obtain ⟨u4, md, e4, hrun4⟩ := bind_inv hrun3
  obtain ⟨a4, rfl⟩ := eval_inv e4
  obtain ⟨d0, me, e5, hrun5⟩ := bind_inv hrun4
  obtain ⟨a5, rfl⟩ := eval_inv e5
  obtain ⟨d1, mf, e6, hrun6⟩ := bind_inv hrun5
  obtain ⟨a6, rfl⟩ := eval_inv e6
  obtain ⟨r, mg, e7, hrun7⟩ := bind_inv hrun6
  obtain ⟨a7, rfl⟩ := eval_inv e7
  clear hrun hrun1 hrun2 hrun3 hrun4 hrun5 hrun6 e1 e2 e3 e4 e5 e6 e7
  have b1 := vector_at_eq_ok.1 a1
  have b2 := (bne_null_iff v0).1 (assert_eq_ok.1 a2)
  have b3 := vector_at_eq_ok.1 a3
  have b4 := (bne_null_iff v1).1 (assert_eq_ok.1 a4)
  have b5 := map_at_eq_ok.1 a5
  have b6 := map_at_eq_ok.1 a6
  cases r with
  | some v1_h =>
    simp only at hrun7
    obtain ⟨u8, mh, e8, hrun8⟩ := bind_inv hrun7
    obtain ⟨a8, rfl⟩ := eval_inv e8
    obtain ⟨u9, mi, e9, hrun9⟩ := bind_inv hrun8
    obtain ⟨a9, rfl⟩ := eval_inv e9
    rw [bind_ok (add_face_push_run fnew fd v1_h m)] at hrun9
    obtain ⟨hd, mj, e10, hrun10⟩ := bind_inv hrun9
    obtain ⟨a10, rfl⟩ := eval_inv e10
    obtain ⟨u11, mk, e11, hrun11⟩ := bind_inv hrun10
    obtain ⟨a11, rfl⟩ := eval_inv e11
    obtain ⟨u12, ml, e12, hrun12⟩ := bind_inv hrun11
    have a12 := update_inv e12
    obtain ⟨c1, c2⟩ := pure_inv hrun12
    subst c1
    subst c2
    subst a12
    refine ⟨v0, v1, d0, d1, some v1_h, v1_h, b1, b2, b3, b4, b5, b6, a7, rfl, Or.inl ⟨rfl, ?_, rfl⟩⟩
    refine ⟨hd, map_at_eq_ok.1 a10, ?_⟩
    have := assert_eq_ok.1 a11
    simpa using this
  | none =>
    simp only at hrun7
    obtain ⟨h, mh, e8, hrun8⟩ := bind_inv hrun7
    obtain ⟨u9, mi, e9, hrun9⟩ := bind_inv hrun8
    obtain ⟨a9, rfl⟩ := eval_inv e9
    obtain ⟨u9b, mi2, e9b, hrun9b⟩ := bind_inv hrun9
    obtain ⟨a9b, rfl⟩ := eval_inv e9b
    rw [bind_ok (add_face_push_run fnew fd h mh)] at hrun9b
    obtain ⟨hd, mj, e10, hrun10⟩ := bind_inv hrun9b
    obtain ⟨a10, rfl⟩ := eval_inv e10
    obtain ⟨u11, mk, e11, hrun11⟩ := bind_inv hrun10
    obtain ⟨a11, rfl⟩ := eval_inv e11
    obtain ⟨u12, ml, e12, hrun12⟩ := bind_inv hrun11
    have a12 := update_inv e12
    obtain ⟨c1, c2⟩ := pure_inv hrun12
    subst c1
    subst c2
    subst a12
    refine ⟨v0, v1, d0, d1, none, h, b1, b2, b3, b4, b5, b6, a7, rfl,
      Or.inr ⟨rfl, mh, e8, ?_, rfl⟩⟩
    refine ⟨hd, map_at_eq_ok.1 a10, ?_⟩
    have := assert_eq_ok.1 a11
    simpa using this

/-! ## The loops of `add_face` -/

theorem add_face_loop_cons {vi : List vertex_descriptor_t} {fnew : face_descriptor_t}
    {reusing : Bool} {i : Nat} {rest : List Nat} {fd fd2 : face_data_t} {m m2 : mesh_t R}
    (hrun : add_face_loop vi fnew reusing (i :: rest) fd m = (Except.ok fd2, m2)) :
    ∃ fd1 m1, add_face_step vi fnew reusing fd i m = (Except.ok fd1, m1) ∧
      add_face_loop vi fnew reusing rest fd1 m1 = (Except.ok fd2, m2) := by
  simp only [add_face_loop] at hrun
  exact bind_inv hrun

theorem add_face_loop_nil {vi : List vertex_descriptor_t} {fnew : face_descriptor_t}
    {reusing : Bool} {fd fd2 : face_data_t} {m m2 : mesh_t R}
    (hrun : add_face_loop vi fnew reusing [] fd m = (Except.ok fd2, m2)) :
    fd2 = fd ∧ m2 = m := by
  simp only [add_face_loop] at hrun
  exact pure_inv hrun

/-- Induction along the first loop of `add_face`: a property of the number
of rounds done, the mesh and the boundary collected so far that every round
keeps holds when the loop ends. -/
theorem add_face_loop_induct {vi : List vertex_descriptor_t} {fnew : face_descriptor_t}
    {reusing : Bool} (P : Nat → mesh_t R → face_data_t → Prop)
    (step : ∀ (k : Nat) (m m1 : mesh_t R) (fd fd1 : face_data_t), P k m fd →
      add_face_step vi fnew reusing fd k m = (Except.ok fd1, m1) → P (k + 1) m1 fd1)
    (n : Nat) : ∀ (k : Nat) (m m2 : mesh_t R) (fd fd2 : face_data_t), P k m fd →
      add_face_loop vi fnew reusing (List.range' k n) fd m = (Except.ok fd2, m2) →
      P (k + n) m2 fd2 := by
  induction n with
  | zero =>
    intro k m m2 fd fd2 hp hrun
    simp only [List.range'_zero] at hrun
    obtain ⟨rfl, rfl⟩ := add_face_loop_nil hrun
    exact hp
  | succ n ih =>
    intro k m m2 fd fd2 hp hrun
    simp only [List.range'_succ] at hrun
    obtain ⟨fd1, m1, s1, s2⟩ := add_face_loop_cons hrun
    have := ih (k + 1) m1 m2 fd1 fd2 (step k m m1 fd fd1 hp s1) s2
    have e : k + (n + 1) = k + 1 + n := by omega
    rw [e]
    exact this

/-! ## The invariant of the faces along `add_face` -/

theorem faces_ok_empty : faces_ok (mesh_t.empty R) := by
  constructor
  · rfl
  · exact dense_nil
  · intro f fd hf; simp [mesh_t.empty, map_find] at hf
  · intro h hd hf; simp [mesh_t.empty, map_find] at hf

theorem faces_ok_add_vertex {m m1 : mesh_t R} {x y z : R} {v : vertex_descriptor_t}
    (ok : edges_ok m) (fok : faces_ok m) (hrun : add_vertex x y z m = (Except.ok v, m1)) :
    faces_ok m1 := by
  rw [add_vertex_run m x y z ok.vr ok.dv] at hrun
  simp only [Prod.mk.injEq, Except.ok.injEq] at hrun
  obtain ⟨rfl, rfl⟩ := hrun
  exact ⟨fok.fr, fok.df, fok.cyc, fok.bound⟩

theorem faces_mid_of_ok {m : mesh_t R} (fok : faces_ok m) :
    faces_mid m (some m.m_faces.length) [] := by
  constructor
  · exact fok.fr
  · exact fok.df
  · rfl
  · exact fok.cyc
  · intro h hd hf hn
    exact Or.inl (fok.bound h hd hf hn)
  · intro h hm; cases hm
  · exact List.nodup_nil

theorem bind_face_find (m : mesh_t R) (h : halfedge_descriptor_t) (f : face_descriptor_t)
    (k : halfedge_descriptor_t) :
    map_find (bind_face m h f).m_halfedges k =
      if k = h then (map_find m.m_halfedges h).map (fun d => { d with f := f })
      else map_find m.m_halfedges k := by
  simp only [bind_face, map_find_modify]

theorem same_edges_bind_face (m : mesh_t R) (h : halfedge_descriptor_t) (f : face_descriptor_t) :
    same_edges m (bind_face m h f) := by
  constructor
  · rfl
  · rfl
  · rfl
  · rfl
  · rfl
  · simp [bind_face, map_modify_length]
  · intro k
    rw [bind_face_find]
    by_cases e : k = h
    · subst e
      cases map_find m.m_halfedges k <;> simp [halfedge_core]
    · simp [e]

theorem face_cycle_congr {m m1 : mesh_t R} {f : face_descriptor_t}
    {hs : List halfedge_descriptor_t}
    (same : ∀ h, h ∈ hs → map_find m1.m_halfedges h = map_find m.m_halfedges h)
    (c : face_cycle m f hs) : face_cycle m1 f hs := by
  obtain ⟨nd, mem, lk⟩ := c
  refine ⟨nd, ?_, ?_⟩
  · intro h hm
    rw [same h hm]
    exact mem h hm
  · intro i h h1 e1 e2
    obtain ⟨hd, n1, q1, q2, q3, q4⟩ := lk i h h1 e1 e2
    have m1 : h ∈ hs := List.getElem?_mem e1
    have m2 : h1 ∈ hs := List.getElem?_mem e2
    exact ⟨hd, n1, by rw [same h m1]; exact q1, q2, by rw [same h1 m2]; exact q3, q4⟩

theorem faces_mid_bind_face {m : mesh_t R} {fnew : face_descriptor_t}
    {hs : List halfedge_descriptor_t} {h : halfedge_descriptor_t} {hd : halfedge_data_t}
    (mid : faces_mid m fnew hs) (hf : map_find m.m_halfedges h = some hd)
    (hnull : hd.f = null_face) : faces_mid (bind_face m h fnew) fnew (hs ++ [h]) := by
  have fne : fnew ≠ null_face := by rw [mid.fnew_eq]; simp [null_face]
  have hnot : h ∉ hs := by
    intro hm
    obtain ⟨hd1, q1, q2⟩ := mid.mine h hm
    rw [hf] at q1
    simp only [Option.some.injEq] at q1
    subst q1
    exact fne (q2.symm.trans hnull)
  constructor
  · exact mid.fr
  · exact mid.df
  · exact mid.fnew_eq
  · intro f fd hfc
    refine face_cycle_congr ?_ (mid.cyc f fd hfc)
    intro k hk
    rw [bind_face_find]
    have : k ≠ h := by
      rintro rfl
      obtain ⟨hd1, q1, q2⟩ := (mid.cyc f fd hfc).2.1 k hk
      rw [hf] at q1
      simp only [Option.some.injEq] at q1
      subst q1
      obtain ⟨n, rfl, _⟩ := dense_key mid.df hfc
      rw [hnull] at q2
      simp [null_face] at q2
    simp [this]
  · intro k kd hk hn
    rw [bind_face_find] at hk
    by_cases e : k = h
    · subst e
      simp only [if_true, hf, Option.map_some', Option.some.injEq] at hk
      subst hk
      right
      exact ⟨rfl, by simp⟩
    · simp only [e, if_false] at hk
      rcases mid.bound k kd hk hn with p | ⟨p1, p2⟩
      · exact Or.inl p
      · exact Or.inr ⟨p1, List.mem_append_left _ p2⟩
  · intro k hk
    rw [bind_face_find]
    rw [List.mem_append] at hk
    rcases hk with hk | hk
    · have : k ≠ h := fun e => hnot (e ▸ hk)
      simp only [this, if_false]
      exact mid.mine k hk
    · simp only [List.mem_singleton] at hk
      subst hk
      simp [hf]
  · rw [List.nodup_append]
    refine ⟨mid.nodup, List.nodup_singleton _, ?_⟩
    intro a ha hb
    simp only [List.mem_singleton] at hb
    subst hb
    exact hnot ha

theorem faces_mid_add_edge_post {m m1 : mesh_t R} {fnew : face_descriptor_t}
    {hs : List halfedge_descriptor_t} {v0 v1 : vertex_descriptor_t} {h : halfedge_descriptor_t}
    (ok : edges_ok m) (mid : faces_mid m fnew hs) (post : add_edge_post m m1 v0 v1 h) :
    faces_mid m1 fnew hs := by
  constructor
  · rw [post.fr]; exact mid.fr
  · rw [post.faces]; exact mid.df
  · rw [post.faces]; exact mid.fnew_eq
  · intro f fd hfc
    rw [post.faces] at hfc
    refine face_cycle_congr ?_ (mid.cyc f fd hfc)
    intro k hk
    obtain ⟨hd1, q1, _⟩ := (mid.cyc f fd hfc).2.1 k hk
    rw [add_edge_post_old ok post k hd1 q1, q1]
  · intro k kd hk hn
    rw [post.faces]
    rcases add_edge_post_cases post k kd hk with ⟨_, rfl⟩ | ⟨_, rfl⟩ | ⟨_, _, hold⟩
    · exact absurd rfl hn
    · exact absurd rfl hn
    · exact mid.bound k kd hold hn
  · intro k hk
    obtain ⟨hd1, q1, q2⟩ := mid.mine k hk
    exact ⟨hd1, add_edge_post_old ok post k hd1 q1, q2⟩
  · exact mid.nodup

/-- One round of the first loop of `add_face` keeps the invariants. -/
theorem add_face_step_ok {m m1 : mesh_t R} {vi : List vertex_descriptor_t}
    {fnew : face_descriptor_t} {fd fd1 : face_data_t} {i : Nat}
    (ok : edges_ok m) (mid : faces_mid m fnew fd.m_halfedges)
    (hrun : add_face_step vi fnew false fd i m = (Except.ok fd1, m1)) :
    edges_ok m1 ∧ faces_mid m1 fnew fd1.m_halfedges := by
  obtain ⟨v0, v1, d0, d1, r, h, _, _, _, _, _, _, _, rfl, hcase⟩ := add_face_step_inv hrun
  rcases hcase with ⟨_, ⟨hd, hf, hnull⟩, rfl⟩ | ⟨_, me, hadd, ⟨hd, hf, hnull⟩, rfl⟩
  · exact ⟨edges_ok_same_edges ok (same_edges_bind_face m h fnew),
      faces_mid_bind_face mid hf hnull⟩
  · have post := add_edge_inv m me v0 v1 h ok.hr ok.er ok.dh ok.de hadd
    have ok1 := edges_ok_add_edge_post ok post
    have mid1 := faces_mid_add_edge_post ok mid post
    exact ⟨edges_ok_same_edges ok1 (same_edges_bind_face me h fnew),
      faces_mid_bind_face mid1 hf hnull⟩

/-! ## The second loop of `add_face` -/

theorem map_find_modify_isSome {D : Type} (m : map_t D) (k : descriptor_t) (f : D → D)
    (k1 : descriptor_t) :
    (map_find (map_modify m k f) k1).isSome = (map_find m k1).isSome := by
  rw [map_find_modify]
  by_cases e : k1 = k
  · subst e; simp
  · simp [e]

theorem set_previous_inv {h prv : halfedge_descriptor_t} {m m1 : mesh_t R} {u : Unit}
    (hrun : set_previous h prv m = (Except.ok u, m1)) :
    h ≠ none ∧ prv ≠ none ∧ (map_find m.m_halfedges h).isSome ∧
      m1 = { m with m_halfedges := map_modify m.m_halfedges h (fun hd => { hd with p := prv }) } := by
  unfold set_previous at hrun
  obtain ⟨u1, ma, e1, hrun1⟩ := bind_inv hrun
  obtain ⟨a1, rfl⟩ := eval_inv e1
  obtain ⟨u2, mb, e2, hrun2⟩ := bind_inv hrun1
  obtain ⟨a2, rfl⟩ := eval_inv e2
  obtain ⟨u3, mc, e3, hrun3⟩ := bind_inv hrun2
  obtain ⟨a3, rfl⟩ := eval_inv e3
  have a4 := update_inv hrun3
  refine ⟨(bne_null_iff h).1 (assert_eq_ok.1 a1), (bne_null_iff prv).1 (assert_eq_ok.1 a2), ?_, a4⟩
  have := assert_eq_ok.1 a3
  rwa [map_count_eq_one] at this

theorem set_next_inv {h nxt : halfedge_descriptor_t} {m m1 : mesh_t R} {u : Unit}
    (hrun : set_next h nxt m = (Except.ok u, m1)) :
    h ≠ none ∧ nxt ≠ none ∧ (map_find m.m_halfedges h).isSome ∧
      (map_find m.m_halfedges nxt).isSome ∧ m1 = link_next m h nxt := by
  unfold set_next at hrun
  obtain ⟨u1, ma, e1, hrun1⟩ := bind_inv hrun
  obtain ⟨a1, rfl⟩ := eval_inv e1
  obtain ⟨u2, mb, e2, hrun2⟩ := bind_inv hrun1
  obtain ⟨a2, rfl⟩ := eval_inv e2
  obtain ⟨u3, mc, e3, hrun3⟩ := bind_inv hrun2
  obtain ⟨a3, rfl⟩ := eval_inv e3
  obtain ⟨u4, md, e4, hrun4⟩ := bind_inv hrun3
  have a4 := update_inv e4
  subst a4
  obtain ⟨b1, b2, b3, b4⟩ := set_previous_inv hrun4
  refine ⟨(bne_null_iff h).1 (assert_eq_ok.1 a1), b1, ?_, ?_, b4⟩
  · have := assert_eq_ok.1 a3
    rwa [map_count_eq_one] at this
  · simp only [map_find_modify_isSome] at b3
    exact b3

theorem link_next_find (m : mesh_t R) (a b k : halfedge_descriptor_t) :
    map_find (link_next m a b).m_halfedges k =
      if k = b then
        (if b = a then (map_find m.m_halfedges a).map (fun d => { d with n := b })
          else map_find m.m_halfedges b).map (fun d => { d with p := a })
      else if k = a then (map_find m.m_halfedges a).map (fun d => { d with n := b })
      else map_find m.m_halfedges k := by
  simp only [link_next, map_find_modify]

theorem link_next_other (m : mesh_t R) (a b k : halfedge_descriptor_t) (ha : k ≠ a) (hb : k ≠ b) :
    map_find (link_next m a b).m_halfedges k = map_find m.m_halfedges k := by
  rw [link_next_find]; simp [ha, hb]

theorem link_next_proj {A : Type} (m : mesh_t R) (a b k : halfedge_descriptor_t)
    (g : halfedge_data_t → A)
    (gn : ∀ (d : halfedge_data_t) (x : halfedge_descriptor_t), g { d with n := x } = g d)
    (gp : ∀ (d : halfedge_data_t) (x : halfedge_descriptor_t), g { d with p := x } = g d) :
    (map_find (link_next m a b).m_halfedges k).map g = (map_find m.m_halfedges k).map g := by
  rw [link_next_find]
  by_cases e1 : k = b
  · subst e1
    by_cases e2 : k = a
    · subst e2
      cases hk : map_find m.m_halfedges k with
      | none => simp
      | some d =>
        simp only [if_true, Option.map_some', Option.some.injEq]
        exact (gp { d with n := k } k).trans (gn d k)
    · cases hk : map_find m.m_halfedges k with
      | none => simp [e2]
      | some d =>
        simp only [if_true, e2, if_false, Option.map_some', Option.some.injEq]
        exact gp d a
  · by_cases e2 : k = a
    · subst e2
      cases hk : map_find m.m_halfedges k with
      | none => simp [e1]
      | some d =>
        simp only [e1, if_true, if_false, Option.map_some', Option.some.injEq]
        exact gn d b
    · simp [e1, e2]

theorem relinked_refl (m : mesh_t R) (hs : List halfedge_descriptor_t) : relinked m m hs := by
  refine ⟨⟨rfl, rfl, rfl, rfl, rfl, rfl, fun _ => rfl⟩, rfl, rfl, fun _ => rfl, fun _ _ => rfl⟩

theorem relinked_trans {m m1 m2 : mesh_t R} {hs : List halfedge_descriptor_t}
    (a : relinked m m1 hs) (b : relinked m1 m2 hs) : relinked m m2 hs := by
  refine ⟨⟨?_, ?_, ?_, ?_, ?_, ?_, ?_⟩, ?_, ?_, ?_, ?_⟩
  · rw [b.same.v, a.same.v]
  · rw [b.same.e, a.same.e]
  · rw [b.same.vr, a.same.vr]
  · rw [b.same.er, a.same.er]
  · rw [b.same.hr, a.same.hr]
  · rw [b.same.len, a.same.len]
  · intro h; rw [b.same.core, a.same.core]
  · rw [b.faces, a.faces]
  · rw [b.fr, a.fr]
  · intro k; rw [b.face, a.face]
  · intro k hk; rw [b.other k hk, a.other k hk]

theorem relinked_link_next (m : mesh_t R) (hs : List halfedge_descriptor_t)
    (a b : halfedge_descriptor_t) (ha : a ∈ hs) (hb : b ∈ hs) :
    relinked m (link_next m a b) hs := by
  refine ⟨⟨rfl, rfl, rfl, rfl, rfl, ?_, ?_⟩, rfl, rfl, ?_, ?_⟩
  · simp [link_next, map_modify_length]
  · intro k
    exact link_next_proj m a b k halfedge_core (fun _ _ => rfl) (fun _ _ => rfl)
  · intro k
    have := link_next_proj m a b k (fun d => d.f) (fun _ _ => rfl) (fun _ _ => rfl)
    exact this
  · intro k hk
    apply link_next_other
    · rintro rfl; exact hk ha
    · rintro rfl; exact hk hb

theorem relinked_find_f {m m1 : mesh_t R} {hs : List halfedge_descriptor_t}
    (r : relinked m m1 hs) {k : halfedge_descriptor_t} {hd : halfedge_data_t}
    (hf : map_find m.m_halfedges k = some hd) :
    ∃ hd1, map_find m1.m_halfedges k = some hd1 ∧ hd1.f = hd.f := by
  have := r.face k
  rw [hf] at this
  cases h1 : map_find m1.m_halfedges k with
  | none => rw [h1] at this; simp at this
  | some hd1 =>
    rw [h1] at this
    simp only [Option.map_some', Option.some.injEq] at this
    exact ⟨hd1, rfl, this⟩

theorem relinked_find_f_rev {m m1 : mesh_t R} {hs : List halfedge_descriptor_t}
    (r : relinked m m1 hs) {k : halfedge_descriptor_t} {hd1 : halfedge_data_t}
    (hf : map_find m1.m_halfedges k = some hd1) :
    ∃ hd, map_find m.m_halfedges k = some hd ∧ hd1.f = hd.f := by
  have := r.face k
  rw [hf] at this
  cases h1 : map_find m.m_halfedges k with
  | none => rw [h1] at this; simp at this
  | some hd =>
    rw [h1] at this
    simp only [Option.map_some', Option.some.injEq] at this
    exact ⟨hd, rfl, this⟩

/-- One round of the second loop of `add_face` links one more member of the
boundary. -/
theorem faces_link_step {m : mesh_t R} {fnew : face_descriptor_t}
    {hs : List halfedge_descriptor_t} {k : Nat} {a b : halfedge_descriptor_t}
    (fl : faces_link m fnew hs k) (hk : k < hs.length)
    (ha : hs[k]? = some a) (hb : hs[(k + 1) % hs.length]? = some b) :
    faces_link (link_next m a b) fnew hs (k + 1) := by
  have ma : a ∈ hs := List.getElem?_mem ha
  have mb : b ∈ hs := List.getElem?_mem hb
  have rl := relinked_link_next m hs a b ma mb
  obtain ⟨ad, fa, _⟩ := fl.mine a ma
  obtain ⟨bd, fb, _⟩ := fl.mine b mb
  have idx : ∀ (i j : Nat) (x : halfedge_descriptor_t), hs[i]? = some x → hs[j]? = some x → i = j := by
    intro i j x hi hj
    obtain ⟨li, ei⟩ := List.getElem?_eq_some_iff.1 hi
    obtain ⟨lj, ej⟩ := List.getElem?_eq_some_iff.1 hj
    exact (List.Nodup.getElem_inj_iff fl.nodup).1 (ei.trans ej.symm)
  constructor
  · exact fl.fr
  · exact fl.df
  · exact fl.stored
  · intro f fd hf hne
    refine face_cycle_congr ?_ (fl.cyc f fd hf hne)
    intro x hx
    apply rl.other
    intro hxs
    obtain ⟨xd, q1, q2⟩ := (fl.cyc f fd hf hne).2.1 x hx
    obtain ⟨xd1, r1, r2⟩ := fl.mine x hxs
    rw [q1] at r1
    simp only [Option.some.injEq] at r1
    subst r1
    exact hne (q2.symm.trans r2)
  · intro x xd1 hx hn
    obtain ⟨xd, q1, q2⟩ := relinked_find_f_rev rl hx
    rw [q2] at hn ⊢
    exact fl.bound x xd q1 hn
  · intro x hx
    obtain ⟨xd, q1, q2⟩ := fl.mine x hx
    obtain ⟨xd1, r1, r2⟩ := relinked_find_f rl q1
    exact ⟨xd1, r1, r2.trans q2⟩
  · exact fl.nodup
  · intro i hi h h1 e1 e2
    by_cases c : i = k
    · subst c
      rw [ha] at e1
      rw [hb] at e2
      simp only [Option.some.injEq] at e1 e2
      subst e1
      subst e2
      rw [link_next_find, link_next_find]
      by_cases e : a = b
      · subst e
        simp [fa]
      · have e' : ¬ b = a := fun x => e x.symm
        simp [e, e', fa, fb]
    · have hik : i < k := by omega
      obtain ⟨hd, nd, q1, q2, q3, q4⟩ := fl.linked i hik h h1 e1 e2
      have hne : h ≠ a := by
        rintro rfl
        exact c (idx i k h e1 ha)
      have h1ne : h1 ≠ b := by
        rintro rfl
        have := idx _ _ h1 e2 hb
        have l1 : (i + 1) % hs.length = if i + 1 = hs.length then 0 else i + 1 := by
          split
          · rename_i x; rw [x]; simp
          · exact Nat.mod_eq_of_lt (by omega)
        have l2 : (k + 1) % hs.length = if k + 1 = hs.length then 0 else k + 1 := by
          split
          · rename_i x; rw [x]; simp
          · exact Nat.mod_eq_of_lt (by omega)
        rw [l1, l2] at this
        split at this <;> split at this <;> omega
      rw [link_next_find, link_next_find]
      by_cases e : h = b
      · subst e
        by_cases e2 : h1 = a
        · subst e2
          have x1 : ¬ h = h1 := fun x => hne x
          simp [x1, h1ne, q1, q3, q2, q4]
        · simp [h1ne, e2, hne, q1, q3, q2, q4]
      · by_cases e2 : h1 = a
        · subst e2
          simp [e, hne, h1ne, q1, q3, q2, q4]
        · simp [e, hne, h1ne, e2, q1, q3, q2, q4]

theorem add_face_link_cons {hs : List halfedge_descriptor_t} {i : Nat} {rest : List Nat}
    {m m2 : mesh_t R} {u : Unit}
    (hrun : add_face_link hs (i :: rest) m = (Except.ok u, m2)) :
    ∃ a b, hs[i]? = some a ∧ hs[(i + 1) % hs.length]? = some b ∧
      (map_find m.m_halfedges a).isSome ∧ (map_find m.m_halfedges b).isSome ∧
      add_face_link hs rest (link_next m a b) = (Except.ok u, m2) := by
  simp only [add_face_link] at hrun
  obtain ⟨a, ma, e1, hrun1⟩ := bind_inv hrun
  obtain ⟨a1, rfl⟩ := eval_inv e1
  obtain ⟨b, mb, e2, hrun2⟩ := bind_inv hrun1
  obtain ⟨a2, rfl⟩ := eval_inv e2
  obtain ⟨u3, mc, e3, hrun3⟩ := bind_inv hrun2
  obtain ⟨_, _, s1, s2, rfl⟩ := set_next_inv e3
  exact ⟨a, b, vector_at_eq_ok.1 a1, vector_at_eq_ok.1 a2, s1, s2, hrun3⟩

/-- Induction along the second loop of `add_face`. -/
theorem add_face_link_induct (hs : List halfedge_descriptor_t) (P : Nat → mesh_t R → Prop)
    (step : ∀ (k : Nat) (m : mesh_t R) (a b : halfedge_descriptor_t), P k m →
      hs[k]? = some a → hs[(k + 1) % hs.length]? = some b → P (k + 1) (link_next m a b))
    (n : Nat) : ∀ (k : Nat) (m m2 : mesh_t R) (u : Unit), P k m →
      add_face_link hs (List.range' k n) m = (Except.ok u, m2) → P (k + n) m2 := by
  induction n with
  | zero =>
    intro k m m2 u hp hrun
    simp only [List.range'_zero, add_face_link] at hrun
    obtain ⟨_, rfl⟩ := pure_inv hrun
    exact hp
  | succ n ih =>
    intro k m m2 u hp hrun
    simp only [List.range'_succ] at hrun
    obtain ⟨a, b, ha, hb, _, _, hrest⟩ := add_face_link_cons hrun
    have := ih (k + 1) _ m2 u (step k m a b hp ha hb) hrest
    have e : k + (n + 1) = k + 1 + n := by omega
    rw [e]
    exact this

theorem add_face_link_ok {m m1 : mesh_t R} {fnew : face_descriptor_t}
    {hs : List halfedge_descriptor_t} {u : Unit} (fl : faces_link m fnew hs 0)
    (hrun : add_face_link hs (List.range' 0 hs.length) m = (Except.ok u, m1)) :
    faces_link m1 fnew hs hs.length ∧ relinked m m1 hs := by
  have := add_face_link_induct hs
    (fun k mx => faces_link mx fnew hs k ∧ relinked m mx hs)
    (by
      intro k mx a b hp ha hb
      have hk : k < hs.length := (List.getElem?_eq_some_iff.1 ha).1
      exact ⟨faces_link_step hp.1 hk ha hb,
        relinked_trans hp.2
          (relinked_link_next mx hs a b (List.getElem?_mem ha) (List.getElem?_mem hb))⟩)
    hs.length 0 m m1 u ⟨fl, relinked_refl m hs⟩ hrun
  simpa using this

theorem faces_ok_of_link {m : mesh_t R} {fnew : face_descriptor_t}
    {hs : List halfedge_descriptor_t} (fl : faces_link m fnew hs hs.length) : faces_ok m := by
  constructor
  · exact fl.fr
  · exact fl.df
  · intro f fd hf
    by_cases e : f = fnew
    · subst e
      rw [fl.stored] at hf
      simp only [Option.some.injEq] at hf
      subst hf
      refine ⟨fl.nodup, fl.mine, ?_⟩
      intro i
      by_cases hi : i < hs.length
      · exact fl.linked i hi
      · intro h h1 e1 _
        have : hs[i]? = none := List.getElem?_eq_none (by omega)
        rw [this] at e1
        cases e1
    · exact fl.cyc f fd hf e
  · exact fl.bound

theorem store_face_find (m : mesh_t R) (fd : face_data_t) (df : dense m.m_faces)
    (k : face_descriptor_t) :
    map_find (store_face m (some m.m_faces.length) fd).m_faces k =
      if k = some m.m_faces.length then some fd else map_find m.m_faces k := by
  simp only [store_face]
  rw [map_find_insert_sorted _ _ _ (dense_fresh df)]

theorem faces_link_store {m : mesh_t R} {fnew : face_descriptor_t}
    {hs : List halfedge_descriptor_t} (mid : faces_mid m fnew hs) :
    faces_link (store_face m fnew { m_halfedges := hs }) fnew hs 0 := by
  have e := mid.fnew_eq
  subst e
  constructor
  · exact mid.fr
  · exact dense_insert mid.df _
  · rw [store_face_find m _ mid.df]; simp
  · intro f fd hf hne
    rw [store_face_find m _ mid.df] at hf
    simp only [hne, if_false] at hf
    exact face_cycle_congr (fun _ _ => rfl) (mid.cyc f fd hf)
  · intro k kd hk hn
    rw [store_face_find m _ mid.df]
    rcases mid.bound k kd hk hn with ⟨fd, q1, q2⟩ | ⟨q1, q2⟩
    · have : kd.f ≠ some m.m_faces.length := by
        intro x
        rw [x, dense_fresh mid.df] at q1
        cases q1
      simp only [this, if_false]
      exact ⟨fd, q1, q2⟩
    · simp only [q1, if_true]
      exact ⟨_, rfl, q2⟩
  · exact mid.mine
  · exact mid.nodup
  · intro i hi; omega

theorem same_edges_store_face (m : mesh_t R) (f : face_descriptor_t) (fd : face_data_t) :
    same_edges m (store_face m f fd) :=
  ⟨rfl, rfl, rfl, rfl, rfl, rfl, fun _ => rfl⟩

theorem add_face_slot_run (m : mesh_t R) (fr : m.m_faces_removed = []) :
    add_face_slot m = (Except.ok (some m.m_faces.length, false), m) := by
  unfold add_face_slot
  simp only [fr, number_of_faces, number_of_internal_faces, number_of_faces_removed,
    List.length_nil, descriptor_of_count_length]

theorem add_face_store_inv {m m1 : mesh_t R} {f : face_descriptor_t} {fd : face_data_t} {u : Unit}
    (hrun : add_face_store f false fd m = (Except.ok u, m1)) :
    map_find m.m_faces f = none ∧ m1 = store_face m f fd := by
  unfold add_face_store at hrun
  simp only [Bool.false_eq_true, if_false] at hrun
  cases hf : map_find m.m_faces f with
  | some d => simp [map_count, hf] at hrun
  | none =>
    simp only [map_count, hf, Option.isSome_none, Bool.false_eq_true, if_false, bne_self_eq_false,
      map_insert, Prod.mk.injEq, true_and] at hrun
    exact ⟨rfl, hrun.symm⟩

/-- The stages of a call of `add_face` that returns, on a mesh without
removed faces: the two loops and the store between them. -/
theorem add_face_inv {m m1 : mesh_t R} {vi : List vertex_descriptor_t} {f : face_descriptor_t}
    (fr : m.m_faces_removed = [])
    (hrun : add_face vi m = (Except.ok f, m1)) :
    3 ≤ vi.length ∧ f = some m.m_faces.length ∧
    ∃ fd m2, add_face_loop vi f false (List.range' 0 vi.length) face_data_new m = (Except.ok fd, m2) ∧
      map_find m2.m_faces f = none ∧
      add_face_link fd.m_halfedges (List.range' 0 fd.m_halfedges.length) (store_face m2 f fd) =
        (Except.ok (), m1) := by
  unfold add_face at hrun
  obtain ⟨u1, ma, e1, hrun1⟩ := bind_inv hrun
  obtain ⟨a1, rfl⟩ := eval_inv e1
  rw [bind_ok (add_face_slot_run m fr)] at hrun1
  simp only at hrun1
  obtain ⟨fd, m2, e2, hrun2⟩ := bind_inv hrun1
  obtain ⟨u3, m3, e3, hrun3⟩ := bind_inv hrun2
  obtain ⟨s1, rfl⟩ := add_face_store_inv e3
  obtain ⟨u4, m4, e4, hrun4⟩ := bind_inv hrun3
  obtain ⟨rfl, rfl⟩ := pure_inv hrun4
  have a1' := assert_eq_ok.1 a1
  simp only [decide_eq_true_eq] at a1'
  rw [List.range_eq_range'] at e2 e4
  exact ⟨a1', rfl, fd, m2, e2, s1, e4⟩

/-- A call of `add_face` that returns keeps the invariants. -/
theorem add_face_ok {m m1 : mesh_t R} {vi : List vertex_descriptor_t} {f : face_descriptor_t}
    (ok : edges_ok m) (fok : faces_ok m) (hrun : add_face vi m = (Except.ok f, m1)) :
    edges_ok m1 ∧ faces_ok m1 := by
  obtain ⟨_, rfl, fd, m2, hloop, _, hlink⟩ := add_face_inv fok.fr hrun
  have h1 := add_face_loop_induct
    (fun (_ : Nat) mx fx => edges_ok mx ∧ faces_mid mx (some m.m_faces.length) fx.m_halfedges)
    (fun k mx mx1 fx fx1 hp hs => add_face_step_ok hp.1 hp.2 hs)
    vi.length 0 m m2 face_data_new fd ⟨ok, faces_mid_of_ok fok⟩ hloop
  obtain ⟨ok2, mid2⟩ := h1
  have fl := faces_link_store mid2
  obtain ⟨fl1, rl⟩ := add_face_link_ok fl hlink
  exact ⟨edges_ok_same_edges (edges_ok_same_edges ok2 (same_edges_store_face _ _ _)) rl.same,
    faces_ok_of_link fl1⟩

theorem faces_ok_add_edge {m m1 : mesh_t R} {v0 v1 : vertex_descriptor_t}
    {h : halfedge_descriptor_t} (ok : edges_ok m) (fok : faces_ok m)
    (hrun : add_edge v0 v1 m = (Except.ok h, m1)) : faces_ok m1 := by
  have post := add_edge_inv m m1 v0 v1 h ok.hr ok.er ok.dh ok.de hrun
  constructor
  · rw [post.fr]; exact fok.fr
  · rw [post.faces]; exact fok.df
  · intro f fd hfc
    rw [post.faces] at hfc
    refine face_cycle_congr ?_ (fok.cyc f fd hfc)
    intro k hk
    obtain ⟨hd1, q1, _⟩ := (fok.cyc f fd hfc).2.1 k hk
    rw [add_edge_post_old ok post k hd1 q1, q1]
  · intro k kd hk hn
    rw [post.faces]
    rcases add_edge_post_cases post k kd hk with ⟨_, rfl⟩ | ⟨_, rfl⟩ | ⟨_, _, hold⟩
    · exact absurd rfl hn
    · exact absurd rfl hn
    · exact fok.bound k kd hold hn

/-- Every mesh reached by creation calls satisfies the invariants. -/
theorem reachable_ok {m : mesh_t R} (r : Reachable m) : edges_ok m ∧ faces_ok m := by
  induction r with
  | empty => exact ⟨edges_ok_empty, faces_ok_empty⟩
  | vertex m m1 x y z v _ hrun ih =>
    exact ⟨edges_ok_add_vertex ih.1 hrun, faces_ok_add_vertex ih.1 ih.2 hrun⟩
  | edge m m1 v0 v1 h _ hrun ih =>
    exact ⟨edges_ok_add_edge ih.1 hrun, faces_ok_add_edge ih.1 ih.2 hrun⟩
  | face m m1 vi f _ hrun ih =>
    exact add_face_ok ih.1 ih.2 hrun

theorem built_reachable {m : mesh_t R} (b : Built m) : Reachable m := by
  induction b with
  | empty => exact Reachable.empty
  | vertex m m1 x y z v _ hrun ih => exact Reachable.vertex m m1 x y z v ih hrun
  | face m m1 vi f _ _ hrun ih => exact Reachable.face m m1 vi f ih hrun

theorem built_one_vertex : Built mesh_one_vertex :=
  Built.vertex _ _ 0 0 0 (some 0) Built.empty (by decide!)

theorem built_two_vertices : Built mesh_two_vertices :=
  Built.vertex _ _ 1 0 0 (some 1) built_one_vertex (by decide!)

theorem built_three_vertices : Built mesh_three_vertices :=
  Built.vertex _ _ 0 1 0 (some 2) built_two_vertices (by decide!)

theorem built_triangle : Built mesh_triangle :=
  Built.face _ _ [some 0, some 1, some 2] (some 0) built_three_vertices (by decide) (by decide!)

theorem reachable_one_edge : Reachable mesh_one_edge :=
  Reachable.edge _ _ (some 0) (some 1) (some 0) (built_reachable built_two_vertices) (by decide!)

theorem key_ne_null {D : Type} {mp : map_t D} (h : dense mp) {k : descriptor_t} {d : D}
    (hf : map_find mp k = some d) : k ≠ none := by
  obtain ⟨n, rfl, _⟩ := dense_key h hf
  simp

theorem get_halfedges_around_face_eq_ok {m : mesh_t R} {f : face_descriptor_t}
    {hs : List halfedge_descriptor_t} :
    get_halfedges_around_face m f = Except.ok hs ↔
      f ≠ none ∧ map_find m.m_faces f = some { m_halfedges := hs } := by
  unfold get_halfedges_around_face
  cases f with
  | none => simp [null_face, assert_false, except_bind_error]
  | some n =>
    cases hf : map_find m.m_faces (some n) with
    | none =>
      simp [null_face, some_bne_null, assert_true, except_bind_ok, map_count_eq_one, hf,
        assert_false, except_bind_error]
    | some fd =>
      simp only [null_face, some_bne_null, assert_true, except_bind_ok, map_count_eq_one, hf,
        Option.isSome_some, map_at_of_find hf, pure, Except.pure, Except.ok.injEq, ne_eq,
        not_false_eq_true, true_and, Option.some.injEq, reduceCtorEq]
      constructor
      · rintro rfl; rfl
      · intro e; rw [e]

/-- Along the boundary of a stored face, `next` leads from the member with
index `j` to its cyclic successor, `prev` leads back, and the member reports
the face. -/
theorem cycle_step {m : mesh_t R} (ok : edges_ok m) {f : face_descriptor_t}
    {hs : List halfedge_descriptor_t} (c : face_cycle m f hs) (j : Nat) (hj : j < hs.length) :
    ∃ g g1, hs[j]? = some g ∧ hs[(j + 1) % hs.length]? = some g1 ∧
      next m g = Except.ok g1 ∧ prev m g1 = Except.ok g ∧ face m g = Except.ok f := by
  have l1 : (j + 1) % hs.length < hs.length := Nat.mod_lt _ (by omega)
  have e1 : hs[j]? = some hs[j] := List.getElem?_eq_getElem hj
  have e2 : hs[(j + 1) % hs.length]? = some hs[(j + 1) % hs.length] := List.getElem?_eq_getElem l1
  obtain ⟨hd, nd, q1, q2, q3, q4⟩ := c.2.2 j _ _ e1 e2
  obtain ⟨hd1, r1, r2⟩ := c.2.1 _ (List.getElem?_mem e1)
  rw [q1] at r1
  simp only [Option.some.injEq] at r1
  subst r1
  refine ⟨_, _, e1, e2, ?_, ?_, ?_⟩
  · exact next_eq_ok.2 ⟨key_ne_null ok.dh q1, hd, q1, q2⟩
  · exact prev_eq_ok.2 ⟨key_ne_null ok.dh q3, nd, q3, q4⟩
  · exact face_eq_ok.2 ⟨key_ne_null ok.dh q1, hd, q1, r2⟩

theorem cycle_iter {m : mesh_t R} (ok : edges_ok m) {f : face_descriptor_t}
    {hs : List halfedge_descriptor_t} (c : face_cycle m f hs) (i : Nat) (hi : i < hs.length)
    (k : Nat) :
    ∃ g, hs[(i + k) % hs.length]? = some g ∧ next_iter m k hs[i] = Except.ok g := by
  induction k with
  | zero =>
    refine ⟨hs[i], ?_, rfl⟩
    simp only [Nat.add_zero, Nat.mod_eq_of_lt hi]
    exact List.getElem?_eq_getElem hi
  | succ k ih =>
    obtain ⟨g, e1, e2⟩ := ih
    have l1 : (i + k) % hs.length < hs.length := Nat.mod_lt _ (by omega)
    obtain ⟨g0, g1, s1, s2, s3, _, _⟩ := cycle_step ok c _ l1
    rw [e1] at s1
    simp only [Option.some.injEq] at s1
    subst s1
    refine ⟨g1, ?_, ?_⟩
    · have : (i + (k + 1)) % hs.length = ((i + k) % hs.length + 1) % hs.length := by
        rw [← Nat.add_assoc, Nat.add_mod (i + k) 1, Nat.add_mod ((i + k) % hs.length) 1,
          Nat.mod_mod]
      rw [this]
      exact s2
    · simp only [next_iter]
      rw [e2]
      exact s3

/-- C1. In every mesh reached from the empty mesh by `add_vertex`, `add_edge`
and `add_face` calls, every stored half-edge `h` has an opposite `o` with
`opposite(o) == h` and `o != h`. -/
theorem opposite_involution (m : mesh_t R) (hm : Reachable m) (h : halfedge_descriptor_t)
    (hlive : map_count m.m_halfedges h = 1) :
    ∃ o, opposite m h = Except.ok o ∧ opposite m o = Except.ok h ∧ o ≠ h := by
  obtain ⟨ok, _⟩ := reachable_ok hm
  have hs : (map_find m.m_halfedges h).isSome = true := by
    rw [← map_count_eq_one]; simp [hlive]
  obtain ⟨hd, hf⟩ := Option.isSome_iff_exists.mp hs
  obtain ⟨p1, ⟨od, q1, q2, _⟩, _, _⟩ := ok.hprop h hd hf
  obtain ⟨n, rfl, _⟩ := dense_key ok.dh hf
  obtain ⟨k, ek, _⟩ := dense_key ok.dh q1
  refine ⟨hd.o, ?_, ?_, p1⟩
  · exact opposite_eq_ok.2 ⟨by simp, hd, hf, rfl⟩
  · exact opposite_eq_ok.2 ⟨by rw [ek]; simp, od, q1, q2⟩

theorem opposite_involution_witness :
    Reachable mesh_one_edge ∧ map_count mesh_one_edge.m_halfedges (some 0) = 1 ∧
      ∃ o, opposite mesh_one_edge (some 0) = Except.ok o ∧
        opposite mesh_one_edge o = Except.ok (some 0) ∧ o ≠ some 0 :=
  ⟨reachable_one_edge, by decide!,
    opposite_involution mesh_one_edge reachable_one_edge (some 0) (by decide!)⟩

/-- C2. In a mesh built from the empty mesh by `add_vertex` and `add_face`
calls on pairwise distinct vertices, for every face `f` with boundary list
`hs` of `n` half-edges and every boundary half-edge `h`: `n` applications of
`next` lead from `h` back to `h`, no smaller positive number does, and every
half-edge `g` visited reports `face == f` and satisfies
`prev(next(g)) == g`. -/
theorem face_boundary_cycle (m : mesh_t R) (hm : Built m) (f : face_descriptor_t)
    (hs : List halfedge_descriptor_t)
    (hf : get_halfedges_around_face m f = Except.ok hs)
    (h : halfedge_descriptor_t) (hh : h ∈ hs) :
    next_iter m hs.length h = Except.ok h ∧
    (∀ k, 0 < k → k < hs.length → ∃ g, next_iter m k h = Except.ok g ∧ g ≠ h) ∧
    (∀ k, ∃ g g1, next_iter m k h = Except.ok g ∧ face m g = Except.ok f ∧
      next m g = Except.ok g1 ∧ prev m g1 = Except.ok g) := by
  obtain ⟨ok, fok⟩ := reachable_ok (built_reachable hm)
  obtain ⟨_, hfc⟩ := get_halfedges_around_face_eq_ok.1 hf
  have c := fok.cyc f _ hfc
  simp only at c
  obtain ⟨i, hi, rfl⟩ := List.mem_iff_getElem.1 hh
  refine ⟨?_, ?_, ?_⟩
  · obtain ⟨g, e1, e2⟩ := cycle_iter ok c i hi hs.length
    have : (i + hs.length) % hs.length = i := by
      rw [Nat.add_mod_right, Nat.mod_eq_of_lt hi]
    rw [this, List.getElem?_eq_getElem hi] at e1
    simp only [Option.some.injEq] at e1
    rw [e2, e1]
  · intro k k0 kn
    obtain ⟨g, e1, e2⟩ := cycle_iter ok c i hi k
    refine ⟨g, e2, ?_⟩
    intro e
    subst e
    obtain ⟨l1, e3⟩ := List.getElem?_eq_some_iff.1 e1
    have := (List.Nodup.getElem_inj_iff c.1).1 e3
    by_cases hlt : i + k < hs.length
    · rw [Nat.mod_eq_of_lt hlt] at this
      omega
    · have l2 : (i + k) % hs.length = i + k - hs.length := by
        rw [Nat.mod_eq_sub_mod (by omega)]
        exact Nat.mod_eq_of_lt (by omega)
      omega
  · intro k
    obtain ⟨g, e1, e2⟩ := cycle_iter ok c i hi k
    have l1 : (i + k) % hs.length < hs.length := Nat.mod_lt _ (by omega)
    obtain ⟨g0, g1, s1, _, s3, s4, s5⟩ := cycle_step ok c _ l1
    rw [e1] at s1
    simp only [Option.some.injEq] at s1
    subst s1
    exact ⟨g, g1, e2, s5, s3, s4⟩

theorem face_boundary_cycle_witness :
    Built mesh_triangle ∧
    get_halfedges_around_face mesh_triangle (some 0) = Except.ok [some 0, some 2, some 4] ∧
    some 2 ∈ [(some 0 : halfedge_descriptor_t), some 2, some 4] ∧
    (next_iter mesh_triangle [(some 0 : halfedge_descriptor_t), some 2, some 4].length (some 2) =
        Except.ok (some 2) ∧
      (∀ k, 0 < k → k < [(some 0 : halfedge_descriptor_t), some 2, some 4].length →
        ∃ g, next_iter mesh_triangle k (some 2) = Except.ok g ∧ g ≠ some 2) ∧
      (∀ k, ∃ g g1, next_iter mesh_triangle k (some 2) = Except.ok g ∧
        face mesh_triangle g = Except.ok (some 0) ∧
        next mesh_triangle g = Except.ok g1 ∧ prev mesh_triangle g1 = Except.ok g)) :=
  ⟨built_triangle, by decide!, by decide,
    face_boundary_cycle mesh_triangle built_triangle (some 0) [some 0, some 2, some 4]
      (by decide!) (some 2) (by decide)⟩

/-- C3, as stated, fails: the half-edge 1 of a single triangle is stored but
bound to no face; its `next` is null and `prev` of the null half-edge is
a failed assertion, so `prev(next(h))` is not defined. -/
theorem prev_next_undefined_on_border :
    Built mesh_triangle ∧ map_count mesh_triangle.m_halfedges (some 1) = 1 ∧
    face mesh_triangle (some 1) = Except.ok null_face ∧
    ¬ ∃ n, next mesh_triangle (some 1) = Except.ok n ∧
      prev mesh_triangle n = Except.ok (some 1) := by
  refine ⟨built_triangle, by decide!, by decide!, ?_⟩
  rintro ⟨n, h1, h2⟩
  have e1 : next mesh_triangle (some 1) = Except.ok none := by decide!
  rw [e1] at h1
  simp only [Except.ok.injEq] at h1
  subst h1
  have e2 : prev mesh_triangle none = Except.error error.assertion_failed := by decide!
  rw [e2] at h2
  cases h2

/-- C3, amended. In every mesh reached from the empty mesh by `add_vertex`,
`add_edge` and `add_face` calls, for every half-edge `h` bound to a face,
`prev(next(h))` is defined and equals `h`. -/
theorem prev_next_of_bound (m : mesh_t R) (hm : Reachable m) (h : halfedge_descriptor_t)
    (f : face_descriptor_t) (hface : face m h = Except.ok f) (hb : f ≠ null_face) :
    ∃ n, next m h = Except.ok n ∧ prev m n = Except.ok h := by
  obtain ⟨ok, fok⟩ := reachable_ok hm
  obtain ⟨_, hd, hf, rfl⟩ := face_eq_ok.1 hface
  obtain ⟨fd, q1, q2⟩ := fok.bound h hd hf hb
  have c := fok.cyc _ fd q1
  obtain ⟨i, hi, rfl⟩ := List.mem_iff_getElem.1 q2
  obtain ⟨g, g1, s1, _, s3, s4, _⟩ := cycle_step ok c i hi
  rw [List.getElem?_eq_getElem hi] at s1
  simp only [Option.some.injEq] at s1
  rw [← s1] at s3 s4
  exact ⟨g1, s3, s4⟩

theorem prev_next_of_bound_witness :
    Reachable mesh_triangle ∧ face mesh_triangle (some 2) = Except.ok (some 0) ∧
    (some 0 : face_descriptor_t) ≠ null_face ∧
    ∃ n, next mesh_triangle (some 2) = Except.ok n ∧ prev mesh_triangle n = Except.ok (some 2) :=
  ⟨built_reachable built_triangle, by decide!, by decide,
    prev_next_of_bound mesh_triangle (built_reachable built_triangle) (some 2) (some 0)
      (by decide!) (by decide)⟩

theorem built_of_run_calls (cs : List (call R)) : ∀ (m m1 : mesh_t R), Built m →
    run_calls m cs = some m1 → Built m1 := by
  induction cs with
  | nil =>
    intro m m1 b h
    simp only [run_calls, Option.some.injEq] at h
    subst h
    exact b
  | cons c rest ih =>
    intro m m1 b h
    cases c with
    | vertex x y z =>
      simp only [run_calls] at h
      rcases hv : add_vertex x y z m with ⟨r, m2⟩
      rw [hv] at h
      cases r with
      | error e => simp at h
      | ok v => exact ih m2 m1 (Built.vertex m m2 x y z v b hv) h
    | face vi =>
      simp only [run_calls] at h
      by_cases nd : vi.Nodup
      · simp only [nd, if_true] at h
        rcases hv : add_face vi m with ⟨r, m2⟩
        rw [hv] at h
        cases r with
        | error e => simp at h
        | ok f => exact ih m2 m1 (Built.face m m2 vi f b nd hv) h
      · simp [nd] at h

theorem built_cube : Built mesh_cube :=
  built_of_run_calls cube_calls (mesh_t.empty Int) mesh_cube Built.empty (by decide!)

/-- C8. A call of `add_face` with fewer than 3 vertices stops at its first
assertion and leaves the mesh as it was: nothing is added and no removed
descriptor is taken. -/
theorem add_face_too_few (m : mesh_t R) (vi : List vertex_descriptor_t) (h : vi.length < 3) :
    add_face vi m = (Except.error error.assertion_failed, m) := by
  unfold add_face
  apply bind_error
  rw [eval_run]
  have : decide (3 ≤ vi.length) = false := by
    simp only [decide_eq_false_iff_not]; omega
  rw [this, assert_false]

theorem add_face_too_few_witness :
    [(some 0 : vertex_descriptor_t), some 1].length < 3 ∧
    add_face [some 0, some 1] mesh_three_vertices =
      (Except.error error.assertion_failed, mesh_three_vertices) :=
  ⟨by decide, add_face_too_few mesh_three_vertices [some 0, some 1] (by decide)⟩

/-- C9. The cube built from the empty mesh with 8 `add_vertex` calls and 6
`add_face` calls on consistently oriented quads has 8 vertices, 12 edges, 24
half-edges and 6 faces, stored under the descriptors `0 .. 23` (half-edges)
and `0 .. 11` (edges), and `is_border` is false for every half-edge and
every edge. -/
theorem cube_counts_no_border :
    run_calls (mesh_t.empty Int) cube_calls = some mesh_cube ∧
    number_of_vertices mesh_cube = 8 ∧ number_of_edges mesh_cube = 12 ∧
    number_of_halfedges mesh_cube = 24 ∧ number_of_faces mesh_cube = 6 ∧
    mesh_cube.m_halfedges.map Prod.fst = (List.range 24).map some ∧
    mesh_cube.m_edges.map Prod.fst = (List.range 12).map some ∧
    (∀ h, h < 24 → is_border_h mesh_cube (some h) = Except.ok false) ∧
    (∀ e, e < 12 → is_border_e mesh_cube (some e) = Except.ok false) := by
  decide!

/-- `add_edge` writes the target, the opposite and the edge of a reused
record and leaves its face as it is. On the triangle whose face 0, edge 0
and half-edges 0 and 1 are on the lists of removed descriptors, with the
record of the half-edge 0 still bound to the face 0, `add_edge(0, 1)` reuses
the half-edge slots 0 and 1 and returns the half-edge 0 from 0 to 1, which
reports the face 0. -/
theorem add_edge_reused_slot_keeps_face :
    (add_edge (some 0) (some 1) mesh_triangle_edge_removed).1 = Except.ok (some 0) ∧
    target (mesh_after (add_edge (some 0) (some 1)) mesh_triangle_edge_removed) (some 0) =
      Except.ok (some 1) ∧
    source (mesh_after (add_edge (some 0) (some 1)) mesh_triangle_edge_removed) (some 0) =
      Except.ok (some 0) ∧
    face (mesh_after (add_edge (some 0) (some 1)) mesh_triangle_edge_removed) (some 0) =
      Except.ok (some 0) ∧
    face (mesh_after (add_edge (some 0) (some 1)) mesh_triangle_edge_removed) (some 0) ≠
      Except.ok null_face := by
  decide!

/-! ## Edges between two vertices -/

/-- Two half-edges on the same edge are equal or opposite. -/
theorem two_halfedges {m : mesh_t R} (ok : edges_ok m) {i j : halfedge_descriptor_t}
    {id jd : halfedge_data_t} (hi : map_find m.m_halfedges i = some id)
    (hj : map_find m.m_halfedges j = some jd) (he : id.e = jd.e) : i = j ∨ id.o = j := by
  obtain ⟨_, ⟨iod, a1, a2, _⟩, _, ⟨ed, a3, a4⟩⟩ := ok.hprop i id hi
  obtain ⟨_, ⟨jod, b1, b2, _⟩, _, ⟨ed1, b3, b4⟩⟩ := ok.hprop j jd hj
  rw [he, b3] at a3
  simp only [Option.some.injEq] at a3
  subst a3
  rcases a4 with a4 | a4 <;> rcases b4 with b4 | b4
  · left; exact a4.symm.trans b4
  · right
    have : i = jd.o := a4.symm.trans b4
    subst this
    rw [b1] at hi
    simp only [Option.some.injEq] at hi
    subst hi
    exact b2
  · right; exact a4.symm.trans b4
  · left
    have : id.o = jd.o := a4.symm.trans b4
    rw [this, b1] at a1
    simp only [Option.some.injEq] at a1
    subst a1
    exact a2.symm.trans b2

theorem from_to_opposite {m : mesh_t R} (ok : edges_ok m) {h : halfedge_descriptor_t}
    {hd : halfedge_data_t} {a b : vertex_descriptor_t}
    (hf : map_find m.m_halfedges h = some hd) (ft : halfedge_from_to m h a b) :
    halfedge_from_to m hd.o b a := by
  obtain ⟨hd1, od, q1, q2, q3, q4⟩ := ft
  rw [hf] at q1
  simp only [Option.some.injEq] at q1
  subst q1
  obtain ⟨_, ⟨od1, a1, a2, _⟩, _, _⟩ := ok.hprop h hd hf
  rw [a1] at q3
  simp only [Option.some.injEq] at q3
  subst q3
  exact ⟨od1, hd, a1, q4, by rw [a2]; exact hf, q2⟩

theorem connected_symm {m : mesh_t R} (ok : edges_ok m) {a b : vertex_descriptor_t}
    (c : connected m a b) : connected m b a := by
  obtain ⟨h, ft⟩ := c
  obtain ⟨hd, od, q1, q2, q3, q4⟩ := ft
  exact ⟨hd.o, from_to_opposite ok q1 ⟨hd, od, q1, q2, q3, q4⟩⟩

theorem from_to_iff_source_target {m : mesh_t R} (ok : edges_ok m) {h : halfedge_descriptor_t}
    {a b : vertex_descriptor_t} :
    halfedge_from_to m h a b ↔ source m h = Except.ok a ∧ target m h = Except.ok b := by
  constructor
  · rintro ⟨hd, od, q1, q2, q3, q4⟩
    exact ⟨source_eq_ok.2 ⟨key_ne_null ok.dh q1, hd, od, q1, key_ne_null ok.dh q3, q3, q4⟩,
      target_eq_ok.2 ⟨key_ne_null ok.dh q1, hd, q1, q2⟩⟩
  · rintro ⟨hs, ht⟩
    obtain ⟨_, hd, od, q1, _, q3, q4⟩ := source_eq_ok.1 hs
    obtain ⟨_, hd1, r1, r2⟩ := target_eq_ok.1 ht
    rw [q1] at r1
    simp only [Option.some.injEq] at r1
    subst r1
    exact ⟨hd, od, q1, r2, q3, q4⟩

theorem vertex_zero_eq_ok {m : mesh_t R} {e : edge_descriptor_t} {v : vertex_descriptor_t} :
    vertex m e 0 = Except.ok v ↔
      e ≠ none ∧ ∃ ed hd, map_find m.m_edges e = some ed ∧
        map_find m.m_halfedges ed.h = some hd ∧ hd.t = v := by
  unfold vertex
  cases e with
  | none => simp [null_edge, assert_false, except_bind_error]
  | some n =>
    cases hf : map_find m.m_edges (some n) with
    | none =>
      simp [null_edge, some_bne_null, assert_true, except_bind_ok, map_count_eq_one, hf,
        assert_false, except_bind_error]
    | some ed =>
      cases hh : map_find m.m_halfedges ed.h with
      | none =>
        simp [null_edge, some_bne_null, assert_true, except_bind_ok, map_count_eq_one, hf,
          map_at_of_find hf, hh, assert_false, except_bind_error]
      | some hd =>
        simp [null_edge, some_bne_null, assert_true, except_bind_ok, map_count_eq_one, hf,
          map_at_of_find hf, hh, map_at_of_find hh, pure, Except.pure]

theorem vertex_one_eq_ok {m : mesh_t R} {e : edge_descriptor_t} {v : vertex_descriptor_t} :
    vertex m e 1 = Except.ok v ↔
      e ≠ none ∧ ∃ ed hd od, map_find m.m_edges e = some ed ∧
        map_find m.m_halfedges ed.h = some hd ∧ map_find m.m_halfedges hd.o = some od ∧
        od.t = v := by
  unfold vertex
  cases e with
  | none => simp [null_edge, assert_false, except_bind_error]
  | some n =>
    cases hf : map_find m.m_edges (some n) with
    | none =>
      simp [null_edge, some_bne_null, assert_true, except_bind_ok, map_count_eq_one, hf,
        assert_false, except_bind_error]
    | some ed =>
      cases hh : map_find m.m_halfedges ed.h with
      | none =>
        simp [null_edge, some_bne_null, assert_true, except_bind_ok, map_count_eq_one, hf,
          map_at_of_find hf, hh, assert_false, except_bind_error]
      | some hd =>
        cases ho : map_find m.m_halfedges hd.o with
        | none =>
          simp [null_edge, some_bne_null, assert_true, except_bind_ok, map_count_eq_one, hf,
            map_at_of_find hf, hh, map_at_of_find hh, ho, assert_false, except_bind_error]
        | some od =>
          simp [null_edge, some_bne_null, assert_true, except_bind_ok, map_count_eq_one, hf,
            map_at_of_find hf, hh, map_at_of_find hh, ho, map_at_of_find ho, pure, Except.pure]

/-- Some edge joins `s` and `t` exactly when some half-edge leads from `s`
to `t`. -/
theorem joined_iff_connected {m : mesh_t R} (ok : edges_ok m) (s t : vertex_descriptor_t) :
    (∃ e, edge_joins m e s t) ↔ connected m s t := by
  constructor
  · rintro ⟨e, ⟨h0, h1⟩ | ⟨h0, h1⟩⟩
    · obtain ⟨_, ed, hd, q1, q2, q3⟩ := vertex_zero_eq_ok.1 h0
      obtain ⟨_, ed1, hd1, od, r1, r2, r3, r4⟩ := vertex_one_eq_ok.1 h1
      rw [q1] at r1
      simp only [Option.some.injEq] at r1
      subst r1
      rw [q2] at r2
      simp only [Option.some.injEq] at r2
      subst r2
      exact ⟨hd.o, from_to_opposite ok q2 ⟨hd, od, q2, q3, r3, r4⟩⟩
    · obtain ⟨_, ed, hd, q1, q2, q3⟩ := vertex_zero_eq_ok.1 h0
      obtain ⟨_, ed1, hd1, od, r1, r2, r3, r4⟩ := vertex_one_eq_ok.1 h1
      rw [q1] at r1
      simp only [Option.some.injEq] at r1
      subst r1
      rw [q2] at r2
      simp only [Option.some.injEq] at r2
      subst r2
      exact ⟨ed.h, hd, od, q2, q3, r3, r4⟩
  · rintro ⟨h, hd, od, q1, q2, q3, q4⟩
    obtain ⟨_, ⟨od1, a1, a2, _⟩, _, ⟨ed, a3, a4⟩⟩ := ok.hprop h hd q1
    rw [a1] at q3
    simp only [Option.some.injEq] at q3
    subst q3
    have en := key_ne_null ok.de a3
    refine ⟨hd.e, ?_⟩
    rcases a4 with a4 | a4
    · right
      refine ⟨vertex_zero_eq_ok.2 ⟨en, ed, hd, a3, by rw [a4]; exact q1, q2⟩,
        vertex_one_eq_ok.2 ⟨en, ed, hd, od1, a3, by rw [a4]; exact q1, a1, q4⟩⟩
    · left
      refine ⟨vertex_zero_eq_ok.2 ⟨en, ed, od1, a3, by rw [a4]; exact a1, q4⟩,
        vertex_one_eq_ok.2 ⟨en, ed, od1, hd, a3, by rw [a4]; exact a1, by rw [a2]; exact q1, q2⟩⟩

/-! ## The half-edge between two vertices -/

theorem edge_of_key {m : mesh_t R} (ok : edges_ok m) {h : halfedge_descriptor_t}
    {hd : halfedge_data_t} (hf : map_find m.m_halfedges h = some hd) :
    edge m h = Except.ok hd.e ∧ hd.e ≠ none := by
  obtain ⟨_, _, _, ⟨ed, a3, _⟩⟩ := ok.hprop h hd hf
  exact ⟨edge_eq_ok.2 ⟨key_ne_null ok.dh hf, hd, hf, rfl⟩, key_ne_null ok.de a3⟩

theorem halfedge_vv_t_edges_run {m : mesh_t R} (ok : edges_ok m)
    (l : List halfedge_descriptor_t)
    (hl : ∀ h, h ∈ l → ∃ hd, map_find m.m_halfedges h = some hd) :
    ∃ es, halfedge_vv_t_edges m l = Except.ok es ∧
      ∀ e, e ∈ es ↔ ∃ h hd, h ∈ l ∧ map_find m.m_halfedges h = some hd ∧ hd.e = e := by
  induction l with
  | nil =>
    refine ⟨[], rfl, ?_⟩
    intro e
    simp
  | cons a rest ih =>
    obtain ⟨es, h1, h2⟩ := ih (fun h hm => hl h (List.mem_cons_of_mem _ hm))
    obtain ⟨ad, ha⟩ := hl a (List.mem_cons_self _ _)
    obtain ⟨e1, e2⟩ := edge_of_key ok ha
    refine ⟨ad.e :: es, ?_, ?_⟩
    · simp only [halfedge_vv_t_edges]
      rw [e1, except_bind_ok]
      have : (ad.e != null_edge) = true := (bne_null_iff _).2 e2
      rw [this, assert_true, except_bind_ok, h1, except_bind_ok]
      rfl
    · intro e
      simp only [List.mem_cons, h2]
      constructor
      · rintro (rfl | ⟨h, hd, q1, q2, q3⟩)
        · exact ⟨a, ad, Or.inl rfl, ha, rfl⟩
        · exact ⟨h, hd, Or.inr q1, q2, q3⟩
      · rintro ⟨h, hd, rfl | q1, q2, q3⟩
        · rw [ha] at q2
          simp only [Option.some.injEq] at q2
          subst q2
          exact Or.inl q3.symm
        · exact Or.inr ⟨h, hd, q1, q2, q3⟩

/-- The loop of `halfedge(s, t, true)`: it stops at the first half-edge
pointing to `s` whose edge is an edge of `t` and returns its opposite, or
leaves `result` as it is when there is none. -/
theorem halfedge_vv_loop_strict {m : mesh_t R} (ok : edges_ok m) {s t : vertex_descriptor_t}
    (hne : s ≠ t) (es : List edge_descriptor_t)
    (hes : ∀ e, e ∈ es → ∃ j jd, map_find m.m_halfedges j = some jd ∧ jd.t = t ∧ jd.e = e)
    (l : List halfedge_descriptor_t)
    (hl : ∀ i, i ∈ l → ∃ id, map_find m.m_halfedges i = some id ∧ id.t = s)
    (res : halfedge_descriptor_t) :
    ∃ r, halfedge_vv_loop m s t true es l res = Except.ok r ∧
      ((r = res ∧ ∀ i id, i ∈ l → map_find m.m_halfedges i = some id → id.e ∉ es) ∨
       (∃ i id, i ∈ l ∧ map_find m.m_halfedges i = some id ∧ id.e ∈ es ∧ r = id.o ∧
          halfedge_from_to m id.o s t)) := by
  induction l generalizing res with
  | nil =>
    refine ⟨res, rfl, Or.inl ⟨rfl, ?_⟩⟩
    intro i id hi
    cases hi
  | cons a rest ih =>
    obtain ⟨ad, ha, hat⟩ := hl a (List.mem_cons_self _ _)
    obtain ⟨e1, _⟩ := edge_of_key ok ha
    have hrest : ∀ i, i ∈ rest → ∃ id, map_find m.m_halfedges i = some id ∧ id.t = s :=
      fun i hi => hl i (List.mem_cons_of_mem _ hi)
    simp only [halfedge_vv_loop]
    rw [e1, except_bind_ok]
    by_cases hmem : ad.e ∈ es
    · simp only [hmem, if_true]
      obtain ⟨j, jd, hj, hjt, hje⟩ := hes _ hmem
      have hoj : ad.o = j := by
        rcases two_halfedges ok ha hj hje.symm with e | e
        · subst e
          rw [ha] at hj
          simp only [Option.some.injEq] at hj
          subst hj
          exact absurd (hat.symm.trans hjt) hne
        · exact e
      subst hoj
      have ft : halfedge_from_to m ad.o s t := by
        obtain ⟨_, ⟨od, a1, a2, _⟩, _, _⟩ := ok.hprop a ad ha
        rw [a1] at hj
        simp only [Option.some.injEq] at hj
        subst hj
        exact ⟨od, ad, a1, hjt, by rw [a2]; exact ha, hat⟩
      have hsrc : source m a = Except.ok t :=
        source_eq_ok.2 ⟨key_ne_null ok.dh ha, ad, jd, ha, key_ne_null ok.dh hj, hj, hjt⟩
      have htgt : target m a = Except.ok s :=
        target_eq_ok.2 ⟨key_ne_null ok.dh ha, ad, ha, hat⟩
      have hopp : opposite m a = Except.ok ad.o :=
        opposite_eq_ok.2 ⟨key_ne_null ok.dh ha, ad, ha, rfl⟩
      have hface : face m ad.o = Except.ok jd.f :=
        face_eq_ok.2 ⟨key_ne_null ok.dh hj, jd, hj, rfl⟩
      have hts : ¬ t = s := fun e => hne e.symm
      rw [hsrc, except_bind_ok]
      simp only [hts, if_false, pure, Except.pure, except_bind_ok, Bool.false_eq_true]
      simp only [beq_self_eq_true, assert_true, except_bind_ok]
      rw [htgt, except_bind_ok]
      simp only [beq_self_eq_true, assert_true, except_bind_ok]
      rw [hopp, except_bind_ok, hface, except_bind_ok]
      simp only [Bool.or_true, if_true]
      exact ⟨ad.o, rfl, Or.inr ⟨a, ad, List.mem_cons_self _ _, ha, hmem, rfl, ft⟩⟩
    · simp only [hmem, if_false]
      obtain ⟨r, h1, h2⟩ := ih hrest res
      refine ⟨r, h1, ?_⟩
      rcases h2 with ⟨q1, q2⟩ | ⟨i, id, q1, q2, q3, q4, q5⟩
      · left
        refine ⟨q1, ?_⟩
        intro i id hi hf
        rcases List.mem_cons.1 hi with rfl | hi
        · rw [ha] at hf
          simp only [Option.some.injEq] at hf
          subst hf
          exact hmem
        · exact q2 i id hi hf
      · right
        exact ⟨i, id, List.mem_cons_of_mem _ q1, q2, q3, q4, q5⟩

/-- The result of `halfedge(s, t, true)` on two distinct stored vertices. -/
theorem halfedge_vv_strict_run {m : mesh_t R} (ok : edges_ok m) {s t : vertex_descriptor_t}
    (hs : (map_find m.m_vertices s).isSome) (ht : (map_find m.m_vertices t).isSome)
    (hne : s ≠ t) :
    ∃ r, halfedge_vv m s t true = Except.ok r ∧
      ((r = null_halfedge ∧ ¬ connected m s t) ∨ halfedge_from_to m r s t) := by
  obtain ⟨sd, hsd⟩ := Option.isSome_iff_exists.mp hs
  obtain ⟨td, htd⟩ := Option.isSome_iff_exists.mp ht
  obtain ⟨_, smem⟩ := ok.vprop s sd hsd
  obtain ⟨_, tmem⟩ := ok.vprop t td htd
  obtain ⟨es, h1, h2⟩ := halfedge_vv_t_edges_run ok td.m_halfedges
    (fun h hm => by
      obtain ⟨hd, q, _⟩ := (tmem h).1 hm
      exact ⟨hd, q⟩)
  have hes : ∀ e, e ∈ es → ∃ j jd, map_find m.m_halfedges j = some jd ∧ jd.t = t ∧ jd.e = e := by
    intro e he
    obtain ⟨j, jd, q1, q2, q3⟩ := (h2 e).1 he
    obtain ⟨jd1, r1, r2⟩ := (tmem j).1 q1
    rw [q2] at r1
    simp only [Option.some.injEq] at r1
    subst r1
    exact ⟨j, jd, q2, r2, q3⟩
  obtain ⟨r, h3, h4⟩ := halfedge_vv_loop_strict ok hne es hes sd.m_halfedges
    (fun i hi => (smem i).1 hi) null_halfedge
  refine ⟨r, ?_, ?_⟩
  · unfold halfedge_vv
    simp only [map_count_eq_one, hs, ht, assert_true, except_bind_ok, map_at_of_find hsd,
      map_at_of_find htd, h1]
    exact h3
  · rcases h4 with ⟨q1, q2⟩ | ⟨i, id, _, _, _, q4, q5⟩
    · left
      refine ⟨q1, ?_⟩
      rintro ⟨h, hd, od, c1, c2, c3, c4⟩
      have m1 : h ∈ td.m_halfedges := (tmem h).2 ⟨hd, c1, c2⟩
      have m2 : hd.o ∈ sd.m_halfedges := (smem hd.o).2 ⟨od, c3, c4⟩
      obtain ⟨_, ⟨od1, a1, _, a3⟩, _, _⟩ := ok.hprop h hd c1
      rw [c3] at a1
      simp only [Option.some.injEq] at a1
      subst a1
      exact q2 hd.o od m2 c3 ((h2 od.e).2 ⟨h, hd, m1, c1, a3.symm⟩)
    · right
      rw [q4]
      exact q5

/-! ## The first loop of `add_face`: which half-edges it collects -/

theorem scan_some_from_to {m : mesh_t R} (ok : edges_ok m) {v0 v1 : vertex_descriptor_t}
    {d0 d1 : vertex_data_t R} (h0 : map_find m.m_vertices v0 = some d0)
    (h1 : map_find m.m_vertices v1 = some d1) {h : halfedge_descriptor_t}
    (hrun : add_face_scan m d1.m_halfedges d0.m_halfedges = Except.ok (some h))
    (hne : v0 ≠ v1) : halfedge_from_to m h v0 v1 := by
  obtain ⟨s1, _⟩ := add_face_scan_inv m _ _ _ hrun
  obtain ⟨m1, g, m0, e, e0, e1⟩ := s1 h rfl
  obtain ⟨hd, q1, q2⟩ := ((ok.vprop v1 d1 h1).2 h).1 m1
  obtain ⟨gd, r1, r2⟩ := ((ok.vprop v0 d0 h0).2 g).1 m0
  obtain ⟨_, gd1, a1, a2⟩ := edge_eq_ok.1 e0
  obtain ⟨_, hd1, b1, b2⟩ := edge_eq_ok.1 e1
  rw [r1] at a1
  rw [q1] at b1
  simp only [Option.some.injEq] at a1 b1
  subst a1
  subst b1
  have : hd.o = g := by
    rcases two_halfedges ok q1 r1 (b2.trans a2.symm) with x | x
    · subst x
      rw [q1] at r1
      simp only [Option.some.injEq] at r1
      subst r1
      exact absurd (r2.symm.trans q2) hne
    · exact x
  subst this
  exact ⟨hd, gd, q1, q2, r1, r2⟩

theorem scan_none_not_connected {m : mesh_t R} (ok : edges_ok m) {v0 v1 : vertex_descriptor_t}
    {d0 d1 : vertex_data_t R} (h0 : map_find m.m_vertices v0 = some d0)
    (h1 : map_find m.m_vertices v1 = some d1)
    (hrun : add_face_scan m d1.m_halfedges d0.m_halfedges = Except.ok none) :
    ¬ connected m v0 v1 := by
  obtain ⟨_, s2⟩ := add_face_scan_inv m _ _ _ hrun
  rintro ⟨h, hd, od, q1, q2, q3, q4⟩
  have m1 : h ∈ d1.m_halfedges := ((ok.vprop v1 d1 h1).2 h).2 ⟨hd, q1, q2⟩
  have m0 : hd.o ∈ d0.m_halfedges := ((ok.vprop v0 d0 h0).2 hd.o).2 ⟨od, q3, q4⟩
  obtain ⟨e0, e1, a0, a1, ne⟩ := s2 rfl hd.o m0 h m1
  obtain ⟨_, od1, b1, b2⟩ := edge_eq_ok.1 a0
  obtain ⟨_, hd1, c1, c2⟩ := edge_eq_ok.1 a1
  rw [q3] at b1
  rw [q1] at c1
  simp only [Option.some.injEq] at b1 c1
  subst b1
  subst c1
  obtain ⟨_, ⟨od2, x1, _, x3⟩, _, _⟩ := ok.hprop h hd q1
  rw [q3] at x1
  simp only [Option.some.injEq] at x1
  subst x1
  exact ne (b2.symm.trans (x3.trans c2))

theorem core_find {m m1 : mesh_t R} {h : halfedge_descriptor_t} {hd : halfedge_data_t}
    (c : (map_find m1.m_halfedges h).map halfedge_core = (map_find m.m_halfedges h).map halfedge_core)
    (hf : map_find m.m_halfedges h = some hd) :
    ∃ hd1, map_find m1.m_halfedges h = some hd1 ∧ hd1.o = hd.o ∧ hd1.t = hd.t ∧ hd1.e = hd.e := by
  rw [hf] at c
  cases hm : map_find m1.m_halfedges h with
  | none => rw [hm] at c; simp at c
  | some hd1 =>
    rw [hm] at c
    simp only [Option.map_some', Option.some.injEq, halfedge_core, Prod.mk.injEq] at c
    exact ⟨hd1, rfl, c.1, c.2.1, c.2.2⟩

theorem from_to_same_edges {m m1 : mesh_t R} (s : same_edges m m1) {h : halfedge_descriptor_t}
    {a b : vertex_descriptor_t} : halfedge_from_to m1 h a b ↔ halfedge_from_to m h a b := by
  constructor
  · rintro ⟨hd, od, q1, q2, q3, q4⟩
    obtain ⟨hd0, r1, r2, r3, _⟩ := core_find (s.core h).symm q1
    obtain ⟨od0, t1, _, t3, _⟩ := core_find (s.core hd.o).symm q3
    exact ⟨hd0, od0, r1, r3.trans q2, by rw [r2]; exact t1, t3.trans q4⟩
  · rintro ⟨hd, od, q1, q2, q3, q4⟩
    obtain ⟨hd0, r1, r2, r3, _⟩ := core_find (s.core h) q1
    obtain ⟨od0, t1, _, t3, _⟩ := core_find (s.core hd.o) q3
    exact ⟨hd0, od0, r1, r3.trans q2, by rw [r2]; exact t1, t3.trans q4⟩

theorem connected_same_edges {m m1 : mesh_t R} (s : same_edges m m1)
    {a b : vertex_descriptor_t} : connected m1 a b ↔ connected m a b := by
  constructor
  · rintro ⟨h, ft⟩; exact ⟨h, (from_to_same_edges s).1 ft⟩
  · rintro ⟨h, ft⟩; exact ⟨h, (from_to_same_edges s).2 ft⟩

theorem from_to_add_edge_post {m m1 : mesh_t R} {v0 v1 : vertex_descriptor_t}
    {h : halfedge_descriptor_t} (ok : edges_ok m) (post : add_edge_post m m1 v0 v1 h)
    (k : halfedge_descriptor_t) (a b : vertex_descriptor_t) :
    halfedge_from_to m1 k a b ↔
      halfedge_from_to m k a b ∨ (k = some m.m_halfedges.length ∧ a = v0 ∧ b = v1) ∨
        (k = some (m.m_halfedges.length + 1) ∧ a = v1 ∧ b = v0) := by
  constructor
  · rintro ⟨kd, od, q1, q2, q3, q4⟩
    rcases add_edge_post_cases post k kd q1 with ⟨rfl, rfl⟩ | ⟨rfl, rfl⟩ | ⟨_, _, hold⟩
    · right; right
      simp only at q2 q3
      rw [add_edge_post_h0 post] at q3
      simp only [Option.some.injEq] at q3
      subst q3
      exact ⟨rfl, q4.symm, q2.symm⟩
    · right; left
      simp only at q2 q3
      rw [add_edge_post_h1 post] at q3
      simp only [Option.some.injEq] at q3
      subst q3
      exact ⟨rfl, q4.symm, q2.symm⟩
    · left
      obtain ⟨_, ⟨od1, x1, _, _⟩, _, _⟩ := ok.hprop k kd hold
      have := add_edge_post_old ok post _ _ x1
      rw [q3] at this
      simp only [Option.some.injEq] at this
      subst this
      exact ⟨kd, od, hold, q2, x1, q4⟩
  · rintro (⟨kd, od, q1, q2, q3, q4⟩ | ⟨rfl, rfl, rfl⟩ | ⟨rfl, rfl, rfl⟩)
    · exact ⟨kd, od, add_edge_post_old ok post _ _ q1, q2, add_edge_post_old ok post _ _ q3, q4⟩
    · exact ⟨_, _, add_edge_post_h0 post, rfl, add_edge_post_h1 post, rfl⟩
    · exact ⟨_, _, add_edge_post_h1 post, rfl, add_edge_post_h0 post, rfl⟩

/-- In a list of at least 3 pairwise distinct vertices, two different sides
do not have the same ends. -/
theorem sides_distinct {vi : List vertex_descriptor_t} (nd : vi.Nodup) (h3 : 3 ≤ vi.length)
    {j k : Nat} (hjk : j < k) {a b : vertex_descriptor_t}
    (hk0 : vi[k]? = some a) (hk1 : vi[(k + 1) % vi.length]? = some b) :
    ¬ is_side vi j a b := by
  rintro ⟨v0, v1, e0, e1, c⟩
  have idx : ∀ (i1 i2 : Nat) (x : vertex_descriptor_t), vi[i1]? = some x → vi[i2]? = some x →
      i1 = i2 := by
    intro i1 i2 x hi hj
    obtain ⟨li, ei⟩ := List.getElem?_eq_some_iff.1 hi
    obtain ⟨lj, ej⟩ := List.getElem?_eq_some_iff.1 hj
    exact (List.Nodup.getElem_inj_iff nd).1 (ei.trans ej.symm)
  have lk : k < vi.length := (List.getElem?_eq_some_iff.1 hk0).1
  have modk : (k + 1) % vi.length = if k + 1 = vi.length then 0 else k + 1 := by
    split
    · rename_i x; rw [x]; simp
    · exact Nat.mod_eq_of_lt (by omega)
  have modj : (j + 1) % vi.length = if j + 1 = vi.length then 0 else j + 1 := by
    split
    · rename_i x; rw [x]; simp
    · exact Nat.mod_eq_of_lt (by omega)
  rcases c with ⟨rfl, rfl⟩ | ⟨rfl, rfl⟩
  · have := idx _ _ _ hk0 e0
    omega
  · have x1 := idx _ _ _ hk0 e1
    have x2 := idx _ _ _ hk1 e0
    rw [modj] at x1
    rw [modk] at x2
    split at x1 <;> split at x2 <;> omega

theorem side_self_distinct {vi : List vertex_descriptor_t} (nd : vi.Nodup) (h2 : 2 ≤ vi.length)
    {k : Nat} {a b : vertex_descriptor_t}
    (hk0 : vi[k]? = some a) (hk1 : vi[(k + 1) % vi.length]? = some b) : a ≠ b := by
  rintro rfl
  obtain ⟨li, ei⟩ := List.getElem?_eq_some_iff.1 hk0
  obtain ⟨lj, ej⟩ := List.getElem?_eq_some_iff.1 hk1
  have := (List.Nodup.getElem_inj_iff nd).1 (ei.trans ej.symm)
  have modk : (k + 1) % vi.length = if k + 1 = vi.length then 0 else k + 1 := by
    split
    · rename_i x; rw [x]; simp
    · exact Nat.mod_eq_of_lt (by omega)
  rw [modk] at this
  split at this <;> omega

theorem face_loop_init {m : mesh_t R} (ok : edges_ok m) (fok : faces_ok m)
    (vi : List vertex_descriptor_t) :
    face_loop m vi (some m.m_faces.length) 0 m face_data_new := by
  constructor
  · exact ok
  · exact faces_mid_of_ok fok
  · rfl
  · intro h hd hf
    exact ⟨hd, hf, rfl, fun _ => rfl⟩
  · exact Nat.le_refl _
  · rfl
  · intro v; rfl
  · intro j h hj
    simp [face_data_new] at hj
  · exact ⟨[], List.nodup_nil, by intro j; simp, by simp⟩
  · intro h a b ft
    exact Or.inl ft
  · intro h a b ft
    exact ft

theorem bind_face_old {m : mesh_t R} {h : halfedge_descriptor_t} {f : face_descriptor_t}
    {k : halfedge_descriptor_t} {kd : halfedge_data_t} (hk : map_find m.m_halfedges k = some kd)
    (hnull : ∀ hd, map_find m.m_halfedges h = some hd → hd.f = null_face) :
    ∃ kd1, map_find (bind_face m h f).m_halfedges k = some kd1 ∧
      halfedge_core kd1 = halfedge_core kd ∧ (kd.f ≠ null_face → kd1 = kd) := by
  rw [bind_face_find]
  by_cases e : k = h
  · subst e
    simp only [if_true, hk, Option.map_some']
    exact ⟨_, rfl, rfl, fun hn => absurd (hnull kd hk) hn⟩
  · simp only [e, if_false]
    exact ⟨kd, hk, rfl, fun _ => rfl⟩

theorem add_edge_post_pos {m m1 : mesh_t R} {v0 v1 : vertex_descriptor_t}
    {h : halfedge_descriptor_t} (ok : edges_ok m) (post : add_edge_post m m1 v0 v1 h)
    (v : vertex_descriptor_t) :
    (map_find m1.m_vertices v).map (fun d => d.p) = (map_find m.m_vertices v).map (fun d => d.p) := by
  cases h1 : map_find m1.m_vertices v with
  | none =>
    have := add_edge_post_vertex_some post v
    rw [h1] at this
    cases h0 : map_find m.m_vertices v with
    | none => rfl
    | some d => rw [h0] at this; cases this
  | some vd1 =>
    obtain ⟨vd, q1, q2, _⟩ := add_edge_post_vertex ok post v vd1 h1
    rw [q1]
    simp [q2]

/-- One round of the first loop of `add_face` on pairwise distinct vertices
keeps the invariant of the loop. -/
theorem face_loop_step {m mx mx1 : mesh_t R} {vi : List vertex_descriptor_t}
    {fnew : face_descriptor_t} {fx fx1 : face_data_t} {k : Nat}
    (ok0 : edges_ok m) (nd : vi.Nodup) (h3 : 3 ≤ vi.length)
    (fl : face_loop m vi fnew k mx fx)
    (hrun : add_face_step vi fnew false fx k mx = (Except.ok fx1, mx1)) :
    face_loop m vi fnew (k + 1) mx1 fx1 := by
  obtain ⟨v0, v1, d0, d1, r, h, e0, _, e1, _, hv0, hv1, hscan, rfl, hcase⟩ :=
    add_face_step_inv hrun
  have hne : v0 ≠ v1 := side_self_distinct nd (by omega) e0 e1
  obtain ⟨l, lnd, lmem, llen⟩ := fl.news
  have getlast : ∀ (j : Nat) (x : halfedge_descriptor_t),
      (fx.m_halfedges ++ [h])[j]? = some x →
      (j < k ∧ fx.m_halfedges[j]? = some x) ∨ (j = k ∧ x = h) := by
    intro j x hx
    by_cases hj : j < fx.m_halfedges.length
    · rw [List.getElem?_append_left hj] at hx
      exact Or.inl ⟨by rw [← fl.len]; exact hj, hx⟩
    · rw [List.getElem?_append_right (by omega)] at hx
      have : j - fx.m_halfedges.length = 0 := by
        by_contra c
        rw [List.getElem?_eq_none (by simp; omega)] at hx
        cases hx
      rw [this] at hx
      simp only [List.getElem?_cons_zero, Option.some.injEq] at hx
      exact Or.inr ⟨by rw [← fl.len]; omega, hx.symm⟩
  rcases hcase with ⟨rfl, ⟨hd, hf, hnull⟩, rfl⟩ | ⟨rfl, me, hadd, ⟨hd, hf, hnull⟩, rfl⟩
  · -- an existing half-edge is used
    have se := same_edges_bind_face mx h fnew
    have ft : halfedge_from_to mx h v0 v1 := scan_some_from_to fl.ok hv0 hv1 hscan hne
    have ftm : halfedge_from_to m h v0 v1 := by
      rcases fl.origin h v0 v1 ft with x | ⟨_, j, hj, side⟩
      · exact x
      · exact absurd side (sides_distinct nd h3 hj e0 e1)
    have hnull1 : ∀ x, map_find mx.m_halfedges h = some x → x.f = null_face := by
      intro x hx
      rw [hf] at hx
      simp only [Option.some.injEq] at hx
      subst hx
      exact hnull
    constructor
    · exact edges_ok_same_edges fl.ok se
    · exact faces_mid_bind_face fl.mid hf hnull
    · simp [fl.len]
    · intro x xd hx
      obtain ⟨xd1, q1, q2, q3⟩ := fl.old x xd hx
      obtain ⟨xd2, r1, r2, r3⟩ := bind_face_old (f := fnew) q1 hnull1
      refine ⟨xd2, r1, r2.trans q2, ?_⟩
      intro hn
      have := q3 hn
      subst this
      exact r3 hn
    · simp only [bind_face, map_modify_length]
      exact fl.hlen
    · exact fl.verts
    · exact fl.pos
    · intro j x hx
      rcases getlast j x hx with ⟨_, hx1⟩ | ⟨rfl, rfl⟩
      · obtain ⟨a, b, q1, q2, q3, q4⟩ := fl.sides j x hx1
        exact ⟨a, b, q1, q2, (from_to_same_edges se).2 q3, q4⟩
      · exact ⟨v0, v1, e0, e1, (from_to_same_edges se).2 ft, Or.inl ftm⟩
    · refine ⟨l, lnd, ?_, llen⟩
      intro j
      rw [lmem j]
      constructor
      · rintro ⟨q1, q2⟩
        exact ⟨by omega, q2⟩
      · rintro ⟨q1, q2⟩
        refine ⟨?_, q2⟩
        by_contra c
        have : j = k := by omega
        subst this
        obtain ⟨a, b, x0, x1, x2⟩ := q2
        rw [e0] at x0
        rw [e1] at x1
        simp only [Option.some.injEq] at x0 x1
        subst x0
        subst x1
        exact x2 ⟨h, ftm⟩
    · intro x a b hx
      rcases fl.origin x a b ((from_to_same_edges se).1 hx) with q | ⟨q1, j, q2, q3⟩
      · exact Or.inl q
      · exact Or.inr ⟨q1, j, by omega, q3⟩
    · intro x a b hx
      exact (from_to_same_edges se).2 (fl.keep x a b hx)
  · -- a new edge is created
    have post := add_edge_inv mx me v0 v1 h fl.ok.hr fl.ok.er fl.ok.dh fl.ok.de hadd
    have ok1 := edges_ok_add_edge_post fl.ok post
    have mid1 := faces_mid_add_edge_post fl.ok fl.mid post
    have se := same_edges_bind_face me h fnew
    have hret := post.ret
    subst hret
    have nc : ¬ connected mx v0 v1 := scan_none_not_connected fl.ok hv0 hv1 hscan
    have ncm : ¬ connected m v0 v1 := by
      rintro ⟨x, hx⟩
      exact nc ⟨x, fl.keep x v0 v1 hx⟩
    have fresh : map_find m.m_halfedges (some mx.m_halfedges.length) = none :=
      dense_not_ge ok0.dh fl.hlen
    have hnull1 : ∀ x, map_find me.m_halfedges (some mx.m_halfedges.length) = some x →
        x.f = null_face := by
      intro x hx
      rw [hf] at hx
      simp only [Option.some.injEq] at hx
      subst hx
      exact hnull
    have ftn : halfedge_from_to me (some mx.m_halfedges.length) v0 v1 :=
      (from_to_add_edge_post fl.ok post _ _ _).2 (Or.inr (Or.inl ⟨rfl, rfl, rfl⟩))
    constructor
    · exact edges_ok_same_edges ok1 se
    · exact faces_mid_bind_face mid1 hf hnull
    · simp [fl.len]
    · intro x xd hx
      obtain ⟨xd1, q1, q2, q3⟩ := fl.old x xd hx
      have q1' := add_edge_post_old fl.ok post _ _ q1
      obtain ⟨xd2, r1, r2, r3⟩ := bind_face_old (f := fnew) q1' hnull1
      refine ⟨xd2, r1, r2.trans q2, ?_⟩
      intro hn
      have := q3 hn
      subst this
      exact r3 hn
    · simp only [bind_face, map_modify_length]
      rw [post.hlen]
      have := fl.hlen
      omega
    · show me.m_vertices.length = m.m_vertices.length
      rw [post.vlen]
      exact fl.verts
    · intro v
      show (map_find me.m_vertices v).map (fun d => d.p) = _
      rw [add_edge_post_pos fl.ok post v]
      exact fl.pos v
    · intro j x hx
      rcases getlast j x hx with ⟨_, hx1⟩ | ⟨rfl, rfl⟩
      · obtain ⟨a, b, q1, q2, q3, q4⟩ := fl.sides j x hx1
        refine ⟨a, b, q1, q2, (from_to_same_edges se).2 ?_, q4⟩
        exact (from_to_add_edge_post fl.ok post _ _ _).2 (Or.inl q3)
      · exact ⟨v0, v1, e0, e1, (from_to_same_edges se).2 ftn, Or.inr ⟨fresh, ncm⟩⟩
    · refine ⟨l ++ [k], ?_, ?_, ?_⟩
      · rw [List.nodup_append]
        refine ⟨lnd, List.nodup_singleton _, ?_⟩
        intro a ha hb
        simp only [List.mem_singleton] at hb
        subst hb
        have := ((lmem a).1 ha).1
        omega
      · intro j
        rw [List.mem_append, lmem j]
        constructor
        · rintro (⟨q1, q2⟩ | q)
          · exact ⟨by omega, q2⟩
          · simp only [List.mem_singleton] at q
            subst q
            exact ⟨by omega, v0, v1, e0, e1, ncm⟩
        · rintro ⟨q1, q2⟩
          by_cases c : j < k
          · exact Or.inl ⟨c, q2⟩
          · right
            simp only [List.mem_singleton]
            omega
      · show me.m_edges.length = _
        rw [post.elen, llen]
        simp [Nat.add_assoc]
    · intro x a b hx
      have hx1 := (from_to_add_edge_post fl.ok post _ _ _).1 ((from_to_same_edges se).1 hx)
      rcases hx1 with q | ⟨rfl, rfl, rfl⟩ | ⟨rfl, rfl, rfl⟩
      · rcases fl.origin x a b q with q | ⟨q1, j, q2, q3⟩
        · exact Or.inl q
        · exact Or.inr ⟨q1, j, by omega, q3⟩
      · exact Or.inr ⟨fresh, k, by omega, a, b, e0, e1, Or.inl ⟨rfl, rfl⟩⟩
      · refine Or.inr ⟨dense_not_ge ok0.dh (by have := fl.hlen; omega), k, by omega,
          b, a, e0, e1, Or.inr ⟨rfl, rfl⟩⟩
    · intro x a b hx
      apply (from_to_same_edges se).2
      exact (from_to_add_edge_post fl.ok post _ _ _).2 (Or.inl (fl.keep x a b hx))

/-! ## What a call of `add_face` on pairwise distinct vertices builds -/

theorem relinked_store_same {m2 m1 : mesh_t R} {f : face_descriptor_t} {fd : face_data_t}
    {hs : List halfedge_descriptor_t} (rl : relinked (store_face m2 f fd) m1 hs) :
    same_edges m2 m1 := by
  have s := rl.same
  exact ⟨s.v, s.e, s.vr, s.er, s.hr, s.len, s.core⟩

/-- The mesh `m1` and the face `f` returned by `add_face(vi)` on a mesh `m`
that satisfies the invariants, for pairwise distinct vertices. -/
theorem add_face_result {m m1 : mesh_t R} {vi : List vertex_descriptor_t}
    {f : face_descriptor_t} (ok : edges_ok m) (fok : faces_ok m) (nd : vi.Nodup)
    (hrun : add_face vi m = (Except.ok f, m1)) :
    ∃ hs m2, f = some m.m_faces.length ∧ 3 ≤ vi.length ∧
      map_find m1.m_faces f = some { m_halfedges := hs } ∧
      face_loop m vi f vi.length m2 { m_halfedges := hs } ∧
      same_edges m2 m1 ∧ relinked (store_face m2 f { m_halfedges := hs }) m1 hs ∧
      m2.m_faces = m.m_faces ∧
      edges_ok m1 ∧ faces_ok m1 ∧ faces_link m1 f hs hs.length := by
  obtain ⟨h3, rfl, fd, m2, hloop, _, hlink⟩ := add_face_inv fok.fr hrun
  have h1 := add_face_loop_induct
    (fun (k : Nat) mx fx => face_loop m vi (some m.m_faces.length) k mx fx ∧
      mx.m_faces = m.m_faces)
    (fun k mx mx1 fx fx1 hp hs => by
      refine ⟨face_loop_step ok nd h3 hp.1 hs, ?_⟩
      obtain ⟨v0, v1, d0, d1, r, h, _, _, _, _, _, _, _, _, hcase⟩ := add_face_step_inv hs
      rcases hcase with ⟨_, _, rfl⟩ | ⟨_, me, hadd, _, rfl⟩
      · exact hp.2
      · have post := add_edge_inv mx me v0 v1 h hp.1.ok.hr hp.1.ok.er hp.1.ok.dh hp.1.ok.de hadd
        show me.m_faces = m.m_faces
        rw [post.faces]
        exact hp.2)
    vi.length 0 m m2 face_data_new fd ⟨face_loop_init ok fok vi, rfl⟩ hloop
  simp only [Nat.zero_add] at h1
  obtain ⟨fl, hfaces⟩ := h1
  have flk := faces_link_store fl.mid
  obtain ⟨fl1, rl⟩ := add_face_link_ok flk hlink
  have se := relinked_store_same rl
  exact ⟨fd.m_halfedges, m2, rfl, h3, fl1.stored, fl, se, rl, hfaces,
    edges_ok_same_edges fl.ok se, faces_ok_of_link fl1, fl1⟩

theorem get_vertices_around_face_loop_run {m : mesh_t R} (l : List halfedge_descriptor_t)
    (ts : List vertex_descriptor_t) (hlen : ts.length = l.length)
    (hl : ∀ (j : Nat) (h : halfedge_descriptor_t), l[j]? = some h →
      ∃ hd, map_find m.m_halfedges h = some hd ∧ ts[j]? = some hd.t) :
    get_vertices_around_face_loop m l = Except.ok ts := by
  induction l generalizing ts with
  | nil =>
    cases ts with
    | nil => rfl
    | cons a r => simp at hlen
  | cons a rest ih =>
    cases ts with
    | nil => simp at hlen
    | cons t tr =>
      obtain ⟨hd, q1, q2⟩ := hl 0 a (by simp)
      simp only [List.getElem?_cons_zero, Option.some.injEq] at q2
      subst q2
      have hrest := ih tr (by simpa using hlen) (fun j h hj => by
        obtain ⟨xd, x1, x2⟩ := hl (j + 1) h (by simpa using hj)
        exact ⟨xd, x1, by simpa using x2⟩)
      simp only [get_vertices_around_face_loop, map_count_eq_one, q1, Option.isSome_some,
        assert_true, except_bind_ok, map_at_of_find q1, hrest]
      rfl

/-- The boundary stored by a call of `add_face` that returns, on pairwise
distinct vertices. -/
theorem add_face_boundary_of_ok (m m1 : mesh_t R) (hm : Reachable m) (vi : List vertex_descriptor_t)
    (hnd : vi.Nodup) (f : face_descriptor_t) (hrun : add_face vi m = (Except.ok f, m1)) :
    ∃ hs, get_halfedges_around_face m1 f = Except.ok hs ∧ hs.length = vi.length ∧ 3 ≤ vi.length ∧
      (∀ i, i < vi.length → ∃ h v0 v1, hs[i]? = some h ∧ vi[i]? = some v0 ∧
        vi[(i + 1) % vi.length]? = some v1 ∧
        source m1 h = Except.ok v0 ∧ target m1 h = Except.ok v1 ∧ face m1 h = Except.ok f) ∧
      get_vertices_around_face m1 f = Except.ok (vi.rotate 1) := by
  obtain ⟨ok, fok⟩ := reachable_ok hm
  obtain ⟨hs, m2, rfl, h3, hstored, fl, se, _, _, ok1, _, fl1⟩ := add_face_result ok fok hnd hrun
  have hlen : hs.length = vi.length := fl.len
  have hget : get_halfedges_around_face m1 (some m.m_faces.length) = Except.ok hs :=
    get_halfedges_around_face_eq_ok.2 ⟨by simp, hstored⟩
  have side : ∀ i h, hs[i]? = some h → ∃ v0 v1 hd, vi[i]? = some v0 ∧
      vi[(i + 1) % vi.length]? = some v1 ∧ halfedge_from_to m1 h v0 v1 ∧
      map_find m1.m_halfedges h = some hd ∧ hd.f = some m.m_faces.length ∧ hd.t = v1 := by
    intro i h hi
    obtain ⟨v0, v1, q1, q2, q3, _⟩ := fl.sides i h hi
    have ft := (from_to_same_edges se).2 q3
    obtain ⟨hd, r1, r2⟩ := fl1.mine h (List.getElem?_mem hi)
    obtain ⟨hd1, _, x1, x2, _, _⟩ := ft
    rw [r1] at x1
    simp only [Option.some.injEq] at x1
    subst x1
    exact ⟨v0, v1, hd, q1, q2, (from_to_same_edges se).2 q3, r1, r2, x2⟩
  refine ⟨hs, hget, hlen, h3, ?_, ?_⟩
  · intro i hi
    have hi' : i < hs.length := by omega
    obtain ⟨v0, v1, hd, q1, q2, q3, q4, q5, _⟩ := side i hs[i] (List.getElem?_eq_getElem hi')
    obtain ⟨s1, s2⟩ := (from_to_iff_source_target ok1).1 q3
    exact ⟨hs[i], v0, v1, List.getElem?_eq_getElem hi', q1, q2, s1, s2,
      face_eq_ok.2 ⟨key_ne_null ok1.dh q4, hd, q4, q5⟩⟩
  · unfold get_vertices_around_face
    simp only [null_face, some_bne_null, assert_true, except_bind_ok, hget]
    apply get_vertices_around_face_loop_run
    · simp [hlen]
    · intro j h hj
      obtain ⟨v0, v1, hd, _, q2, _, q4, _, q6⟩ := side j h hj
      refine ⟨hd, q4, ?_⟩
      have lj : j < vi.length := by
        have := (List.getElem?_eq_some_iff.1 hj).1
        omega
      rw [List.getElem?_rotate lj, q6]
      exact q2

/-! ## At most one edge between two vertices -/

theorem simple_empty : simple (mesh_t.empty R) := by
  constructor
  · rintro h h1 a b ⟨hd, od, q1, _⟩
    simp [mesh_t.empty, map_find] at q1
  · rintro h a ⟨hd, od, q1, _⟩
    simp [mesh_t.empty, map_find] at q1

theorem simple_of_from_to_iff {m m1 : mesh_t R}
    (hiff : ∀ h a b, halfedge_from_to m1 h a b ↔ halfedge_from_to m h a b) (s : simple m) :
    simple m1 := by
  constructor
  · intro h h1 a b x y
    exact s.1 h h1 a b ((hiff _ _ _).1 x) ((hiff _ _ _).1 y)
  · intro h a x
    exact s.2 h a ((hiff _ _ _).1 x)

theorem simple_same_edges {m m1 : mesh_t R} (se : same_edges m m1) (s : simple m) : simple m1 :=
  simple_of_from_to_iff (fun _ _ _ => from_to_same_edges se) s

theorem simple_add_vertex {m m1 : mesh_t R} {x y z : R} {v : vertex_descriptor_t}
    (ok : edges_ok m) (s : simple m) (hrun : add_vertex x y z m = (Except.ok v, m1)) :
    simple m1 := by
  rw [add_vertex_run m x y z ok.vr ok.dv] at hrun
  simp only [Prod.mk.injEq, Except.ok.injEq] at hrun
  obtain ⟨rfl, rfl⟩ := hrun
  exact simple_of_from_to_iff (fun _ _ _ => Iff.rfl) s

theorem simple_add_edge_post {m m1 : mesh_t R} {v0 v1 : vertex_descriptor_t}
    {h : halfedge_descriptor_t} (ok : edges_ok m) (s : simple m)
    (post : add_edge_post m m1 v0 v1 h) (hne : v0 ≠ v1) (nc : ¬ connected m v0 v1) :
    simple m1 := by
  have nc1 : ¬ connected m v1 v0 := fun c => nc (connected_symm ok c)
  have hl : ¬ (some m.m_halfedges.length : descriptor_t) = some (m.m_halfedges.length + 1) := by
    simp
  constructor
  · intro x y a b fx fy
    rcases (from_to_add_edge_post ok post _ _ _).1 fx with p | ⟨rfl, rfl, rfl⟩ | ⟨rfl, rfl, rfl⟩ <;>
      rcases (from_to_add_edge_post ok post _ _ _).1 fy with q | ⟨rfl, q1, q2⟩ | ⟨rfl, q1, q2⟩
    · exact s.1 x y a b p q
    · subst q1; subst q2; exact absurd ⟨x, p⟩ nc
    · subst q1; subst q2; exact absurd ⟨x, p⟩ nc1
    · exact absurd ⟨y, q⟩ nc
    · rfl
    · exact absurd q1 hne
    · exact absurd ⟨y, q⟩ nc1
    · exact absurd q1.symm hne
    · rfl
  · intro x a fx
    rcases (from_to_add_edge_post ok post _ _ _).1 fx with p | ⟨rfl, q1, q2⟩ | ⟨rfl, q1, q2⟩
    · exact s.2 x a p
    · exact hne (q1.symm.trans q2)
    · exact hne (q2.symm.trans q1)

theorem simple_step {mx mx1 : mesh_t R} {vi : List vertex_descriptor_t}
    {fnew : face_descriptor_t} {fx fx1 : face_data_t} {k : Nat}
    (nd : vi.Nodup) (h2 : 2 ≤ vi.length) (ok : edges_ok mx) (s : simple mx)
    (hrun : add_face_step vi fnew false fx k mx = (Except.ok fx1, mx1)) : simple mx1 := by
  obtain ⟨v0, v1, d0, d1, r, h, e0, _, e1, _, hv0, hv1, hscan, rfl, hcase⟩ :=
    add_face_step_inv hrun
  have hne : v0 ≠ v1 := side_self_distinct nd h2 e0 e1
  rcases hcase with ⟨rfl, _, rfl⟩ | ⟨rfl, me, hadd, _, rfl⟩
  · exact simple_same_edges (same_edges_bind_face mx h fnew) s
  · have post := add_edge_inv mx me v0 v1 h ok.hr ok.er ok.dh ok.de hadd
    have nc : ¬ connected mx v0 v1 := scan_none_not_connected ok hv0 hv1 hscan
    exact simple_same_edges (same_edges_bind_face me h fnew)
      (simple_add_edge_post ok s post hne nc)

theorem simple_add_face {m m1 : mesh_t R} {vi : List vertex_descriptor_t}
    {f : face_descriptor_t} (ok : edges_ok m) (fok : faces_ok m) (s : simple m) (nd : vi.Nodup)
    (hrun : add_face vi m = (Except.ok f, m1)) : simple m1 := by
  obtain ⟨h3, rfl, fd, m2, hloop, _, hlink⟩ := add_face_inv fok.fr hrun
  have h1 := add_face_loop_induct
    (fun (_ : Nat) mx fx => (edges_ok mx ∧ faces_mid mx (some m.m_faces.length) fx.m_halfedges) ∧
      simple mx)
    (fun k mx mx1 fx fx1 hp hs =>
      ⟨add_face_step_ok hp.1.1 hp.1.2 hs, simple_step nd (by omega) hp.1.1 hp.2 hs⟩)
    vi.length 0 m m2 face_data_new fd ⟨⟨ok, faces_mid_of_ok fok⟩, s⟩ hloop
  obtain ⟨⟨_, mid2⟩, s2⟩ := h1
  obtain ⟨_, rl⟩ := add_face_link_ok (faces_link_store mid2) hlink
  exact simple_same_edges (relinked_store_same rl) s2

/-- In a mesh built by `add_vertex` and `add_face` on pairwise distinct
vertices, at most one half-edge leads from one vertex to another and none
from a vertex to itself. -/
theorem built_simple {m : mesh_t R} (b : Built m) : simple m := by
  induction b with
  | empty => exact simple_empty
  | vertex m m1 x y z v b hrun ih =>
    exact simple_add_vertex (reachable_ok (built_reachable b)).1 ih hrun
  | face m m1 vi f b nd hrun ih =>
    obtain ⟨ok, fok⟩ := reachable_ok (built_reachable b)
    exact simple_add_face ok fok ih nd hrun

theorem built_triangle_and_vertex : Built mesh_triangle_and_vertex :=
  Built.vertex _ _ 1 1 0 (some 3) built_triangle (by decide!)

theorem number_of_faces_ok {m : mesh_t R} (fok : faces_ok m) :
    number_of_faces m = (m.m_faces.length : Int) := by
  simp [number_of_faces, number_of_internal_faces, number_of_faces_removed, fok.fr]

theorem number_of_vertices_ok {m : mesh_t R} (ok : edges_ok m) :
    number_of_vertices m = (m.m_vertices.length : Int) := by
  simp [number_of_vertices, number_of_internal_vertices, number_of_vertices_removed, ok.vr]

theorem number_of_edges_ok {m : mesh_t R} (ok : edges_ok m) :
    number_of_edges m = (m.m_edges.length : Int) := by
  simp [number_of_edges, number_of_internal_edges, number_of_edges_removed, ok.er]

/-- The counts after a call of `add_face` that returns, on pairwise
distinct vertices. -/
theorem add_face_counts_of_ok (m m1 : mesh_t R) (hm : Built m) (vi : List vertex_descriptor_t)
    (hnd : vi.Nodup) (f : face_descriptor_t) (hrun : add_face vi m = (Except.ok f, m1)) :
    number_of_faces m1 = number_of_faces m + 1 ∧
    number_of_vertices m1 = number_of_vertices m ∧
    (∃ l : List Nat, l.Nodup ∧
      (∀ j, j ∈ l ↔ (j < vi.length ∧ ∃ v0 v1, vi[j]? = some v0 ∧
        vi[(j + 1) % vi.length]? = some v1 ∧ ¬ ∃ e, edge_joins m e v0 v1)) ∧
      number_of_edges m1 = number_of_edges m + l.length) ∧
    ∃ hs, get_halfedges_around_face m1 f = Except.ok hs ∧
      ∀ (j : Nat) (h : halfedge_descriptor_t) (v0 v1 : vertex_descriptor_t), hs[j]? = some h →
        vi[j]? = some v0 → vi[(j + 1) % vi.length]? = some v1 → (∃ e, edge_joins m e v0 v1) →
        map_count m.m_halfedges h = 1 ∧ source m h = Except.ok v0 ∧ target m h = Except.ok v1 ∧
        ∀ g, source m g = Except.ok v0 → target m g = Except.ok v1 → g = h := by
  obtain ⟨ok, fok⟩ := reachable_ok (built_reachable hm)
  have sm := built_simple hm
  obtain ⟨hs, m2, rfl, h3, hstored, fl, se, rl, hfaces, ok1, fok1, fl1⟩ :=
    add_face_result ok fok hnd hrun
  refine ⟨?_, ?_, ?_, hs, get_halfedges_around_face_eq_ok.2 ⟨by simp, hstored⟩, ?_⟩
  · rw [number_of_faces_ok fok, number_of_faces_ok fok1, rl.faces]
    simp only [store_face]
    rw [map_insert_sorted_length, hfaces]
    simp
  · rw [number_of_vertices_ok ok, number_of_vertices_ok ok1, se.v, fl.verts]
  · obtain ⟨l, lnd, lmem, llen⟩ := fl.news
    refine ⟨l, lnd, ?_, ?_⟩
    · intro j
      rw [lmem j]
      constructor
      · rintro ⟨q1, v0, v1, q2, q3, q4⟩
        exact ⟨q1, v0, v1, q2, q3, fun c => q4 ((joined_iff_connected ok v0 v1).1 c)⟩
      · rintro ⟨q1, v0, v1, q2, q3, q4⟩
        exact ⟨q1, v0, v1, q2, q3, fun c => q4 ((joined_iff_connected ok v0 v1).2 c)⟩
    · rw [number_of_edges_ok ok, number_of_edges_ok ok1, se.e, llen]
      simp
  · intro j h v0 v1 hj e0 e1 hjoin
    obtain ⟨a, b, q1, q2, _, q4⟩ := fl.sides j h hj
    rw [e0] at q1
    rw [e1] at q2
    simp only [Option.some.injEq] at q1 q2
    subst q1
    subst q2
    have c := (joined_iff_connected ok v0 v1).1 hjoin
    have ft : halfedge_from_to m h v0 v1 := by
      rcases q4 with x | ⟨_, x⟩
      · exact x
      · exact absurd c x
    obtain ⟨s1, s2⟩ := (from_to_iff_source_target ok).1 ft
    refine ⟨?_, s1, s2, ?_⟩
    · obtain ⟨hd, _, x1, _⟩ := ft
      simp [map_count, x1]
    · intro g g1 g2
      exact sm.1 g h v0 v1 ((from_to_iff_source_target ok).2 ⟨g1, g2⟩) ft

/-- C10. In a mesh built by `add_vertex`/`add_face`, for stored vertices
`s != t`, `halfedge(s, t, true)` returns a half-edge, which is null exactly
when no edge joins `s` and `t`, and which otherwise has source `s` and
target `t`. -/
theorem halfedge_strict_lookup (m : mesh_t R) (hm : Built m) (s t : vertex_descriptor_t)
    (hs : map_count m.m_vertices s = 1) (ht : map_count m.m_vertices t = 1) (hne : s ≠ t) :
    ∃ r, halfedge_vv m s t true = Except.ok r ∧
      (r = null_halfedge ↔ ¬ ∃ e, edge_joins m e s t) ∧
      (r ≠ null_halfedge → source m r = Except.ok s ∧ target m r = Except.ok t) := by
  obtain ⟨ok, _⟩ := reachable_ok (built_reachable hm)
  have hs1 : (map_find m.m_vertices s).isSome = true := by
    rw [← map_count_eq_one]; simp [hs]
  have ht1 : (map_find m.m_vertices t).isSome = true := by
    rw [← map_count_eq_one]; simp [ht]
  obtain ⟨r, h1, h2⟩ := halfedge_vv_strict_run ok hs1 ht1 hne
  refine ⟨r, h1, ?_, ?_⟩
  · rcases h2 with ⟨q1, q2⟩ | q
    · constructor
      · intro _ c
        exact q2 ((joined_iff_connected ok s t).1 c)
      · intro _
        exact q1
    · have rn : r ≠ null_halfedge := by
        obtain ⟨hd, _, x1, _⟩ := q
        exact key_ne_null ok.dh x1
      constructor
      · intro e; exact absurd e rn
      · intro c
        exact absurd ((joined_iff_connected ok s t).2 ⟨r, q⟩) c
  · intro rn
    rcases h2 with ⟨q1, _⟩ | q
    · exact absurd q1 rn
    · exact (from_to_iff_source_target ok).1 q

theorem halfedge_strict_lookup_witness :
    Built mesh_cube ∧ map_count mesh_cube.m_vertices (some 0) = 1 ∧
    map_count mesh_cube.m_vertices (some 3) = 1 ∧ (some 0 : vertex_descriptor_t) ≠ some 3 ∧
    ∃ r, halfedge_vv mesh_cube (some 0) (some 3) true = Except.ok r ∧
      (r = null_halfedge ↔ ¬ ∃ e, edge_joins mesh_cube e (some 0) (some 3)) ∧
      (r ≠ null_halfedge →
        source mesh_cube r = Except.ok (some 0) ∧ target mesh_cube r = Except.ok (some 3)) :=
  ⟨built_cube, by decide!, by decide!, by decide,
    halfedge_strict_lookup mesh_cube built_cube (some 0) (some 3) (by decide!) (by decide!)
      (by decide)⟩

/-- On the cube, `halfedge(v0, v1, true)` returns a half-edge from `v0` to
`v1` for every side `(v0, v1)` of every face. -/
theorem cube_halfedge_lookup :
    ∀ f, f < 6 → ∀ i, i < 4 →
      ∃ vs h v0 v1, get_vertices_around_face mesh_cube (some f) = Except.ok vs ∧
        vs[i]? = some v0 ∧ vs[(i + 1) % 4]? = some v1 ∧
        halfedge_vv mesh_cube v0 v1 true = Except.ok (some h) ∧
        source mesh_cube (some h) = Except.ok v0 ∧ target mesh_cube (some h) = Except.ok v1 := by
  intro f hf i hi
  have key : ∀ f, f < 6 → ∀ i, i < 4 →
      (match get_vertices_around_face mesh_cube (some f) with
        | Except.ok vs =>
          (match vs[i]?, vs[(i + 1) % 4]? with
            | some v0, some v1 =>
              (match halfedge_vv mesh_cube v0 v1 true with
                | Except.ok (some h) =>
                  decide (source mesh_cube (some h) = Except.ok v0 ∧
                    target mesh_cube (some h) = Except.ok v1)
                | _ => false)
            | _, _ => false)
        | _ => false) = true := by
    decide!
  have := key f hf i hi
  split at this
  · rename_i vs hvs
    split at this
    · rename_i v0 v1 e0 e1
      split at this
      · rename_i h hh
        simp only [decide_eq_true_eq] at this
        exact ⟨vs, h, v0, v1, hvs, e0, e1, hh, this.1, this.2⟩
      · cases this
    · cases this
  · cases this

/-! ## `add_face` stops on a half-edge that is already bound to a face -/

/-- Adding the same triangle twice with the same orientation: the second
call stops at the assertion of line 503. -/
theorem add_face_twice_fails :
    (add_face [some 0, some 1, some 2] mesh_triangle).1 =
      Except.error error.assertion_failed := by
  decide!

/-! ## `add_face` returns when its preconditions hold -/

theorem add_edge_run {m : mesh_t R} (ok : edges_ok m) {v0 v1 : vertex_descriptor_t}
    (n0 : v0 ≠ none) (n1 : v1 ≠ none) (hv0 : (map_find m.m_vertices v0).isSome = true)
    (hv1 : (map_find m.m_vertices v1).isSome = true) :
    ∃ m1, add_edge v0 v1 m = (Except.ok (some m.m_halfedges.length), m1) := by
  unfold add_edge
  have a0 : (v0 != null_vertex) = true := (bne_null_iff v0).2 n0
  have a1 : (v1 != null_vertex) = true := (bne_null_iff v1).2 n1
  rw [bind_ok (show mesh_op.eval (fun _ => MCUT_ASSERT (v0 != null_vertex)) m = (Except.ok (), m) by
    rw [eval_run, a0, assert_true])]
  rw [bind_ok (show mesh_op.eval (fun _ => MCUT_ASSERT (v1 != null_vertex)) m = (Except.ok (), m) by
    rw [eval_run, a1, assert_true])]
  rw [bind_ok (add_edge_h0_run m ok.hr ok.dh)]
  have s1 := add_edge_h1_run
    ({ m with m_halfedges :=
        (map_insert_sorted (some m.m_halfedges.length) halfedge_data_new m.m_halfedges) })
    ok.hr (dense_insert ok.dh _)
  rw [bind_ok s1]
  clear s1
  have s2 := add_edge_e_run
    ({ m with m_halfedges := (map_insert_sorted
        (some (map_insert_sorted (some m.m_halfedges.length) halfedge_data_new m.m_halfedges).length)
        halfedge_data_new
        (map_insert_sorted (some m.m_halfedges.length) halfedge_data_new m.m_halfedges)) })
    ok.er ok.de
  rw [bind_ok s2]
  clear s2
  simp only [bind_run, update_run, eval_run, add_edge_incidence, map_count_eq_one,
    map_find_modify, map_insert_sorted_length, pure_run]
  have hv1b : (if v1 = v0 then
      Option.map (push_incident (some (m.m_halfedges.length + 1))) (map_find m.m_vertices v0)
      else map_find m.m_vertices v1).isSome = true := by
    split
    · simp [hv0]
    · exact hv1
  rw [hv0, assert_true]
  simp only []
  rw [hv1b, assert_true]
  exact ⟨_, rfl⟩

theorem add_face_scan_v1_run {m : mesh_t R} (ok : edges_ok m) (e : edge_descriptor_t)
    (l : List halfedge_descriptor_t)
    (hl : ∀ h, h ∈ l → ∃ hd, map_find m.m_halfedges h = some hd) :
    ∃ r, add_face_scan_v1 m e l = Except.ok r := by
  induction l with
  | nil => exact ⟨none, rfl⟩
  | cons a rest ih =>
    obtain ⟨ad, ha⟩ := hl a (List.mem_cons_self _ _)
    obtain ⟨r, hr⟩ := ih (fun h hm => hl h (List.mem_cons_of_mem _ hm))
    simp only [add_face_scan_v1, (edge_of_key ok ha).1, except_bind_ok]
    split
    · exact ⟨some a, rfl⟩
    · exact ⟨r, hr⟩

theorem add_face_scan_run {m : mesh_t R} (ok : edges_ok m)
    (l1 l0 : List halfedge_descriptor_t)
    (hl1 : ∀ h, h ∈ l1 → ∃ hd, map_find m.m_halfedges h = some hd)
    (hl0 : ∀ h, h ∈ l0 → ∃ hd, map_find m.m_halfedges h = some hd) :
    ∃ r, add_face_scan m l1 l0 = Except.ok r := by
  induction l0 with
  | nil => exact ⟨none, rfl⟩
  | cons a rest ih =>
    obtain ⟨ad, ha⟩ := hl0 a (List.mem_cons_self _ _)
    obtain ⟨r, hr⟩ := ih (fun h hm => hl0 h (List.mem_cons_of_mem _ hm))
    obtain ⟨r1, hr1⟩ := add_face_scan_v1_run ok ad.e l1 hl1
    simp only [add_face_scan, (edge_of_key ok ha).1, except_bind_ok, hr1]
    cases r1 with
    | some x => exact ⟨some x, rfl⟩
    | none => exact ⟨r, hr⟩

theorem scan_run_vertices {m : mesh_t R} (ok : edges_ok m) {v0 v1 : vertex_descriptor_t}
    {d0 d1 : vertex_data_t R} (h0 : map_find m.m_vertices v0 = some d0)
    (h1 : map_find m.m_vertices v1 = some d1) :
    ∃ r, add_face_scan m d1.m_halfedges d0.m_halfedges = Except.ok r := by
  apply add_face_scan_run ok
  · intro h hm
    obtain ⟨hd, q, _⟩ := ((ok.vprop v1 d1 h1).2 h).1 hm
    exact ⟨hd, q⟩
  · intro h hm
    obtain ⟨hd, q, _⟩ := ((ok.vprop v0 d0 h0).2 h).1 hm
    exact ⟨hd, q⟩

/-- One round of the first loop of `add_face` returns when the two vertices
of the side are stored and the half-edge it finds, if any, is bound to no
face. -/
theorem add_face_step_run {mx : mesh_t R} {vi : List vertex_descriptor_t}
    {fnew : face_descriptor_t} {fx : face_data_t} {k : Nat} (ok : edges_ok mx)
    {v0 v1 : vertex_descriptor_t} (e0 : vi[k]? = some v0)
    (e1 : vi[(k + 1) % vi.length]? = some v1) (n0 : v0 ≠ none) (n1 : v1 ≠ none)
    (hv0 : (map_find mx.m_vertices v0).isSome = true)
    (hv1 : (map_find mx.m_vertices v1).isSome = true)
    (hfree : ∀ h d0 d1 hd, map_find mx.m_vertices v0 = some d0 →
      map_find mx.m_vertices v1 = some d1 →
      add_face_scan mx d1.m_halfedges d0.m_halfedges = Except.ok (some h) →
      map_find mx.m_halfedges h = some hd → hd.f = null_face) :
    ∃ fx1 mx1, add_face_step vi fnew false fx k mx = (Except.ok fx1, mx1) := by
  obtain ⟨d0, hd0⟩ := Option.isSome_iff_exists.mp hv0
  obtain ⟨d1, hd1⟩ := Option.isSome_iff_exists.mp hv1
  obtain ⟨r, hr⟩ := scan_run_vertices ok hd0 hd1
  have a0 : (v0 != null_vertex) = true := (bne_null_iff v0).2 n0
  have a1 : (v1 != null_vertex) = true := (bne_null_iff v1).2 n1
  unfold add_face_step
  rw [bind_ok (show mesh_op.eval (fun _ => vector_at vi k) mx = (Except.ok v0, mx) by
    rw [eval_run, vector_at_eq_ok.2 e0])]
  rw [bind_ok (show mesh_op.eval (fun _ => MCUT_ASSERT (v0 != null_vertex)) mx =
      (Except.ok (), mx) by
    rw [eval_run, a0, assert_true])]
  rw [bind_ok (show mesh_op.eval (fun _ => vector_at vi ((k + 1) % vi.length)) mx =
      (Except.ok v1, mx) by
    rw [eval_run, vector_at_eq_ok.2 e1])]
  rw [bind_ok (show mesh_op.eval (fun _ => MCUT_ASSERT (v1 != null_vertex)) mx =
      (Except.ok (), mx) by
    rw [eval_run, a1, assert_true])]
  rw [bind_ok (show mesh_op.eval (fun m => map_at m.m_vertices v0) mx = (Except.ok d0, mx) by
    rw [eval_run, map_at_of_find hd0])]
  rw [bind_ok (show mesh_op.eval (fun m => map_at m.m_vertices v1) mx = (Except.ok d1, mx) by
    rw [eval_run, map_at_of_find hd1])]
  rw [bind_ok (show mesh_op.eval
      (fun m => add_face_scan m d1.m_halfedges d0.m_halfedges) mx = (Except.ok r, mx) by
    rw [eval_run, hr])]
  cases r with
  | some h =>
    obtain ⟨s1, _⟩ := add_face_scan_inv mx _ _ _ hr
    obtain ⟨m1, _⟩ := s1 h rfl
    obtain ⟨hd, q1, _⟩ := ((ok.vprop v1 d1 hd1).2 h).1 m1
    have hnull := hfree h d0 d1 hd hd0 hd1 hr q1
    simp only []
    rw [bind_ok (show mesh_op.eval (fun m => MCUT_ASSERT (map_count m.m_halfedges h == 1)) mx =
        (Except.ok (), mx) by
      rw [eval_run, map_count_eq_one, q1]; rfl)]
    rw [bind_ok (show mesh_op.eval (fun m => map_at m.m_halfedges h) mx = (Except.ok hd, mx) by
      rw [eval_run, map_at_of_find q1])]
    rw [bind_ok (add_face_push_run fnew fx h mx)]
    rw [bind_ok (show mesh_op.eval (fun m => map_at m.m_halfedges h) mx = (Except.ok hd, mx) by
      rw [eval_run, map_at_of_find q1])]
    rw [bind_ok (show mesh_op.eval (fun _ => MCUT_ASSERT (hd.f == null_face)) mx =
        (Except.ok (), mx) by
      rw [eval_run, hnull]; rfl)]
    simp only [bind_run, update_run, pure_run]
    exact ⟨_, _, rfl⟩
  | none =>
    obtain ⟨me, hadd⟩ := add_edge_run ok n0 n1 hv0 hv1
    have post := add_edge_inv mx me v0 v1 _ ok.hr ok.er ok.dh ok.de hadd
    have q1 := add_edge_post_h0 post
    simp only []
    rw [bind_ok hadd]
    rw [bind_ok (show mesh_op.eval
        (fun m => MCUT_ASSERT (map_count m.m_halfedges (some mx.m_halfedges.length) == 1)) me =
        (Except.ok (), me) by
      rw [eval_run, map_count_eq_one, q1]; rfl)]
    rw [bind_ok (show mesh_op.eval (fun m => map_at m.m_halfedges (some mx.m_halfedges.length)) me =
        (Except.ok _, me) by
      rw [eval_run, map_at_of_find q1])]
    rw [bind_ok (add_face_push_run fnew fx _ me)]
    rw [bind_ok (show mesh_op.eval (fun m => map_at m.m_halfedges (some mx.m_halfedges.length)) me =
        (Except.ok _, me) by
      rw [eval_run, map_at_of_find q1])]
    simp only [bind_run, eval_run, update_run, pure_run]
    exact ⟨_, _, rfl⟩

/-- The first loop of `add_face` returns when every round does, under an
invariant that the rounds keep. -/
theorem add_face_loop_run {vi : List vertex_descriptor_t} {fnew : face_descriptor_t}
    {reusing : Bool} (P : Nat → mesh_t R → face_data_t → Prop) (N : Nat)
    (step : ∀ (k : Nat) (m m1 : mesh_t R) (fd fd1 : face_data_t), P k m fd →
      add_face_step vi fnew reusing fd k m = (Except.ok fd1, m1) → P (k + 1) m1 fd1)
    (run : ∀ (k : Nat) (m : mesh_t R) (fd : face_data_t), P k m fd → k < N →
      ∃ fd1 m1, add_face_step vi fnew reusing fd k m = (Except.ok fd1, m1))
    (n : Nat) : ∀ (k : Nat) (m : mesh_t R) (fd : face_data_t), P k m fd → k + n ≤ N →
      ∃ fd2 m2, add_face_loop vi fnew reusing (List.range' k n) fd m = (Except.ok fd2, m2) := by
  induction n with
  | zero =>
    intro k m fd _ _
    exact ⟨fd, m, rfl⟩
  | succ n ih =>
    intro k m fd hp hk
    obtain ⟨fd1, m1, h1⟩ := run k m fd hp (by omega)
    obtain ⟨fd2, m2, h2⟩ := ih (k + 1) m1 fd1 (step k m m1 fd fd1 hp h1) (by omega)
    refine ⟨fd2, m2, ?_⟩
    simp only [List.range'_succ, add_face_loop]
    rw [bind_ok h1]
    exact h2

theorem set_next_run {m : mesh_t R} {h nxt : halfedge_descriptor_t} (n0 : h ≠ none)
    (n1 : nxt ≠ none) (k0 : (map_find m.m_halfedges h).isSome = true)
    (k1 : (map_find m.m_halfedges nxt).isSome = true) :
    set_next h nxt m = (Except.ok (), link_next m h nxt) := by
  have a0 : (h != null_halfedge) = true := (bne_null_iff h).2 n0
  have a1 : (nxt != null_halfedge) = true := (bne_null_iff nxt).2 n1
  unfold set_next set_previous
  simp only [bind_run, eval_run, update_run, a0, a1, assert_true, map_count_eq_one, k0,
    map_find_modify_isSome, k1]
  rfl

theorem add_face_link_run (hs : List halfedge_descriptor_t) (n : Nat) :
    ∀ (k : Nat) (m : mesh_t R),
      (∀ h, h ∈ hs → h ≠ none ∧ (map_find m.m_halfedges h).isSome = true) →
      k + n ≤ hs.length →
      ∃ m2, add_face_link hs (List.range' k n) m = (Except.ok (), m2) := by
  induction n with
  | zero =>
    intro k m _ _
    exact ⟨m, rfl⟩
  | succ n ih =>
    intro k m hk hl
    have l0 : k < hs.length := by omega
    have l1 : (k + 1) % hs.length < hs.length := Nat.mod_lt _ (by omega)
    obtain ⟨a0, a1⟩ := hk hs[k] (List.getElem_mem _)
    obtain ⟨b0, b1⟩ := hk hs[(k + 1) % hs.length] (List.getElem_mem _)
    have hkeys : ∀ h, h ∈ hs → h ≠ none ∧
        (map_find (link_next m hs[k] hs[(k + 1) % hs.length]).m_halfedges h).isSome = true := by
      intro h hm
      obtain ⟨c0, c1⟩ := hk h hm
      refine ⟨c0, ?_⟩
      simp only [link_next, map_find_modify_isSome]
      exact c1
    obtain ⟨m2, h2⟩ := ih (k + 1) _ hkeys (by omega)
    refine ⟨m2, ?_⟩
    simp only [List.range'_succ, add_face_link]
    rw [bind_ok (show mesh_op.eval (fun _ => vector_at hs k) m = (Except.ok hs[k], m) by
      rw [eval_run, vector_at_eq_ok.2 (List.getElem?_eq_getElem l0)])]
    rw [bind_ok (show mesh_op.eval (fun _ => vector_at hs ((k + 1) % hs.length)) m =
        (Except.ok hs[(k + 1) % hs.length], m) by
      rw [eval_run, vector_at_eq_ok.2 (List.getElem?_eq_getElem l1)])]
    rw [bind_ok (set_next_run a0 b0 a1 b1)]
    exact h2

theorem from_to_ends {m : mesh_t R} {h : halfedge_descriptor_t} {a b c d : vertex_descriptor_t}
    (x : halfedge_from_to m h a b) (y : halfedge_from_to m h c d) : a = c ∧ b = d := by
  obtain ⟨hd, od, q1, q2, q3, q4⟩ := x
  obtain ⟨hd1, od1, r1, r2, r3, r4⟩ := y
  rw [q1] at r1
  simp only [Option.some.injEq] at r1
  subst r1
  rw [q3] at r3
  simp only [Option.some.injEq] at r3
  subst r3
  exact ⟨q4.symm.trans r4, q2.symm.trans r2⟩

/-- A call of `add_face` returns on a mesh that satisfies the invariants
when it is given at least 3 pairwise distinct stored vertices and no
half-edge from a vertex of the list to the next one is bound to a face. -/
theorem add_face_returns {m : mesh_t R} (ok : edges_ok m) (fok : faces_ok m)
    (vi : List vertex_descriptor_t) (h3 : 3 ≤ vi.length) (nd : vi.Nodup)
    (hex : ∀ v, v ∈ vi → map_count m.m_vertices v = 1)
    (hfree : ∀ (i : Nat) (v0 v1 : vertex_descriptor_t) (h : halfedge_descriptor_t),
      vi[i]? = some v0 → vi[(i + 1) % vi.length]? = some v1 →
      source m h = Except.ok v0 → target m h = Except.ok v1 → face m h = Except.ok null_face) :
    ∃ f m1, add_face vi m = (Except.ok f, m1) := by
  have hex1 : ∀ v, v ∈ vi → v ≠ none ∧ (map_find m.m_vertices v).isSome = true := by
    intro v hv
    have : (map_find m.m_vertices v).isSome = true := by
      rw [← map_count_eq_one]; simp [hex v hv]
    obtain ⟨d, hd⟩ := Option.isSome_iff_exists.mp this
    exact ⟨key_ne_null ok.dv hd, this⟩
  obtain ⟨fd, m2, hloop⟩ := add_face_loop_run
    (fun (k : Nat) mx fx => face_loop m vi (some m.m_faces.length) k mx fx ∧
      mx.m_faces = m.m_faces) vi.length
    (fun k mx mx1 fx fx1 hp hs => by
      refine ⟨face_loop_step ok nd h3 hp.1 hs, ?_⟩
      obtain ⟨v0, v1, d0, d1, r, h, _, _, _, _, _, _, _, _, hcase⟩ := add_face_step_inv hs
      rcases hcase with ⟨_, _, rfl⟩ | ⟨_, me, hadd, _, rfl⟩
      · exact hp.2
      · have post := add_edge_inv mx me v0 v1 h hp.1.ok.hr hp.1.ok.er hp.1.ok.dh hp.1.ok.de hadd
        show me.m_faces = m.m_faces
        rw [post.faces]
        exact hp.2)
    (fun k mx fx hp hk => by
      obtain ⟨fl, hfaces⟩ := hp
      have l1 : (k + 1) % vi.length < vi.length := Nat.mod_lt _ (by omega)
      have e0 : vi[k]? = some vi[k] := List.getElem?_eq_getElem hk
      have e1 : vi[(k + 1) % vi.length]? = some vi[(k + 1) % vi.length] :=
        List.getElem?_eq_getElem l1
      obtain ⟨n0, p0⟩ := hex1 vi[k] (List.getElem_mem _)
      obtain ⟨n1, p1⟩ := hex1 vi[(k + 1) % vi.length] (List.getElem_mem _)
      have present : ∀ v, (map_find m.m_vertices v).isSome = true →
          (map_find mx.m_vertices v).isSome = true := by
        intro v hv
        have := fl.pos v
        cases h1 : map_find mx.m_vertices v with
        | some d => rfl
        | none =>
          rw [h1] at this
          obtain ⟨d, hd⟩ := Option.isSome_iff_exists.mp hv
          rw [hd] at this
          simp at this
      have hne : vi[k] ≠ vi[(k + 1) % vi.length] := side_self_distinct nd (by omega) e0 e1
      apply add_face_step_run fl.ok e0 e1 n0 n1 (present _ p0) (present _ p1)
      intro h d0 d1 hd hd0 hd1 hscan hf
      have ft := scan_some_from_to fl.ok hd0 hd1 hscan hne
      have ftm : halfedge_from_to m h vi[k] vi[(k + 1) % vi.length] := by
        rcases fl.origin h _ _ ft with x | ⟨_, j, hj, side⟩
        · exact x
        · exact absurd side (sides_distinct nd h3 hj e0 e1)
      obtain ⟨s1, s2⟩ := (from_to_iff_source_target ok).1 ftm
      have hface := hfree k _ _ h e0 e1 s1 s2
      obtain ⟨_, hd0', q1, q2⟩ := face_eq_ok.1 hface
      by_contra hnn
      rcases fl.mid.bound h hd hf hnn with ⟨fd, x1, x2⟩ | ⟨_, x2⟩
      · rw [hfaces] at x1
        obtain ⟨hd1', y1, y2⟩ := (fok.cyc _ fd x1).2.1 h x2
        rw [q1] at y1
        simp only [Option.some.injEq] at y1
        subst y1
        rw [q2] at y2
        exact hnn y2.symm
      · obtain ⟨j, lj, ej⟩ := List.mem_iff_getElem.1 x2
        have hj : fx.m_halfedges[j]? = some h := by
          rw [List.getElem?_eq_getElem lj, ej]
        obtain ⟨a, b, y1, y2, y3, _⟩ := fl.sides j h hj
        obtain ⟨z1, z2⟩ := from_to_ends ft y3
        have : is_side vi j vi[k] vi[(k + 1) % vi.length] :=
          ⟨a, b, y1, y2, Or.inl ⟨z1, z2⟩⟩
        exact sides_distinct nd h3 (by rw [← fl.len]; exact lj) e0 e1 this)
    vi.length 0 m face_data_new ⟨face_loop_init ok fok vi, rfl⟩ (by omega)
  have hinv := add_face_loop_induct
    (fun (k : Nat) mx fx => face_loop m vi (some m.m_faces.length) k mx fx ∧
      mx.m_faces = m.m_faces)
    (fun k mx mx1 fx fx1 hp hs => by
      refine ⟨face_loop_step ok nd h3 hp.1 hs, ?_⟩
      obtain ⟨v0, v1, d0, d1, r, h, _, _, _, _, _, _, _, _, hcase⟩ := add_face_step_inv hs
      rcases hcase with ⟨_, _, rfl⟩ | ⟨_, me, hadd, _, rfl⟩
      · exact hp.2
      · have post := add_edge_inv mx me v0 v1 h hp.1.ok.hr hp.1.ok.er hp.1.ok.dh hp.1.ok.de hadd
        show me.m_faces = m.m_faces
        rw [post.faces]
        exact hp.2)
    vi.length 0 m m2 face_data_new fd ⟨face_loop_init ok fok vi, rfl⟩ hloop
  obtain ⟨fl, hfaces⟩ := hinv
  have hkeys : ∀ h, h ∈ fd.m_halfedges → h ≠ none ∧
      (map_find (store_face m2 (some m.m_faces.length) fd).m_halfedges h).isSome = true := by
    intro h hm
    obtain ⟨hd, q1, _⟩ := fl.mid.mine h hm
    refine ⟨key_ne_null fl.ok.dh q1, ?_⟩
    show (map_find m2.m_halfedges h).isSome = true
    rw [q1]; rfl
  obtain ⟨m1, hlink⟩ := add_face_link_run fd.m_halfedges fd.m_halfedges.length 0 _ hkeys
    (by omega)
  refine ⟨some m.m_faces.length, m1, ?_⟩
  unfold add_face
  have a3 : decide (3 ≤ vi.length) = true := by simp [h3]
  rw [bind_ok (show mesh_op.eval (fun _ => MCUT_ASSERT (decide (3 ≤ vi.length))) m =
      (Except.ok (), m) by
    rw [eval_run, a3, assert_true])]
  rw [bind_ok (add_face_slot_run m fok.fr)]
  simp only []
  rw [List.range_eq_range', bind_ok hloop]
  have hstore : add_face_store (some m.m_faces.length) false fd m2 =
      (Except.ok (), store_face m2 (some m.m_faces.length) fd) := by
    unfold add_face_store
    have : map_find m2.m_faces (some m.m_faces.length) = none := by
      rw [hfaces]; exact dense_fresh fok.df
    simp [map_count, this, map_insert, store_face]
  rw [bind_ok hstore, List.range_eq_range', bind_ok hlink]
  rfl

/-- A mesh built by `add_vertex`/`add_face` stays so under a call of
`add_face` that meets the preconditions, and the call returns. -/
theorem built_add_face {m : mesh_t R} (hm : Built m) (vi : List vertex_descriptor_t)
    (h3 : 3 ≤ vi.length) (hnd : vi.Nodup)
    (hex : ∀ v, v ∈ vi → map_count m.m_vertices v = 1)
    (hfree : ∀ (i : Nat) (v0 v1 : vertex_descriptor_t) (h : halfedge_descriptor_t),
      vi[i]? = some v0 → vi[(i + 1) % vi.length]? = some v1 →
      source m h = Except.ok v0 → target m h = Except.ok v1 → face m h = Except.ok null_face) :
    ∃ f m1, add_face vi m = (Except.ok f, m1) ∧ Built m1 := by
  obtain ⟨ok, fok⟩ := reachable_ok (built_reachable hm)
  obtain ⟨f, m1, hrun⟩ := add_face_returns ok fok vi h3 hnd hex hfree
  exact ⟨f, m1, hrun, Built.face m m1 vi f hm hnd hrun⟩

/-- C5. On a mesh reached by creation calls, for every list `vi` of `n >= 3`
pairwise distinct stored vertices such that no half-edge from a vertex of
the list to the next one is bound to a face, `add_face(vi)` returns a face
`f`; the boundary stored for `f` has exactly `n` half-edges, the `i`-th of
which has source `vi[i]`, target `vi[(i+1) mod n]` and face `f`; and
`get_vertices_around_face(f)` is `vi` rotated left by one position. -/
theorem add_face_boundary (m : mesh_t R) (hm : Reachable m) (vi : List vertex_descriptor_t)
    (h3 : 3 ≤ vi.length) (hnd : vi.Nodup)
    (hex : ∀ v, v ∈ vi → map_count m.m_vertices v = 1)
    (hfree : ∀ (i : Nat) (v0 v1 : vertex_descriptor_t) (h : halfedge_descriptor_t),
      vi[i]? = some v0 → vi[(i + 1) % vi.length]? = some v1 →
      source m h = Except.ok v0 → target m h = Except.ok v1 → face m h = Except.ok null_face) :
    ∃ f m1 hs, add_face vi m = (Except.ok f, m1) ∧
      get_halfedges_around_face m1 f = Except.ok hs ∧ hs.length = vi.length ∧
      (∀ i, i < vi.length → ∃ h v0 v1, hs[i]? = some h ∧ vi[i]? = some v0 ∧
        vi[(i + 1) % vi.length]? = some v1 ∧
        source m1 h = Except.ok v0 ∧ target m1 h = Except.ok v1 ∧ face m1 h = Except.ok f) ∧
      get_vertices_around_face m1 f = Except.ok (vi.rotate 1) := by
  obtain ⟨ok, fok⟩ := reachable_ok hm
  obtain ⟨f, m1, hrun⟩ := add_face_returns ok fok vi h3 hnd hex hfree
  obtain ⟨hs, q1, q2, _, q4, q5⟩ := add_face_boundary_of_ok m m1 hm vi hnd f hrun
  exact ⟨f, m1, hs, hrun, q1, q2, q4, q5⟩

theorem free_three_vertices (vi : List vertex_descriptor_t) (i : Nat)
    (v0 v1 : vertex_descriptor_t) (h : halfedge_descriptor_t)
    (_ : vi[i]? = some v0) (_ : vi[(i + 1) % vi.length]? = some v1)
    (hs : source mesh_three_vertices h = Except.ok v0)
    (_ : target mesh_three_vertices h = Except.ok v1) :
    face mesh_three_vertices h = Except.ok null_face := by
  obtain ⟨_, hd, _, q1, _⟩ := source_eq_ok.1 hs
  have : mesh_three_vertices.m_halfedges = [] := by decide!
  rw [this] at q1
  simp [map_find] at q1

theorem add_face_boundary_witness :
    Reachable mesh_three_vertices ∧
    3 ≤ [(some 0 : vertex_descriptor_t), some 1, some 2].length ∧
    [(some 0 : vertex_descriptor_t), some 1, some 2].Nodup ∧
    (∀ v, v ∈ [(some 0 : vertex_descriptor_t), some 1, some 2] →
      map_count mesh_three_vertices.m_vertices v = 1) ∧
    ∃ f m1 hs, add_face [some 0, some 1, some 2] mesh_three_vertices = (Except.ok f, m1) ∧
      get_halfedges_around_face m1 f = Except.ok hs ∧
      hs.length = [(some 0 : vertex_descriptor_t), some 1, some 2].length ∧
      (∀ i, i < [(some 0 : vertex_descriptor_t), some 1, some 2].length → ∃ h v0 v1,
        hs[i]? = some h ∧ [(some 0 : vertex_descriptor_t), some 1, some 2][i]? = some v0 ∧
        [(some 0 : vertex_descriptor_t), some 1, some 2][(i + 1) %
          [(some 0 : vertex_descriptor_t), some 1, some 2].length]? = some v1 ∧
        source m1 h = Except.ok v0 ∧ target m1 h = Except.ok v1 ∧ face m1 h = Except.ok f) ∧
      get_vertices_around_face m1 f =
        Except.ok ([(some 0 : vertex_descriptor_t), some 1, some 2].rotate 1) :=
  ⟨built_reachable built_three_vertices, by decide, by decide, by decide!,
    add_face_boundary mesh_three_vertices (built_reachable built_three_vertices)
      [some 0, some 1, some 2] (by decide) (by decide) (by decide!)
      (free_three_vertices [some 0, some 1, some 2])⟩

/-- C6. On a mesh built by `add_vertex`/`add_face`, for every list `vi` of
at least 3 pairwise distinct stored vertices such that no half-edge from a
vertex of the list to the next one is bound to a face, `add_face(vi)`
returns; the number of faces grows by 1, the number of vertices is
unchanged, the number of edges grows by the number of sides
`(vi[j], vi[(j+1) mod n])` that no edge joined before the call, and for a
side that an edge joined, the boundary half-edge is the one half-edge of the
mesh before the call that leads from `vi[j]` to `vi[(j+1) mod n]`. -/
theorem add_face_counts (m : mesh_t R) (hm : Built m) (vi : List vertex_descriptor_t)
    (h3 : 3 ≤ vi.length) (hnd : vi.Nodup)
    (hex : ∀ v, v ∈ vi → map_count m.m_vertices v = 1)
    (hfree : ∀ (i : Nat) (v0 v1 : vertex_descriptor_t) (h : halfedge_descriptor_t),
      vi[i]? = some v0 → vi[(i + 1) % vi.length]? = some v1 →
      source m h = Except.ok v0 → target m h = Except.ok v1 → face m h = Except.ok null_face) :
    ∃ f m1, add_face vi m = (Except.ok f, m1) ∧
    number_of_faces m1 = number_of_faces m + 1 ∧
    number_of_vertices m1 = number_of_vertices m ∧
    (∃ l : List Nat, l.Nodup ∧
      (∀ j, j ∈ l ↔ (j < vi.length ∧ ∃ v0 v1, vi[j]? = some v0 ∧
        vi[(j + 1) % vi.length]? = some v1 ∧ ¬ ∃ e, edge_joins m e v0 v1)) ∧
      number_of_edges m1 = number_of_edges m + l.length) ∧
    ∃ hs, get_halfedges_around_face m1 f = Except.ok hs ∧
      ∀ (j : Nat) (h : halfedge_descriptor_t) (v0 v1 : vertex_descriptor_t), hs[j]? = some h →
        vi[j]? = some v0 → vi[(j + 1) % vi.length]? = some v1 → (∃ e, edge_joins m e v0 v1) →
        map_count m.m_halfedges h = 1 ∧ source m h = Except.ok v0 ∧ target m h = Except.ok v1 ∧
        ∀ g, source m g = Except.ok v0 → target m g = Except.ok v1 → g = h := by
  obtain ⟨ok, fok⟩ := reachable_ok (built_reachable hm)
  obtain ⟨f, m1, hrun⟩ := add_face_returns ok fok vi h3 hnd hex hfree
  exact ⟨f, m1, hrun, add_face_counts_of_ok m m1 hm vi hnd f hrun⟩

theorem free_triangle_and_vertex (i : Nat) (v0 v1 : vertex_descriptor_t)
    (h : halfedge_descriptor_t)
    (e0 : [(some 0 : vertex_descriptor_t), some 2, some 3][i]? = some v0)
    (e1 : [(some 0 : vertex_descriptor_t), some 2, some 3][(i + 1) %
      [(some 0 : vertex_descriptor_t), some 2, some 3].length]? = some v1)
    (hs : source mesh_triangle_and_vertex h = Except.ok v0)
    (ht : target mesh_triangle_and_vertex h = Except.ok v1) :
    face mesh_triangle_and_vertex h = Except.ok null_face := by
  have ok := (reachable_ok (built_reachable built_triangle_and_vertex)).1
  obtain ⟨_, hd, hf, _⟩ := target_eq_ok.1 ht
  obtain ⟨n, rfl, hn⟩ := dense_key ok.dh hf
  have len : mesh_triangle_and_vertex.m_halfedges.length = 6 := by decide!
  rw [len] at hn
  have li : i < 3 := (List.getElem?_eq_some_iff.1 e0).1
  have key : ∀ i, i < 3 → ∀ n, n < 6 →
      ([(some 0 : vertex_descriptor_t), some 2, some 3][i]? =
          (source mesh_triangle_and_vertex (some n)).toOption ∧
        [(some 0 : vertex_descriptor_t), some 2, some 3][(i + 1) % 3]? =
          (target mesh_triangle_and_vertex (some n)).toOption) →
      face mesh_triangle_and_vertex (some n) = Except.ok null_face := by
    decide!
  apply key i li n hn
  constructor
  · rw [e0, hs]; rfl
  · have : [(some 0 : vertex_descriptor_t), some 2, some 3].length = 3 := rfl
    rw [this] at e1
    rw [e1, ht]; rfl

theorem add_face_counts_witness :
    Built mesh_triangle_and_vertex ∧
    3 ≤ [(some 0 : vertex_descriptor_t), some 2, some 3].length ∧
    [(some 0 : vertex_descriptor_t), some 2, some 3].Nodup ∧
    (∀ v, v ∈ [(some 0 : vertex_descriptor_t), some 2, some 3] →
      map_count mesh_triangle_and_vertex.m_vertices v = 1) ∧
    number_of_edges mesh_triangle_and_vertex = 3 ∧ number_of_edges mesh_two_triangles = 5 ∧
    add_face [some 0, some 2, some 3] mesh_triangle_and_vertex =
      (Except.ok (some 1), mesh_two_triangles) ∧
    ∃ f m1, add_face [some 0, some 2, some 3] mesh_triangle_and_vertex = (Except.ok f, m1) ∧
    number_of_faces m1 = number_of_faces mesh_triangle_and_vertex + 1 ∧
    number_of_vertices m1 = number_of_vertices mesh_triangle_and_vertex ∧
    (∃ l : List Nat, l.Nodup ∧
      (∀ j, j ∈ l ↔ (j < [(some 0 : vertex_descriptor_t), some 2, some 3].length ∧
        ∃ v0 v1, [(some 0 : vertex_descriptor_t), some 2, some 3][j]? = some v0 ∧
        [(some 0 : vertex_descriptor_t), some 2, some 3][(j + 1) %
          [(some 0 : vertex_descriptor_t), some 2, some 3].length]? = some v1 ∧
        ¬ ∃ e, edge_joins mesh_triangle_and_vertex e v0 v1)) ∧
      number_of_edges m1 = number_of_edges mesh_triangle_and_vertex + l.length) ∧
    ∃ hs, get_halfedges_around_face m1 f = Except.ok hs ∧
      ∀ (j : Nat) (h : halfedge_descriptor_t) (v0 v1 : vertex_descriptor_t), hs[j]? = some h →
        [(some 0 : vertex_descriptor_t), some 2, some 3][j]? = some v0 →
        [(some 0 : vertex_descriptor_t), some 2, some 3][(j + 1) %
          [(some 0 : vertex_descriptor_t), some 2, some 3].length]? = some v1 →
        (∃ e, edge_joins mesh_triangle_and_vertex e v0 v1) →
        map_count mesh_triangle_and_vertex.m_halfedges h = 1 ∧
        source mesh_triangle_and_vertex h = Except.ok v0 ∧
        target mesh_triangle_and_vertex h = Except.ok v1 ∧
        ∀ g, source mesh_triangle_and_vertex g = Except.ok v0 →
          target mesh_triangle_and_vertex g = Except.ok v1 → g = h :=
  ⟨built_triangle_and_vertex, by decide, by decide, by decide!, by decide!, by decide!,
    by decide!,
    add_face_counts mesh_triangle_and_vertex built_triangle_and_vertex
      [some 0, some 2, some 3] (by decide) (by decide) (by decide!) free_triangle_and_vertex⟩

/-- On a mesh reached by creation calls, where nothing was removed,
`add_edge(v0, v1)` on stored vertices returns a fresh half-edge `h` from
`v0` to `v1` whose opposite `o` points to `v0`, is on the same edge and has
`h` as opposite, and both report the null face. -/
theorem add_edge_fresh_pair (m : mesh_t R) (hm : Reachable m) (v0 v1 : vertex_descriptor_t)
    (h0 : map_count m.m_vertices v0 = 1) (h1 : map_count m.m_vertices v1 = 1) :
    ∃ h m1 o e, add_edge v0 v1 m = (Except.ok h, m1) ∧
      target m1 h = Except.ok v1 ∧ source m1 h = Except.ok v0 ∧
      opposite m1 h = Except.ok o ∧ target m1 o = Except.ok v0 ∧ opposite m1 o = Except.ok h ∧
      edge m1 h = Except.ok e ∧ edge m1 o = Except.ok e ∧
      face m1 h = Except.ok null_face ∧ face m1 o = Except.ok null_face := by
  obtain ⟨ok, _⟩ := reachable_ok hm
  have p0 : (map_find m.m_vertices v0).isSome = true := by
    rw [← map_count_eq_one]; simp [h0]
  have p1 : (map_find m.m_vertices v1).isSome = true := by
    rw [← map_count_eq_one]; simp [h1]
  obtain ⟨d0, hd0⟩ := Option.isSome_iff_exists.mp p0
  obtain ⟨d1, hd1⟩ := Option.isSome_iff_exists.mp p1
  obtain ⟨m1, hrun⟩ := add_edge_run ok (key_ne_null ok.dv hd0) (key_ne_null ok.dv hd1) p0 p1
  have post := add_edge_inv m m1 v0 v1 _ ok.hr ok.er ok.dh ok.de hrun
  have q0 := add_edge_post_h0 post
  have q1 := add_edge_post_h1 post
  refine ⟨_, m1, some (m.m_halfedges.length + 1), some m.m_edges.length, hrun, ?_, ?_, ?_, ?_, ?_,
    ?_, ?_, ?_, ?_⟩
  · exact target_eq_ok.2 ⟨by simp, _, q0, rfl⟩
  · exact source_eq_ok.2 ⟨by simp, _, _, q0, by simp, q1, rfl⟩
  · exact opposite_eq_ok.2 ⟨by simp, _, q0, rfl⟩
  · exact target_eq_ok.2 ⟨by simp, _, q1, rfl⟩
  · exact opposite_eq_ok.2 ⟨by simp, _, q1, rfl⟩
  · exact edge_eq_ok.2 ⟨by simp, _, q0, rfl⟩
  · exact edge_eq_ok.2 ⟨by simp, _, q1, rfl⟩
  · exact face_eq_ok.2 ⟨by simp, _, q0, rfl⟩
  · exact face_eq_ok.2 ⟨by simp, _, q1, rfl⟩

/-! ## The half-edge between two vertices, without the strict check -/

/-- The loop of `halfedge(s, t, false)`: when a half-edge `i` pointing to `s`
lies on an edge of `t`, the result is the opposite of `i` if that is bound to
a face and `i` itself otherwise; when there is none, `result` is left as it
is. -/
theorem halfedge_vv_loop_lax {m : mesh_t R} (ok : edges_ok m) {s t : vertex_descriptor_t}
    (hne : s ≠ t) (es : List edge_descriptor_t)
    (hes : ∀ e, e ∈ es → ∃ j jd, map_find m.m_halfedges j = some jd ∧ jd.t = t ∧ jd.e = e)
    (l : List halfedge_descriptor_t)
    (hl : ∀ i, i ∈ l → ∃ id, map_find m.m_halfedges i = some id ∧ id.t = s)
    (res : halfedge_descriptor_t) :
    ∃ r, halfedge_vv_loop m s t false es l res = Except.ok r ∧
      ((r = res ∧ ∀ i id, i ∈ l → map_find m.m_halfedges i = some id → id.e ∉ es) ∨
       (∃ i id od, i ∈ l ∧ map_find m.m_halfedges i = some id ∧
          map_find m.m_halfedges id.o = some od ∧ halfedge_from_to m id.o s t ∧
          ((od.f ≠ null_face ∧ r = id.o) ∨ (od.f = null_face ∧ r = i)))) := by
  induction l generalizing res with
  | nil =>
    refine ⟨res, rfl, Or.inl ⟨rfl, ?_⟩⟩
    intro i id hi
    cases hi
  | cons a rest ih =>
    obtain ⟨ad, ha, hat⟩ := hl a (List.mem_cons_self _ _)
    obtain ⟨e1, _⟩ := edge_of_key ok ha
    have hrest : ∀ i, i ∈ rest → ∃ id, map_find m.m_halfedges i = some id ∧ id.t = s :=
      fun i hi => hl i (List.mem_cons_of_mem _ hi)
    simp only [halfedge_vv_loop]
    rw [e1, except_bind_ok]
    by_cases hmem : ad.e ∈ es
    · simp only [hmem, if_true]
      obtain ⟨j, jd, hj, hjt, hje⟩ := hes _ hmem
      have hoj : ad.o = j := by
        rcases two_halfedges ok ha hj hje.symm with e | e
        · subst e
          rw [ha] at hj
          simp only [Option.some.injEq] at hj
          subst hj
          exact absurd (hat.symm.trans hjt) hne
        · exact e
      subst hoj
      have ft : halfedge_from_to m ad.o s t := by
        obtain ⟨_, ⟨od, a1, a2, _⟩, _, _⟩ := ok.hprop a ad ha
        rw [a1] at hj
        simp only [Option.some.injEq] at hj
        subst hj
        exact ⟨od, ad, a1, hjt, by rw [a2]; exact ha, hat⟩
      have hsrc : source m a = Except.ok t :=
        source_eq_ok.2 ⟨key_ne_null ok.dh ha, ad, jd, ha, key_ne_null ok.dh hj, hj, hjt⟩
      have htgt : target m a = Except.ok s :=
        target_eq_ok.2 ⟨key_ne_null ok.dh ha, ad, ha, hat⟩
      have hopp : opposite m a = Except.ok ad.o :=
        opposite_eq_ok.2 ⟨key_ne_null ok.dh ha, ad, ha, rfl⟩
      have hface : face m ad.o = Except.ok jd.f :=
        face_eq_ok.2 ⟨key_ne_null ok.dh hj, jd, hj, rfl⟩
      have hts : ¬ t = s := fun e => hne e.symm
      rw [hsrc, except_bind_ok]
      simp only [hts, if_false, pure, Except.pure, except_bind_ok, Bool.false_eq_true]
      simp only [beq_self_eq_true, assert_true, except_bind_ok]
      rw [htgt, except_bind_ok]
      simp only [beq_self_eq_true, assert_true, except_bind_ok]
      rw [hopp, except_bind_ok, hface, except_bind_ok]
      by_cases hf : jd.f = null_face
      · have hb : (jd.f != null_face) = false := by simp [hf]
        simp only [hb, Bool.or_false, Bool.false_eq_true, if_false]
        obtain ⟨r, h1, h2⟩ := ih hrest a
        refine ⟨r, h1, Or.inr ?_⟩
        rcases h2 with ⟨q1, _⟩ | ⟨i, id, od, q1, q2, q3, q4, q5⟩
        · exact ⟨a, ad, jd, List.mem_cons_self _ _, ha, hj, ft, Or.inr ⟨hf, q1⟩⟩
        · exact ⟨i, id, od, List.mem_cons_of_mem _ q1, q2, q3, q4, q5⟩
      · have hb : (jd.f != null_face) = true := by simp [hf]
        simp only [hb, Bool.or_false, if_true]
        exact ⟨ad.o, rfl, Or.inr ⟨a, ad, jd, List.mem_cons_self _ _, ha, hj, ft, Or.inl ⟨hf, rfl⟩⟩⟩
    · simp only [hmem, if_false]
      obtain ⟨r, h1, h2⟩ := ih hrest res
      refine ⟨r, h1, ?_⟩
      rcases h2 with ⟨q1, q2⟩ | ⟨i, id, od, q1, q2, q3, q4, q5⟩
      · left
        refine ⟨q1, ?_⟩
        intro i id hi hf
        rcases List.mem_cons.1 hi with rfl | hi
        · rw [ha] at hf
          simp only [Option.some.injEq] at hf
          subst hf
          exact hmem
        · exact q2 i id hi hf
      · right
        exact ⟨i, id, od, List.mem_cons_of_mem _ q1, q2, q3, q4, q5⟩

/-- The result of `halfedge(s, t, false)` on two distinct stored vertices. -/
theorem halfedge_vv_lax_run {m : mesh_t R} (ok : edges_ok m) {s t : vertex_descriptor_t}
    (hs : (map_find m.m_vertices s).isSome) (ht : (map_find m.m_vertices t).isSome)
    (hne : s ≠ t) :
    ∃ r, halfedge_vv m s t false = Except.ok r ∧
      ((r = null_halfedge ∧ ¬ connected m s t) ∨
       (∃ i id od, map_find m.m_halfedges i = some id ∧
          map_find m.m_halfedges id.o = some od ∧ halfedge_from_to m id.o s t ∧
          ((od.f ≠ null_face ∧ r = id.o) ∨ (od.f = null_face ∧ r = i)))) := by
  obtain ⟨sd, hsd⟩ := Option.isSome_iff_exists.mp hs
  obtain ⟨td, htd⟩ := Option.isSome_iff_exists.mp ht
  obtain ⟨_, smem⟩ := ok.vprop s sd hsd
  obtain ⟨_, tmem⟩ := ok.vprop t td htd
  obtain ⟨es, h1, h2⟩ := halfedge_vv_t_edges_run ok td.m_halfedges
    (fun h hm => by
      obtain ⟨hd, q, _⟩ := (tmem h).1 hm
      exact ⟨hd, q⟩)
  have hes : ∀ e, e ∈ es → ∃ j jd, map_find m.m_halfedges j = some jd ∧ jd.t = t ∧ jd.e = e := by
    intro e he
    obtain ⟨j, jd, q1, q2, q3⟩ := (h2 e).1 he
    obtain ⟨jd1, r1, r2⟩ := (tmem j).1 q1
    rw [q2] at r1
    simp only [Option.some.injEq] at r1
    subst r1
    exact ⟨j, jd, q2, r2, q3⟩
  obtain ⟨r, h3, h4⟩ := halfedge_vv_loop_lax ok hne es hes sd.m_halfedges
    (fun i hi => (smem i).1 hi) null_halfedge
  refine ⟨r, ?_, ?_⟩
  · unfold halfedge_vv
    simp only [map_count_eq_one, hs, ht, assert_true, except_bind_ok, map_at_of_find hsd,
      map_at_of_find htd, h1]
    exact h3
  · rcases h4 with ⟨q1, q2⟩ | ⟨i, id, od, _, q2, q3, q4, q5⟩
    · left
      refine ⟨q1, ?_⟩
      rintro ⟨h, hd, od, c1, c2, c3, c4⟩
      have m1 : h ∈ td.m_halfedges := (tmem h).2 ⟨hd, c1, c2⟩
      have m2 : hd.o ∈ sd.m_halfedges := (smem hd.o).2 ⟨od, c3, c4⟩
      obtain ⟨_, ⟨od1, a1, _, a3⟩, _, _⟩ := ok.hprop h hd c1
      rw [c3] at a1
      simp only [Option.some.injEq] at a1
      subst a1
      exact q2 hd.o od m2 c3 ((h2 od.e).2 ⟨h, hd, m1, c1, a3.symm⟩)
    · right
      exact ⟨i, id, od, q2, q3, q4, q5⟩

/-- C11. In a mesh built by `add_vertex`/`add_face`, for stored vertices
`s != t`, `halfedge(s, t, false)` returns null when no edge joins `s` and
`t`; when one does, there is a half-edge `h` from `s` to `t`, and the call
returns `h` if `h` is bound to a face and otherwise the opposite of `h`, which
leads from `t` to `s`. -/
theorem halfedge_lax_lookup (m : mesh_t R) (hm : Built m) (s t : vertex_descriptor_t)
    (hs : map_count m.m_vertices s = 1) (ht : map_count m.m_vertices t = 1) (hne : s ≠ t) :
    ∃ r, halfedge_vv m s t false = Except.ok r ∧
      ((¬ ∃ e, edge_joins m e s t) → r = null_halfedge) ∧
      ((∃ e, edge_joins m e s t) →
        ∃ h f, source m h = Except.ok s ∧ target m h = Except.ok t ∧ face m h = Except.ok f ∧
          (∀ g, source m g = Except.ok s → target m g = Except.ok t → g = h) ∧
          (f ≠ null_face → r = h) ∧
          (f = null_face →
            opposite m h = Except.ok r ∧ source m r = Except.ok t ∧ target m r = Except.ok s)) := by
  obtain ⟨ok, _⟩ := reachable_ok (built_reachable hm)
  have sm := built_simple hm
  have hs1 : (map_find m.m_vertices s).isSome = true := by
    rw [← map_count_eq_one]; simp [hs]
  have ht1 : (map_find m.m_vertices t).isSome = true := by
    rw [← map_count_eq_one]; simp [ht]
  obtain ⟨r, h1, h2⟩ := halfedge_vv_lax_run ok hs1 ht1 hne
  refine ⟨r, h1, ?_, ?_⟩
  · intro nj
    rcases h2 with ⟨q1, _⟩ | ⟨i, id, od, _, _, q3, _⟩
    · exact q1
    · exact absurd ((joined_iff_connected ok s t).2 ⟨id.o, q3⟩) nj
  · intro hj
    rcases h2 with ⟨_, q2⟩ | ⟨i, id, od, q1, q2, q3, q4⟩
    · exact absurd ((joined_iff_connected ok s t).1 hj) q2
    · obtain ⟨s1, s2⟩ := (from_to_iff_source_target ok).1 q3
      have hn : id.o ≠ none := key_ne_null ok.dh q2
      obtain ⟨_, ⟨od1, a1, a2, _⟩, _, _⟩ := ok.hprop i id q1
      rw [q2] at a1
      simp only [Option.some.injEq] at a1
      subst a1
      refine ⟨id.o, od.f, s1, s2, face_eq_ok.2 ⟨hn, od, q2, rfl⟩, ?_, ?_, ?_⟩
      · intro g g1 g2
        exact sm.1 g id.o s t ((from_to_iff_source_target ok).2 ⟨g1, g2⟩) q3
      · intro fn
        rcases q4 with ⟨_, x⟩ | ⟨x, _⟩
        · exact x
        · exact absurd x fn
      · intro fn
        rcases q4 with ⟨x, _⟩ | ⟨_, x⟩
        · exact absurd fn x
        · subst x
          have back := from_to_opposite ok q2 q3
          rw [a2] at back
          obtain ⟨b1, b2⟩ := (from_to_iff_source_target ok).1 back
          exact ⟨opposite_eq_ok.2 ⟨hn, od, q2, a2⟩, b1, b2⟩

theorem halfedge_lax_lookup_witness :
    Built mesh_triangle ∧ map_count mesh_triangle.m_vertices (some 1) = 1 ∧
    map_count mesh_triangle.m_vertices (some 0) = 1 ∧ (some 1 : vertex_descriptor_t) ≠ some 0 ∧
    ∃ r, halfedge_vv mesh_triangle (some 1) (some 0) false = Except.ok r ∧
      ((¬ ∃ e, edge_joins mesh_triangle e (some 1) (some 0)) → r = null_halfedge) ∧
      ((∃ e, edge_joins mesh_triangle e (some 1) (some 0)) →
        ∃ h f, source mesh_triangle h = Except.ok (some 1) ∧
          target mesh_triangle h = Except.ok (some 0) ∧ face mesh_triangle h = Except.ok f ∧
          (∀ g, source mesh_triangle g = Except.ok (some 1) →
            target mesh_triangle g = Except.ok (some 0) → g = h) ∧
          (f ≠ null_face → r = h) ∧
          (f = null_face →
            opposite mesh_triangle h = Except.ok r ∧ source mesh_triangle r = Except.ok (some 0) ∧
            target mesh_triangle r = Except.ok (some 1))) :=
  ⟨built_triangle, by decide!, by decide!, by decide,
    halfedge_lax_lookup mesh_triangle built_triangle (some 1) (some 0) (by decide!) (by decide!)
      (by decide)⟩

/-- On the triangle, whose half-edge from vertex 1 to vertex 0 is a border,
`halfedge(1, 0, false)` returns the half-edge 0, which leads from 0 to 1;
`halfedge(0, 1, false)` returns the same half-edge, which is bound to the
face; and `halfedge(1, 0, true)` returns the border half-edge 1. -/
theorem triangle_lax_lookup :
    halfedge_vv mesh_triangle (some 1) (some 0) false = Except.ok (some 0) ∧
    halfedge_vv mesh_triangle (some 0) (some 1) false = Except.ok (some 0) ∧
    halfedge_vv mesh_triangle (some 1) (some 0) true = Except.ok (some 1) ∧
    source mesh_triangle (some 0) = Except.ok (some 0) ∧
    target mesh_triangle (some 0) = Except.ok (some 1) ∧
    face mesh_triangle (some 0) = Except.ok (some 0) ∧
    face mesh_triangle (some 1) = Except.ok null_face := by
  decide!

/-! ## The two half-edges of an edge, and the half-edges around a vertex -/

theorem halfedge_e_zero_eq_ok {m : mesh_t R} {e : edge_descriptor_t} {h : halfedge_descriptor_t} :
    halfedge_e m e 0 = Except.ok h ↔
      e ≠ none ∧ ∃ ed, map_find m.m_edges e = some ed ∧ ed.h = h ∧ h ≠ none := by
  unfold halfedge_e
  cases e with
  | none => simp [null_edge, assert_true, assert_false, except_bind_ok, except_bind_error]
  | some n =>
    cases hf : map_find m.m_edges (some n) with
    | none =>
      simp [null_edge, some_bne_null, assert_true, except_bind_ok, map_count_eq_one, hf,
        assert_false, except_bind_error]
    | some ed =>
      cases hh : ed.h with
      | none =>
        simp [null_edge, null_halfedge, some_bne_null, assert_true, except_bind_ok,
          map_count_eq_one, hf, map_at_of_find hf, hh, assert_false, except_bind_error]
        exact fun q => q.symm
      | some k =>
        have i0 : ((0 : Int) == 1) = false := rfl
        simp only [null_edge, null_halfedge, some_bne_null, assert_true, except_bind_ok,
          map_count_eq_one, hf, map_at_of_find hf, hh, Option.isSome_some, beq_self_eq_true,
          Bool.true_or, Bool.or_true, i0, Bool.false_eq_true, if_false]
        simp only [pure, Except.pure, Except.ok.injEq]
        constructor
        · intro q
          subst q
          exact ⟨by simp, ed, rfl, hh, by simp⟩
        · rintro ⟨_, ed1, q1, q2, _⟩
          simp only [Option.some.injEq] at q1
          subst q1
          rw [hh] at q2
          exact q2

theorem halfedge_e_one_eq_ok {m : mesh_t R} {e : edge_descriptor_t} {h : halfedge_descriptor_t} :
    halfedge_e m e 1 = Except.ok h ↔
      e ≠ none ∧ ∃ ed hd, map_find m.m_edges e = some ed ∧ ed.h ≠ none ∧
        map_find m.m_halfedges ed.h = some hd ∧ hd.o = h ∧ h ≠ none := by
  unfold halfedge_e
  cases e with
  | none => simp [null_edge, assert_true, assert_false, except_bind_ok, except_bind_error]
  | some n =>
    cases hf : map_find m.m_edges (some n) with
    | none =>
      simp [null_edge, some_bne_null, assert_true, except_bind_ok, map_count_eq_one, hf,
        assert_false, except_bind_error]
    | some ed =>
      cases hh : ed.h with
      | none =>
        simp [null_edge, null_halfedge, some_bne_null, assert_true, except_bind_ok,
          map_count_eq_one, hf, map_at_of_find hf, hh, assert_false, except_bind_error]
      | some k =>
        cases hk : map_find m.m_halfedges (some k) with
        | none =>
          simp [null_edge, null_halfedge, some_bne_null, assert_true, except_bind_ok,
            map_count_eq_one, hf, map_at_of_find hf, hh, hk, assert_false, except_bind_error]
        | some hd =>
          cases ho : hd.o with
          | none =>
            have i1 : ((1 : Int) == 1) = true := rfl
            simp [null_edge, null_halfedge, some_bne_null, assert_true, except_bind_ok,
              map_count_eq_one, hf, map_at_of_find hf, hh, hk, map_at_of_find hk, ho,
              assert_false, except_bind_error, i1]
            exact fun q => q.symm
          | some j =>
            have i1 : ((1 : Int) == 1) = true := rfl
            simp only [i1, null_edge, null_halfedge, some_bne_null, assert_true, except_bind_ok,
              map_count_eq_one, hf, map_at_of_find hf, hh, hk, map_at_of_find hk, ho,
              Option.isSome_some, beq_self_eq_true, Bool.true_or, Bool.or_true, if_true]
            simp only [pure, Except.pure, Except.ok.injEq]
            constructor
            · intro q
              subst q
              exact ⟨by simp, ed, hd, rfl, by simp [hh], by rw [hh]; exact hk, ho, by simp⟩
            · rintro ⟨_, ed1, hd1, q1, _, q3, q4, _⟩
              simp only [Option.some.injEq] at q1
              subst q1
              rw [hh, hk] at q3
              simp only [Option.some.injEq] at q3
              subst q3
              rw [ho] at q4
              exact q4

theorem pairs_count_same_edges {m m1 : mesh_t R} (s : same_edges m m1) (p : pairs_count m) :
    pairs_count m1 := by
  unfold pairs_count at p ⊢
  rw [s.len, s.e, p]

theorem pairs_count_add_edge {m m1 : mesh_t R} {v0 v1 : vertex_descriptor_t}
    {h : halfedge_descriptor_t} (ok : edges_ok m) (p : pairs_count m)
    (hrun : add_edge v0 v1 m = (Except.ok h, m1)) : pairs_count m1 := by
  have post := add_edge_inv m m1 v0 v1 h ok.hr ok.er ok.dh ok.de hrun
  unfold pairs_count at p ⊢
  rw [post.hlen, post.elen, p]
  ring

theorem pairs_count_add_face {m m1 : mesh_t R} {vi : List vertex_descriptor_t}
    {f : face_descriptor_t} (ok : edges_ok m) (fok : faces_ok m) (p : pairs_count m)
    (hrun : add_face vi m = (Except.ok f, m1)) : pairs_count m1 := by
  obtain ⟨_, rfl, fd, m2, hloop, _, hlink⟩ := add_face_inv fok.fr hrun
  have h1 := add_face_loop_induct
    (fun (_ : Nat) mx fx => (edges_ok mx ∧ faces_mid mx (some m.m_faces.length) fx.m_halfedges) ∧
      pairs_count mx)
    (fun k mx mx1 fx fx1 hp hs => by
      refine ⟨add_face_step_ok hp.1.1 hp.1.2 hs, ?_⟩
      obtain ⟨v0, v1, d0, d1, r, h, _, _, _, _, _, _, _, _, hcase⟩ := add_face_step_inv hs
      rcases hcase with ⟨_, _, rfl⟩ | ⟨_, me, hadd, _, rfl⟩
      · exact pairs_count_same_edges (same_edges_bind_face _ _ _) hp.2
      · exact pairs_count_same_edges (same_edges_bind_face _ _ _)
          (pairs_count_add_edge hp.1.1 hp.2 hadd))
    vi.length 0 m m2 face_data_new fd ⟨⟨ok, faces_mid_of_ok fok⟩, p⟩ hloop
  obtain ⟨⟨_, mid2⟩, p2⟩ := h1
  have fl := faces_link_store mid2
  obtain ⟨_, rl⟩ := add_face_link_ok fl hlink
  exact pairs_count_same_edges rl.same (pairs_count_same_edges (same_edges_store_face _ _ _) p2)

theorem reachable_pairs_count {m : mesh_t R} (r : Reachable m) : pairs_count m := by
  induction r with
  | empty => rfl
  | vertex m m1 x y z v hr hrun ih =>
    obtain ⟨ok, _⟩ := reachable_ok hr
    rw [add_vertex_run m x y z ok.vr ok.dv] at hrun
    simp only [Prod.mk.injEq, Except.ok.injEq] at hrun
    obtain ⟨_, rfl⟩ := hrun
    exact ih
  | edge m m1 v0 v1 h hr hrun ih =>
    exact pairs_count_add_edge (reachable_ok hr).1 ih hrun
  | face m m1 vi f hr hrun ih =>
    exact pairs_count_add_face (reachable_ok hr).1 (reachable_ok hr).2 ih hrun

theorem number_of_halfedges_ok {m : mesh_t R} (ok : edges_ok m) :
    number_of_halfedges m = (m.m_halfedges.length : Int) := by
  simp [number_of_halfedges, number_of_internal_halfedges, number_of_halfedges_removed, ok.hr]

/-- C15. In a mesh reached by calls of `add_vertex`, `add_edge` and
`add_face`, the half-edges 0 and 1 of a stored edge `e` are distinct, are
each other's opposite and both report the edge `e`; no other half-edge
reports `e`; and there are twice as many half-edges as edges. -/
theorem edge_two_halfedges (m : mesh_t R) (hm : Reachable m) (e : edge_descriptor_t)
    (he : map_count m.m_edges e = 1) :
    ∃ h0 h1, halfedge_e m e 0 = Except.ok h0 ∧ halfedge_e m e 1 = Except.ok h1 ∧ h0 ≠ h1 ∧
      opposite m h0 = Except.ok h1 ∧ opposite m h1 = Except.ok h0 ∧
      edge m h0 = Except.ok e ∧ edge m h1 = Except.ok e ∧
      (∀ h, edge m h = Except.ok e → h = h0 ∨ h = h1) ∧
      number_of_halfedges m = 2 * number_of_edges m := by
  obtain ⟨ok, _⟩ := reachable_ok hm
  have he1 : (map_find m.m_edges e).isSome = true := by
    rw [← map_count_eq_one]; simp [he]
  obtain ⟨ed, hed⟩ := Option.isSome_iff_exists.mp he1
  have en : e ≠ none := key_ne_null ok.de hed
  obtain ⟨hd, hhd, hde⟩ := ok.eprop e ed hed
  have h0n : ed.h ≠ none := key_ne_null ok.dh hhd
  obtain ⟨p1, ⟨od, a1, a2, a3⟩, _, _⟩ := ok.hprop ed.h hd hhd
  have h1n : hd.o ≠ none := key_ne_null ok.dh a1
  refine ⟨ed.h, hd.o, halfedge_e_zero_eq_ok.2 ⟨en, ed, hed, rfl, h0n⟩,
    halfedge_e_one_eq_ok.2 ⟨en, ed, hd, hed, h0n, hhd, rfl, h1n⟩, fun q => p1 q.symm,
    opposite_eq_ok.2 ⟨h0n, hd, hhd, rfl⟩, opposite_eq_ok.2 ⟨h1n, od, a1, a2⟩,
    edge_eq_ok.2 ⟨h0n, hd, hhd, hde⟩, edge_eq_ok.2 ⟨h1n, od, a1, a3.trans hde⟩, ?_, ?_⟩
  · intro h hh
    obtain ⟨_, kd, hk, hke⟩ := edge_eq_ok.1 hh
    rcases two_halfedges ok hhd hk (hde.trans hke.symm) with q | q
    · exact Or.inl q.symm
    · exact Or.inr q.symm
  · rw [number_of_halfedges_ok ok, number_of_edges_ok ok, reachable_pairs_count hm]
    push_cast
    ring

theorem edge_two_halfedges_witness :
    Reachable mesh_triangle ∧ map_count mesh_triangle.m_edges (some 1) = 1 ∧
    ∃ h0 h1, halfedge_e mesh_triangle (some 1) 0 = Except.ok h0 ∧
      halfedge_e mesh_triangle (some 1) 1 = Except.ok h1 ∧ h0 ≠ h1 ∧
      opposite mesh_triangle h0 = Except.ok h1 ∧ opposite mesh_triangle h1 = Except.ok h0 ∧
      edge mesh_triangle h0 = Except.ok (some 1) ∧ edge mesh_triangle h1 = Except.ok (some 1) ∧
      (∀ h, edge mesh_triangle h = Except.ok (some 1) → h = h0 ∨ h = h1) ∧
      number_of_halfedges mesh_triangle = 2 * number_of_edges mesh_triangle :=
  ⟨built_reachable built_triangle, by decide!,
    edge_two_halfedges mesh_triangle (built_reachable built_triangle) (some 1) (by decide!)⟩

/-- C16. In a mesh reached from the empty mesh by calls of `add_vertex`,
`add_edge` and `add_face`, the list `get_halfedges_around_vertex(v)` of a
stored vertex `v` has no duplicates, and a half-edge is in it exactly when
its target is `v`. -/
theorem halfedges_around_vertex_targets (m : mesh_t R) (hm : Reachable m)
    (v : vertex_descriptor_t) (hv : map_count m.m_vertices v = 1) :
    ∃ l, get_halfedges_around_vertex m v = Except.ok l ∧ l.Nodup ∧
      ∀ h, h ∈ l ↔ target m h = Except.ok v := by
  obtain ⟨ok, _⟩ := reachable_ok hm
  have hv1 : (map_find m.m_vertices v).isSome = true := by
    rw [← map_count_eq_one]; simp [hv]
  obtain ⟨vd, hvd⟩ := Option.isSome_iff_exists.mp hv1
  have vn : v ≠ none := key_ne_null ok.dv hvd
  obtain ⟨nd, mem⟩ := ok.vprop v vd hvd
  refine ⟨vd.m_halfedges, ?_, nd, ?_⟩
  · unfold get_halfedges_around_vertex
    have : (v != null_vertex) = true := (bne_null_iff _).2 vn
    rw [this, assert_true, except_bind_ok]
    simp only [map_count_eq_one, hv1, assert_true, except_bind_ok, map_at_of_find hvd]
    rfl
  · intro h
    rw [mem h]
    constructor
    · rintro ⟨hd, q1, q2⟩
      exact target_eq_ok.2 ⟨key_ne_null ok.dh q1, hd, q1, q2⟩
    · intro q
      obtain ⟨_, hd, q1, q2⟩ := target_eq_ok.1 q
      exact ⟨hd, q1, q2⟩

theorem halfedges_around_vertex_targets_witness :
    Reachable mesh_one_edge ∧ map_count mesh_one_edge.m_vertices (some 0) = 1 ∧
    ∃ l, get_halfedges_around_vertex mesh_one_edge (some 0) = Except.ok l ∧ l.Nodup ∧
      ∀ h, h ∈ l ↔ target mesh_one_edge h = Except.ok (some 0) :=
  ⟨reachable_one_edge, by decide!,
    halfedges_around_vertex_targets mesh_one_edge reachable_one_edge (some 0) (by decide!)⟩

/-! ## Creation calls in any state of the mesh -/

/-- What a call of `add_vertex` that returns does: either it takes the first
removed descriptor, or, when there is none, it stores a new slot. -/
theorem add_vertex_inv {m m1 : mesh_t R} {x y z : R} {v : vertex_descriptor_t}
    (hrun : add_vertex x y z m = (Except.ok v, m1)) :
    (∃ rest, m.m_vertices_removed = v :: rest ∧ (map_find m.m_vertices v).isSome ∧ v ≠ none ∧
      m1 = { m with
        m_vertices_removed := rest,
        m_vertices :=
          (map_modify m.m_vertices v (fun d => { d with p := { x := x, y := y, z := z } })) }) ∨
    (m.m_vertices_removed = [] ∧ v = descriptor_of_count (number_of_vertices m) ∧
      map_find m.m_vertices v = none ∧
      m1 = { m with m_vertices :=
        (map_insert_sorted v { p := { x := x, y := y, z := z }, m_halfedges := [] }
          m.m_vertices) }) := by
  unfold add_vertex at hrun
  cases hr : m.m_vertices_removed with
  | nil =>
    simp only [hr, map_insert] at hrun
    right
    split at hrun
    · rename_i mv hins
      split at hins
      · simp at hins
      · rename_i hnone
        simp only [Prod.mk.injEq, Except.ok.injEq] at hins hrun
        obtain ⟨rfl, rfl⟩ := hrun
        refine ⟨rfl, rfl, ?_, ?_⟩
        · simpa using hnone
        · rw [← hins.1]
    · simp at hrun
  | cons a rest =>
    simp only [hr] at hrun
    left
    split at hrun
    · simp at hrun
    · rename_i hsome
      split at hrun
      · simp at hrun
      · rename_i hnn
        simp only [Prod.mk.injEq, Except.ok.injEq] at hrun
        obtain ⟨rfl, rfl⟩ := hrun
        refine ⟨rest, rfl, ?_, hnn, rfl⟩
        exact Option.isSome_iff_ne_none.2 (by simpa using hsome)

/-- The slot of the primary half-edge: the first removed descriptor, or a new
slot. -/
theorem add_edge_h0_inv {m ma : mesh_t R} {h0 : halfedge_descriptor_t}
    (hrun : add_edge_h0 m = (Except.ok h0, ma)) :
    (∃ rest, m.m_halfedges_removed = h0 :: rest ∧ (map_find m.m_halfedges h0).isSome ∧
      ma = { m with m_halfedges_removed := rest }) ∨
    (m.m_halfedges_removed = [] ∧ h0 = descriptor_of_count (number_of_halfedges m) ∧
      map_find m.m_halfedges h0 = none ∧
      ma = { m with m_halfedges := map_insert_sorted h0 halfedge_data_new m.m_halfedges }) := by
  unfold add_edge_h0 at hrun
  cases hr : m.m_halfedges_removed with
  | nil =>
    simp only [hr, map_insert] at hrun
    right
    split at hrun
    · rename_i mv hins
      split at hins
      · simp at hins
      · rename_i hnone
        simp only [Prod.mk.injEq, Except.ok.injEq] at hins hrun
        obtain ⟨rfl, rfl⟩ := hrun
        refine ⟨rfl, rfl, ?_, ?_⟩
        · simpa using hnone
        · rw [← hins.1]
    · simp at hrun
  | cons a rest =>
    simp only [hr] at hrun
    left
    split at hrun
    · simp at hrun
    · rename_i hsome
      simp only [Prod.mk.injEq, Except.ok.injEq] at hrun
      obtain ⟨rfl, rfl⟩ := hrun
      refine ⟨rest, rfl, ?_, rfl⟩
      exact Option.isSome_iff_ne_none.2 (by simpa using hsome)

/-- The slot of the second half-edge: the last removed descriptor, or a new
slot. -/
theorem add_edge_h1_inv {m ma : mesh_t R} {h1 : halfedge_descriptor_t}
    (hrun : add_edge_h1 m = (Except.ok h1, ma)) :
    (m.m_halfedges_removed.getLast? = some h1 ∧ (map_find m.m_halfedges h1).isSome ∧
      ma = { m with m_halfedges_removed := m.m_halfedges_removed.dropLast }) ∨
    (m.m_halfedges_removed = [] ∧ h1 = descriptor_of_count (number_of_halfedges m) ∧
      map_find m.m_halfedges h1 = none ∧
      ma = { m with m_halfedges := map_insert_sorted h1 halfedge_data_new m.m_halfedges }) := by
  unfold add_edge_h1 at hrun
  cases hr : m.m_halfedges_removed.getLast? with
  | none =>
    simp only [hr, map_insert] at hrun
    right
    have hnil : m.m_halfedges_removed = [] := List.getLast?_eq_none_iff.1 hr
    split at hrun
    · rename_i mv hins
      split at hins
      · simp at hins
      · rename_i hnone
        simp only [Prod.mk.injEq, Except.ok.injEq] at hins hrun
        obtain ⟨rfl, rfl⟩ := hrun
        refine ⟨hnil, rfl, ?_, ?_⟩
        · simpa using hnone
        · rw [← hins.1]
    · simp at hrun
  | some a =>
    simp only [hr] at hrun
    left
    split at hrun
    · simp at hrun
    · rename_i hsome
      simp only [Prod.mk.injEq, Except.ok.injEq] at hrun
      obtain ⟨rfl, rfl⟩ := hrun
      refine ⟨rfl, ?_, rfl⟩
      exact Option.isSome_iff_ne_none.2 (by simpa using hsome)

/-- The slot of the edge: the first removed descriptor, or a new slot. -/
theorem add_edge_e_inv {m ma : mesh_t R} {e : edge_descriptor_t}
    (hrun : add_edge_e m = (Except.ok e, ma)) :
    (∃ rest, m.m_edges_removed = e :: rest ∧ (map_find m.m_edges e).isSome ∧
      ma = { m with m_edges_removed := rest }) ∨
    (m.m_edges_removed = [] ∧ e = descriptor_of_count (number_of_edges m) ∧
      map_find m.m_edges e = none ∧
      ma = { m with m_edges := map_insert_sorted e edge_data_new m.m_edges }) := by
  unfold add_edge_e at hrun
  cases hr : m.m_edges_removed with
  | nil =>
    simp only [hr, map_insert] at hrun
    right
    split at hrun
    · rename_i mv hins
      split at hins
      · simp at hins
      · rename_i hnone
        simp only [Prod.mk.injEq, Except.ok.injEq] at hins hrun
        obtain ⟨rfl, rfl⟩ := hrun
        refine ⟨rfl, rfl, ?_, ?_⟩
        · simpa using hnone
        · rw [← hins.1]
    · simp at hrun
  | cons a rest =>
    simp only [hr] at hrun
    left
    split at hrun
    · simp at hrun
    · rename_i hsome
      simp only [Prod.mk.injEq, Except.ok.injEq] at hrun
      obtain ⟨rfl, rfl⟩ := hrun
      refine ⟨rest, rfl, ?_, rfl⟩
      exact Option.isSome_iff_ne_none.2 (by simpa using hsome)

/-- A call of `add_edge` that returns: the three slots are chosen, the two
vertices are stored, and the records are written. -/
theorem add_edge_inv_any {m m1 : mesh_t R} {v0 v1 : vertex_descriptor_t}
    {h : halfedge_descriptor_t} (hrun : add_edge v0 v1 m = (Except.ok h, m1)) :
    ∃ ma h1 mb e mc, add_edge_h0 m = (Except.ok h, ma) ∧ add_edge_h1 ma = (Except.ok h1, mb) ∧
      add_edge_e mb = (Except.ok e, mc) ∧ v0 ≠ none ∧ v1 ≠ none ∧
      (map_find mc.m_vertices v0).isSome ∧ (map_find mc.m_vertices v1).isSome ∧
      m1 = add_edge_write mc v0 v1 h h1 e := by
  unfold add_edge at hrun
  obtain ⟨u1, m_1, e1, hrun1⟩ := bind_inv hrun
  obtain ⟨a1, rfl⟩ := eval_inv e1
  obtain ⟨u2, m_2, e2, hrun2⟩ := bind_inv hrun1
  obtain ⟨a2, rfl⟩ := eval_inv e2
  obtain ⟨h0, ma, e3, hrun3⟩ := bind_inv hrun2
  obtain ⟨h1, mb, e4, hrun4⟩ := bind_inv hrun3
  obtain ⟨e, mc, e5, hrun5⟩ := bind_inv hrun4
  clear hrun hrun1 hrun2 hrun3 hrun4 e1 e2
  simp only [bind_run, update_run, eval_run, add_edge_incidence, map_count_eq_one,
    map_find_modify_isSome, pure_run] at hrun5
  have hv0 : (map_find mc.m_vertices v0).isSome = true := by
    cases hc : (map_find mc.m_vertices v0).isSome with
    | true => rfl
    | false => simp [hc, assert_false] at hrun5
  rw [hv0, assert_true] at hrun5
  simp only [] at hrun5
  have hv1 : (map_find mc.m_vertices v1).isSome = true := by
    cases hc : (map_find mc.m_vertices v1).isSome with
    | true => rfl
    | false => simp [hc, assert_false] at hrun5
  rw [hv1, assert_true] at hrun5
  simp only [Prod.mk.injEq, Except.ok.injEq] at hrun5
  obtain ⟨rfl, rfl⟩ := hrun5
  exact ⟨ma, h1, mb, e, mc, e3, e4, e5, (bne_null_iff v0).1 (assert_eq_ok.1 a1),
    (bne_null_iff v1).1 (assert_eq_ok.1 a2), hv0, hv1, rfl⟩

/-! ## The stages of `add_face` in any state of the mesh -/

/-- The descriptor of the new face: the first removed descriptor, whose
boundary list is cleared, or the count of faces. -/
theorem add_face_slot_inv {m ma : mesh_t R} {f : face_descriptor_t} {reusing : Bool}
    (hrun : add_face_slot m = (Except.ok (f, reusing), ma)) :
    (∃ rest, m.m_faces_removed = f :: rest ∧ reusing = true ∧ (map_find m.m_faces f).isSome ∧
      ma = { m with
        m_faces_removed := rest,
        m_faces := map_modify m.m_faces f (fun _ => { m_halfedges := [] }) }) ∨
    (m.m_faces_removed = [] ∧ reusing = false ∧ f = descriptor_of_count (number_of_faces m) ∧
      ma = m) := by
  unfold add_face_slot at hrun
  cases hr : m.m_faces_removed with
  | nil =>
    simp only [hr, Prod.mk.injEq, Except.ok.injEq] at hrun
    obtain ⟨⟨rfl, rfl⟩, rfl⟩ := hrun
    exact Or.inr ⟨rfl, rfl, rfl, rfl⟩
  | cons a rest =>
    simp only [hr] at hrun
    left
    split at hrun
    · simp at hrun
    · rename_i hsome
      simp only [Prod.mk.injEq, Except.ok.injEq] at hrun
      obtain ⟨⟨rfl, rfl⟩, rfl⟩ := hrun
      exact ⟨rest, rfl, rfl, Option.isSome_iff_ne_none.2 (by simpa using hsome), rfl⟩

theorem add_face_push_any (fnew : face_descriptor_t) (reusing : Bool) (fd : face_data_t)
    (h : halfedge_descriptor_t) (m : mesh_t R) :
    add_face_push fnew reusing fd h m =
      (Except.ok { m_halfedges := fd.m_halfedges ++ [h] },
        face_push m fnew reusing { m_halfedges := fd.m_halfedges ++ [h] }) := by
  cases reusing <;> simp [add_face_push, face_push]

theorem face_push_halfedges (m : mesh_t R) (fnew : face_descriptor_t) (reusing : Bool)
    (fd : face_data_t) : (face_push m fnew reusing fd).m_halfedges = m.m_halfedges := by
  cases reusing <;> rfl

/-- One round of the first loop of `add_face` that returns, whether a
removed face descriptor is reused or not: the half-edge `h` is found by the
scan or made by `add_edge`, it is pushed on the boundary, it is a border,
and it is bound to the new face. -/
theorem add_face_step_inv_any {m m1 : mesh_t R} {vi : List vertex_descriptor_t}
    {fnew : face_descriptor_t} {reusing : Bool} {fd fd1 : face_data_t} {i : Nat}
    (hrun : add_face_step vi fnew reusing fd i m = (Except.ok fd1, m1)) :
    ∃ v0 v1 h me,
      (me = m ∨ add_edge v0 v1 m = (Except.ok h, me)) ∧
      (∃ hd, map_find me.m_halfedges h = some hd ∧ hd.f = null_face) ∧
      fd1 = { m_halfedges := fd.m_halfedges ++ [h] } ∧
      m1 = bind_face (face_push me fnew reusing fd1) h fnew := by
  unfold add_face_step at hrun
  obtain ⟨v0, ma, e1, hrun1⟩ := bind_inv hrun
  obtain ⟨a1, rfl⟩ := eval_inv e1
  obtain ⟨u2, mb, e2, hrun2⟩ := bind_inv hrun1
  obtain ⟨a2, rfl⟩ := eval_inv e2
  obtain ⟨v1, mc, e3, hrun3⟩ := bind_inv hrun2
  obtain ⟨a3, rfl⟩ := eval_inv e3
  obtain ⟨u4, md, e4, hrun4⟩ := bind_inv hrun3
  obtain ⟨a4, rfl⟩ := eval_inv e4
  obtain ⟨d0, me, e5, hrun5⟩ := bind_inv hrun4
  obtain ⟨a5, rfl⟩ := eval_inv e5
  obtain ⟨d1, mf, e6, hrun6⟩ := bind_inv hrun5
  obtain ⟨a6, rfl⟩ := eval_inv e6
  obtain ⟨r, mg, e7, hrun7⟩ := bind_inv hrun6
  obtain ⟨a7, rfl⟩ := eval_inv e7
  clear hrun hrun1 hrun2 hrun3 hrun4 hrun5 hrun6 e1 e2 e3 e4 e5 e6 e7
  cases r with
  | some v1_h =>
    simp only at hrun7
    obtain ⟨u8, mh, e8, hrun8⟩ := bind_inv hrun7
    obtain ⟨a8, rfl⟩ := eval_inv e8
    obtain ⟨u9, mi, e9, hrun9⟩ := bind_inv hrun8
    obtain ⟨a9, rfl⟩ := eval_inv e9
    rw [bind_ok (add_face_push_any fnew reusing fd v1_h m)] at hrun9
    obtain ⟨hd, mj, e10, hrun10⟩ := bind_inv hrun9
    obtain ⟨a10, rfl⟩ := eval_inv e10
    obtain ⟨u11, mk, e11, hrun11⟩ := bind_inv hrun10
    obtain ⟨a11, rfl⟩ := eval_inv e11
    obtain ⟨u12, ml, e12, hrun12⟩ := bind_inv hrun11
    have a12 := update_inv e12
    obtain ⟨c1, c2⟩ := pure_inv hrun12
    subst c1
    subst c2
    subst a12
    refine ⟨v0, v1, v1_h, m, Or.inl rfl, ?_, rfl, rfl⟩
    refine ⟨hd, ?_, ?_⟩
    · have := map_at_eq_ok.1 a10
      rwa [face_push_halfedges] at this
    · have := assert_eq_ok.1 a11
      simpa using this
  | none =>
    simp only at hrun7
    obtain ⟨h, mh, e8, hrun8⟩ := bind_inv hrun7
    obtain ⟨u9, mi, e9, hrun9⟩ := bind_inv hrun8
    obtain ⟨a9, rfl⟩ := eval_inv e9
    obtain ⟨u9b, mi2, e9b, hrun9b⟩ := bind_inv hrun9
    obtain ⟨a9b, rfl⟩ := eval_inv e9b
    rw [bind_ok (add_face_push_any fnew reusing fd h mh)] at hrun9b
    obtain ⟨hd, mj, e10, hrun10⟩ := bind_inv hrun9b
    obtain ⟨a10, rfl⟩ := eval_inv e10
    obtain ⟨u11, mk, e11, hrun11⟩ := bind_inv hrun10
    obtain ⟨a11, rfl⟩ := eval_inv e11
    obtain ⟨u12, ml, e12, hrun12⟩ := bind_inv hrun11
    have a12 := update_inv e12
    obtain ⟨c1, c2⟩ := pure_inv hrun12
    subst c1
    subst c2
    subst a12
    refine ⟨v0, v1, h, mh, Or.inr e8, ?_, rfl, rfl⟩
    refine ⟨hd, ?_, ?_⟩
    · have := map_at_eq_ok.1 a10
      rwa [face_push_halfedges] at this
    · have := assert_eq_ok.1 a11
      simpa using this

/-- The store after the first loop: nothing when a removed descriptor is
reused, the insertion of an absent key otherwise. -/
theorem add_face_store_inv_any {m m1 : mesh_t R} {f : face_descriptor_t} {reusing : Bool}
    {fd : face_data_t} {u : Unit} (hrun : add_face_store f reusing fd m = (Except.ok u, m1)) :
    (reusing = true ∧ m1 = m) ∨
    (reusing = false ∧ map_find m.m_faces f = none ∧ m1 = store_face m f fd) := by
  cases reusing with
  | true =>
    left
    unfold add_face_store at hrun
    simp only [if_true, Prod.mk.injEq] at hrun
    exact ⟨rfl, hrun.2.symm⟩
  | false =>
    right
    obtain ⟨q1, q2⟩ := add_face_store_inv hrun
    exact ⟨rfl, q1, q2⟩

/-- The stages of a call of `add_face` that returns. -/
theorem add_face_inv_any {m m1 : mesh_t R} {vi : List vertex_descriptor_t}
    {f : face_descriptor_t} (hrun : add_face vi m = (Except.ok f, m1)) :
    3 ≤ vi.length ∧
    ∃ reusing ma fd mb mc, add_face_slot m = (Except.ok (f, reusing), ma) ∧
      add_face_loop vi f reusing (List.range' 0 vi.length) face_data_new ma =
        (Except.ok fd, mb) ∧
      add_face_store f reusing fd mb = (Except.ok (), mc) ∧
      add_face_link fd.m_halfedges (List.range' 0 fd.m_halfedges.length) mc =
        (Except.ok (), m1) := by
  unfold add_face at hrun
  obtain ⟨u1, m_1, e1, hrun1⟩ := bind_inv hrun
  obtain ⟨a1, rfl⟩ := eval_inv e1
  obtain ⟨slot, ma, e2, hrun2⟩ := bind_inv hrun1
  simp only at hrun2
  obtain ⟨fd, mb, e3, hrun3⟩ := bind_inv hrun2
  obtain ⟨u4, mc, e4, hrun4⟩ := bind_inv hrun3
  obtain ⟨u5, md, e5, hrun5⟩ := bind_inv hrun4
  obtain ⟨rfl, rfl⟩ := pure_inv hrun5
  have a1' := assert_eq_ok.1 a1
  simp only [decide_eq_true_eq] at a1'
  rw [List.range_eq_range'] at e3 e5
  exact ⟨a1', slot.2, ma, fd, mb, mc, e2, e3, e4, e5⟩

/-! ## What creation keeps -/

theorem kept_refl (m : mesh_t R) : kept m m :=
  ⟨fun _ => rfl, fun _ hd hf hn => ⟨hn, hd, hf, rfl⟩, fun _ _ hf hn => ⟨hn, hf⟩,
    fun _ hd hf _ => ⟨hd, hf, rfl, rfl, rfl⟩⟩

theorem kept_trans {m m1 m2 : mesh_t R} (a : kept m m1) (b : kept m1 m2) : kept m m2 := by
  constructor
  · intro v
    rw [b.pos, a.pos]
  · intro h hd hf hn
    obtain ⟨n1, hd1, f1, c1⟩ := a.halfedges h hd hf hn
    obtain ⟨n2, hd2, f2, c2⟩ := b.halfedges h hd1 f1 n1
    exact ⟨n2, hd2, f2, c2.trans c1⟩
  · intro e ed hf hn
    obtain ⟨n1, f1⟩ := a.edges e ed hf hn
    exact b.edges e ed f1 n1
  · intro h hd hf hn
    obtain ⟨hd1, f1, c1, c2, c3⟩ := a.bound h hd hf hn
    obtain ⟨hd2, f2, d1, d2, d3⟩ := b.bound h hd1 f1 (by rw [c1]; exact hn)
    exact ⟨hd2, f2, d1.trans c1, d2.trans c2, d3.trans c3⟩

/-- A change of the faces alone keeps everything else. -/
theorem kept_of_eq {m m1 : mesh_t R} (v : m1.m_vertices = m.m_vertices)
    (h : m1.m_halfedges = m.m_halfedges) (e : m1.m_edges = m.m_edges)
    (hr : m1.m_halfedges_removed = m.m_halfedges_removed)
    (er : m1.m_edges_removed = m.m_edges_removed) : kept m m1 := by
  constructor
  · intro k
    rw [v]
  · intro k hd hf hn
    rw [hr, h]
    exact ⟨hn, hd, hf, rfl⟩
  · intro k ed hf hn
    rw [er, e]
    exact ⟨hn, hf⟩
  · intro k hd hf _
    rw [h]
    exact ⟨hd, hf, rfl, rfl, rfl⟩

theorem map_find_insert_absent {D : Type} {mp : map_t D} {k k1 : descriptor_t} {d : D}
    (hk : map_find mp k = none) (hne : k1 ≠ k) :
    map_find (map_insert_sorted k d mp) k1 = map_find mp k1 := by
  rw [map_find_insert_sorted mp k d hk]
  simp [hne]

theorem map_find_insert_self {D : Type} {mp : map_t D} {k : descriptor_t} {d : D}
    (hk : map_find mp k = none) : map_find (map_insert_sorted k d mp) k = some d := by
  rw [map_find_insert_sorted mp k d hk]
  simp

theorem halfedge_slot_h0 {m ma : mesh_t R} {h : halfedge_descriptor_t}
    (hrun : add_edge_h0 m = (Except.ok h, ma)) : halfedge_slot m ma h := by
  rcases add_edge_h0_inv hrun with ⟨rest, q1, q2, rfl⟩ | ⟨q1, _, q3, rfl⟩
  · refine ⟨rfl, rfl, rfl, rfl, rfl, rfl, ?_, q2, fun _ _ => rfl, fun _ hf => hf, ?_⟩
    · intro _
      rw [q1]
      exact List.mem_cons_self _ _
    · intro k hk
      rw [q1]
      exact List.mem_cons_of_mem _ hk
  · refine ⟨rfl, rfl, rfl, rfl, rfl, rfl, ?_, ?_, ?_, ?_, fun _ hk => hk⟩
    · intro hs
      rw [q3] at hs
      cases hs
    · show (map_find (map_insert_sorted _ _ _) h).isSome = true
      rw [map_find_insert_self q3]
      rfl
    · intro k hk
      exact map_find_insert_absent q3 hk
    · intro hd hf
      rw [q3] at hf
      cases hf

theorem halfedge_slot_h1 {m ma : mesh_t R} {h : halfedge_descriptor_t}
    (hrun : add_edge_h1 m = (Except.ok h, ma)) : halfedge_slot m ma h := by
  rcases add_edge_h1_inv hrun with ⟨q1, q2, rfl⟩ | ⟨q1, _, q3, rfl⟩
  · refine ⟨rfl, rfl, rfl, rfl, rfl, rfl, ?_, q2, fun _ _ => rfl, fun _ hf => hf, ?_⟩
    · intro _
      exact List.mem_of_getLast?_eq_some q1
    · intro k hk
      exact List.mem_of_mem_dropLast hk
  · refine ⟨rfl, rfl, rfl, rfl, rfl, rfl, ?_, ?_, ?_, ?_, fun _ hk => hk⟩
    · intro hs
      rw [q3] at hs
      cases hs
    · show (map_find (map_insert_sorted _ _ _) h).isSome = true
      rw [map_find_insert_self q3]
      rfl
    · intro k hk
      exact map_find_insert_absent q3 hk
    · intro hd hf
      rw [q3] at hf
      cases hf

theorem edge_slot_e {m ma : mesh_t R} {e : edge_descriptor_t}
    (hrun : add_edge_e m = (Except.ok e, ma)) : edge_slot m ma e := by
  rcases add_edge_e_inv hrun with ⟨rest, q1, q2, rfl⟩ | ⟨q1, _, q3, rfl⟩
  · refine ⟨rfl, rfl, rfl, rfl, rfl, rfl, ?_, q2, fun _ _ => rfl, ?_⟩
    · intro _
      rw [q1]
      exact List.mem_cons_self _ _
    · intro k hk
      rw [q1]
      exact List.mem_cons_of_mem _ hk
  · refine ⟨rfl, rfl, rfl, rfl, rfl, rfl, ?_, ?_, ?_, fun _ hk => hk⟩
    · intro hs
      rw [q3] at hs
      cases hs
    · show (map_find (map_insert_sorted _ _ _) e).isSome = true
      rw [map_find_insert_self q3]
      rfl
    · intro k hk
      exact map_find_insert_absent q3 hk

/-- A live half-edge is not the slot that was chosen. -/
theorem halfedge_slot_ne {m ma : mesh_t R} {h k : halfedge_descriptor_t}
    (s : halfedge_slot m ma h) {hd : halfedge_data_t}
    (hf : map_find m.m_halfedges k = some hd) (hn : k ∉ m.m_halfedges_removed) : k ≠ h := by
  intro e
  subst e
  exact hn (s.free (by rw [hf]; rfl))

theorem kept_halfedge_slot {m ma : mesh_t R} {h : halfedge_descriptor_t}
    (s : halfedge_slot m ma h) : kept m ma := by
  constructor
  · intro k
    rw [s.v]
  · intro k hd hf hn
    refine ⟨fun c => hn (s.removed k c), hd, ?_, rfl⟩
    rw [s.old k (halfedge_slot_ne s hf hn)]
    exact hf
  · intro k ed hf hn
    rw [s.er, s.e]
    exact ⟨hn, hf⟩
  · intro k hd hf _
    by_cases e : k = h
    · subst e
      exact ⟨hd, s.own hd hf, rfl, rfl, rfl⟩
    · rw [s.old k e]
      exact ⟨hd, hf, rfl, rfl, rfl⟩

theorem free_halfedge_of_slot {m ma : mesh_t R} {h k : halfedge_descriptor_t}
    (s : halfedge_slot m ma h) (fk : free_halfedge ma k) : free_halfedge m k := by
  intro hs
  by_cases e : k = h
  · subst e
    exact s.free hs
  · apply s.removed
    apply fk
    rw [s.old k e]
    exact hs

theorem kept_edge_slot {m ma : mesh_t R} {e : edge_descriptor_t}
    (s : edge_slot m ma e) : kept m ma := by
  constructor
  · intro k
    rw [s.v]
  · intro k hd hf hn
    rw [s.hr, s.h]
    exact ⟨hn, hd, hf, rfl⟩
  · intro k ed hf hn
    refine ⟨fun c => hn (s.removed k c), ?_⟩
    have kne : k ≠ e := by
      intro c
      subst c
      exact hn (s.free (by rw [hf]; rfl))
    rw [s.old k kne]
    exact hf
  · intro k hd hf _
    rw [s.h]
    exact ⟨hd, hf, rfl, rfl, rfl⟩

/-! ## What `add_edge` and the steps of `add_face` keep -/

theorem push_incident_p (h : halfedge_descriptor_t) (d : vertex_data_t R) :
    (push_incident h d).p = d.p := by
  unfold push_incident
  split <;> rfl

theorem add_edge_write_find (m : mesh_t R) (v0 v1 : vertex_descriptor_t)
    (h0 h1 : halfedge_descriptor_t) (e : edge_descriptor_t) (k : halfedge_descriptor_t) :
    map_find (add_edge_write m v0 v1 h0 h1 e).m_halfedges k =
      if k = h1 then
        (if h1 = h0 then
          (map_find m.m_halfedges h0).map (fun d => { d with t := v1, o := h1, e := e })
          else map_find m.m_halfedges h1).map (fun d => { d with t := v0, o := h0, e := e })
      else if k = h0 then
        (map_find m.m_halfedges h0).map (fun d => { d with t := v1, o := h1, e := e })
      else map_find m.m_halfedges k := by
  simp only [add_edge_write, map_find_modify]

theorem add_edge_write_pos (m : mesh_t R) (v0 v1 : vertex_descriptor_t)
    (h0 h1 : halfedge_descriptor_t) (e : edge_descriptor_t) (v : vertex_descriptor_t) :
    (map_find (add_edge_write m v0 v1 h0 h1 e).m_vertices v).map (fun d => d.p) =
      (map_find m.m_vertices v).map (fun d => d.p) := by
  simp only [add_edge_write, map_find_modify]
  by_cases a : v = v1
  · subst a
    by_cases b : v = v0
    · subst b
      cases map_find m.m_vertices v <;> simp [push_incident_p]
    · cases map_find m.m_vertices v <;> simp [b, push_incident_p]
  · by_cases b : v = v0
    · subst b
      cases map_find m.m_vertices v <;> simp [a, push_incident_p]
    · simp [a, b]

/-- The writes of `add_edge` to slots that were not live keep the live
elements, and they leave the face, next and previous half-edge of every
half-edge as they are. -/
theorem kept_write {m mc : mesh_t R} {v0 v1 : vertex_descriptor_t}
    {h0 h1 : halfedge_descriptor_t} {e : edge_descriptor_t} (k : kept m mc)
    (f0 : free_halfedge m h0) (f1 : free_halfedge m h1) (fe : free_edge m e) :
    kept m (add_edge_write mc v0 v1 h0 h1 e) := by
  constructor
  · intro v
    rw [add_edge_write_pos, k.pos]
  · intro x hd hf hn
    obtain ⟨n1, hd1, g1, c1⟩ := k.halfedges x hd hf hn
    have x0 : x ≠ h0 := by
      intro c
      subst c
      exact hn (f0 (by rw [hf]; rfl))
    have x1 : x ≠ h1 := by
      intro c
      subst c
      exact hn (f1 (by rw [hf]; rfl))
    refine ⟨n1, hd1, ?_, c1⟩
    rw [add_edge_write_find]
    simp [x0, x1, g1]
  · intro x ed hf hn
    obtain ⟨n1, g1⟩ := k.edges x ed hf hn
    have xe : x ≠ e := by
      intro c
      subst c
      exact hn (fe (by rw [hf]; rfl))
    refine ⟨n1, ?_⟩
    simp only [add_edge_write, map_find_modify, xe, if_false]
    exact g1
  · intro x hd hf hn
    obtain ⟨hd1, g1, c1, c2, c3⟩ := k.bound x hd hf hn
    rw [add_edge_write_find]
    by_cases x1 : x = h1
    · subst x1
      by_cases x0 : x = h0
      · subst x0
        simp only [if_true, g1, Option.map_some']
        exact ⟨_, rfl, c1, c2, c3⟩
      · simp only [if_true, x0, if_false, g1, Option.map_some']
        exact ⟨_, rfl, c1, c2, c3⟩
    · by_cases x0 : x = h0
      · subst x0
        simp only [x1, if_false, if_true, g1, Option.map_some']
        exact ⟨_, rfl, c1, c2, c3⟩
      · simp only [x1, x0, if_false]
        exact ⟨hd1, g1, c1, c2, c3⟩

/-- A call of `add_edge` that returns keeps the live elements and every
face. -/
theorem kept_add_edge {m m1 : mesh_t R} {v0 v1 : vertex_descriptor_t}
    {h : halfedge_descriptor_t} (hrun : add_edge v0 v1 m = (Except.ok h, m1)) :
    kept m m1 ∧ m1.m_faces = m.m_faces ∧ m1.m_faces_removed = m.m_faces_removed := by
  obtain ⟨ma, h1, mb, e, mc, r0, r1, re, _, _, _, _, rfl⟩ := add_edge_inv_any hrun
  have s0 := halfedge_slot_h0 r0
  have s1 := halfedge_slot_h1 r1
  have se := edge_slot_e re
  have kc : kept m mc :=
    kept_trans (kept_trans (kept_halfedge_slot s0) (kept_halfedge_slot s1)) (kept_edge_slot se)
  have fe : free_edge m e := by
    intro hs
    have := se.free (by rw [s1.e, s0.e]; exact hs)
    rw [s1.er, s0.er] at this
    exact this
  refine ⟨kept_write kc s0.free (free_halfedge_of_slot s0 s1.free) fe, ?_, ?_⟩
  · show mc.m_faces = m.m_faces
    rw [se.f, s1.f, s0.f]
  · show mc.m_faces_removed = m.m_faces_removed
    rw [se.fr, s1.fr, s0.fr]

theorem core_eq_of_map {a b : Option halfedge_data_t} {hd : halfedge_data_t}
    (c : a.map halfedge_core = b.map halfedge_core) (hb : b = some hd) :
    ∃ hd1, a = some hd1 ∧ halfedge_core hd1 = halfedge_core hd := by
  subst hb
  cases a with
  | none => simp at c
  | some x =>
    simp only [Option.map_some', Option.some.injEq] at c
    exact ⟨x, rfl, c⟩

/-- Binding a border half-edge to a face keeps everything. -/
theorem kept_bind_face {mx : mesh_t R} {h : halfedge_descriptor_t} {hd : halfedge_data_t}
    (hf : map_find mx.m_halfedges h = some hd) (hnull : hd.f = null_face)
    (f : face_descriptor_t) : kept mx (bind_face mx h f) := by
  constructor
  · intro v
    rfl
  · intro x xd xf xn
    exact ⟨xn, core_eq_of_map ((same_edges_bind_face mx h f).core x) xf⟩
  · intro x ed xf xn
    exact ⟨xn, xf⟩
  · intro x xd xf xn
    have xh : x ≠ h := by
      intro c
      subst c
      rw [hf] at xf
      simp only [Option.some.injEq] at xf
      subst xf
      exact xn hnull
    rw [bind_face_find]
    simp only [xh, if_false]
    exact ⟨xd, xf, rfl, rfl, rfl⟩

/-- Linking two half-edges that were not bound to a face in `m` keeps what
was kept of `m`. -/
theorem kept_link {m mx : mesh_t R} {a b : halfedge_descriptor_t} (k : kept m mx)
    (hfree : ∀ x xd, map_find m.m_halfedges x = some xd → xd.f ≠ null_face → x ≠ a ∧ x ≠ b) :
    kept m (link_next mx a b) := by
  constructor
  · intro v
    exact k.pos v
  · intro x xd xf xn
    obtain ⟨n1, hd1, g1, c1⟩ := k.halfedges x xd xf xn
    refine ⟨n1, ?_⟩
    obtain ⟨hd2, g2, c2⟩ := core_eq_of_map
      (link_next_proj mx a b x halfedge_core (fun _ _ => rfl) (fun _ _ => rfl)) g1
    exact ⟨hd2, g2, c2.trans c1⟩
  · intro x ed xf xn
    exact k.edges x ed xf xn
  · intro x xd xf xn
    obtain ⟨hd1, g1, c1, c2, c3⟩ := k.bound x xd xf xn
    obtain ⟨xa, xb⟩ := hfree x xd xf xn
    rw [link_next_other mx a b x xa xb]
    exact ⟨hd1, g1, c1, c2, c3⟩

/-! ## What `add_face` keeps -/

theorem face_push_fields (mx : mesh_t R) (f : face_descriptor_t) (reusing : Bool)
    (fd : face_data_t) :
    (face_push mx f reusing fd).m_vertices = mx.m_vertices ∧
    (face_push mx f reusing fd).m_edges = mx.m_edges ∧
    (face_push mx f reusing fd).m_halfedges_removed = mx.m_halfedges_removed ∧
    (face_push mx f reusing fd).m_edges_removed = mx.m_edges_removed ∧
    (face_push mx f reusing fd).m_faces_removed = mx.m_faces_removed ∧
    (face_push mx f reusing fd).m_faces.length = mx.m_faces.length ∧
    faces_kept f mx (face_push mx f reusing fd) ∧
    (reusing = false → (face_push mx f reusing fd).m_faces = mx.m_faces) := by
  cases reusing with
  | false => exact ⟨rfl, rfl, rfl, rfl, rfl, rfl, fun _ _ => rfl, fun _ => rfl⟩
  | true =>
    refine ⟨rfl, rfl, rfl, rfl, rfl, ?_, ?_, ?_⟩
    · simp [face_push, map_modify_length]
    · intro x hx
      simp only [face_push, if_true, map_find_modify, hx, if_false]
    · intro c
      cases c

/-- The first loop of `add_face` keeps the live elements of the mesh `m` the
call started on, and the faces other than the new one; the half-edges it
collects were not bound to a face in `m`. -/
theorem add_face_loop_kept {m ma mb : mesh_t R} (k0 : kept m ma)
    {vi : List vertex_descriptor_t} {f : face_descriptor_t} {reusing : Bool} {fd : face_data_t}
    (hloop : add_face_loop vi f reusing (List.range' 0 vi.length) face_data_new ma =
      (Except.ok fd, mb)) :
    kept m mb ∧ faces_kept f ma mb ∧ (reusing = false → mb.m_faces = ma.m_faces) ∧
    mb.m_faces.length = ma.m_faces.length ∧ mb.m_faces_removed = ma.m_faces_removed ∧
    (∀ x xd, map_find m.m_halfedges x = some xd → xd.f ≠ null_face → x ∉ fd.m_halfedges) := by
  have h1 := add_face_loop_induct
    (fun (_ : Nat) mx fx =>
      kept m mx ∧ faces_kept f ma mx ∧ (reusing = false → mx.m_faces = ma.m_faces) ∧
      mx.m_faces.length = ma.m_faces.length ∧ mx.m_faces_removed = ma.m_faces_removed ∧
      (∀ x xd, map_find m.m_halfedges x = some xd → xd.f ≠ null_face → x ∉ fx.m_halfedges))
    (fun k mx mx1 fx fx1 hp hs => by
      obtain ⟨p1, p2, p3, p4, p5, p6⟩ := hp
      obtain ⟨v0, v1, h, me, hcase, ⟨hd, hfind, hnull⟩, rfl, rfl⟩ := add_face_step_inv_any hs
      have ke : kept mx me ∧ me.m_faces = mx.m_faces ∧
          me.m_faces_removed = mx.m_faces_removed := by
        rcases hcase with rfl | hadd
        · exact ⟨kept_refl _, rfl, rfl⟩
        · exact kept_add_edge hadd
      obtain ⟨ke1, ke2, ke3⟩ := ke
      obtain ⟨q1, q2, q3, q4, q5, q6, q7, q8⟩ :=
        face_push_fields me f reusing { m_halfedges := fx.m_halfedges ++ [h] }
      have kp : kept me (face_push me f reusing { m_halfedges := fx.m_halfedges ++ [h] }) :=
        kept_of_eq q1 (face_push_halfedges _ _ _ _) q2 q3 q4
      have kb := kept_bind_face
        (show map_find (face_push me f reusing { m_halfedges := fx.m_halfedges ++ [h] }).m_halfedges
          h = some hd by rw [face_push_halfedges]; exact hfind) hnull f
      have kme : kept m me := kept_trans p1 ke1
      refine ⟨kept_trans (kept_trans kme kp) kb, ?_, ?_, ?_, ?_, ?_⟩
      · intro x hx
        show map_find (face_push me f reusing _).m_faces x = _
        rw [q7 x hx, ke2]
        exact p2 x hx
      · intro c
        show (face_push me f reusing _).m_faces = _
        rw [q8 c, ke2]
        exact p3 c
      · show (face_push me f reusing _).m_faces.length = _
        rw [q6, ke2]
        exact p4
      · show (face_push me f reusing _).m_faces_removed = _
        rw [q5, ke3]
        exact p5
      · intro x xd xf xn
        simp only [List.mem_append, List.mem_singleton, not_or]
        refine ⟨p6 x xd xf xn, ?_⟩
        intro c
        subst c
        obtain ⟨hd1, g1, c1, _, _⟩ := kme.bound x xd xf xn
        rw [hfind] at g1
        simp only [Option.some.injEq] at g1
        subst g1
        rw [hnull] at c1
        exact xn c1.symm)
    vi.length 0 ma mb face_data_new fd
    ⟨k0, fun _ _ => rfl, fun _ => rfl, rfl, rfl, fun _ _ _ _ c => by cases c⟩ hloop
  exact h1

/-- The second loop of `add_face` keeps the live elements of the mesh `m`
the call started on, and every face. -/
theorem add_face_link_kept {m mc m1 : mesh_t R} (k0 : kept m mc)
    {hs : List halfedge_descriptor_t}
    (hfree : ∀ x xd, map_find m.m_halfedges x = some xd → xd.f ≠ null_face → x ∉ hs)
    (hlink : add_face_link hs (List.range' 0 hs.length) mc = (Except.ok (), m1)) :
    kept m m1 ∧ m1.m_faces = mc.m_faces ∧ m1.m_faces_removed = mc.m_faces_removed := by
  have h1 := add_face_link_induct hs
    (fun (_ : Nat) mx => kept m mx ∧ mx.m_faces = mc.m_faces ∧
      mx.m_faces_removed = mc.m_faces_removed)
    (fun k mx a b hp ha hb => by
      refine ⟨kept_link hp.1 ?_, hp.2.1, hp.2.2⟩
      intro x xd xf xn
      have nx := hfree x xd xf xn
      constructor
      · intro c
        subst c
        exact nx (List.getElem?_mem ha)
      · intro c
        subst c
        exact nx (List.getElem?_mem hb))
    hs.length 0 mc m1 () ⟨k0, rfl, rfl⟩ hlink
  exact h1

/-- A call of `add_face` that returns, in any state of the mesh: it keeps
the live elements; it keeps the stored boundary of every live face; and the
new face takes the first removed descriptor when there is one, and a new
slot otherwise. -/
theorem add_face_frame {m m1 : mesh_t R} {vi : List vertex_descriptor_t}
    {f : face_descriptor_t} (hrun : add_face vi m = (Except.ok f, m1)) :
    kept m m1 ∧
    (∀ x xd, map_find m.m_faces x = some xd → x ∉ m.m_faces_removed →
      map_find m1.m_faces x = some xd) ∧
    (∀ a rest, m.m_faces_removed = a :: rest →
      f = a ∧ (map_find m.m_faces f).isSome ∧ m1.m_faces_removed = rest ∧
      m1.m_faces.length = m.m_faces.length) ∧
    (m.m_faces_removed = [] →
      f = descriptor_of_count (number_of_faces m) ∧ map_find m.m_faces f = none ∧
      (map_find m1.m_faces f).isSome ∧ m1.m_faces_removed = [] ∧
      m1.m_faces.length = m.m_faces.length + 1) := by
  obtain ⟨_, reusing, ma, fd, mb, mc, hslot, hloop, hstore, hlink⟩ := add_face_inv_any hrun
  rcases add_face_slot_inv hslot with ⟨rest, s1, rfl, s3, rfl⟩ | ⟨s1, rfl, s3, hma⟩
  · -- a removed descriptor is reused
    have k0 : kept m { m with
        m_faces_removed := rest,
        m_faces := map_modify m.m_faces f (fun _ => { m_halfedges := [] }) } :=
      kept_of_eq rfl rfl rfl rfl rfl
    obtain ⟨l1, l2, _, l4, l5, l6⟩ := add_face_loop_kept k0 hloop
    rcases add_face_store_inv_any hstore with ⟨_, rfl⟩ | ⟨c, _⟩
    · obtain ⟨n1, n2, n3⟩ := add_face_link_kept l1 l6 hlink
      refine ⟨n1, ?_, ?_, ?_⟩
      · intro x xd xf xn
        have xne : x ≠ f := by
          intro c
          subst c
          apply xn
          rw [s1]
          exact List.mem_cons_self _ _
        rw [n2, l2 x xne]
        simp only [map_find_modify, xne, if_false]
        exact xf
      · intro a rest1 ha
        rw [s1] at ha
        simp only [List.cons.injEq] at ha
        obtain ⟨rfl, rfl⟩ := ha
        refine ⟨rfl, s3, ?_, ?_⟩
        · rw [n3, l5]
        · rw [n2, l4]
          simp [map_modify_length]
      · intro c
        rw [s1] at c
        cases c
    · cases c
  · -- a new slot
    rw [hma] at hloop
    obtain ⟨l1, _, l3, _, l5, l6⟩ := add_face_loop_kept (kept_refl m) hloop
    rcases add_face_store_inv_any hstore with ⟨c, _⟩ | ⟨_, t1, rfl⟩
    · cases c
    · have k1 : kept m (store_face mb f fd) :=
        kept_trans l1 (kept_of_eq rfl rfl rfl rfl rfl)
      obtain ⟨n1, n2, n3⟩ := add_face_link_kept k1 l6 hlink
      have hnone : map_find m.m_faces f = none := by
        rw [← l3 rfl]
        exact t1
      refine ⟨n1, ?_, ?_, ?_⟩
      · intro x xd xf xn
        have xne : x ≠ f := by
          intro c
          subst c
          rw [hnone] at xf
          cases xf
        rw [n2]
        show map_find (map_insert_sorted f fd mb.m_faces) x = some xd
        rw [map_find_insert_absent t1 xne, l3 rfl]
        exact xf
      · intro a rest ha
        rw [s1] at ha
        cases ha
      · intro _
        refine ⟨s3, hnone, ?_, ?_, ?_⟩
        · rw [n2]
          show (map_find (map_insert_sorted f fd mb.m_faces) f).isSome = true
          rw [map_find_insert_self t1]
          rfl
        · rw [n3]
          show mb.m_faces_removed = []
          rw [l5]
          exact s1
        · rw [n2]
          show (map_insert_sorted f fd mb.m_faces).length = _
          rw [map_insert_sorted_length, l3 rfl]

/-! ## Reuse of removed descriptors -/

theorem count_zero_of_none {D : Type} {mp : map_t D} {k : descriptor_t}
    (h : map_find mp k = none) : map_count mp k = 0 := by
  simp [map_count, h]

theorem count_one_of_some {D : Type} {mp : map_t D} {k : descriptor_t}
    (h : (map_find mp k).isSome = true) : map_count mp k = 1 := by
  simp [map_count, h]

theorem head_tail_of_ne_nil {A : Type} {l : List A} (h : l ≠ []) :
    ∃ a, l = a :: l.tail ∧ l.head? = some a ∧ (l.length : Int) = (l.tail.length : Int) + 1 := by
  cases l with
  | nil => exact absurd rfl h
  | cons a rest => exact ⟨a, rfl, rfl, by simp⟩

/-- The edge of the half-edge returned by `add_edge` is the edge slot that
was chosen. -/
theorem add_edge_write_edge {mc : mesh_t R} {v0 v1 : vertex_descriptor_t}
    {h h1 : halfedge_descriptor_t} {e e1 : edge_descriptor_t}
    (he : edge (add_edge_write mc v0 v1 h h1 e) h = Except.ok e1) : e1 = e := by
  obtain ⟨_, hd, hf, rfl⟩ := edge_eq_ok.1 he
  rw [add_edge_write_find] at hf
  by_cases c : h = h1
  · subst c
    simp only [if_true] at hf
    cases hx : map_find mc.m_halfedges h with
    | none => simp [hx] at hf
    | some x =>
      simp only [hx, Option.map_some', Option.some.injEq] at hf
      rw [← hf]
  · simp only [c, if_false, if_true] at hf
    cases hx : map_find mc.m_halfedges h with
    | none => simp [hx] at hf
    | some x =>
      simp only [hx, Option.map_some', Option.some.injEq] at hf
      rw [← hf]

/-- C12. When the list of removed vertices (edges, faces) is not empty, a
call of `add_vertex` (`add_edge`, `add_face`) that returns gives the new
element the first descriptor of that list and takes exactly that entry off
the list; the count of the category grows by 1 and the number of internal
slots stays the same. When the list is empty the descriptor was not stored
before and is afterwards, and the number of internal slots grows by 1. -/
theorem creation_reuses_oldest_slot :
    (∀ (m m1 : mesh_t R) (x y z : R) (v : vertex_descriptor_t),
      add_vertex x y z m = (Except.ok v, m1) →
      (m.m_vertices_removed ≠ [] →
        m.m_vertices_removed.head? = some v ∧
        m1.m_vertices_removed = m.m_vertices_removed.tail ∧
        number_of_vertices m1 = number_of_vertices m + 1 ∧
        number_of_internal_vertices m1 = number_of_internal_vertices m) ∧
      (m.m_vertices_removed = [] →
        map_count m.m_vertices v = 0 ∧ map_count m1.m_vertices v = 1 ∧
        number_of_vertices m1 = number_of_vertices m + 1 ∧
        number_of_internal_vertices m1 = number_of_internal_vertices m + 1)) ∧
    (∀ (m m1 : mesh_t R) (v0 v1 : vertex_descriptor_t) (h : halfedge_descriptor_t)
      (e : edge_descriptor_t),
      add_edge v0 v1 m = (Except.ok h, m1) → edge m1 h = Except.ok e →
      (m.m_edges_removed ≠ [] →
        m.m_edges_removed.head? = some e ∧
        m1.m_edges_removed = m.m_edges_removed.tail ∧
        number_of_edges m1 = number_of_edges m + 1 ∧
        number_of_internal_edges m1 = number_of_internal_edges m) ∧
      (m.m_edges_removed = [] →
        map_count m.m_edges e = 0 ∧ map_count m1.m_edges e = 1 ∧
        number_of_edges m1 = number_of_edges m + 1 ∧
        number_of_internal_edges m1 = number_of_internal_edges m + 1)) ∧
    (∀ (m m1 : mesh_t R) (vi : List vertex_descriptor_t) (f : face_descriptor_t),
      add_face vi m = (Except.ok f, m1) →
      (m.m_faces_removed ≠ [] →
        m.m_faces_removed.head? = some f ∧
        m1.m_faces_removed = m.m_faces_removed.tail ∧
        number_of_faces m1 = number_of_faces m + 1 ∧
        number_of_internal_faces m1 = number_of_internal_faces m) ∧
      (m.m_faces_removed = [] →
        map_count m.m_faces f = 0 ∧ map_count m1.m_faces f = 1 ∧
        number_of_faces m1 = number_of_faces m + 1 ∧
        number_of_internal_faces m1 = number_of_internal_faces m + 1)) := by
  refine ⟨?_, ?_, ?_⟩
  · intro m m1 x y z v hrun
    rcases add_vertex_inv hrun with ⟨rest, q1, _, _, rfl⟩ | ⟨q1, _, q3, rfl⟩
    · constructor
      · intro _
        simp only [number_of_vertices, number_of_internal_vertices, number_of_vertices_removed,
          q1, List.head?_cons, List.tail_cons, map_modify_length, List.length_cons]
        refine ⟨trivial, trivial, ?_, trivial⟩
        push_cast
        ring
      · intro c
        rw [q1] at c
        cases c
    · constructor
      · intro c
        exact absurd q1 c
      · intro _
        refine ⟨count_zero_of_none q3, ?_, ?_, ?_⟩
        · apply count_one_of_some
          show (map_find (map_insert_sorted _ _ _) v).isSome = true
          rw [map_find_insert_self q3]
          rfl
        · simp only [number_of_vertices, number_of_internal_vertices,
            number_of_vertices_removed, map_insert_sorted_length]
          push_cast
          ring
        · simp only [number_of_internal_vertices, map_insert_sorted_length]
          push_cast
          ring
  · intro m m1 v0 v1 h e hrun he
    obtain ⟨ma, h1, mb, e0, mc, r0, r1, re, _, _, _, _, rfl⟩ := add_edge_inv_any hrun
    have s0 := halfedge_slot_h0 r0
    have s1 := halfedge_slot_h1 r1
    have ee : e = e0 := add_edge_write_edge he
    subst ee
    have em : mb.m_edges = m.m_edges := by rw [s1.e, s0.e]
    have erm : mb.m_edges_removed = m.m_edges_removed := by rw [s1.er, s0.er]
    rcases add_edge_e_inv re with ⟨rest, q1, _, rfl⟩ | ⟨q1, _, q3, rfl⟩
    · rw [erm] at q1
      constructor
      · intro _
        simp only [number_of_edges, number_of_internal_edges, number_of_edges_removed,
          add_edge_write, q1, List.head?_cons, List.tail_cons, map_modify_length,
          List.length_cons, em]
        refine ⟨trivial, trivial, ?_, trivial⟩
        push_cast
        ring
      · intro c
        rw [q1] at c
        cases c
    · rw [erm] at q1
      rw [em] at q3
      constructor
      · intro c
        exact absurd q1 c
      · intro _
        refine ⟨count_zero_of_none q3, ?_, ?_, ?_⟩
        · apply count_one_of_some
          simp only [add_edge_write, map_find_modify_isSome, em]
          rw [map_find_insert_self q3]
          rfl
        · simp only [number_of_edges, number_of_internal_edges, number_of_edges_removed,
            add_edge_write, map_modify_length, map_insert_sorted_length, em, erm]
          push_cast
          ring
        · simp only [number_of_internal_edges, add_edge_write, map_modify_length,
            map_insert_sorted_length, em]
          push_cast
          ring
  · intro m m1 vi f hrun
    obtain ⟨_, _, p3, p4⟩ := add_face_frame hrun
    constructor
    · intro hne
      obtain ⟨a, q1, q2, q3⟩ := head_tail_of_ne_nil hne
      obtain ⟨rfl, _, t3, t4⟩ := p3 a _ q1
      refine ⟨q2, t3, ?_, ?_⟩
      · simp only [number_of_faces, number_of_internal_faces, number_of_faces_removed, t3, t4,
          q3]
        ring
      · simp only [number_of_internal_faces, t4]
    · intro hnil
      obtain ⟨_, t2, t3, t4, t5⟩ := p4 hnil
      refine ⟨count_zero_of_none t2, count_one_of_some t3, ?_, ?_⟩
      · simp only [number_of_faces, number_of_internal_faces, number_of_faces_removed, t4, t5,
          hnil]
        push_cast
        ring
      · simp only [number_of_internal_faces, t5]
        push_cast
        ring

theorem creation_reuses_oldest_slot_witness :
    ((mesh_vertex_removed.m_vertices_removed ≠ [] →
        mesh_vertex_removed.m_vertices_removed.head? = some (some 0) ∧
        (mesh_after (add_vertex 5 5 5) mesh_vertex_removed).m_vertices_removed =
          mesh_vertex_removed.m_vertices_removed.tail ∧
        number_of_vertices (mesh_after (add_vertex 5 5 5) mesh_vertex_removed) =
          number_of_vertices mesh_vertex_removed + 1 ∧
        number_of_internal_vertices (mesh_after (add_vertex 5 5 5) mesh_vertex_removed) =
          number_of_internal_vertices mesh_vertex_removed) ∧
      mesh_vertex_removed.m_vertices_removed ≠ []) ∧
    ((mesh_triangle_edge_removed.m_edges_removed ≠ [] →
        mesh_triangle_edge_removed.m_edges_removed.head? = some (some 0) ∧
        (mesh_after (add_edge (some 0) (some 1)) mesh_triangle_edge_removed).m_edges_removed =
          mesh_triangle_edge_removed.m_edges_removed.tail ∧
        number_of_edges (mesh_after (add_edge (some 0) (some 1)) mesh_triangle_edge_removed) =
          number_of_edges mesh_triangle_edge_removed + 1 ∧
        number_of_internal_edges
            (mesh_after (add_edge (some 0) (some 1)) mesh_triangle_edge_removed) =
          number_of_internal_edges mesh_triangle_edge_removed) ∧
      mesh_triangle_edge_removed.m_edges_removed ≠ []) ∧
    ((mesh_triangle.m_faces_removed = [] →
        map_count mesh_triangle.m_faces (some 1) = 0 ∧
        map_count
          (mesh_after (add_face [some 2, some 1, some 0]) mesh_triangle).m_faces (some 1) = 1 ∧
        number_of_faces (mesh_after (add_face [some 2, some 1, some 0]) mesh_triangle) =
          number_of_faces mesh_triangle + 1 ∧
        number_of_internal_faces (mesh_after (add_face [some 2, some 1, some 0]) mesh_triangle) =
          number_of_internal_faces mesh_triangle + 1) ∧
      mesh_triangle.m_faces_removed = []) ∧
    ((mesh_triangle_face_removed.m_faces_removed ≠ [] →
        mesh_triangle_face_removed.m_faces_removed.head? = some (some 0) ∧
        (mesh_after (add_face [some 2, some 1, some 0])
            mesh_triangle_face_removed).m_faces_removed =
          mesh_triangle_face_removed.m_faces_removed.tail ∧
        number_of_faces (mesh_after (add_face [some 2, some 1, some 0])
            mesh_triangle_face_removed) =
          number_of_faces mesh_triangle_face_removed + 1 ∧
        number_of_internal_faces (mesh_after (add_face [some 2, some 1, some 0])
            mesh_triangle_face_removed) =
          number_of_internal_faces mesh_triangle_face_removed) ∧
      mesh_triangle_face_removed.m_faces_removed ≠ []) :=
  ⟨⟨((@creation_reuses_oldest_slot Int).1 mesh_vertex_removed _ 5 5 5 (some 0)
        (by decide!)).1, by decide!⟩,
    ⟨((@creation_reuses_oldest_slot Int).2.1 mesh_triangle_edge_removed _ (some 0) (some 1)
        (some 0) (some 0) (by decide!) (by decide!)).1, by decide!⟩,
    ⟨((@creation_reuses_oldest_slot Int).2.2 mesh_triangle _ [some 2, some 1, some 0] (some 1)
        (by decide!)).2, by decide!⟩,
    ⟨((@creation_reuses_oldest_slot Int).2.2 mesh_triangle_face_removed _
        [some 2, some 1, some 0] (some 0) (by decide!)).1, by decide!⟩⟩

/-- C14, at the failing input. On the triangle whose edges 0 and 2 were
removed, so that the list of removed half-edges is 0, 1, 4, 5, `add_edge(0, 1)`
takes the first entry, 0, for the half-edge it returns and the last entry, 5,
for its opposite: the two descriptors differ by 5. -/
theorem add_edge_reused_pair_not_adjacent :
    mesh_triangle_two_edges_removed.m_halfedges_removed = [some 0, some 1, some 4, some 5] ∧
    (add_edge (some 0) (some 1) mesh_triangle_two_edges_removed).1 = Except.ok (some 0) ∧
    opposite (mesh_after (add_edge (some 0) (some 1)) mesh_triangle_two_edges_removed) (some 0) =
      Except.ok (some 5) ∧
    opposite (mesh_after (add_edge (some 0) (some 1)) mesh_triangle_two_edges_removed) (some 5) =
      Except.ok (some 0) := by
  decide!

/-- The part of C14 that holds: on a mesh reached by creation calls, where
nothing was removed, the half-edge `add_edge` returns and its opposite
occupy the two slots after the last one, which are adjacent. -/
theorem add_edge_fresh_pair_adjacent (m : mesh_t R) (hm : Reachable m)
    (v0 v1 : vertex_descriptor_t)
    (h0 : map_count m.m_vertices v0 = 1) (h1 : map_count m.m_vertices v1 = 1) :
    ∃ m1, add_edge v0 v1 m = (Except.ok (some m.m_halfedges.length), m1) ∧
      opposite m1 (some m.m_halfedges.length) = Except.ok (some (m.m_halfedges.length + 1)) ∧
      opposite m1 (some (m.m_halfedges.length + 1)) = Except.ok (some m.m_halfedges.length) := by
  obtain ⟨ok, _⟩ := reachable_ok hm
  have p0 : (map_find m.m_vertices v0).isSome = true := by
    rw [← map_count_eq_one]; simp [h0]
  have p1 : (map_find m.m_vertices v1).isSome = true := by
    rw [← map_count_eq_one]; simp [h1]
  obtain ⟨d0, hd0⟩ := Option.isSome_iff_exists.mp p0
  obtain ⟨d1, hd1⟩ := Option.isSome_iff_exists.mp p1
  obtain ⟨m1, hrun⟩ := add_edge_run ok (key_ne_null ok.dv hd0) (key_ne_null ok.dv hd1) p0 p1
  have post := add_edge_inv m m1 v0 v1 _ ok.hr ok.er ok.dh ok.de hrun
  refine ⟨m1, hrun, ?_, ?_⟩
  · exact opposite_eq_ok.2 ⟨by simp, _, add_edge_post_h0 post, rfl⟩
  · exact opposite_eq_ok.2 ⟨by simp, _, add_edge_post_h1 post, rfl⟩

/-! ## Creation leaves the live elements as they are -/

theorem vertex_p_run (m : mesh_t R) (v : vertex_descriptor_t) :
    vertex_p m v =
      match v, (map_find m.m_vertices v).map (fun d => d.p) with
      | some _, some p => Except.ok p
      | _, _ => Except.error error.assertion_failed := by
  unfold vertex_p
  cases v with
  | none => simp [null_vertex, assert_false, except_bind_error]
  | some n =>
    cases hf : map_find m.m_vertices (some n) with
    | none =>
      simp [null_vertex, some_bne_null, assert_true, except_bind_ok, map_count_eq_one, hf,
        assert_false, except_bind_error]
    | some d =>
      simp [null_vertex, some_bne_null, assert_true, except_bind_ok, map_count_eq_one, hf,
        map_at_of_find hf]

theorem accessor_congr {m m1 : mesh_t R} {h : halfedge_descriptor_t} {hd hd1 : halfedge_data_t}
    (g : halfedge_data_t → descriptor_t) (f1 : map_find m1.m_halfedges h = some hd1)
    (f : map_find m.m_halfedges h = some hd) (e : g hd1 = g hd) :
    (do
      MCUT_ASSERT (h != null_halfedge)
      MCUT_ASSERT (map_count m1.m_halfedges h == 1)
      let x ← map_at m1.m_halfedges h
      pure (g x) : Except error descriptor_t) =
    (do
      MCUT_ASSERT (h != null_halfedge)
      MCUT_ASSERT (map_count m.m_halfedges h == 1)
      let x ← map_at m.m_halfedges h
      pure (g x) : Except error descriptor_t) := by
  rw [accessor_run m1 h g, accessor_run m h g, f1, f]
  cases h <;> simp [e]

theorem stored_of_count {D : Type} {mp : map_t D} {k : descriptor_t}
    (h : map_count mp k = 1) : ∃ d, map_find mp k = some d := by
  apply Option.isSome_iff_exists.mp
  rw [← map_count_eq_one]
  simp [h]

/-- C13. A call of `add_vertex` that returns leaves the edges, half-edges
and faces, their lists of removed descriptors and every other vertex slot as
they are, and in the slot it returns it changes the position only (a new
slot has no incident half-edges). A call of `add_face` that returns leaves as
they are: the position of every vertex; the target, opposite and edge of
every live half-edge; the primary half-edge of every live edge; the boundary
of every live face; and the face, next and previous half-edge of every
half-edge that was bound to a face. -/
theorem creation_keeps_live_elements :
    (∀ (m m1 : mesh_t R) (x y z : R) (v : vertex_descriptor_t),
      add_vertex x y z m = (Except.ok v, m1) →
      m1.m_edges = m.m_edges ∧ m1.m_halfedges = m.m_halfedges ∧ m1.m_faces = m.m_faces ∧
      m1.m_edges_removed = m.m_edges_removed ∧
      m1.m_halfedges_removed = m.m_halfedges_removed ∧
      m1.m_faces_removed = m.m_faces_removed ∧
      (∀ k, k ≠ v → map_find m1.m_vertices k = map_find m.m_vertices k) ∧
      (∀ d, map_find m.m_vertices v = some d →
        map_find m1.m_vertices v = some { d with p := { x := x, y := y, z := z } }) ∧
      (map_find m.m_vertices v = none →
        map_find m1.m_vertices v = some { p := { x := x, y := y, z := z }, m_halfedges := [] }) ∧
      vertex_p m1 v = Except.ok { x := x, y := y, z := z }) ∧
    (∀ (m m1 : mesh_t R) (vi : List vertex_descriptor_t) (f : face_descriptor_t),
      add_face vi m = (Except.ok f, m1) →
      (∀ v, vertex_p m1 v = vertex_p m v) ∧
      (∀ h, map_count m.m_halfedges h = 1 → h ∉ m.m_halfedges_removed →
        target m1 h = target m h ∧ opposite m1 h = opposite m h ∧ edge m1 h = edge m h) ∧
      (∀ e, map_count m.m_edges e = 1 → e ∉ m.m_edges_removed →
        halfedge_e m1 e 0 = halfedge_e m e 0) ∧
      (∀ k, map_count m.m_faces k = 1 → k ∉ m.m_faces_removed →
        get_halfedges_around_face m1 k = get_halfedges_around_face m k) ∧
      (∀ h fh, face m h = Except.ok fh → fh ≠ null_face →
        face m1 h = Except.ok fh ∧ next m1 h = next m h ∧ prev m1 h = prev m h)) := by
  constructor
  · intro m m1 x y z v hrun
    rcases add_vertex_inv hrun with ⟨rest, _, q2, q3, rfl⟩ | ⟨_, _, q3, rfl⟩
    · refine ⟨rfl, rfl, rfl, rfl, rfl, rfl, ?_, ?_, ?_, ?_⟩
      · intro k hk
        simp only [map_find_modify, hk, if_false]
      · intro d hd
        simp only [map_find_modify, if_true, hd, Option.map_some']
      · intro hn
        rw [hn] at q2
        cases q2
      · obtain ⟨d, hd⟩ := Option.isSome_iff_exists.mp q2
        rw [vertex_p_run]
        simp only [map_find_modify, if_true, hd, Option.map_some']
        cases v with
        | none => exact absurd rfl q3
        | some n => rfl
    · refine ⟨rfl, rfl, rfl, rfl, rfl, rfl, ?_, ?_, ?_, ?_⟩
      · intro k hk
        exact map_find_insert_absent q3 hk
      · intro d hd
        rw [q3] at hd
        cases hd
      · intro _
        exact map_find_insert_self q3
      · rw [vertex_p_run]
        have : map_find (map_insert_sorted v
            ({ p := { x := x, y := y, z := z }, m_halfedges := [] } : vertex_data_t R)
            m.m_vertices) v = some { p := { x := x, y := y, z := z }, m_halfedges := [] } :=
          map_find_insert_self q3
        simp only [this, Option.map_some']
        rename_i hv
        rw [hv]
        rfl
  · intro m m1 vi f hrun
    obtain ⟨k, kf, _, _⟩ := add_face_frame hrun
    refine ⟨?_, ?_, ?_, ?_, ?_⟩
    · intro v
      rw [vertex_p_run, vertex_p_run, k.pos]
    · intro h hc hn
      obtain ⟨hd, hf⟩ := stored_of_count hc
      obtain ⟨_, hd1, f1, c1⟩ := k.halfedges h hd hf hn
      simp only [halfedge_core, Prod.mk.injEq] at c1
      refine ⟨?_, ?_, ?_⟩
      · exact accessor_congr (fun d => d.t) f1 hf c1.2.1
      · exact accessor_congr (fun d => d.o) f1 hf c1.1
      · exact accessor_congr (fun d => d.e) f1 hf c1.2.2
    · intro e hc hn
      obtain ⟨ed, hf⟩ := stored_of_count hc
      obtain ⟨_, f1⟩ := k.edges e ed hf hn
      have i0 : ((0 : Int) == 1) = false := rfl
      unfold halfedge_e
      simp only [map_count, map_at, f1, hf, i0]
      rfl
    · intro x hc hn
      obtain ⟨xd, hf⟩ := stored_of_count hc
      have f1 := kf x xd hf hn
      unfold get_halfedges_around_face
      simp only [map_count, map_at, f1, hf]
    · intro h fh hface hne
      obtain ⟨_, hd, hf, rfl⟩ := face_eq_ok.1 hface
      obtain ⟨hd1, f1, c1, c2, c3⟩ := k.bound h hd hf hne
      refine ⟨?_, ?_, ?_⟩
      · rw [← hface]
        exact accessor_congr (fun d => d.f) f1 hf c1
      · exact accessor_congr (fun d => d.n) f1 hf c2
      · exact accessor_congr (fun d => d.p) f1 hf c3

theorem creation_keeps_live_elements_witness :
    (mesh_triangle_and_vertex.m_edges = mesh_triangle.m_edges ∧
      mesh_triangle_and_vertex.m_halfedges = mesh_triangle.m_halfedges ∧
      mesh_triangle_and_vertex.m_faces = mesh_triangle.m_faces ∧
      mesh_triangle_and_vertex.m_edges_removed = mesh_triangle.m_edges_removed ∧
      mesh_triangle_and_vertex.m_halfedges_removed = mesh_triangle.m_halfedges_removed ∧
      mesh_triangle_and_vertex.m_faces_removed = mesh_triangle.m_faces_removed ∧
      (∀ k, k ≠ some 3 →
        map_find mesh_triangle_and_vertex.m_vertices k = map_find mesh_triangle.m_vertices k) ∧
      (∀ d, map_find mesh_triangle.m_vertices (some 3) = some d →
        map_find mesh_triangle_and_vertex.m_vertices (some 3) =
          some { d with p := { x := 1, y := 1, z := 0 } }) ∧
      (map_find mesh_triangle.m_vertices (some 3) = none →
        map_find mesh_triangle_and_vertex.m_vertices (some 3) =
          some { p := { x := 1, y := 1, z := 0 }, m_halfedges := [] }) ∧
      vertex_p mesh_triangle_and_vertex (some 3) = Except.ok { x := 1, y := 1, z := 0 }) ∧
    ((∀ v, vertex_p mesh_two_triangles v = vertex_p mesh_triangle_and_vertex v) ∧
      (∀ h, map_count mesh_triangle_and_vertex.m_halfedges h = 1 →
        h ∉ mesh_triangle_and_vertex.m_halfedges_removed →
        target mesh_two_triangles h = target mesh_triangle_and_vertex h ∧
        opposite mesh_two_triangles h = opposite mesh_triangle_and_vertex h ∧
        edge mesh_two_triangles h = edge mesh_triangle_and_vertex h) ∧
      (∀ e, map_count mesh_triangle_and_vertex.m_edges e = 1 →
        e ∉ mesh_triangle_and_vertex.m_edges_removed →
        halfedge_e mesh_two_triangles e 0 = halfedge_e mesh_triangle_and_vertex e 0) ∧
      (∀ k, map_count mesh_triangle_and_vertex.m_faces k = 1 →
        k ∉ mesh_triangle_and_vertex.m_faces_removed →
        get_halfedges_around_face mesh_two_triangles k =
          get_halfedges_around_face mesh_triangle_and_vertex k) ∧
      (∀ h fh, face mesh_triangle_and_vertex h = Except.ok fh → fh ≠ null_face →
        face mesh_two_triangles h = Except.ok fh ∧
        next mesh_two_triangles h = next mesh_triangle_and_vertex h ∧
        prev mesh_two_triangles h = prev mesh_triangle_and_vertex h)) :=
  ⟨(@creation_keeps_live_elements Int).1 mesh_triangle mesh_triangle_and_vertex 1 1 0 (some 3)
      (by decide!),
    (@creation_keeps_live_elements Int).2 mesh_triangle_and_vertex mesh_two_triangles
      [some 0, some 2, some 3] (some 1) (by decide!)⟩

/-- On the triangle whose face was removed, `add_face` on the three vertices
in the opposite order reuses the face descriptor 0 and binds the three border
half-edges 3, 1 and 5; the half-edges 0, 2 and 4, bound to the removed face,
keep their face, next and previous half-edge. -/
theorem add_face_reuse_keeps_bound :
    (add_face [some 2, some 1, some 0] mesh_triangle_face_removed).1 = Except.ok (some 0) ∧
    get_halfedges_around_face
      (mesh_after (add_face [some 2, some 1, some 0]) mesh_triangle_face_removed) (some 0) =
      Except.ok [some 3, some 1, some 5] ∧
    (∀ h, h < 6 → h % 2 = 0 →
      face (mesh_after (add_face [some 2, some 1, some 0]) mesh_triangle_face_removed) (some h) =
        face mesh_triangle_face_removed (some h) ∧
      next (mesh_after (add_face [some 2, some 1, some 0]) mesh_triangle_face_removed) (some h) =
        next mesh_triangle_face_removed (some h) ∧
      prev (mesh_after (add_face [some 2, some 1, some 0]) mesh_triangle_face_removed) (some h) =
        prev mesh_triangle_face_removed (some h)) := by
  decide!

/-! ## Bit arithmetic of the implicit tree -/

/-- One round of `x |= x >> w`: if the bits of `x` are the disjunctions of
`w` consecutive bits of `n`, the bits of the result are the disjunctions of
`2 w` consecutive bits of `n`. -/
theorem smear_step (n x w : Nat)
    (hx : ∀ i, x.testBit i = true ↔ ∃ j, j < w ∧ n.testBit (i + j) = true) :
    ∀ i, (x ||| x >>> w).testBit i = true ↔ ∃ j, j < 2 * w ∧ n.testBit (i + j) = true := by
  intro i
  rw [Nat.testBit_lor, Nat.testBit_shiftRight, Bool.or_eq_true, hx, hx]
  constructor
  · rintro (⟨j, hj, hb⟩ | ⟨j, hj, hb⟩)
    · exact ⟨j, by omega, hb⟩
    · refine ⟨w + j, by omega, ?_⟩
      rw [← hb]
      congr 1
      omega
  · rintro ⟨j, hj, hb⟩
    by_cases c : j < w
    · exact Or.inl ⟨j, c, hb⟩
    · refine Or.inr ⟨j - w, by omega, ?_⟩
      rw [← hb]
      congr 1
      omega

theorem smear_testBit (n i : Nat) :
    (smear n).testBit i = true ↔ ∃ j, j < 32 ∧ n.testBit (i + j) = true := by
  have h0 : ∀ i, n.testBit i = true ↔ ∃ j, j < 1 ∧ n.testBit (i + j) = true := by
    intro i
    constructor
    · intro h
      exact ⟨0, by omega, by simpa using h⟩
    · rintro ⟨j, hj, hb⟩
      have : j = 0 := by omega
      subst this
      simpa using hb
  have h1 := smear_step n n 1 h0
  have h2 := smear_step n _ 2 h1
  have h3 := smear_step n _ 4 h2
  have h4 := smear_step n _ 8 h3
  have h5 := smear_step n _ 16 h4
  exact h5 i

/-- The rounds fill every bit below the highest one bit. -/
theorem smear_eq (n k : Nat) (hk : k ≤ 31) (lo : 2 ^ k ≤ n) (hi : n < 2 ^ (k + 1)) :
    smear n = 2 ^ (k + 1) - 1 := by
  apply Nat.eq_of_testBit_eq
  intro i
  rw [Nat.testBit_two_pow_sub_one]
  have top : n.testBit k = true := by
    obtain ⟨j, hj, hb⟩ := Nat.ge_two_pow_implies_high_bit_true lo
    have : j < k + 1 := by
      by_contra c
      have := Nat.testBit_implies_ge hb
      have : 2 ^ (k + 1) ≤ 2 ^ j := Nat.pow_le_pow_right (by norm_num) (by omega)
      omega
    have : j = k := by omega
    rw [← this]
    exact hb
  by_cases c : i < k + 1
  · have : (smear n).testBit i = true :=
      (smear_testBit n i).2 ⟨k - i, by omega, by rw [show i + (k - i) = k by omega]; exact top⟩
    rw [this]
    simp [c]
  · have : (smear n).testBit i = false := by
      cases hb : (smear n).testBit i with
      | false => rfl
      | true =>
        obtain ⟨j, _, hj⟩ := (smear_testBit n i).1 hb
        have h1 := Nat.testBit_implies_ge hj
        have h2 : 2 ^ (k + 1) ≤ 2 ^ (i + j) := Nat.pow_le_pow_right (by norm_num) (by omega)
        omega
    rw [this]
    simp [c]

theorem smear_zero : smear 0 = 0 := by decide

theorem next_power_of_two_succ (n : Nat) :
    next_power_of_two ((n : Int) + 1) = ((smear n + 1 : Nat) : Int) := by
  unfold next_power_of_two smear
  simp only [add_sub_cancel_right]
  rfl

/-- The value of `next_power_of_two(t)` for `1 <= t <= 2^31`: the power of
two `2^L` with `t <= 2^L` that is the least one. -/
theorem next_power_of_two_spec (t : Nat) (h1 : 1 ≤ t) (h2 : t ≤ 2 ^ 31) :
    ∃ L, L ≤ 31 ∧ next_power_of_two (t : Int) = ((2 ^ L : Nat) : Int) ∧ t ≤ 2 ^ L ∧
      (L = 0 ∨ 2 ^ (L - 1) < t) := by
  obtain ⟨n, rfl⟩ : ∃ n, t = n + 1 := ⟨t - 1, by omega⟩
  have e : ((n + 1 : Nat) : Int) = (n : Int) + 1 := by push_cast; ring
  rw [e, next_power_of_two_succ]
  by_cases hn : n = 0
  · subst hn
    exact ⟨0, by omega, by rw [smear_zero]; rfl, by simp, Or.inl rfl⟩
  · have lo : 2 ^ Nat.log 2 n ≤ n := Nat.pow_log_le_self 2 hn
    have hi : n < 2 ^ (Nat.log 2 n + 1) := Nat.lt_pow_succ_log_self (by norm_num) n
    have hk : Nat.log 2 n ≤ 30 := by
      by_contra c
      have : 2 ^ 31 ≤ 2 ^ Nat.log 2 n := Nat.pow_le_pow_right (by norm_num) (by omega)
      omega
    refine ⟨Nat.log 2 n + 1, by omega, ?_, by omega, Or.inr ?_⟩
    · rw [smear_eq n _ (by omega) lo hi]
      have : 1 ≤ 2 ^ (Nat.log 2 n + 1) := Nat.one_le_two_pow
      congr 1
      omega
    · simp only [Nat.add_sub_cancel]
      omega

theorem clz_aux_spec (n x k : Nat) (hk : k < n) (lo : 2 ^ k ≤ x) (hi : x < 2 ^ (k + 1)) :
    clz_aux n x = n - 1 - k := by
  induction n with
  | zero => omega
  | succ n ih =>
    simp only [clz_aux]
    by_cases c : 2 ^ n ≤ x
    · simp only [c, if_true]
      have : n < k + 1 := by
        by_contra d
        have : 2 ^ (k + 1) ≤ 2 ^ n := Nat.pow_le_pow_right (by norm_num) (by omega)
        omega
      omega
    · simp only [c, if_false]
      have kn : k < n := by
        by_contra d
        have : 2 ^ n ≤ 2 ^ k := Nat.pow_le_pow_right (by norm_num) (by omega)
        omega
      rw [ih kn]
      omega

/-- The value of `ilog2(x)` for `0 < x < 2^32`: the exponent of the highest
power of two that is at most `x`. -/
theorem ilog2_spec (x k : Nat) (hk : k ≤ 31) (lo : 2 ^ k ≤ x) (hi : x < 2 ^ (k + 1)) :
    ilog2 x = (k : Int) := by
  have h32 : x < 2 ^ 32 := by
    have : 2 ^ (k + 1) ≤ 2 ^ 32 := Nat.pow_le_pow_right (by norm_num) (by omega)
    omega
  unfold ilog2 clz
  rw [Nat.mod_eq_of_lt h32, clz_aux_spec 32 x k (by omega) lo hi]
  omega

theorem to_unsigned_nat (x : Nat) (h : x < 2 ^ 32) : to_unsigned (x : Int) = x := by
  unfold to_unsigned
  have : ((x : Int) % 2 ^ 32) = (x : Int) := by
    apply Int.emod_eq_of_lt
    · exact Int.natCast_nonneg x
    · exact_mod_cast h
  rw [this]
  simp

theorem popcount_aux_stable (n m s : Nat) (h : s < 2 ^ n) (hm : n ≤ m) :
    popcount_aux m s = popcount_aux n s := by
  induction m generalizing n s with
  | zero =>
    have : n = 0 := by omega
    subst this
    rfl
  | succ m ih =>
    cases n with
    | zero =>
      have s0 : s = 0 := by simpa using h
      subst s0
      simp only [popcount_aux]
      rw [ih 0 (0 / 2) (by simp) (by omega)]
      rfl
    | succ n =>
      simp only [popcount_aux]
      rw [ih n (s / 2) (by rw [Nat.pow_succ] at h; omega) (by omega)]

/-- The sum of the quotients of `s` by the powers of two and the count of
the one bits of `s`. -/
theorem sum_div_pow_add_popcount (n s : Nat) (h : s < 2 ^ n) :
    (∑ k ∈ Finset.range (n + 1), s / 2 ^ k) + popcount_aux n s = 2 * s := by
  induction n generalizing s with
  | zero =>
    have s0 : s = 0 := by simpa using h
    subst s0
    simp [popcount_aux]
  | succ n ih =>
    rw [Finset.sum_range_succ']
    simp only [popcount_aux, pow_zero, Nat.div_one]
    have hs : s / 2 < 2 ^ n := by rw [Nat.pow_succ] at h; omega
    have e : ∀ k, s / 2 ^ (k + 1) = s / 2 / 2 ^ k := by
      intro k
      rw [Nat.div_div_eq_div_mul, pow_succ, mul_comm]
    simp only [e]
    have := ih (s / 2) hs
    omega

/-! ## Levels of the implicit tree -/

theorem two_pow_pos_nat (l : Nat) : 1 ≤ 2 ^ l := Nat.one_le_two_pow

theorem two_pow_le_30 {l : Nat} (h : l ≤ 30) : 2 ^ l ≤ 2 ^ 30 :=
  Nat.pow_le_pow_right (by norm_num) h

/-- The level of the node with the offset `k` on the level `l`. -/
theorem level_of (l k : Nat) (hl : l ≤ 30) (hk : k < 2 ^ l) :
    get_level_from_implicit_idx ((2 ^ l - 1 + k : Nat) : Int) = (l : Int) := by
  unfold get_level_from_implicit_idx
  have h1 := two_pow_pos_nat l
  have h2 := two_pow_le_30 hl
  have e : ((2 ^ l - 1 + k : Nat) : Int) + 1 = ((2 ^ l + k : Nat) : Int) := by
    push_cast [Nat.cast_sub h1]
    ring
  rw [e, to_unsigned_nat _ (by norm_num at h2 ⊢; omega)]
  exact ilog2_spec _ l (by omega) (by omega) (by rw [pow_succ]; omega)

/-- Every node is the node of some offset on some level. -/
theorem node_decompose (q : Nat) : ∃ l k, k < 2 ^ l ∧ q = 2 ^ l - 1 + k := by
  have lo : 2 ^ Nat.log 2 (q + 1) ≤ q + 1 := Nat.pow_log_le_self 2 (by omega)
  have hi : q + 1 < 2 ^ (Nat.log 2 (q + 1) + 1) := Nat.lt_pow_succ_log_self (by norm_num) _
  refine ⟨Nat.log 2 (q + 1), q + 1 - 2 ^ Nat.log 2 (q + 1), ?_, ?_⟩
  · rw [pow_succ] at hi
    omega
  · omega

theorem node_decompose_unique {a b i j : Nat} (hi : i < 2 ^ a) (hj : j < 2 ^ b)
    (e : 2 ^ a - 1 + i = 2 ^ b - 1 + j) : a = b ∧ i = j := by
  have key : ∀ a b i j : Nat, i < 2 ^ a → j < 2 ^ b → 2 ^ a - 1 + i = 2 ^ b - 1 + j → ¬ a < b := by
    intro a b i j hi hj e c
    have h1 : 2 ^ (a + 1) ≤ 2 ^ b := Nat.pow_le_pow_right (by norm_num) (by omega)
    have h2 := two_pow_pos_nat a
    rw [pow_succ] at h1
    omega
  have ab : a = b := by
    have h1 := key a b i j hi hj e
    have h2 := key b a j i hj hi e.symm
    omega
  subst ab
  exact ⟨rfl, by omega⟩

/-- The leaf level of the tree with `t` leaves is the exponent `L` of
`next_power_of_two(t)`. -/
theorem leaf_level_spec (t : Nat) (h1 : 1 ≤ t) (h2 : t ≤ 2 ^ 30) :
    ∃ L : Nat, L ≤ 30 ∧ next_power_of_two (t : Int) = ((2 ^ L : Nat) : Int) ∧
      get_leaf_level_from_real_leaf_count (t : Int) = (L : Int) ∧ t ≤ 2 ^ L ∧
      (L = 0 ∨ 2 ^ (L - 1) < t) := by
  obtain ⟨L, hL, e, le, lo⟩ := next_power_of_two_spec t h1 (by norm_num at h2 ⊢; omega)
  have hL30 : L ≤ 30 := by
    rcases lo with rfl | lo
    · omega
    · by_contra c
      have : 2 ^ 30 ≤ 2 ^ (L - 1) := Nat.pow_le_pow_right (by norm_num) (by omega)
      omega
  refine ⟨L, hL30, e, ?_, le, lo⟩
  unfold get_leaf_level_from_real_leaf_count
  simp only [e]
  have h3 := two_pow_le_30 hL30
  rw [to_unsigned_nat _ (by norm_num at h3 ⊢; omega)]
  exact ilog2_spec _ L (by omega) (le_refl _) (by rw [pow_succ]; have := two_pow_pos_nat L; omega)

theorem shift_left_one_nat (d : Nat) (h : d ≤ 30) :
    shift_left_one (d : Int) = some ((2 ^ d : Nat) : Int) := by
  unfold shift_left_one
  have : (0 : Int) ≤ d ∧ (d : Int) ≤ 30 := ⟨Int.natCast_nonneg d, by exact_mod_cast h⟩
  simp only [this, and_self, if_true, Int.toNat_ofNat]
  push_cast
  rfl

theorem shift_left_one_neg (n : Int) (h : n < 0) : shift_left_one n = none := by
  unfold shift_left_one
  have : ¬ (0 ≤ n ∧ n ≤ 30) := by omega
  simp only [this, if_false]

theorem get_level_leftmost_node_nat (l : Nat) (h : l ≤ 30) :
    get_level_leftmost_node (l : Int) = some ((2 ^ l - 1 : Nat) : Int) := by
  unfold get_level_leftmost_node
  rw [shift_left_one_nat l h]
  have := two_pow_pos_nat l
  simp only [Option.bind_eq_bind, Option.some_bind, Option.pure_def, Option.some.injEq]
  push_cast [Nat.cast_sub this]
  rfl

theorem get_rightmost_real_leaf_nat (L t : Nat) (h : L ≤ 30) (h1 : 1 ≤ t) :
    get_rightmost_real_leaf (L : Int) (t : Int) = some ((2 ^ L - 1 + (t - 1) : Nat) : Int) := by
  unfold get_rightmost_real_leaf
  rw [get_level_leftmost_node_nat L h]
  have := two_pow_pos_nat L
  simp only [Option.bind_eq_bind, Option.some_bind, Option.pure_def, Option.some.injEq]
  push_cast [Nat.cast_sub this, Nat.cast_sub h1]
  ring

/-- The projection of an index to a level `d` levels up, evaluated exactly:
the quotient of `i + 1` by `2^d`, less 1. -/
theorem project_exact (i d : Nat) (h : 2 ^ d ≤ i + 1) :
    float_to_int ((1 : ℚ) / (((2 ^ d : Nat) : Int) : ℚ) + (((i : Nat) : Int) : ℚ) /
      (((2 ^ d : Nat) : Int) : ℚ) - 1) = (((i + 1) / 2 ^ d - 1 : Nat) : Int) := by
  have hs : (0 : ℚ) < ((2 ^ d : Nat) : ℚ) := by positivity
  have e : (1 : ℚ) / (((2 ^ d : Nat) : Int) : ℚ) + (((i : Nat) : Int) : ℚ) /
      (((2 ^ d : Nat) : Int) : ℚ) - 1 =
      (((i + 1 - 2 ^ d : Nat) : Int) : ℚ) / ((2 ^ d : Nat) : ℚ) := by
    push_cast [Nat.cast_sub h]
    field_simp
    ring
  rw [e]
  set x : ℚ := (((i + 1 - 2 ^ d : Nat) : Int) : ℚ) / ((2 ^ d : Nat) : ℚ) with hx
  have xnn : 0 ≤ x := by
    rw [hx]
    positivity
  unfold float_to_int
  rw [Int.tdiv_eq_ediv (Rat.num_nonneg.2 xnn) (Int.natCast_nonneg _), ← Rat.floor_def']
  change ⌊x⌋ = _
  rw [hx, Rat.floor_intCast_div_natCast]
  have q1 : 1 ≤ (i + 1) / 2 ^ d := (Nat.one_le_div_iff (by positivity)).2 h
  have : (i + 1 - 2 ^ d) / 2 ^ d = (i + 1) / 2 ^ d - 1 := by
    have := Nat.sub_mul_div (i + 1) (2 ^ d) 1 (by omega)
    simpa using this
  rw [← this]
  norm_cast

/-! ## The projection in binary32 arithmetic -/

theorem round_half_even_int (m : Int) : round_half_even (m : ℚ) = m := by
  unfold round_half_even
  simp only [Int.floor_intCast, sub_self]
  norm_num

/-- A rational with at most 24 significant bits is a binary32 number: it is
its own rounding. -/
theorem round_binary32_exact (m k : Int) (hm : |m| < 2 ^ 24) (hk : -149 ≤ k) :
    round_binary32 ((m : ℚ) * (2 : ℚ) ^ k) = (m : ℚ) * (2 : ℚ) ^ k := by
  unfold round_binary32
  by_cases h0 : (m : ℚ) * (2 : ℚ) ^ k = 0
  · simp only [h0, if_true]
  · simp only [h0, if_false]
    have m0 : m ≠ 0 := by
      intro c
      apply h0
      rw [c]
      simp
    have two : (0 : ℚ) < 2 := by norm_num
    have pk : (0 : ℚ) < (2 : ℚ) ^ k := zpow_pos two k
    have habs : |(m : ℚ) * (2 : ℚ) ^ k| = (|m| : ℚ) * (2 : ℚ) ^ k := by
      rw [abs_mul, abs_of_pos pk]
    have hpos : (0 : ℚ) < |(m : ℚ) * (2 : ℚ) ^ k| := abs_pos.2 h0
    have hlt : |(m : ℚ) * (2 : ℚ) ^ k| < ((2 : ℕ) : ℚ) ^ (24 + k) := by
      rw [habs, zpow_add₀ (by norm_num : ((2 : ℕ) : ℚ) ≠ 0)]
      have h24 : (|m| : ℚ) < ((2 : ℕ) : ℚ) ^ (24 : Int) := by
        have : ((|m| : Int) : ℚ) < (((2 : Int) ^ 24 : Int) : ℚ) := by exact_mod_cast hm
        norm_num at this ⊢
        exact this
      have e2 : ((2 : ℕ) : ℚ) ^ k = (2 : ℚ) ^ k := by norm_num
      rw [e2]
      exact mul_lt_mul_of_pos_right h24 pk
    have hlog : Int.log 2 |(m : ℚ) * (2 : ℚ) ^ k| < 24 + k :=
      (Int.lt_zpow_iff_log_lt (by norm_num) hpos).1 hlt
    generalize Int.log 2 |(m : ℚ) * (2 : ℚ) ^ k| = g at hlog
    have he : max g (-126) - 23 ≤ k := by
      rcases max_cases g (-126) with ⟨e, _⟩ | ⟨e, _⟩ <;> rw [e] <;> omega
    generalize max g (-126) - 23 = u at he
    obtain ⟨j, hj⟩ : ∃ j : Nat, k = u + (j : Int) := ⟨(k - u).toNat, by omega⟩
    subst hj
    have pu : (2 : ℚ) ^ u ≠ 0 := (zpow_pos two u).ne'
    have e1 : (m : ℚ) * (2 : ℚ) ^ (u + (j : Int)) / (2 : ℚ) ^ u = ((m * 2 ^ j : Int) : ℚ) := by
      rw [zpow_add₀ two.ne']
      field_simp
      ring
    rw [e1, round_half_even_int, zpow_add₀ two.ne']
    push_cast
    rw [zpow_natCast]
    ring

theorem round_binary32_int (m : Int) (hm : |m| < 2 ^ 24) : round_binary32 (m : ℚ) = (m : ℚ) := by
  have := round_binary32_exact m 0 hm (by norm_num)
  simpa using this

theorem round_binary32_two_pow (d : Nat) :
    round_binary32 (((2 ^ d : Nat) : Int) : ℚ) = (2 : ℚ) ^ (d : Int) := by
  have := round_binary32_exact 1 (d : Int) (by norm_num) (by omega)
  simp only [Int.cast_one, one_mul] at this
  rw [← this]
  congr 1
  push_cast
  rw [zpow_natCast]

/-- The projection of an index `i` below `2 ^ 24 - 1` to a level `d` levels
up, in binary32 arithmetic: no operation rounds, and the result is the
quotient of `i + 1` by `2 ^ d`, less 1. -/
theorem project_binary32_exact (i d : Nat) (h : 2 ^ d ≤ i + 1) (hi : i + 1 < 2 ^ 24) :
    project_binary32 (i : Int) ((2 ^ d : Nat) : Int) ((2 ^ d : Nat) : Int) =
      (((i + 1) / 2 ^ d - 1 : Nat) : Int) := by
  have two : (2 : ℚ) ≠ 0 := by norm_num
  have hd : d < 24 := by
    by_contra c
    have : 2 ^ 24 ≤ 2 ^ d := Nat.pow_le_pow_right (by norm_num) (by omega)
    omega
  have inv : (1 : ℚ) / (2 : ℚ) ^ (d : Int) = ((1 : Int) : ℚ) * (2 : ℚ) ^ (-(d : Int)) := by
    rw [zpow_neg]
    simp
  have a1 : round_binary32 (1 / (2 : ℚ) ^ (d : Int)) = 1 / (2 : ℚ) ^ (d : Int) := by
    rw [inv]
    exact round_binary32_exact 1 (-(d : Int)) (by norm_num) (by omega)
  have b0 : round_binary32 ((i : Int) : ℚ) = ((i : Int) : ℚ) :=
    round_binary32_int (i : Int) (by
      rw [abs_of_nonneg (Int.natCast_nonneg i)]
      have : ((i : Nat) : Int) < ((2 ^ 24 : Nat) : Int) := by exact_mod_cast (by omega : i < 2 ^ 24)
      simpa using this)
  have b1 : round_binary32 (((i : Int) : ℚ) / (2 : ℚ) ^ (d : Int)) =
      ((i : Int) : ℚ) / (2 : ℚ) ^ (d : Int) := by
    have e : ((i : Int) : ℚ) / (2 : ℚ) ^ (d : Int) = ((i : Int) : ℚ) * (2 : ℚ) ^ (-(d : Int)) := by
      rw [zpow_neg, div_eq_mul_inv]
    rw [e]
    exact round_binary32_exact (i : Int) (-(d : Int)) (by
      rw [abs_of_nonneg (Int.natCast_nonneg i)]
      have : ((i : Nat) : Int) < ((2 ^ 24 : Nat) : Int) := by exact_mod_cast (by omega : i < 2 ^ 24)
      simpa using this) (by omega)
  have c1 : round_binary32 (1 / (2 : ℚ) ^ (d : Int) + ((i : Int) : ℚ) / (2 : ℚ) ^ (d : Int)) =
      1 / (2 : ℚ) ^ (d : Int) + ((i : Int) : ℚ) / (2 : ℚ) ^ (d : Int) := by
    have e : 1 / (2 : ℚ) ^ (d : Int) + ((i : Int) : ℚ) / (2 : ℚ) ^ (d : Int) =
        (((i + 1 : Nat) : Int) : ℚ) * (2 : ℚ) ^ (-(d : Int)) := by
      rw [zpow_neg]
      push_cast
      field_simp
      ring
    rw [e]
    exact round_binary32_exact ((i + 1 : Nat) : Int) (-(d : Int)) (by
      rw [abs_of_nonneg (Int.natCast_nonneg _)]
      have : ((i + 1 : Nat) : Int) < ((2 ^ 24 : Nat) : Int) := by exact_mod_cast hi
      simpa using this) (by omega)
  have d1 : round_binary32 (1 / (2 : ℚ) ^ (d : Int) + ((i : Int) : ℚ) / (2 : ℚ) ^ (d : Int) - 1) =
      1 / (2 : ℚ) ^ (d : Int) + ((i : Int) : ℚ) / (2 : ℚ) ^ (d : Int) - 1 := by
    have e : 1 / (2 : ℚ) ^ (d : Int) + ((i : Int) : ℚ) / (2 : ℚ) ^ (d : Int) - 1 =
        (((i + 1 - 2 ^ d : Nat) : Int) : ℚ) * (2 : ℚ) ^ (-(d : Int)) := by
      rw [zpow_neg, zpow_natCast]
      push_cast [Nat.cast_sub h]
      field_simp
      ring
    rw [e]
    exact round_binary32_exact ((i + 1 - 2 ^ d : Nat) : Int) (-(d : Int)) (by
      rw [abs_of_nonneg (Int.natCast_nonneg _)]
      have : ((i + 1 - 2 ^ d : Nat) : Int) < ((2 ^ 24 : Nat) : Int) := by
        exact_mod_cast (lt_of_le_of_lt (Nat.sub_le _ _) hi : i + 1 - 2 ^ d < 2 ^ 24)
      simpa using this) (by omega)
  unfold project_binary32
  simp only [round_binary32_two_pow, b0, a1, b1, c1, d1]
  have := project_exact i d h
  have e2 : (((2 ^ d : Nat) : Int) : ℚ) = (2 : ℚ) ^ (d : Int) := by
    push_cast
    rw [zpow_natCast]
  rw [e2] at this
  exact this


theorem log_two_eq (x : ℚ) (e : Int) (hx : 0 < x) (lo : (2 : ℚ) ^ e ≤ x)
    (hi : x < (2 : ℚ) ^ (e + 1)) : Int.log 2 x = e := by
  have a : e ≤ Int.log 2 x := (Int.zpow_le_iff_le_log (by norm_num) hx).1 (by simpa using lo)
  have b : Int.log 2 x < e + 1 := (Int.lt_zpow_iff_log_lt (by norm_num) hx).1 (by simpa using hi)
  omega

/-- The rounding of a positive rational in the binade of `2 ^ e`. -/
theorem round_binary32_eq (x : ℚ) (e n : Int) (hx : 0 < x) (lo : (2 : ℚ) ^ e ≤ x)
    (hi : x < (2 : ℚ) ^ (e + 1)) (he : -126 ≤ e)
    (hn : round_half_even (x / (2 : ℚ) ^ (e - 23)) = n) :
    round_binary32 x = (n : ℚ) * (2 : ℚ) ^ (e - 23) := by
  unfold round_binary32
  simp only [hx.ne', if_false, abs_of_pos hx, log_two_eq x e hx lo hi, max_eq_left he, hn]

theorem round_half_even_mid (f : Int) :
    round_half_even ((f : ℚ) + 1 / 2) = if f % 2 = 0 then f else f + 1 := by
  unfold round_half_even
  have hf : ⌊(f : ℚ) + 1 / 2⌋ = f := by
    rw [Int.floor_eq_iff]
    constructor <;> norm_num
  simp only [hf, add_sub_cancel_left, lt_self_iff_false, if_false]

/-- The index 25165825 has 25 significant bits; it lies midway between two
binary32 numbers and is rounded to the even one. -/
theorem round_25165825 : round_binary32 25165825 = 25165824 := by
  have h := round_binary32_eq 25165825 24 12582912 (by norm_num) (by norm_num) (by norm_num)
    (by norm_num) (by
      have := round_half_even_mid 12582912
      norm_num at this ⊢
      exact this)
  rw [h]
  norm_num

theorem round_25165823 : round_binary32 25165823 = 25165824 := by
  have h := round_binary32_eq 25165823 24 12582912 (by norm_num) (by norm_num) (by norm_num)
    (by norm_num) (by
      have := round_half_even_mid 12582911
      norm_num at this ⊢
      exact this)
  rw [h]
  norm_num

theorem float_to_int_int (n : Int) : float_to_int (n : ℚ) = n := by
  unfold float_to_int
  simp

theorem project_25165823_leaf : project_binary32 25165823 1 1 = 25165824 := by
  unfold project_binary32
  have one : round_binary32 ((1 : Int) : ℚ) = 1 := by
    simpa using round_binary32_int 1 (by norm_num)
  have big : round_binary32 ((25165824 : Int) : ℚ) = 25165824 := by
    have := round_binary32_exact 12582912 1 (by norm_num) (by norm_num)
    norm_num at this ⊢
    exact this
  have r1 : round_binary32 ((25165823 : Int) : ℚ) = 25165824 := by
    simpa using round_25165823
  simp only [one, r1, div_one]
  have one' : round_binary32 (1 : ℚ) = 1 := by simpa using one
  have big' : round_binary32 (25165824 : ℚ) = 25165824 := by simpa using big
  rw [one', big']
  have e1 : (1 : ℚ) + 25165824 = 25165825 := by norm_num
  have e2 : (25165824 : ℚ) - 1 = 25165823 := by norm_num
  rw [e1, round_25165825, e2, round_25165823]
  exact float_to_int_int 25165824

theorem level_dist_cast {L l : Nat} (h : l ≤ L) : (L : Int) - (l : Int) = ((L - l : Nat) : Int) := by
  omega

/-- The quotient that the projections compute for the rightmost real leaf
of the tree with `t` leaves on the level `L`, at the level `l`. -/
theorem rightmost_quotient (t L l : Nat) (_ : 1 ≤ t) (hl : l ≤ L) :
    (2 ^ L - 1 + (t - 1) + 1) / 2 ^ (L - l) - 1 = 2 ^ l - 1 + (t - 1) / 2 ^ (L - l) := by
  have p1 := two_pow_pos_nat L
  have p2 := two_pow_pos_nat l
  have pw : 2 ^ (L - l) * 2 ^ l = 2 ^ L := by
    rw [← pow_add]
    congr 1
    omega
  have e : 2 ^ L - 1 + (t - 1) + 1 = (t - 1) + 2 ^ (L - l) * 2 ^ l := by
    rw [pw]
    omega
  rw [e, Nat.add_mul_div_left _ _ (by positivity)]
  generalize (t - 1) / 2 ^ (L - l) = c
  generalize 2 ^ l = A at p2 ⊢
  omega

theorem rightmost_ge (t L l : Nat) (hl : l ≤ L) :
    2 ^ (L - l) ≤ 2 ^ L - 1 + (t - 1) + 1 := by
  have p1 := two_pow_pos_nat L
  have : 2 ^ (L - l) ≤ 2 ^ L := Nat.pow_le_pow_right (by norm_num) (by omega)
  omega

/-- The same value, as `get_node_ancestor` computes it. -/
theorem get_node_ancestor_nat (t L l : Nat) (h1 : 1 ≤ t) (hL : L ≤ 30) (hl : l ≤ L) :
    get_node_ancestor ((2 ^ L - 1 + (t - 1) : Nat) : Int) (L : Int) (l : Int) =
      some ((2 ^ l - 1 + (t - 1) / 2 ^ (L - l) : Nat) : Int) := by
  unfold get_node_ancestor
  simp only [level_dist_cast hl, shift_left_one_nat (L - l) (by omega), Option.bind_eq_bind,
    Option.some_bind, Option.pure_def, Option.some.injEq]
  rw [project_exact _ _ (rightmost_ge t L l hl), rightmost_quotient t L l h1 hl]

/-- The answer of `is_real_implicit_tree_node_id` for the node of offset `k`
on a level `l` of the tree: the node is real exactly when `k` is at most
the quotient of `t - 1` by `2 ^ (L - l)`. -/
theorem is_real_at (t L l k : Nat) (h1 : 1 ≤ t) (hL : L ≤ 30)
    (hleaf : get_leaf_level_from_real_leaf_count (t : Int) = (L : Int))
    (hl : l ≤ L) (hk : k < 2 ^ l) :
    is_real_implicit_tree_node_id ((2 ^ l - 1 + k : Nat) : Int) (t : Int) =
      some (decide (k ≤ (t - 1) / 2 ^ (L - l))) := by
  unfold is_real_implicit_tree_node_id
  simp only [hleaf, level_of l k (by omega) hk, get_rightmost_real_leaf_nat L t hL h1,
    level_dist_cast hl, shift_left_one_nat (L - l) (by omega), Option.bind_eq_bind,
    Option.some_bind, Option.pure_def, Option.some.injEq]
  rw [project_exact _ _ (rightmost_ge t L l hl), rightmost_quotient t L l h1 hl]
  have p2 := two_pow_pos_nat l
  generalize (t - 1) / 2 ^ (L - l) = c
  generalize 2 ^ l = A at p2 hk ⊢
  by_cases hc : k ≤ c
  · have : ((A - 1 + k : Nat) : Int) ≤ ((A - 1 + c : Nat) : Int) := by
      exact_mod_cast (by omega : A - 1 + k ≤ A - 1 + c)
    simp only [this, hc, decide_True, Bool.true_or]
  · have n1 : ¬ ((A - 1 + k : Nat) : Int) ≤ ((A - 1 + c : Nat) : Int) := by
      intro d
      have : A - 1 + k ≤ A - 1 + c := by exact_mod_cast d
      omega
    have n2 : ¬ ((A - 1 + c : Nat) : Int) = 0 := by
      intro d
      have d1 : A - 1 + c = 0 := by exact_mod_cast d
      omega
    simp only [hc, decide_False, Option.some.injEq, Bool.or_eq_false_iff,
      decide_eq_false_iff_not, beq_eq_false_iff_ne, ne_eq]
    exact ⟨n1, n2⟩

/-- The answer of `is_real_implicit_tree_node_id_binary32` for the node of
offset `k` on a level `l` of the tree, when the rightmost real leaf is below
`2 ^ 24 - 1`: the binary32 arithmetic is exact, and the node is answered
real exactly when `k` is at most the quotient of `t - 1` by `2 ^ (L - l)`. -/
theorem is_real_binary32_at (t L l k : Nat) (h1 : 1 ≤ t) (hL : L ≤ 30)
    (hleaf : get_leaf_level_from_real_leaf_count (t : Int) = (L : Int))
    (hl : l ≤ L) (hk : k < 2 ^ l) (hi : 2 ^ L - 1 + (t - 1) + 1 < 2 ^ 24) :
    is_real_implicit_tree_node_id_binary32 ((2 ^ l - 1 + k : Nat) : Int) (t : Int) =
      some (decide (k ≤ (t - 1) / 2 ^ (L - l))) := by
  have e := is_real_at t L l k h1 hL hleaf hl hk
  unfold is_real_implicit_tree_node_id at e
  unfold is_real_implicit_tree_node_id_binary32
  simp only [hleaf, level_of l k (by omega) hk, get_rightmost_real_leaf_nat L t hL h1,
    level_dist_cast hl, shift_left_one_nat (L - l) (by omega), Option.bind_eq_bind,
    Option.some_bind, Option.pure_def] at e ⊢
  rw [project_exact _ _ (rightmost_ge t L l hl)] at e
  rw [project_binary32_exact _ _ (rightmost_ge t L l hl) hi]
  exact e

/-! ## The number of real nodes -/

theorem level_count_le (t L l : Nat) (h1 : 1 ≤ t) (ht : t ≤ 2 ^ L) (hl : l ≤ L) :
    (t - 1) / 2 ^ (L - l) < 2 ^ l := by
  rw [Nat.div_lt_iff_lt_mul (by positivity)]
  have pw : 2 ^ l * 2 ^ (L - l) = 2 ^ L := by
    rw [← pow_add]
    congr 1
    omega
  rw [pw]
  omega

theorem level_count_leaf (t L : Nat) (h1 : 1 ≤ t) : level_count t L L = t := by
  unfold level_count
  simp only [Nat.sub_self, pow_zero, Nat.div_one]
  omega

theorem level_count_halve (t L l : Nat) (hl : l ≤ L) :
    level_count t (L + 1) l = level_count ((t - 1) / 2 + 1) L l := by
  unfold level_count
  have e : 2 ^ (L + 1 - l) = 2 * 2 ^ (L - l) := by
    rw [show L + 1 - l = (L - l) + 1 by omega, pow_succ, mul_comm]
  rw [e, ← Nat.div_div_eq_div_mul]
  simp

theorem level_offset_halve (t L l : Nat) (hl : l ≤ L + 1) :
    level_offset t (L + 1) l = level_offset ((t - 1) / 2 + 1) L l := by
  induction l with
  | zero => rfl
  | succ l ih =>
    simp only [level_offset]
    rw [ih (by omega), level_count_halve t L l (by omega)]

/-- The number of nodes with a real leaf below them, over all levels: the
closed form of `get_ostensibly_implicit_bvh_size`. -/
theorem level_offset_total (L : Nat) : ∀ t, 1 ≤ t → t ≤ 2 ^ L →
    level_offset t L (L + 1) = 2 * t - 1 + popcount_aux L (2 ^ L - t) := by
  induction L with
  | zero =>
    intro t h1 h2
    have : t = 1 := by simpa using (by omega : t = 1)
    subst this
    rfl
  | succ L ih =>
    intro t h1 h2
    have h3 : (t - 1) / 2 + 1 ≤ 2 ^ L := by
      rw [pow_succ] at h2
      omega
    have := ih ((t - 1) / 2 + 1) (by omega) h3
    simp only [level_offset] at this ⊢
    rw [level_offset_halve t L L (by omega), level_count_halve t L L (le_refl _),
      level_count_leaf t (L + 1) h1, this]
    simp only [popcount_aux]
    have e : (2 ^ (L + 1) - t) / 2 = 2 ^ L - ((t - 1) / 2 + 1) := by
      rw [pow_succ]
      omega
    rw [e]
    rw [pow_succ] at h2 ⊢
    generalize popcount_aux L (2 ^ L - ((t - 1) / 2 + 1)) = c
    generalize 2 ^ L = A at h2 h3 ⊢
    omega

theorem count_congr_lt (p q : Nat → Prop) [DecidablePred p] [DecidablePred q] (n : Nat)
    (h : ∀ k, k < n → (p k ↔ q k)) : Nat.count p n = Nat.count q n := by
  induction n with
  | zero => rfl
  | succ n ih =>
    rw [Nat.count_succ, Nat.count_succ, ih (fun k hk => h k (by omega))]
    have := h n (by omega)
    by_cases c : p n
    · simp [c, this.1 c]
    · have nq : ¬ q n := fun d => c (this.2 d)
      simp [c, nq]

theorem count_le_bound (c n : Nat) (h : c < n) : Nat.count (fun k => k ≤ c) n = c + 1 := by
  induction n with
  | zero => omega
  | succ n ih =>
    rw [Nat.count_succ]
    by_cases d : c < n
    · rw [ih d]
      have : ¬ n ≤ c := by omega
      simp [this]
    · have e : c = n := by omega
      subst e
      have : Nat.count (fun k => k ≤ c) c = c := by
        rw [count_congr_lt (fun k => k ≤ c) (fun _ => True) c (fun k hk => by simp; omega)]
        simp
      rw [this]
      simp

theorem filter_range_length (p : Nat → Prop) [DecidablePred p] (n : Nat) :
    ((List.range n).filter (fun k => decide (p k))).length = Nat.count p n := by
  induction n with
  | zero => rfl
  | succ n ih =>
    rw [List.range_succ, List.filter_append, List.length_append, ih, Nat.count_succ]
    by_cases c : p n <;> simp [c]

/-- Among the nodes above the level `l`, those that
`is_real_implicit_tree_node_id` answers real number `level_offset t L l`. -/
theorem count_real_levels (t L : Nat) (h1 : 1 ≤ t) (hL : L ≤ 30)
    (hleaf : get_leaf_level_from_real_leaf_count (t : Int) = (L : Int)) (ht : t ≤ 2 ^ L)
    (l : Nat) (hl : l ≤ L + 1) :
    Nat.count (fun q : Nat => is_real_implicit_tree_node_id (q : Int) (t : Int) = some true)
      (2 ^ l - 1) = level_offset t L l := by
  induction l with
  | zero => rfl
  | succ l ih =>
    have e : 2 ^ (l + 1) - 1 = (2 ^ l - 1) + 2 ^ l := by
      have := two_pow_pos_nat l
      rw [pow_succ]
      omega
    rw [e, Nat.count_add, ih (by omega)]
    simp only [level_offset, level_count]
    congr 1
    rw [count_congr_lt _ (fun k => k ≤ (t - 1) / 2 ^ (L - l)) (2 ^ l)]
    · exact count_le_bound _ _ (level_count_le t L l h1 ht (by omega))
    · intro k hk
      rw [is_real_at t L l k h1 hL hleaf (by omega) hk]
      simp

/-! ## Ancestors of the real leaves, and the size of the tree -/

theorem parent_iterate (L j : Nat) : ∀ k, k ≤ L →
    parent^[k] (2 ^ L - 1 + j) = 2 ^ (L - k) - 1 + j / 2 ^ k := by
  intro k
  induction k with
  | zero =>
    intro _
    simp
  | succ k ih =>
    intro hk
    rw [Function.iterate_succ_apply', ih (by omega)]
    unfold parent
    have e1 : 2 ^ (L - k) = 2 * 2 ^ (L - (k + 1)) := by
      rw [show L - k = (L - (k + 1)) + 1 by omega, pow_succ, mul_comm]
    have e2 : j / 2 ^ (k + 1) = j / 2 ^ k / 2 := by
      rw [Nat.div_div_eq_div_mul, pow_succ]
    have p := two_pow_pos_nat (L - (k + 1))
    rw [e1, e2]
    generalize j / 2 ^ k = y
    generalize 2 ^ (L - (k + 1)) = A at p ⊢
    omega

/-- The subtree of the node of offset `k` on the level `l` contains a real
leaf exactly when `k` is at most the quotient of `t - 1` by `2 ^ (L - l)`. -/
theorem real_leaf_below_iff (t L l k : Nat) (t1 : 1 ≤ t) (ht : t ≤ 2 ^ L) (hl : l ≤ L)
    (hk : k < 2 ^ l) :
    real_leaf_below t L (2 ^ l - 1 + k) ↔ k ≤ (t - 1) / 2 ^ (L - l) := by
  constructor
  · rintro ⟨j, hj, m, hm, e⟩
    rw [parent_iterate L j m hm] at e
    have hjm : j / 2 ^ m < 2 ^ (L - m) := by
      rw [Nat.div_lt_iff_lt_mul (by positivity), ← pow_add, show L - m + m = L by omega]
      omega
    obtain ⟨e1, e2⟩ := node_decompose_unique hjm hk e
    rw [← e2, show L - l = m by omega]
    exact Nat.div_le_div_right (by omega)
  · intro h
    have h1 : k * 2 ^ (L - l) ≤ t - 1 := (Nat.le_div_iff_mul_le (by positivity)).1 h
    have p := two_pow_pos_nat (L - l)
    refine ⟨k * 2 ^ (L - l), by omega, L - l, by omega, ?_⟩
    rw [parent_iterate L _ (L - l) (by omega), show L - (L - l) = l by omega,
      Nat.mul_div_cancel _ (by positivity)]

theorem level_offset_mono (t L : Nat) {a b : Nat} (h : a ≤ b) :
    level_offset t L a ≤ level_offset t L b := by
  induction b with
  | zero =>
    have : a = 0 := by omega
    subst this
    exact le_refl _
  | succ b ih =>
    by_cases c : a = b + 1
    · subst c
      exact le_refl _
    · have := ih (by omega)
      simp only [level_offset]
      omega

/-- The value of `get_ostensibly_implicit_bvh_size(t)`: the number of nodes
with a real leaf below them, over the levels `0 .. L`. -/
theorem size_eq_level_offset (t L : Nat) (h1 : 1 ≤ t) (hL : L ≤ 30)
    (hnp : next_power_of_two (t : Int) = ((2 ^ L : Nat) : Int)) (ht : t ≤ 2 ^ L) :
    get_ostensibly_implicit_bvh_size (t : Int) = ((level_offset t L (L + 1) : Nat) : Int) := by
  unfold get_ostensibly_implicit_bvh_size
  have h3 := two_pow_le_30 hL
  have e : ((2 ^ L : Nat) : Int) - (t : Int) = ((2 ^ L - t : Nat) : Int) := by
    rw [Nat.cast_sub ht]
  have lt : 2 ^ L - t < 2 ^ L := by
    have := two_pow_pos_nat L
    omega
  have lt32 : 2 ^ L - t < 2 ^ 32 := by
    norm_num at h3 ⊢
    omega
  rw [hnp, e, to_unsigned_nat _ lt32]
  unfold popcount
  rw [Nat.mod_eq_of_lt lt32, popcount_aux_stable L 32 _ lt (by omega),
    level_offset_total L t h1 ht]
  have : 1 ≤ 2 * t := by omega
  push_cast [Nat.cast_sub this]
  ring

/-! ## The implicit tree: size and real nodes -/

theorem in_tree_iff (L l k : Nat) (hk : k < 2 ^ l) :
    2 ^ l - 1 + k ≤ 2 ^ (L + 1) - 2 ↔ l ≤ L := by
  have p := two_pow_pos_nat l
  constructor
  · intro h
    by_contra c
    have : 2 ^ (L + 1) ≤ 2 ^ l := Nat.pow_le_pow_right (by norm_num) (by omega)
    have := two_pow_pos_nat (L + 1)
    omega
  · intro h
    have : 2 ^ (l + 1) ≤ 2 ^ (L + 1) := Nat.pow_le_pow_right (by norm_num) (by omega)
    rw [pow_succ] at this
    omega

/-- The data of the tree with `t` leaves, `1 <= t <= 2^30`: the leaf count
as a natural number `n` and the leaf level `L`. -/
theorem tree_data (t : Int) (h1 : 1 ≤ t) (h2 : t ≤ 2 ^ 30) :
    ∃ n L : Nat, t = (n : Int) ∧ 1 ≤ n ∧ L ≤ 30 ∧
      next_power_of_two t = ((2 ^ L : Nat) : Int) ∧
      get_leaf_level_from_real_leaf_count t = (L : Int) ∧ n ≤ 2 ^ L ∧
      (L = 0 ∨ 2 ^ (L - 1) < n) := by
  obtain ⟨n, rfl⟩ := Int.eq_ofNat_of_zero_le (by omega : 0 ≤ t)
  have n1 : 1 ≤ n := by exact_mod_cast h1
  have n2 : n ≤ 2 ^ 30 := by exact_mod_cast h2
  obtain ⟨L, a1, a2, a3, a4, a5⟩ := leaf_level_spec n n1 n2
  exact ⟨n, L, rfl, n1, a1, a2, a3, a4, a5⟩

/-- The nodes of the tree, by level and offset: an index `q` with
`0 <= q <= 2 * next_power_of_two(t) - 2` is the node of some offset on some
level up to the leaf level. -/
theorem node_data (L : Nat) (q : Int) (h0 : 0 ≤ q) (h1 : q ≤ 2 * ((2 ^ L : Nat) : Int) - 2) :
    ∃ l k : Nat, l ≤ L ∧ k < 2 ^ l ∧ q = ((2 ^ l - 1 + k : Nat) : Int) := by
  obtain ⟨m, rfl⟩ := Int.eq_ofNat_of_zero_le h0
  obtain ⟨l, k, hk, rfl⟩ := node_decompose m
  refine ⟨l, k, ?_, hk, rfl⟩
  apply (in_tree_iff L l k hk).1
  have p := two_pow_pos_nat L
  have : ((2 ^ l - 1 + k : Nat) : Int) ≤ ((2 ^ (L + 1) - 2 : Nat) : Int) := by
    have e : ((2 ^ (L + 1) - 2 : Nat) : Int) = 2 * ((2 ^ L : Nat) : Int) - 2 := by
      have : 2 ≤ 2 ^ (L + 1) := by rw [pow_succ]; omega
      push_cast [Nat.cast_sub this]
      ring
    rw [e]
    exact h1
  exact_mod_cast this

theorem tree_width (L : Nat) :
    (2 * ((2 ^ L : Nat) : Int) - 1).toNat = 2 ^ (L + 1) - 1 := by
  have p := two_pow_pos_nat L
  have e : 2 * ((2 ^ L : Nat) : Int) - 1 = ((2 ^ (L + 1) - 1 : Nat) : Int) := by
    have : 1 ≤ 2 ^ (L + 1) := two_pow_pos_nat _
    push_cast [Nat.cast_sub this]
    ring
  rw [e, Int.toNat_ofNat]

theorem root_of_one_is_real : is_real_implicit_tree_node_id 0 1 = some true := by
  have := is_real_at 1 0 0 0 (le_refl _) (by omega) (by decide) (le_refl _) (by norm_num)
  simpa using this

/-- C17. For `1 <= t <= 2^30`, `get_ostensibly_implicit_bvh_size(t)` is the
number of indices `q` in `[0, 2 * next_power_of_two(t) - 2]` that
`is_real_implicit_tree_node_id(q, t)`, with the projection evaluated
exactly, answers real; for such an index the answer is real exactly when
the subtree of `q` contains one of the `t` real leaves. For `t = 1` the size
is 1: the node 0 is the root, lies on the leaf level and is real. -/
theorem implicit_bvh_size_counts_real_nodes (t : Int) (h1 : 1 ≤ t) (h2 : t ≤ 2 ^ 30) :
    get_ostensibly_implicit_bvh_size t =
      (((List.range (2 * next_power_of_two t - 1).toNat).filter
        (fun q : Nat => decide (is_real_implicit_tree_node_id (q : Int) t = some true))).length :
        Int) ∧
    (∀ q : Nat, q < (2 * next_power_of_two t - 1).toNat →
      (is_real_implicit_tree_node_id (q : Int) t = some true ↔
        real_leaf_below t.toNat (get_leaf_level_from_real_leaf_count t).toNat q)) ∧
    get_ostensibly_implicit_bvh_size 1 = 1 ∧
    get_leaf_level_from_real_leaf_count 1 = 0 ∧ get_level_from_implicit_idx 0 = 0 ∧
    is_real_implicit_tree_node_id 0 1 = some true := by
  obtain ⟨n, L, rfl, n1, hL, hnp, hleaf, hn, _⟩ := tree_data t h1 h2
  refine ⟨?_, ?_, by decide, by decide, by decide, root_of_one_is_real⟩
  · rw [filter_range_length, hnp, tree_width,
      count_real_levels n L n1 hL hleaf hn (L + 1) (le_refl _)]
    exact size_eq_level_offset n L n1 hL hnp hn
  · intro q hq
    rw [hnp, tree_width] at hq
    rw [hleaf]
    simp only [Int.toNat_ofNat]
    obtain ⟨l, k, hk, rfl⟩ := node_decompose q
    have hl : l ≤ L := (in_tree_iff L l k hk).1 (by
      have : 2 ≤ 2 ^ (L + 1) := by
        have := two_pow_pos_nat L
        rw [pow_succ]
        omega
      omega)
    rw [is_real_at n L l k n1 hL hleaf hl hk, real_leaf_below_iff n L l k n1 hn hl hk]
    simp

theorem implicit_bvh_size_counts_real_nodes_witness :
    (1 : Int) ≤ 5 ∧ (5 : Int) ≤ 2 ^ 30 ∧
    get_ostensibly_implicit_bvh_size 5 =
      (((List.range (2 * next_power_of_two 5 - 1).toNat).filter
        (fun q : Nat => decide (is_real_implicit_tree_node_id (q : Int) 5 = some true))).length :
        Int) ∧
    (∀ q : Nat, q < (2 * next_power_of_two 5 - 1).toNat →
      (is_real_implicit_tree_node_id (q : Int) 5 = some true ↔
        real_leaf_below (5 : Int).toNat (get_leaf_level_from_real_leaf_count 5).toNat q)) ∧
    get_ostensibly_implicit_bvh_size 1 = 1 ∧
    get_leaf_level_from_real_leaf_count 1 = 0 ∧ get_level_from_implicit_idx 0 = 0 ∧
    is_real_implicit_tree_node_id 0 1 = some true :=
  ⟨by decide, by decide, implicit_bvh_size_counts_real_nodes 5 (by decide) (by decide)⟩

/-- The sizes for `t = 1 .. 17`. -/
theorem implicit_bvh_size_table :
    (List.range 17).map (fun t : Nat => get_ostensibly_implicit_bvh_size ((t : Int) + 1)) =
      [1, 3, 6, 7, 11, 12, 14, 15, 20, 21, 23, 24, 27, 28, 30, 31, 37] := by
  decide

/-! ## Which nodes are real -/

/-- C18. For `1 <= t <= 2^30` and an index `q` with
`0 <= q <= 2 * next_power_of_two(t) - 2`, the level of `q` is at most the
leaf level `L`, and `is_real_implicit_tree_node_id(q, t)`, with the
projection evaluated exactly, answers real exactly when `q` is at most the
ancestor `a`, on the level of `q`, of the rightmost real leaf, or `q` is the
root; equivalently, exactly when the offset of `q` on its level is at most
the quotient of `t - 1` by `2 ^ (L - level(q))`. The root is real. -/
theorem real_node_iff_ancestor (t q : Int) (h1 : 1 ≤ t) (h2 : t ≤ 2 ^ 30) (hq0 : 0 ≤ q)
    (hq : q ≤ 2 * next_power_of_two t - 2) :
    ∃ (leaf a lm : Int) (b : Bool),
      get_rightmost_real_leaf (get_leaf_level_from_real_leaf_count t) t = some leaf ∧
      get_node_ancestor leaf (get_leaf_level_from_real_leaf_count t)
        (get_level_from_implicit_idx q) = some a ∧
      get_level_leftmost_node (get_level_from_implicit_idx q) = some lm ∧
      is_real_implicit_tree_node_id q t = some b ∧
      (b = true ↔ (q ≤ a ∨ q = 0)) ∧
      (b = true ↔ q - lm ≤ (t - 1) /
        2 ^ (get_leaf_level_from_real_leaf_count t - get_level_from_implicit_idx q).toNat) ∧
      get_level_from_implicit_idx q ≤ get_leaf_level_from_real_leaf_count t ∧
      is_real_implicit_tree_node_id 0 t = some true := by
  obtain ⟨n, L, rfl, n1, hL, hnp, hleaf, hn, _⟩ := tree_data t h1 h2
  rw [hnp] at hq
  obtain ⟨l, k, hl, hk, rfl⟩ := node_data L q hq0 hq
  have lv := level_of l k (by omega) hk
  have p := two_pow_pos_nat l
  refine ⟨((2 ^ L - 1 + (n - 1) : Nat) : Int), ((2 ^ l - 1 + (n - 1) / 2 ^ (L - l) : Nat) : Int),
    ((2 ^ l - 1 : Nat) : Int), decide (k ≤ (n - 1) / 2 ^ (L - l)), ?_, ?_, ?_, ?_, ?_, ?_, ?_, ?_⟩
  · rw [hleaf]
    exact get_rightmost_real_leaf_nat L n hL n1
  · rw [hleaf, lv]
    exact get_node_ancestor_nat n L l n1 hL hl
  · rw [lv]
    exact get_level_leftmost_node_nat l (by omega)
  · exact is_real_at n L l k n1 hL hleaf hl hk
  · simp only [decide_eq_true_eq]
    generalize (n - 1) / 2 ^ (L - l) = c
    generalize 2 ^ l = A at p ⊢
    constructor
    · intro h
      left
      exact_mod_cast (by omega : A - 1 + k ≤ A - 1 + c)
    · rintro (h | h)
      · have : A - 1 + k ≤ A - 1 + c := by exact_mod_cast h
        omega
      · have : A - 1 + k = 0 := by exact_mod_cast h
        omega
  · rw [hleaf, lv, level_dist_cast hl, Int.toNat_ofNat]
    simp only [decide_eq_true_eq]
    have e1 : ((2 ^ l - 1 + k : Nat) : Int) - ((2 ^ l - 1 : Nat) : Int) = (k : Int) := by
      push_cast
      ring
    have e2 : ((n : Int) - 1) / 2 ^ (L - l) = (((n - 1) / 2 ^ (L - l) : Nat) : Int) := by
      push_cast [Nat.cast_sub n1]
      rfl
    rw [e1, e2]
    exact Int.ofNat_le.symm
  · rw [hleaf, lv]
    exact_mod_cast hl
  · have := is_real_at n L 0 0 n1 hL hleaf (by omega) (by norm_num)
    simpa using this

theorem real_node_iff_ancestor_witness :
    (1 : Int) ≤ 5 ∧ (5 : Int) ≤ 2 ^ 30 ∧ (0 : Int) ≤ 12 ∧
    (12 : Int) ≤ 2 * next_power_of_two 5 - 2 ∧
    ∃ (leaf a lm : Int) (b : Bool),
      get_rightmost_real_leaf (get_leaf_level_from_real_leaf_count 5) 5 = some leaf ∧
      get_node_ancestor leaf (get_leaf_level_from_real_leaf_count 5)
        (get_level_from_implicit_idx 12) = some a ∧
      get_level_leftmost_node (get_level_from_implicit_idx 12) = some lm ∧
      is_real_implicit_tree_node_id 12 5 = some b ∧
      (b = true ↔ ((12 : Int) ≤ a ∨ (12 : Int) = 0)) ∧
      (b = true ↔ 12 - lm ≤ ((5 : Int) - 1) /
        2 ^ (get_leaf_level_from_real_leaf_count 5 - get_level_from_implicit_idx 12).toNat) ∧
      get_level_from_implicit_idx 12 ≤ get_leaf_level_from_real_leaf_count 5 ∧
      is_real_implicit_tree_node_id 0 5 = some true :=
  ⟨by decide, by decide, by decide, by decide,
    real_node_iff_ancestor 5 12 (by decide) (by decide) (by decide) (by decide)⟩

/-- C19, as stated, fails: for `t = 1` the tree is the node 0 alone; the
index `q = 1` lies past its last level, on the level 1, and the shift
distance `leaf_level - level(q)` of `1 << (li - lq)` is `0 - 1 = -1`, which
is negative. -/
theorem shift_distance_negative_past_leaf_level :
    2 * next_power_of_two 1 - 2 < (1 : Int) ∧
    get_leaf_level_from_real_leaf_count 1 = 0 ∧ get_level_from_implicit_idx 1 = 1 ∧
    get_leaf_level_from_real_leaf_count 1 - get_level_from_implicit_idx 1 = -1 ∧
    ¬ (0 ≤ get_leaf_level_from_real_leaf_count 1 - get_level_from_implicit_idx 1) := by
  decide

/-- C19, amended. For `1 <= t <= 2^23` and an index `q` of the tree,
`0 <= q <= 2 * next_power_of_two(t) - 2`: the shift distance
`leaf_level - level(q)` lies between 0 and 23, so that `1 << (li - lq)` is
defined and at least 1; the projection `p` of the rightmost real leaf, in
binary32 arithmetic, lies between 0 and `2^24 - 1`, an `int` value; and
`is_real_implicit_tree_node_id(q, t)`, in binary32 arithmetic, returns true
exactly when the subtree of `q` contains a real leaf; the exact evaluation
of the projection gives the same answer. For every index `q1` past the last
level of the tree, up to `2^31 - 2`, the shift distance is negative. -/
theorem is_real_defined_within_tree (t q : Int) (h1 : 1 ≤ t) (h2 : t ≤ 2 ^ 23) (hq0 : 0 ≤ q)
    (hq : q ≤ 2 * next_power_of_two t - 2) :
    0 ≤ get_leaf_level_from_real_leaf_count t - get_level_from_implicit_idx q ∧
    get_leaf_level_from_real_leaf_count t - get_level_from_implicit_idx q ≤ 23 ∧
    (∃ i s, get_rightmost_real_leaf (get_leaf_level_from_real_leaf_count t) t = some i ∧
      shift_left_one
        (get_leaf_level_from_real_leaf_count t - get_level_from_implicit_idx q) = some s ∧
      1 ≤ s ∧ 0 ≤ project_binary32 i s s ∧ project_binary32 i s s < 2 ^ 24) ∧
    is_real_implicit_tree_node_id_binary32 q t =
      some (decide (real_leaf_below t.toNat (get_leaf_level_from_real_leaf_count t).toNat
        q.toNat)) ∧
    is_real_implicit_tree_node_id q t = is_real_implicit_tree_node_id_binary32 q t ∧
    (∀ q1 : Int, 2 * next_power_of_two t - 2 < q1 → q1 ≤ 2 ^ 31 - 2 →
      get_leaf_level_from_real_leaf_count t - get_level_from_implicit_idx q1 < 0) := by
  obtain ⟨n, L, rfl, n1, hL, hnp, hleaf, hn, lo⟩ := tree_data t h1 (le_trans h2 (by norm_num))
  have n23 : n ≤ 2 ^ 23 := by exact_mod_cast h2
  have hL23 : L ≤ 23 := by
    by_contra c
    rcases lo with lo | lo
    · omega
    · have : 2 ^ 23 ≤ 2 ^ (L - 1) := Nat.pow_le_pow_right (by norm_num) (by omega)
      omega
  have hi : 2 ^ L - 1 + (n - 1) + 1 < 2 ^ 24 := by
    have p := two_pow_pos_nat L
    have : 2 ^ L ≤ 2 ^ 23 := Nat.pow_le_pow_right (by norm_num) hL23
    omega
  rw [hnp] at hq
  obtain ⟨l, k, hl, hk, rfl⟩ := node_data L q hq0 hq
  have lv := level_of l k (by omega) hk
  refine ⟨?_, ?_, ?_, ?_, ?_, ?_⟩
  · rw [hleaf, lv]
    omega
  · rw [hleaf, lv]
    omega
  · rw [hleaf, lv, level_dist_cast hl, shift_left_one_nat (L - l) (by omega),
      get_rightmost_real_leaf_nat L n hL n1]
    refine ⟨_, _, rfl, rfl, by exact_mod_cast two_pow_pos_nat (L - l), ?_, ?_⟩
    · rw [project_binary32_exact _ _ (rightmost_ge n L l hl) hi]
      exact Int.natCast_nonneg _
    · rw [project_binary32_exact _ _ (rightmost_ge n L l hl) hi]
      have : (2 ^ L - 1 + (n - 1) + 1) / 2 ^ (L - l) - 1 < 2 ^ 24 :=
        lt_of_le_of_lt (Nat.sub_le _ _) (lt_of_le_of_lt (Nat.div_le_self _ _) hi)
      exact_mod_cast this
  · rw [is_real_binary32_at n L l k n1 hL hleaf hl hk hi, hleaf]
    simp only [Int.toNat_ofNat, Option.some.injEq, decide_eq_decide]
    exact (real_leaf_below_iff n L l k n1 hn hl hk).symm
  · rw [is_real_binary32_at n L l k n1 hL hleaf hl hk hi, is_real_at n L l k n1 hL hleaf hl hk]
  · intro q1 hout h31
    rw [hnp] at hout
    have h30 : q1 ≤ 2 * ((2 ^ 30 : Nat) : Int) - 2 := by
      norm_num at h31 ⊢
      omega
    have p := two_pow_pos_nat L
    obtain ⟨l1, k1, hl30, hk1, rfl⟩ := node_data 30 q1 (by omega) h30
    have hl1 : L < l1 := by
      by_contra c
      have hin := (in_tree_iff L l1 k1 hk1).2 (by omega)
      have e : ((2 ^ (L + 1) - 2 : Nat) : Int) = 2 * ((2 ^ L : Nat) : Int) - 2 := by
        have : 2 ≤ 2 ^ (L + 1) := by rw [pow_succ]; omega
        push_cast [Nat.cast_sub this]
        ring
      have : ((2 ^ l1 - 1 + k1 : Nat) : Int) ≤ ((2 ^ (L + 1) - 2 : Nat) : Int) := by
        exact_mod_cast hin
      rw [e] at this
      omega
    rw [hleaf, level_of l1 k1 hl30 hk1]
    omega

theorem is_real_defined_within_tree_witness :
    (1 : Int) ≤ 5 ∧ (5 : Int) ≤ 2 ^ 23 ∧ (0 : Int) ≤ 12 ∧
    (12 : Int) ≤ 2 * next_power_of_two 5 - 2 ∧
    0 ≤ get_leaf_level_from_real_leaf_count 5 - get_level_from_implicit_idx 12 ∧
    get_leaf_level_from_real_leaf_count 5 - get_level_from_implicit_idx 12 ≤ 23 ∧
    (∃ i s, get_rightmost_real_leaf (get_leaf_level_from_real_leaf_count 5) 5 = some i ∧
      shift_left_one
        (get_leaf_level_from_real_leaf_count 5 - get_level_from_implicit_idx 12) = some s ∧
      1 ≤ s ∧ 0 ≤ project_binary32 i s s ∧ project_binary32 i s s < 2 ^ 24) ∧
    is_real_implicit_tree_node_id_binary32 12 5 =
      some (decide (real_leaf_below (5 : Int).toNat (get_leaf_level_from_real_leaf_count 5).toNat
        (12 : Int).toNat)) ∧
    is_real_implicit_tree_node_id 12 5 = is_real_implicit_tree_node_id_binary32 12 5 ∧
    (∀ q1 : Int, 2 * next_power_of_two 5 - 2 < q1 → q1 ≤ 2 ^ 31 - 2 →
      get_leaf_level_from_real_leaf_count 5 - get_level_from_implicit_idx q1 < 0) :=
  ⟨by decide, by decide, by decide, by decide,
    is_real_defined_within_tree 5 12 (by decide) (by decide) (by decide) (by decide)⟩

/-- Beyond `2^23` leaves the binary32 arithmetic rounds: for `t = 2^23 + 1`
the rightmost real leaf is 25165823, and the index 25165824 to its right, on
the leaf level 24 of the tree, is answered real although no real leaf lies
below it. -/
theorem is_real_binary32_rounds :
    get_leaf_level_from_real_leaf_count 8388609 = 24 ∧
    get_rightmost_real_leaf 24 8388609 = some 25165823 ∧
    (25165824 : Int) ≤ 2 * next_power_of_two 8388609 - 2 ∧
    is_real_implicit_tree_node_id_binary32 25165824 8388609 = some true ∧
    ¬ real_leaf_below 8388609 24 25165824 := by
  have a1 : get_leaf_level_from_real_leaf_count 8388609 = 24 := by decide
  have a2 : get_level_from_implicit_idx 25165824 = 24 := by decide
  have a3 : get_rightmost_real_leaf 24 8388609 = some 25165823 := by decide
  have s : shift_left_one (24 - 24) = some 1 := by decide
  refine ⟨a1, a3, by decide, ?_, ?_⟩
  · unfold is_real_implicit_tree_node_id_binary32
    simp only [a1, a2, a3, s, Option.bind_eq_bind, Option.some_bind, Option.pure_def,
      project_25165823_leaf]
    decide
  · have := real_leaf_below_iff 8388609 24 24 8388609 (by norm_num) (by norm_num) (le_refl _)
      (by norm_num)
    norm_num at this
    exact this

/-! ## The storage slots of the real nodes -/

/-- The levels `0 .. l` of the tree with `t` leaves on the level `L` are
those of the tree whose leaves are the real nodes of the level `l`. -/
theorem level_offset_truncate (d : Nat) : ∀ (t L l j : Nat), 1 ≤ t → L = l + d → j ≤ l + 1 →
    level_offset t L j = level_offset (level_count t L l) l j := by
  induction d with
  | zero =>
    intro t L l j h1 hL _
    have : L = l := by omega
    subst this
    rw [level_count_leaf t L h1]
  | succ d ih =>
    intro t L l j h1 hL hj
    obtain ⟨L1, rfl⟩ : ∃ L1, L = L1 + 1 := ⟨l + d, by omega⟩
    rw [level_offset_halve t L1 j (by omega),
      ih ((t - 1) / 2 + 1) L1 l j (by omega) (by omega) hj,
      ← level_count_halve t L1 l (by omega)]

theorem leaf_level_unique {n a b : Nat} (ha : n ≤ 2 ^ a) (la : a = 0 ∨ 2 ^ (a - 1) < n)
    (hb : n ≤ 2 ^ b) (lb : b = 0 ∨ 2 ^ (b - 1) < n) : a = b := by
  have key : ∀ a b : Nat, n ≤ 2 ^ a → (b = 0 ∨ 2 ^ (b - 1) < n) → ¬ a < b := by
    intro a b ha lb c
    rcases lb with rfl | lb
    · omega
    · have : 2 ^ a ≤ 2 ^ (b - 1) := Nat.pow_le_pow_right (by norm_num) (by omega)
      omega
  have := key a b ha lb
  have := key b a hb la
  omega

/-- The real nodes of the level `l` number more than `2 ^ (l - 1)`: the
level `l` is the leaf level of the tree that has them as leaves. -/
theorem level_count_lower (t L l : Nat) (hl : l ≤ L) (lo : L = 0 ∨ 2 ^ (L - 1) < t) :
    l = 0 ∨ 2 ^ (l - 1) < level_count t L l := by
  by_cases c : l = 0
  · exact Or.inl c
  · right
    rcases lo with rfl | lo
    · omega
    · unfold level_count
      have : 2 ^ (l - 1) ≤ (t - 1) / 2 ^ (L - l) := by
        rw [Nat.le_div_iff_mul_le (by positivity), ← pow_add,
          show l - 1 + (L - l) = L - 1 by omega]
        omega
      generalize (t - 1) / 2 ^ (L - l) = c at this ⊢
      omega

/-- The size of the tree whose leaves are the real nodes of the level `l`
is the number of real nodes on the levels `0 .. l`. -/
theorem size_of_level (t L l : Nat) (h1 : 1 ≤ t) (hL : L ≤ 30) (ht : t ≤ 2 ^ L)
    (lo : L = 0 ∨ 2 ^ (L - 1) < t) (hl : l ≤ L) :
    get_ostensibly_implicit_bvh_size ((level_count t L l : Nat) : Int) =
      ((level_offset t L (l + 1) : Nat) : Int) := by
  have c1 : 1 ≤ level_count t L l := Nat.le_add_left 1 _
  have c2 : level_count t L l ≤ 2 ^ l := by
    have := level_count_le t L l h1 ht hl
    unfold level_count
    generalize (t - 1) / 2 ^ (L - l) = c at this ⊢
    omega
  have c3 : level_count t L l ≤ 2 ^ 30 := le_trans c2 (two_pow_le_30 (by omega))
  obtain ⟨L1, a1, a2, _, a4, a5⟩ := leaf_level_spec (level_count t L l) c1 c3
  have e : L1 = l := leaf_level_unique a4 a5 c2 (level_count_lower t L l hl lo)
  subst e
  rw [size_eq_level_offset _ L1 c1 a1 a2 a4,
    level_offset_truncate (L - L1) t L L1 (L1 + 1) h1 (by omega) (le_refl _)]

/-- The value of `get_node_mem_index` for the node of offset `k` on the
level `l`, called with the leftmost node of the level and with the
rightmost node of the level that has a real leaf below: the nodes of the
levels above come first, then the nodes of the level in order. -/
theorem mem_index_at (t L l k : Nat) (b : Int) (h1 : 1 ≤ t) (hL : L ≤ 30) (ht : t ≤ 2 ^ L)
    (lo : L = 0 ∨ 2 ^ (L - 1) < t) (hl : l ≤ L) :
    get_node_mem_index ((2 ^ l - 1 + k : Nat) : Int) ((2 ^ l - 1 : Nat) : Int) b
        ((2 ^ l - 1 + (t - 1) / 2 ^ (L - l) : Nat) : Int) =
      b + ((level_offset t L l + k : Nat) : Int) := by
  unfold get_node_mem_index
  have p := two_pow_pos_nat l
  have e : ((2 ^ l - 1 + (t - 1) / 2 ^ (L - l) : Nat) : Int) - ((2 ^ l - 1 : Nat) : Int) + 1 =
      ((level_count t L l : Nat) : Int) := by
    unfold level_count
    push_cast
    ring
  rw [e, size_of_level t L l h1 hL ht lo hl]
  simp only [level_offset, level_count]
  push_cast
  ring

/-- A node with a real leaf below, by level and offset. -/
theorem real_leaf_below_data (t L q : Nat) (t1 : 1 ≤ t) (ht : t ≤ 2 ^ L)
    (h : real_leaf_below t L q) :
    ∃ l k : Nat, l ≤ L ∧ k < 2 ^ l ∧ k ≤ (t - 1) / 2 ^ (L - l) ∧ q = 2 ^ l - 1 + k := by
  obtain ⟨j, hj, m, hm, e⟩ := h
  have e0 := e
  rw [parent_iterate L j m hm] at e
  have hjm : j / 2 ^ m < 2 ^ (L - m) := by
    rw [Nat.div_lt_iff_lt_mul (by positivity), ← pow_add, show L - m + m = L by omega]
    omega
  refine ⟨L - m, j / 2 ^ m, by omega, hjm, ?_, e.symm⟩
  exact (real_leaf_below_iff t L (L - m) (j / 2 ^ m) t1 ht (by omega) hjm).1
    ⟨j, hj, m, hm, by rw [e0, e]⟩

theorem int_shift_right_nat (n d : Nat) : ((n : Int) >>> d) = ((n / 2 ^ d : Nat) : Int) := by
  show Int.shiftRight (Int.ofNat n) d = _
  simp only [Int.shiftRight, Nat.shiftRight_eq_div_pow]
  rfl

/-- The node of offset `k` on the level `l`, projected `d` levels up. -/
theorem ancestor_quotient (l k d : Nat) (hd : d ≤ l) (_ : k < 2 ^ l) :
    (2 ^ l - 1 + k + 1) / 2 ^ d = 2 ^ (l - d) + k / 2 ^ d := by
  have p1 := two_pow_pos_nat l
  have pw : 2 ^ d * 2 ^ (l - d) = 2 ^ l := by
    rw [← pow_add]
    congr 1
    omega
  have e : 2 ^ l - 1 + k + 1 = k + 2 ^ d * 2 ^ (l - d) := by
    rw [pw]
    omega
  rw [e, Nat.add_mul_div_left _ _ (by positivity)]
  omega

theorem ancestor_ge (l k d : Nat) (hd : d ≤ l) : 2 ^ d ≤ 2 ^ l - 1 + k + 1 := by
  have p1 := two_pow_pos_nat l
  have : 2 ^ d ≤ 2 ^ l := Nat.pow_le_pow_right (by norm_num) hd
  omega

/-- The value of `get_node_ancestor` for the node of offset `k` on the level
`l` and the level `a`. -/
theorem get_node_ancestor_at (l k a : Nat) (hl : l ≤ 30) (ha : a ≤ l) (hk : k < 2 ^ l) :
    get_node_ancestor ((2 ^ l - 1 + k : Nat) : Int) (l : Int) (a : Int) =
      some ((2 ^ a - 1 + k / 2 ^ (l - a) : Nat) : Int) := by
  unfold get_node_ancestor
  simp only [level_dist_cast ha, shift_left_one_nat (l - a) (by omega), Option.bind_eq_bind,
    Option.some_bind, Option.pure_def, Option.some.injEq]
  rw [project_exact _ _ (ancestor_ge l k (l - a) (by omega)),
    ancestor_quotient l k (l - a) (by omega) hk, show l - (l - a) = a by omega]
  have p := two_pow_pos_nat a
  congr 1
  generalize k / 2 ^ (l - a) = c
  generalize 2 ^ a = A at p ⊢
  omega

theorem div_pow_lt (l k d : Nat) (hd : d ≤ l) (hk : k < 2 ^ l) : k / 2 ^ d < 2 ^ (l - d) := by
  rw [Nat.div_lt_iff_lt_mul (by positivity), ← pow_add, show l - d + d = l by omega]
  exact hk

/-- An index of the `int` range, by level and offset. -/
theorem index_data (i : Int) (h0 : 0 ≤ i) (h1 : i ≤ 2 ^ 31 - 2) :
    ∃ l k : Nat, l ≤ 30 ∧ k < 2 ^ l ∧ i = ((2 ^ l - 1 + k : Nat) : Int) ∧
      get_level_from_implicit_idx i = (l : Int) := by
  have e : (2 : Int) ^ 31 - 2 = 2 * ((2 ^ 30 : Nat) : Int) - 2 := by norm_num
  rw [e] at h1
  obtain ⟨l, k, hl, hk, rfl⟩ := node_data 30 i h0 h1
  exact ⟨l, k, hl, hk, rfl, level_of l k hl hk⟩

/-- C21. For an index `0 <= i <= 2^31 - 2` (the indices of type `int` whose
successor is one), its level `l` and a level `0 <= a <= l`:
`get_node_ancestor(i, l, a)`, evaluated exactly, is `((i + 1) >> (l - a)) - 1`;
this is the node reached from `i` by `l - a` applications of
`parent(j) = (j - 1) / 2`, and it lies on the level `a`. The ancestor on the
level 0 is the root, and the two children `2i + 1` and `2i + 2` of `i`, which
lie on the level `l + 1`, have `i` as their ancestor on the level `l`. -/
theorem node_ancestor_is_shift (i a : Int) (h0 : 0 ≤ i) (h1 : i ≤ 2 ^ 31 - 2) (a0 : 0 ≤ a)
    (ha : a ≤ get_level_from_implicit_idx i) :
    get_node_ancestor i (get_level_from_implicit_idx i) a =
      some (((i + 1) >>> (get_level_from_implicit_idx i - a).toNat) - 1) ∧
    ((i + 1) >>> (get_level_from_implicit_idx i - a).toNat) - 1 =
      ((parent^[(get_level_from_implicit_idx i - a).toNat] i.toNat : Nat) : Int) ∧
    get_level_from_implicit_idx
      ((parent^[(get_level_from_implicit_idx i - a).toNat] i.toNat : Nat) : Int) = a ∧
    get_node_ancestor i (get_level_from_implicit_idx i) 0 = some 0 ∧
    (i ≤ 2 ^ 30 - 2 →
      get_level_from_implicit_idx (2 * i + 1) = get_level_from_implicit_idx i + 1 ∧
      get_level_from_implicit_idx (2 * i + 2) = get_level_from_implicit_idx i + 1 ∧
      get_node_ancestor (2 * i + 1) (get_level_from_implicit_idx i + 1)
        (get_level_from_implicit_idx i) = some i ∧
      get_node_ancestor (2 * i + 2) (get_level_from_implicit_idx i + 1)
        (get_level_from_implicit_idx i) = some i) := by
  obtain ⟨l, k, hl, hk, rfl, hlev⟩ := index_data i h0 h1
  rw [hlev] at ha ⊢
  obtain ⟨a, rfl⟩ : ∃ n : Nat, a = (n : Int) := ⟨a.toNat, by omega⟩
  have hal : a ≤ l := by exact_mod_cast ha
  have p := two_pow_pos_nat l
  have pa := two_pow_pos_nat a
  have hd : ((l : Int) - (a : Int)).toNat = l - a := by omega
  have hq := div_pow_lt l k (l - a) (by omega) hk
  rw [show l - (l - a) = a by omega] at hq
  have hpar : parent^[l - a] (2 ^ l - 1 + k) = 2 ^ a - 1 + k / 2 ^ (l - a) := by
    rw [parent_iterate l k (l - a) (by omega), show l - (l - a) = a by omega]
  have hshift : (((2 ^ l - 1 + k : Nat) : Int) + 1) >>> (l - a) - 1 =
      ((2 ^ a - 1 + k / 2 ^ (l - a) : Nat) : Int) := by
    have e : ((2 ^ l - 1 + k : Nat) : Int) + 1 = ((2 ^ l - 1 + k + 1 : Nat) : Int) := by
      push_cast
      ring
    rw [e, int_shift_right_nat, ancestor_quotient l k (l - a) (by omega) hk,
      show l - (l - a) = a by omega]
    generalize k / 2 ^ (l - a) = c
    generalize 2 ^ a = A at pa ⊢
    omega
  refine ⟨?_, ?_, ?_, ?_, ?_⟩
  · rw [hd, hshift]
    exact get_node_ancestor_at l k a hl hal hk
  · rw [hd, hshift, Int.toNat_ofNat, hpar]
  · rw [hd, Int.toNat_ofNat, hpar]
    exact level_of a _ (by omega) hq
  · have := get_node_ancestor_at l k 0 hl (Nat.zero_le l) hk
    simp only [Nat.cast_zero, Nat.sub_zero, pow_zero, Nat.sub_self, Nat.zero_add] at this
    rw [this, Nat.div_eq_of_lt hk]
    rfl
  · intro hi
    have hl29 : l + 1 ≤ 30 := by
      by_contra c
      have hl30 : l = 30 := by omega
      subst hl30
      have : ((2 ^ 30 - 1 + k : Nat) : Int) ≤ 2 ^ 30 - 2 := hi
      norm_num at this
      omega
    have e1 : 2 * ((2 ^ l - 1 + k : Nat) : Int) + 1 = ((2 ^ (l + 1) - 1 + 2 * k : Nat) : Int) := by
      have : 1 ≤ 2 ^ (l + 1) := two_pow_pos_nat (l + 1)
      rw [pow_succ] at this ⊢
      push_cast [Nat.cast_sub p, Nat.cast_sub this]
      ring
    have e2 : 2 * ((2 ^ l - 1 + k : Nat) : Int) + 2 =
        ((2 ^ (l + 1) - 1 + (2 * k + 1) : Nat) : Int) := by
      have : 1 ≤ 2 ^ (l + 1) := two_pow_pos_nat (l + 1)
      rw [pow_succ] at this ⊢
      push_cast [Nat.cast_sub p, Nat.cast_sub this]
      ring
    have k1 : 2 * k < 2 ^ (l + 1) := by rw [pow_succ]; omega
    have k2 : 2 * k + 1 < 2 ^ (l + 1) := by rw [pow_succ]; omega
    have c : ((l : Int) + 1) = ((l + 1 : Nat) : Int) := by push_cast; rfl
    rw [e1, e2, c]
    refine ⟨level_of (l + 1) _ hl29 k1, level_of (l + 1) _ hl29 k2, ?_, ?_⟩
    · rw [get_node_ancestor_at (l + 1) (2 * k) l hl29 (by omega) k1]
      congr 3
      rw [show l + 1 - l = 1 by omega]
      omega
    · rw [get_node_ancestor_at (l + 1) (2 * k + 1) l hl29 (by omega) k2]
      congr 3
      rw [show l + 1 - l = 1 by omega]
      omega

theorem node_ancestor_is_shift_witness :
    (0 : Int) ≤ 12 ∧ (12 : Int) ≤ 2 ^ 31 - 2 ∧ (0 : Int) ≤ 1 ∧
    (1 : Int) ≤ get_level_from_implicit_idx 12 ∧
    get_node_ancestor 12 (get_level_from_implicit_idx 12) 1 =
      some (((12 + 1) >>> (get_level_from_implicit_idx 12 - 1).toNat) - 1) ∧
    ((12 + 1) >>> (get_level_from_implicit_idx 12 - 1).toNat) - 1 =
      ((parent^[(get_level_from_implicit_idx 12 - 1).toNat] (12 : Int).toNat : Nat) : Int) ∧
    get_level_from_implicit_idx
      ((parent^[(get_level_from_implicit_idx 12 - 1).toNat] (12 : Int).toNat : Nat) : Int) = 1 ∧
    get_node_ancestor 12 (get_level_from_implicit_idx 12) 0 = some 0 ∧
    ((12 : Int) ≤ 2 ^ 30 - 2 →
      get_level_from_implicit_idx (2 * 12 + 1) = get_level_from_implicit_idx 12 + 1 ∧
      get_level_from_implicit_idx (2 * 12 + 2) = get_level_from_implicit_idx 12 + 1 ∧
      get_node_ancestor (2 * 12 + 1) (get_level_from_implicit_idx 12 + 1)
        (get_level_from_implicit_idx 12) = some 12 ∧
      get_node_ancestor (2 * 12 + 2) (get_level_from_implicit_idx 12 + 1)
        (get_level_from_implicit_idx 12) = some 12) :=
  ⟨by decide, by decide, by decide, by decide,
    node_ancestor_is_shift 12 1 (by decide) (by decide) (by decide) (by decide)⟩

theorem popcount_aux_le (n : Nat) : ∀ x, popcount_aux n x ≤ x := by
  induction n with
  | zero => intro x; simp [popcount_aux]
  | succ n ih =>
    intro x
    have := ih (x / 2)
    simp only [popcount_aux]
    omega

/-- The size for `n` leaves below `2 ^ L`, with the difference to the power
of two spelled out. -/
theorem size_nat (n L : Nat) (hL : L ≤ 30) (hnp : next_power_of_two (n : Int) = ((2 ^ L : Nat) : Int))
    (hn : n ≤ 2 ^ L) :
    get_ostensibly_implicit_bvh_size (n : Int) =
      2 * (n : Int) - 1 + ((popcount_aux 32 (2 ^ L - n) : Nat) : Int) := by
  unfold get_ostensibly_implicit_bvh_size popcount
  have h30 := two_pow_le_30 hL
  have e : ((2 ^ L : Nat) : Int) - (n : Int) = ((2 ^ L - n : Nat) : Int) := by omega
  have lt : 2 ^ L - n < 2 ^ 32 := by norm_num at h30 ⊢; omega
  rw [hnp, e, to_unsigned_nat _ lt, Nat.mod_eq_of_lt lt]

/-- C25. For `1 <= t <= 2^30`, `get_ostensibly_implicit_bvh_size(t)` is at
least `2t - 1` and at most `2 * next_power_of_two(t) - 1`, the node count of
the complete tree; it is below that count when `t` is not a power of
two. -/
theorem implicit_bvh_size_bounds (t : Int) (h1 : 1 ≤ t) (h2 : t ≤ 2 ^ 30) :
    2 * t - 1 ≤ get_ostensibly_implicit_bvh_size t ∧
    get_ostensibly_implicit_bvh_size t ≤ 2 * next_power_of_two t - 1 ∧
    ((∀ k : Nat, t ≠ 2 ^ k) →
      get_ostensibly_implicit_bvh_size t < 2 * next_power_of_two t - 1) := by
  obtain ⟨n, L, rfl, n1, hL, hnp, _, hn, _⟩ := tree_data t h1 h2
  rw [size_nat n L hL hnp hn, hnp]
  have hp := popcount_aux_le 32 (2 ^ L - n)
  refine ⟨by omega, by omega, ?_⟩
  intro hne
  have : n ≠ 2 ^ L := by
    intro c
    apply hne L
    rw [c]
    push_cast
    rfl
  omega

theorem implicit_bvh_size_bounds_witness :
    (1 : Int) ≤ 5 ∧ (5 : Int) ≤ 2 ^ 30 ∧
    2 * 5 - 1 ≤ get_ostensibly_implicit_bvh_size 5 ∧
    get_ostensibly_implicit_bvh_size 5 ≤ 2 * next_power_of_two 5 - 1 ∧
    ((∀ k : Nat, (5 : Int) ≠ 2 ^ k) →
      get_ostensibly_implicit_bvh_size 5 < 2 * next_power_of_two 5 - 1) :=
  ⟨by decide, by decide, implicit_bvh_size_bounds 5 (by decide) (by decide)⟩

/-- C26. For `1 <= t <= 2^30`: `next_power_of_two(t)` is a power of two
`2^L` that is at least `t`, and no smaller power of two is;
`get_leaf_level_from_real_leaf_count(t)` is that `L`, the least exponent
with `t <= 2^L`; and `get_rightmost_real_leaf(L, t)` is
`get_level_leftmost_node(L) + t - 1`, a node of the level `L`. -/
theorem leaf_level_is_ceil_log2 (t : Int) (h1 : 1 ≤ t) (h2 : t ≤ 2 ^ 30) :
    ∃ L : Nat, next_power_of_two t = 2 ^ L ∧ t ≤ 2 ^ L ∧ (∀ k : Nat, t ≤ 2 ^ k → L ≤ k) ∧
      get_leaf_level_from_real_leaf_count t = (L : Int) ∧
      ∃ lm r : Int, get_level_leftmost_node (L : Int) = some lm ∧
        get_rightmost_real_leaf (L : Int) t = some r ∧ r = lm + t - 1 ∧
        get_level_from_implicit_idx r = (L : Int) := by
  obtain ⟨n, L, rfl, n1, hL, hnp, hleaf, hn, lo⟩ := tree_data t h1 h2
  have p := two_pow_pos_nat L
  refine ⟨L, ?_, ?_, ?_, hleaf, ((2 ^ L - 1 : Nat) : Int), ((2 ^ L - 1 + (n - 1) : Nat) : Int),
    get_level_leftmost_node_nat L hL, get_rightmost_real_leaf_nat L n hL n1, ?_, ?_⟩
  · rw [hnp]
    push_cast
    rfl
  · exact_mod_cast hn
  · intro k hk
    have hk1 : n ≤ 2 ^ k := by exact_mod_cast hk
    by_contra c
    rcases lo with rfl | lo
    · omega
    · have : 2 ^ k ≤ 2 ^ (L - 1) := Nat.pow_le_pow_right (by norm_num) (by omega)
      omega
  · push_cast [Nat.cast_sub p, Nat.cast_sub n1]
    ring
  · exact level_of L (n - 1) hL (by omega)

theorem leaf_level_is_ceil_log2_witness :
    (1 : Int) ≤ 5 ∧ (5 : Int) ≤ 2 ^ 30 ∧
    ∃ L : Nat, next_power_of_two 5 = 2 ^ L ∧ (5 : Int) ≤ 2 ^ L ∧
      (∀ k : Nat, (5 : Int) ≤ 2 ^ k → L ≤ k) ∧
      get_leaf_level_from_real_leaf_count 5 = (L : Int) ∧
      ∃ lm r : Int, get_level_leftmost_node (L : Int) = some lm ∧
        get_rightmost_real_leaf (L : Int) 5 = some r ∧ r = lm + 5 - 1 ∧
        get_level_from_implicit_idx r = (L : Int) :=
  ⟨by decide, by decide, leaf_level_is_ceil_log2 5 (by decide) (by decide)⟩

/-! ## The storage is in level order -/

theorem count_all (p : Nat → Prop) [DecidablePred p] (n : Nat) (h : ∀ k, k < n → p k) :
    Nat.count p n = n := by
  induction n with
  | zero => rfl
  | succ n ih =>
    rw [Nat.count_succ, ih (fun k hk => h k (by omega)), if_pos (h n (by omega))]

/-- The real nodes above the level `l` number `level_offset t L l`. -/
theorem count_real_above (t L : Nat) (h1 : 1 ≤ t) (ht : t ≤ 2 ^ L) (l : Nat) (hl : l ≤ L + 1) :
    Nat.count (fun q : Nat => real_leaf_below t L q) (2 ^ l - 1) = level_offset t L l := by
  induction l with
  | zero => rfl
  | succ l ih =>
    have e : 2 ^ (l + 1) - 1 = (2 ^ l - 1) + 2 ^ l := by
      have := two_pow_pos_nat l
      rw [pow_succ]
      omega
    rw [e, Nat.count_add, ih (by omega)]
    simp only [level_offset, level_count]
    congr 1
    rw [count_congr_lt _ (fun k => k ≤ (t - 1) / 2 ^ (L - l)) (2 ^ l)]
    · exact count_le_bound _ _ (level_count_le t L l h1 ht (by omega))
    · intro k hk
      exact real_leaf_below_iff t L l k h1 ht (by omega) hk

/-- The real nodes with an index below that of the real node of offset `k`
on the level `l`: the real nodes of the levels above and the `k` nodes to
its left. -/
theorem count_real_below (t L l k : Nat) (h1 : 1 ≤ t) (ht : t ≤ 2 ^ L)
    (hl : l ≤ L) (hk : k < 2 ^ l) (hc : k ≤ (t - 1) / 2 ^ (L - l)) :
    Nat.count (fun q : Nat => real_leaf_below t L q) (2 ^ l - 1 + k) =
      level_offset t L l + k := by
  rw [Nat.count_add, count_real_above t L h1 ht l (by omega)]
  congr 1
  apply count_all
  intro j hj
  exact (real_leaf_below_iff t L l j h1 ht hl (by omega)).2 (by omega)

/-- The number of real nodes on a level of the tree. -/
theorem real_nodes_on_level_eq (t L l : Nat) (h1 : 1 ≤ t) (ht : t ≤ 2 ^ L) (hl : l ≤ L) :
    real_nodes_on_level t L l = level_count t L l := by
  unfold real_nodes_on_level
  rw [filter_range_length (fun k => real_leaf_below t L (2 ^ l - 1 + k)),
    count_congr_lt _ (fun k => k ≤ (t - 1) / 2 ^ (L - l)) (2 ^ l)]
  · exact count_le_bound _ _ (level_count_le t L l h1 ht hl)
  · intro k hk
    exact real_leaf_below_iff t L l k h1 ht hl hk

theorem level_le_of_lt {a b i j : Nat} (hi : i < 2 ^ a) (hj : j < 2 ^ b)
    (h : 2 ^ a - 1 + i < 2 ^ b - 1 + j) : a ≤ b := by
  by_contra c
  have : 2 ^ (b + 1) ≤ 2 ^ a := Nat.pow_le_pow_right (by norm_num) (by omega)
  rw [pow_succ] at this
  have := two_pow_pos_nat b
  omega

/-- A real node on the level `l`, by its offset. -/
theorem real_on_level_data (t L l q : Nat) (h1 : 1 ≤ t) (hL : L ≤ 30) (ht : t ≤ 2 ^ L)
    (hq : get_level_from_implicit_idx (q : Int) = (l : Int)) (hr : real_leaf_below t L q) :
    l ≤ L ∧ ∃ k : Nat, k < 2 ^ l ∧ k ≤ (t - 1) / 2 ^ (L - l) ∧ q = 2 ^ l - 1 + k := by
  obtain ⟨l1, k, hl1, hk, hc, rfl⟩ := real_leaf_below_data t L q h1 ht hr
  rw [level_of l1 k (by omega) hk] at hq
  have e : l1 = l := by exact_mod_cast hq
  subst e
  exact ⟨hl1, k, hk, hc, rfl⟩

/-- The rightmost real node of the level `l`. -/
theorem rightmost_real_on_level_iff (t L l r : Nat) (h1 : 1 ≤ t) (hL : L ≤ 30) (ht : t ≤ 2 ^ L)
    (hl : l ≤ L) :
    rightmost_real_on_level t L l r ↔ r = 2 ^ l - 1 + (t - 1) / 2 ^ (L - l) := by
  have hc := level_count_le t L l h1 ht hl
  have top : real_leaf_below t L (2 ^ l - 1 + (t - 1) / 2 ^ (L - l)) :=
    (real_leaf_below_iff t L l _ h1 ht hl hc).2 (le_refl _)
  constructor
  · rintro ⟨lv, re, mx⟩
    obtain ⟨_, k, hk, kc, rfl⟩ := real_on_level_data t L l r h1 hL ht lv re
    have := mx _ (level_of l _ (by omega) hc) top
    omega
  · rintro rfl
    refine ⟨level_of l _ (by omega) hc, top, ?_⟩
    intro q lv re
    obtain ⟨_, k, hk, kc, rfl⟩ := real_on_level_data t L l q h1 hL ht lv re
    omega

/-- C30. For `1 <= t <= 2^30`, with `n` the leaf count and `L` the leaf
level, a real node being a node with a real leaf below: every level up to
`L` has a rightmost real node, and on the level 0 it is the root, which gets
the slot 0. For a real node `q` on a level `l`, `get_node_mem_index` called
with `q`, the leftmost node `lm` of the level, the base offset 0 and the
rightmost real node `r` of the level is the number of real nodes with a
smaller implicit index. Of two real nodes the one with the smaller index
gets the smaller slot. The real nodes of a level `l` fill the slots from
`size(c) - c` to `size(c) - 1`, where `c` is the number of real nodes on
the level `l` and `size` is `get_ostensibly_implicit_bvh_size`. -/
theorem node_slot_level_order (t : Int) (h1 : 1 ≤ t) (h2 : t ≤ 2 ^ 30) :
    ∃ n L : Nat, t = (n : Int) ∧ get_leaf_level_from_real_leaf_count t = (L : Int) ∧
      (∀ l : Nat, l ≤ L → ∃ r, rightmost_real_on_level n L l r) ∧
      (get_level_from_implicit_idx 0 = 0 ∧ real_leaf_below n L 0 ∧
        get_level_leftmost_node 0 = some 0 ∧ rightmost_real_on_level n L 0 0 ∧
        get_node_mem_index 0 0 0 0 = 0) ∧
      (∀ (l q r : Nat) (lm : Int), get_level_leftmost_node (l : Int) = some lm →
        rightmost_real_on_level n L l r →
        get_level_from_implicit_idx (q : Int) = (l : Int) → real_leaf_below n L q →
        get_node_mem_index (q : Int) lm 0 (r : Int) =
          ((Nat.count (fun x : Nat => real_leaf_below n L x) q : Nat) : Int)) ∧
      (∀ (l q r : Nat) (lm : Int) (l1 q1 r1 : Nat) (lm1 : Int),
        get_level_leftmost_node (l : Int) = some lm → rightmost_real_on_level n L l r →
        get_level_from_implicit_idx (q : Int) = (l : Int) → real_leaf_below n L q →
        get_level_leftmost_node (l1 : Int) = some lm1 → rightmost_real_on_level n L l1 r1 →
        get_level_from_implicit_idx (q1 : Int) = (l1 : Int) → real_leaf_below n L q1 →
        q < q1 →
        get_node_mem_index (q : Int) lm 0 (r : Int) <
          get_node_mem_index (q1 : Int) lm1 0 (r1 : Int)) ∧
      (∀ (l r : Nat) (lm : Int), get_level_leftmost_node (l : Int) = some lm →
        rightmost_real_on_level n L l r →
        (∀ q : Nat, get_level_from_implicit_idx (q : Int) = (l : Int) → real_leaf_below n L q →
          get_ostensibly_implicit_bvh_size (real_nodes_on_level n L l : Nat) -
              (real_nodes_on_level n L l : Nat) ≤ get_node_mem_index (q : Int) lm 0 (r : Int) ∧
            get_node_mem_index (q : Int) lm 0 (r : Int) ≤
              get_ostensibly_implicit_bvh_size (real_nodes_on_level n L l : Nat) - 1) ∧
        (∀ s : Int,
          get_ostensibly_implicit_bvh_size (real_nodes_on_level n L l : Nat) -
            (real_nodes_on_level n L l : Nat) ≤ s →
          s ≤ get_ostensibly_implicit_bvh_size (real_nodes_on_level n L l : Nat) - 1 →
          ∃ q : Nat, get_level_from_implicit_idx (q : Int) = (l : Int) ∧ real_leaf_below n L q ∧
            get_node_mem_index (q : Int) lm 0 (r : Int) = s)) := by
  obtain ⟨n, L, rfl, n1, hL, hnp, hleaf, hn, lo⟩ := tree_data t h1 h2
  refine ⟨n, L, rfl, hleaf, ?_, ?_, ?_, ?_, ?_⟩
  -- the slot of a real node, by level and offset
  all_goals
    have slot : ∀ (l q r : Nat) (lm : Int), get_level_leftmost_node (l : Int) = some lm →
        rightmost_real_on_level n L l r →
        get_level_from_implicit_idx (q : Int) = (l : Int) → real_leaf_below n L q →
        l ≤ L ∧ ∃ k : Nat, k < 2 ^ l ∧ k ≤ (n - 1) / 2 ^ (L - l) ∧ q = 2 ^ l - 1 + k ∧
          get_node_mem_index (q : Int) lm 0 (r : Int) = ((level_offset n L l + k : Nat) : Int) := by
      intro l q r lm hlm hr hq hre
      obtain ⟨hl, k, hk, hc, rfl⟩ := real_on_level_data n L l q n1 hL hn hq hre
      rw [get_level_leftmost_node_nat l (by omega)] at hlm
      simp only [Option.some.injEq] at hlm
      subst hlm
      rw [(rightmost_real_on_level_iff n L l r n1 hL hn hl).1 hr,
        mem_index_at n L l k 0 n1 hL hn lo hl, zero_add]
      exact ⟨hl, k, hk, hc, rfl, rfl⟩
    have below : ∀ l k : Nat, l ≤ L → k ≤ (n - 1) / 2 ^ (L - l) →
        level_offset n L l + k < level_offset n L (l + 1) := by
      intro l k _ hk
      simp only [level_offset, level_count]
      generalize (n - 1) / 2 ^ (L - l) = c at hk ⊢
      omega
  · intro l hl
    exact ⟨_, (rightmost_real_on_level_iff n L l _ n1 hL hn hl).2 rfl⟩
  · have r0 : rightmost_real_on_level n L 0 0 :=
      (rightmost_real_on_level_iff n L 0 0 n1 hL hn (Nat.zero_le L)).2 (by
        have : (n - 1) / 2 ^ (L - 0) = 0 := by
          rw [Nat.sub_zero, Nat.div_eq_zero_iff (by positivity)]
          omega
        rw [this]
        rfl)
    exact ⟨by decide, r0.2.1, by decide, r0, by decide⟩
  · intro l q r lm hlm hr hq hre
    obtain ⟨hl, k, hk, hc, rfl, e⟩ := slot l q r lm hlm hr hq hre
    rw [e, count_real_below n L l k n1 hn hl hk hc]
  · intro l q r lm l1 q1 r1 lm1 hlm hr hq hre hlm1 hr1 hq1 hre1 lt
    obtain ⟨hl, k, hk, hc, rfl, e⟩ := slot l q r lm hlm hr hq hre
    obtain ⟨hl1, k1, hk1, hc1, rfl, e1⟩ := slot l1 q1 r1 lm1 hlm1 hr1 hq1 hre1
    rw [e, e1]
    have ll := level_le_of_lt hk hk1 lt
    have goal : level_offset n L l + k < level_offset n L l1 + k1 := by
      rcases Nat.lt_or_ge l l1 with c | c
      · have := below l k hl hc
        have := level_offset_mono n L (show l + 1 ≤ l1 by omega)
        omega
      · have e : l = l1 := by omega
        subst e
        omega
    exact_mod_cast goal
  · intro l r lm hlm hr
    have hlL : l ≤ L := by
      obtain ⟨lv, re, _⟩ := hr
      exact (real_on_level_data n L l r n1 hL hn lv re).1
    rw [real_nodes_on_level_eq n L l n1 hn hlL, size_of_level n L l n1 hL hn lo hlL]
    have e : ((level_offset n L (l + 1) : Nat) : Int) - ((level_count n L l : Nat) : Int) =
        ((level_offset n L l : Nat) : Int) := by
      simp only [level_offset]
      push_cast
      ring
    rw [e]
    have e1 : level_offset n L (l + 1) = level_offset n L l + level_count n L l := rfl
    have c1 : 1 ≤ level_count n L l := Nat.le_add_left 1 _
    constructor
    · intro q hq hre
      obtain ⟨_, k, hk, hc, rfl, e2⟩ := slot l q r lm hlm hr hq hre
      rw [e2]
      constructor
      · exact_mod_cast Nat.le_add_right _ _
      · have := below l k hlL hc
        omega
    · intro s s0 s1
      obtain ⟨x, rfl⟩ : ∃ x : Nat, s = ((level_offset n L l + x : Nat) : Int) :=
        ⟨(s - (level_offset n L l : Nat)).toNat, by push_cast; omega⟩
      have hx : x ≤ (n - 1) / 2 ^ (L - l) := by
        have : level_offset n L l + x + 1 ≤ level_offset n L (l + 1) := by omega
        simp only [level_offset, level_count] at this
        generalize (n - 1) / 2 ^ (L - l) = c at this ⊢
        omega
      have hk : x < 2 ^ l := lt_of_le_of_lt hx (level_count_le n L l n1 hn hlL)
      have lv := level_of l x (by omega) hk
      have re := (real_leaf_below_iff n L l x n1 hn hlL hk).2 hx
      obtain ⟨_, k, hk1, _, eq, e2⟩ := slot l (2 ^ l - 1 + x) r lm hlm hr lv re
      have : k = x := by omega
      subst this
      exact ⟨2 ^ l - 1 + k, lv, re, e2⟩

theorem node_slot_level_order_witness :
    (1 : Int) ≤ 5 ∧ (5 : Int) ≤ 2 ^ 30 ∧
    ∃ n L : Nat, (5 : Int) = (n : Int) ∧ get_leaf_level_from_real_leaf_count 5 = (L : Int) ∧
      (∀ l : Nat, l ≤ L → ∃ r, rightmost_real_on_level n L l r) ∧
      (get_level_from_implicit_idx 0 = 0 ∧ real_leaf_below n L 0 ∧
        get_level_leftmost_node 0 = some 0 ∧ rightmost_real_on_level n L 0 0 ∧
        get_node_mem_index 0 0 0 0 = 0) ∧
      (∀ (l q r : Nat) (lm : Int), get_level_leftmost_node (l : Int) = some lm →
        rightmost_real_on_level n L l r →
        get_level_from_implicit_idx (q : Int) = (l : Int) → real_leaf_below n L q →
        get_node_mem_index (q : Int) lm 0 (r : Int) =
          ((Nat.count (fun x : Nat => real_leaf_below n L x) q : Nat) : Int)) ∧
      (∀ (l q r : Nat) (lm : Int) (l1 q1 r1 : Nat) (lm1 : Int),
        get_level_leftmost_node (l : Int) = some lm → rightmost_real_on_level n L l r →
        get_level_from_implicit_idx (q : Int) = (l : Int) → real_leaf_below n L q →
        get_level_leftmost_node (l1 : Int) = some lm1 → rightmost_real_on_level n L l1 r1 →
        get_level_from_implicit_idx (q1 : Int) = (l1 : Int) → real_leaf_below n L q1 →
        q < q1 →
        get_node_mem_index (q : Int) lm 0 (r : Int) <
          get_node_mem_index (q1 : Int) lm1 0 (r1 : Int)) ∧
      (∀ (l r : Nat) (lm : Int), get_level_leftmost_node (l : Int) = some lm →
        rightmost_real_on_level n L l r →
        (∀ q : Nat, get_level_from_implicit_idx (q : Int) = (l : Int) → real_leaf_below n L q →
          get_ostensibly_implicit_bvh_size (real_nodes_on_level n L l : Nat) -
              (real_nodes_on_level n L l : Nat) ≤ get_node_mem_index (q : Int) lm 0 (r : Int) ∧
            get_node_mem_index (q : Int) lm 0 (r : Int) ≤
              get_ostensibly_implicit_bvh_size (real_nodes_on_level n L l : Nat) - 1) ∧
        (∀ s : Int,
          get_ostensibly_implicit_bvh_size (real_nodes_on_level n L l : Nat) -
            (real_nodes_on_level n L l : Nat) ≤ s →
          s ≤ get_ostensibly_implicit_bvh_size (real_nodes_on_level n L l : Nat) - 1 →
          ∃ q : Nat, get_level_from_implicit_idx (q : Int) = (l : Int) ∧ real_leaf_below n L q ∧
            get_node_mem_index (q : Int) lm 0 (r : Int) = s)) :=
  ⟨by decide, by decide, node_slot_level_order 5 (by decide) (by decide)⟩

/-- The level 2 of the tree with 5 leaves: the real nodes are 3, 4 and 5,
and with the rightmost real node 5 they get the slots 3, 4 and 5. -/
theorem level_order_of_five :
    rightmost_real_on_level 5 3 2 5 ∧ real_nodes_on_level 5 3 2 = 3 ∧
    get_node_mem_index 3 3 0 5 = 3 ∧ get_node_mem_index 4 3 0 5 = 4 ∧
    get_node_mem_index 5 3 0 5 = 5 :=
  ⟨(rightmost_real_on_level_iff 5 3 2 5 (by norm_num) (by norm_num) (by norm_num)
    (by norm_num)).2 (by norm_num), by decide, by decide, by decide, by decide⟩

/-! ## Morton codes -/

set_option maxRecDepth 100000 in
/-- On a 10-bit value `expandBits` is `spread`: checked on the 1024
values. -/
theorem expandBits_eq_spread : ∀ v, v < 1024 → expandBits v = spread 10 v := by decide

set_option maxRecDepth 100000 in
theorem expandBits_step : ∀ v, v < 1023 → expandBits v < expandBits (v + 1) := by decide

set_option maxRecDepth 100000 in
theorem expandBits_le : ∀ v, v < 1024 → expandBits v ≤ 0x09249249 := by decide

theorem expandBits_mono {a b : Nat} (hb : b < 1024) (h : a ≤ b) :
    expandBits a ≤ expandBits b := by
  induction b with
  | zero =>
    have : a = 0 := by omega
    subst this
    exact le_refl _
  | succ b ih =>
    rcases Nat.lt_or_ge a (b + 1) with c | c
    · exact le_trans (ih (by omega) (by omega)) (le_of_lt (expandBits_step b (by omega)))
    · have : a = b + 1 := by omega
      subst this
      exact le_refl _

/-- The binary digits of `spread n v`. -/
theorem spread_testBit (n : Nat) : ∀ v j,
    (spread n v).testBit j = (decide (j % 3 = 0 ∧ j / 3 < n) && v.testBit (j / 3)) := by
  induction n with
  | zero =>
    intro v j
    simp [spread]
  | succ n ih =>
    intro v j
    simp only [spread]
    match j with
    | 0 =>
      rw [Nat.testBit_zero]
      simp only [Nat.zero_mod, Nat.zero_div, Nat.zero_lt_succ, and_self, decide_True,
        Bool.true_and, Nat.testBit_zero]
      exact decide_eq_decide.2 (by omega)
    | 1 =>
      rw [Nat.testBit_add_one, Nat.testBit_zero]
      have : ¬ ((v % 2 + 8 * spread n (v / 2)) / 2 % 2 = 1) := by omega
      simp [this]
    | 2 =>
      rw [Nat.testBit_add_one, Nat.testBit_add_one, Nat.testBit_zero]
      have : ¬ ((v % 2 + 8 * spread n (v / 2)) / 2 / 2 % 2 = 1) := by omega
      simp [this]
    | j + 3 =>
      rw [Nat.testBit_add_one, Nat.testBit_add_one, Nat.testBit_add_one]
      have e : (v % 2 + 8 * spread n (v / 2)) / 2 / 2 / 2 = spread n (v / 2) := by omega
      rw [e, ih (v / 2) j, Nat.testBit_div_two]
      have e1 : (j + 3) % 3 = j % 3 := by omega
      have e2 : (j + 3) / 3 = j / 3 + 1 := by omega
      rw [e1, e2]
      congr 1
      exact decide_eq_decide.2 (by omega)

/-- The binary digits of three spread values put side by side: the first
value in the high position of each triplet, the last in the low position. -/
theorem interleave_testBit (n : Nat) : ∀ X Y Z k,
    (4 * spread n X + 2 * spread n Y + spread n Z).testBit (3 * k) =
      (decide (k < n) && Z.testBit k) ∧
    (4 * spread n X + 2 * spread n Y + spread n Z).testBit (3 * k + 1) =
      (decide (k < n) && Y.testBit k) ∧
    (4 * spread n X + 2 * spread n Y + spread n Z).testBit (3 * k + 2) =
      (decide (k < n) && X.testBit k) := by
  induction n with
  | zero =>
    intro X Y Z k
    simp [spread]
  | succ n ih =>
    intro X Y Z k
    simp only [spread]
    generalize hm : 4 * spread n (X / 2) + 2 * spread n (Y / 2) + spread n (Z / 2) = m
    have e : 4 * (X % 2 + 8 * spread n (X / 2)) + 2 * (Y % 2 + 8 * spread n (Y / 2)) +
        (Z % 2 + 8 * spread n (Z / 2)) = (4 * (X % 2) + 2 * (Y % 2) + Z % 2) + 8 * m := by
      omega
    rw [e]
    match k with
    | 0 =>
      refine ⟨?_, ?_, ?_⟩
      · rw [Nat.testBit_zero, Nat.testBit_zero]
        simp only [Nat.zero_lt_succ, decide_True, Bool.true_and]
        exact decide_eq_decide.2 (by omega)
      · rw [Nat.testBit_add_one, Nat.testBit_zero, Nat.testBit_zero]
        simp only [Nat.zero_lt_succ, decide_True, Bool.true_and]
        exact decide_eq_decide.2 (by omega)
      · rw [Nat.testBit_add_one, Nat.testBit_add_one, Nat.testBit_zero, Nat.testBit_zero]
        simp only [Nat.zero_lt_succ, decide_True, Bool.true_and]
        exact decide_eq_decide.2 (by omega)
    | k + 1 =>
      obtain ⟨i0, i1, i2⟩ := ih (X / 2) (Y / 2) (Z / 2) k
      rw [hm] at i0 i1 i2
      have d : (4 * (X % 2) + 2 * (Y % 2) + Z % 2 + 8 * m) / 2 / 2 / 2 = m := by omega
      have c : decide (k + 1 < n + 1) = decide (k < n) := decide_eq_decide.2 (by omega)
      refine ⟨?_, ?_, ?_⟩
      · rw [show 3 * (k + 1) = 3 * k + 1 + 1 + 1 by ring, Nat.testBit_add_one,
          Nat.testBit_add_one, Nat.testBit_add_one, d, i0, c, Nat.testBit_add_one Z]
      · rw [show 3 * (k + 1) + 1 = 3 * k + 1 + 1 + 1 + 1 by ring, Nat.testBit_add_one,
          Nat.testBit_add_one, Nat.testBit_add_one, d, i1, c, Nat.testBit_add_one Y]
      · rw [show 3 * (k + 1) + 2 = 3 * k + 2 + 1 + 1 + 1 by ring, Nat.testBit_add_one,
          Nat.testBit_add_one, Nat.testBit_add_one, d, i2, c, Nat.testBit_add_one X]

/-! ### The cell of a coordinate -/

theorem floor_top : ⌊(1023 : ℚ)⌋ = 1023 := by simp

theorem clamp_bounds (x : ℚ) :
    0 ≤ fmin (fmax (x * 1024) 0) 1023 ∧ fmin (fmax (x * 1024) 0) 1023 ≤ 1023 := by
  unfold fmin fmax
  constructor <;> split_ifs <;> linarith

theorem clamp_mono {x x1 : ℚ} (h : x ≤ x1) :
    fmin (fmax (x * 1024) 0) 1023 ≤ fmin (fmax (x1 * 1024) 0) 1023 := by
  unfold fmin fmax
  split_ifs <;> linarith

/-- The conversion to `unsigned int` of a value between 0 and 1023 is its
integral part. -/
theorem float_to_unsigned_floor (q : ℚ) (h0 : 0 ≤ q) (h1 : q ≤ 1023) :
    float_to_unsigned q = ⌊q⌋.toNat := by
  unfold float_to_unsigned float_to_int to_unsigned
  have hn : 0 ≤ q.num := Rat.num_nonneg.2 h0
  rw [Int.tdiv_eq_ediv hn (Int.natCast_nonneg _), ← Rat.floor_def']
  change (⌊q⌋ % 2 ^ 32).toNat = ⌊q⌋.toNat
  have f0 : 0 ≤ ⌊q⌋ := Int.floor_nonneg.2 h0
  have f1 : ⌊q⌋ ≤ 1023 := by
    have : ⌊q⌋ ≤ ⌊(1023 : ℚ)⌋ := Int.floor_le_floor h1
    have e := floor_top
    omega
  rw [Int.emod_eq_of_lt f0 (by omega)]

theorem morton_cell_floor (x : ℚ) :
    morton_cell x = ⌊fmin (fmax (x * 1024) 0) 1023⌋.toNat := by
  unfold morton_cell
  exact float_to_unsigned_floor _ (clamp_bounds x).1 (clamp_bounds x).2

theorem morton_cell_le (x : ℚ) : morton_cell x ≤ 1023 := by
  rw [morton_cell_floor]
  have h := (clamp_bounds x).2
  have : ⌊fmin (fmax (x * 1024) 0) 1023⌋ ≤ ⌊(1023 : ℚ)⌋ := Int.floor_le_floor h
  have e := floor_top
  omega

theorem morton_cell_mono {x x1 : ℚ} (h : x ≤ x1) : morton_cell x ≤ morton_cell x1 := by
  rw [morton_cell_floor, morton_cell_floor]
  exact Int.toNat_le_toNat (Int.floor_le_floor (clamp_mono h))

/-- The cell of the coordinate `X / 1024`. -/
theorem morton_cell_nat (X : Nat) (h : X ≤ 1023) : morton_cell ((X : ℚ) / 1024) = X := by
  rw [morton_cell_floor]
  have hx : (X : ℚ) ≤ 1023 := by exact_mod_cast h
  have h0 : (0 : ℚ) ≤ (X : ℚ) := Nat.cast_nonneg X
  have e : fmin (fmax ((X : ℚ) / 1024 * 1024) 0) 1023 = (X : ℚ) := by
    have e1 : (X : ℚ) / 1024 * 1024 = (X : ℚ) := by field_simp
    rw [e1]
    unfold fmin fmax
    split_ifs <;> linarith
  rw [e]
  simp

theorem morton_cell_top (x : ℚ) (h : 1023 ≤ x * 1024) : morton_cell x = 1023 := by
  rw [morton_cell_floor]
  have e : fmin (fmax (x * 1024) 0) 1023 = 1023 := by
    unfold fmin fmax
    split_ifs <;> linarith
  rw [e]
  rw [floor_top]
  rfl

/-- The code in terms of the cells of the three coordinates. -/
theorem morton3D_cells (x y z : ℚ) :
    morton3D x y z =
      4 * spread 10 (morton_cell x) + 2 * spread 10 (morton_cell y) +
        spread 10 (morton_cell z) := by
  have hx := morton_cell_le x
  have hy := morton_cell_le y
  have hz := morton_cell_le z
  have ex := expandBits_eq_spread _ (show morton_cell x < 1024 by omega)
  have ey := expandBits_eq_spread _ (show morton_cell y < 1024 by omega)
  have ez := expandBits_eq_spread _ (show morton_cell z < 1024 by omega)
  have bx := expandBits_le _ (show morton_cell x < 1024 by omega)
  have byy := expandBits_le _ (show morton_cell y < 1024 by omega)
  have bz := expandBits_le _ (show morton_cell z < 1024 by omega)
  show (expandBits (morton_cell x) * 4 + expandBits (morton_cell y) * 2 +
    expandBits (morton_cell z)) % 2 ^ 32 = _
  rw [← ex, ← ey, ← ez]
  norm_num at bx byy bz ⊢
  omega

/-- C27. For a 10-bit value `v`, the binary digit `3 k` of `expandBits(v)`
is the digit `k` of `v`, for `k = 0 .. 9`, and every other digit of
`expandBits(v)` is zero. -/
theorem expandBits_inserts_zeros (v : Nat) (h : v ≤ 1023) :
    (∀ k, k ≤ 9 → (expandBits v).testBit (3 * k) = v.testBit k) ∧
    (∀ j, (∀ k, k ≤ 9 → j ≠ 3 * k) → (expandBits v).testBit j = false) := by
  rw [expandBits_eq_spread v (by omega)]
  constructor
  · intro k hk
    rw [spread_testBit]
    have e1 : 3 * k % 3 = 0 := by omega
    have e2 : 3 * k / 3 = k := by omega
    have e3 : k < 10 := by omega
    simp [e1, e2, e3]
  · intro j hj
    rw [spread_testBit]
    have : ¬ (j % 3 = 0 ∧ j / 3 < 10) := by
      intro c
      exact hj (j / 3) (by omega) (by omega)
    simp [this]

theorem expandBits_inserts_zeros_witness :
    (5 : Nat) ≤ 1023 ∧
    (∀ k, k ≤ 9 → (expandBits 5).testBit (3 * k) = (5 : Nat).testBit k) ∧
    (∀ j, (∀ k, k ≤ 9 → j ≠ 3 * k) → (expandBits 5).testBit j = false) :=
  ⟨by decide, expandBits_inserts_zeros 5 (by decide)⟩

/-- C22, as stated, fails: for the point `(1/1024, 0, 0)` the cells are
`X = 1`, `Y = 0` and `Z = 0`, and the code is 4: its digit 0 is zero, while
the digit 0 of `X` is one. -/
theorem morton_x_not_in_low_position :
    morton_cell (1 / 1024) = 1 ∧ morton_cell 0 = 0 ∧ morton3D (1 / 1024) 0 0 = 4 ∧
    (morton3D (1 / 1024) 0 0).testBit (3 * 0) = false ∧
    (morton_cell (1 / 1024)).testBit 0 = true := by
  have c1 : morton_cell (1 / 1024) = 1 := by
    have := morton_cell_nat 1 (by norm_num)
    simpa using this
  have c0 : morton_cell 0 = 0 := by
    have := morton_cell_nat 0 (by norm_num)
    simpa using this
  have e : morton3D (1 / 1024) 0 0 = 4 := by
    rw [morton3D_cells, c1, c0]
    rfl
  refine ⟨c1, c0, e, ?_, ?_⟩
  · rw [e]
    rfl
  · rw [c1]
    rfl

/-- C22, amended. With `X`, `Y`, `Z` the cells of the three coordinates,
which are at most 1023, and for `k = 0 .. 9`: the digit `3 k` of
`morton3D(x, y, z)` is the digit `k` of `Z`, the digit `3 k + 1` is the digit
`k` of `Y`, and the digit `3 k + 2` is the digit `k` of `X`; `x` is in the
high position of every triplet and `z` in the low one. -/
theorem morton_bit_positions (x y z : ℚ) (k : Nat) (hk : k ≤ 9) :
    morton_cell x ≤ 1023 ∧ morton_cell y ≤ 1023 ∧ morton_cell z ≤ 1023 ∧
    (morton3D x y z).testBit (3 * k) = (morton_cell z).testBit k ∧
    (morton3D x y z).testBit (3 * k + 1) = (morton_cell y).testBit k ∧
    (morton3D x y z).testBit (3 * k + 2) = (morton_cell x).testBit k := by
  refine ⟨morton_cell_le x, morton_cell_le y, morton_cell_le z, ?_⟩
  rw [morton3D_cells]
  obtain ⟨i0, i1, i2⟩ := interleave_testBit 10 (morton_cell x) (morton_cell y) (morton_cell z) k
  have c : decide (k < 10) = true := decide_eq_true (by omega)
  rw [i0, i1, i2, c]
  simp

theorem morton_bit_positions_witness :
    (0 : Nat) ≤ 9 ∧
    morton_cell (1 / 1024) ≤ 1023 ∧ morton_cell 0 ≤ 1023 ∧ morton_cell 0 ≤ 1023 ∧
    (morton3D (1 / 1024) 0 0).testBit (3 * 0) = (morton_cell 0).testBit 0 ∧
    (morton3D (1 / 1024) 0 0).testBit (3 * 0 + 1) = (morton_cell 0).testBit 0 ∧
    (morton3D (1 / 1024) 0 0).testBit (3 * 0 + 2) = (morton_cell (1 / 1024)).testBit 0 :=
  ⟨by decide, morton_bit_positions (1 / 1024) 0 0 0 (by decide)⟩

/-- C23. `morton3D` is monotone in each coordinate: of two points that
differ in one coordinate, the one whose cell of that coordinate is not
larger has a code that is not larger, and a coordinate that is not larger
has a cell that is not larger. The code of `(0, 0, 0)` is 0; the code of a
point whose three cells are 1023, such as `(1, 1, 1)`, is `0x3FFFFFFF`; every
code is below `2 ^ 30`. -/
theorem morton_monotone (a a1 b c : ℚ) (h : morton_cell a ≤ morton_cell a1) :
    morton3D a b c ≤ morton3D a1 b c ∧ morton3D b a c ≤ morton3D b a1 c ∧
    morton3D b c a ≤ morton3D b c a1 ∧
    (∀ x x1 : ℚ, x ≤ x1 → morton_cell x ≤ morton_cell x1) ∧
    morton3D 0 0 0 = 0 ∧ morton3D 1 1 1 = 0x3FFFFFFF ∧
    (∀ x y z : ℚ, morton_cell x = 1023 → morton_cell y = 1023 → morton_cell z = 1023 →
      morton3D x y z = 0x3FFFFFFF) ∧
    (∀ x y z : ℚ, morton3D x y z < 2 ^ 30) := by
  have m : spread 10 (morton_cell a) ≤ spread 10 (morton_cell a1) := by
    have h1 := morton_cell_le a1
    have h0 := morton_cell_le a
    rw [← expandBits_eq_spread _ (show morton_cell a < 1024 by omega),
      ← expandBits_eq_spread _ (show morton_cell a1 < 1024 by omega)]
    exact expandBits_mono (by omega) h
  have top : ∀ x y z : ℚ, morton_cell x = 1023 → morton_cell y = 1023 →
      morton_cell z = 1023 → morton3D x y z = 0x3FFFFFFF := by
    intro x y z hx hy hz
    rw [morton3D_cells, hx, hy, hz]
    rfl
  have c0 : morton_cell 0 = 0 := by
    have := morton_cell_nat 0 (by norm_num)
    simpa using this
  have c1 : morton_cell 1 = 1023 := morton_cell_top 1 (by norm_num)
  refine ⟨?_, ?_, ?_, fun x x1 hx => morton_cell_mono hx, ?_, top 1 1 1 c1 c1 c1, top, ?_⟩
  · rw [morton3D_cells, morton3D_cells]
    omega
  · rw [morton3D_cells, morton3D_cells]
    omega
  · rw [morton3D_cells, morton3D_cells]
    omega
  · rw [morton3D_cells, c0]
    rfl
  · intro x y z
    rw [morton3D_cells]
    have hx := morton_cell_le x
    have hy := morton_cell_le y
    have hz := morton_cell_le z
    have bx := expandBits_le _ (show morton_cell x < 1024 by omega)
    have byy := expandBits_le _ (show morton_cell y < 1024 by omega)
    have bz := expandBits_le _ (show morton_cell z < 1024 by omega)
    rw [expandBits_eq_spread _ (show morton_cell x < 1024 by omega)] at bx
    rw [expandBits_eq_spread _ (show morton_cell y < 1024 by omega)] at byy
    rw [expandBits_eq_spread _ (show morton_cell z < 1024 by omega)] at bz
    norm_num at bx byy bz ⊢
    omega

theorem morton_monotone_witness :
    morton_cell 0 ≤ morton_cell 1 ∧
    morton3D 0 0 0 ≤ morton3D 1 0 0 ∧ morton3D 0 0 0 ≤ morton3D 0 1 0 ∧
    morton3D 0 0 0 ≤ morton3D 0 0 1 ∧
    (∀ x x1 : ℚ, x ≤ x1 → morton_cell x ≤ morton_cell x1) ∧
    morton3D 0 0 0 = 0 ∧ morton3D 1 1 1 = 0x3FFFFFFF ∧
    (∀ x y z : ℚ, morton_cell x = 1023 → morton_cell y = 1023 → morton_cell z = 1023 →
      morton3D x y z = 0x3FFFFFFF) ∧
    (∀ x y z : ℚ, morton3D x y z < 2 ^ 30) :=
  ⟨morton_cell_mono (by norm_num),
    morton_monotone 0 1 0 0 (morton_cell_mono (by norm_num))⟩

/-! ## The edge between two vertices -/

/-- The half-edges between two vertices, in either direction, are on one
edge. -/
theorem edge_of_pair_unique {m : mesh_t R} (ok : edges_ok m) (sm : simple m)
    {h h1 : halfedge_descriptor_t} {hd hd1 : halfedge_data_t} {a b : vertex_descriptor_t}
    (f : map_find m.m_halfedges h = some hd) (f1 : map_find m.m_halfedges h1 = some hd1)
    (d : halfedge_from_to m h a b ∨ halfedge_from_to m h b a)
    (d1 : halfedge_from_to m h1 a b ∨ halfedge_from_to m h1 b a) : hd.e = hd1.e := by
  have same : ∀ x y, halfedge_from_to m h x y → halfedge_from_to m h1 x y → hd.e = hd1.e := by
    intro x y p q
    have := sm.1 h h1 x y p q
    subst this
    rw [f] at f1
    simp only [Option.some.injEq] at f1
    rw [f1]
  have cross : ∀ x y, halfedge_from_to m h x y → halfedge_from_to m h1 y x → hd.e = hd1.e := by
    intro x y p q
    have back := from_to_opposite ok f p
    have e := sm.1 hd.o h1 y x back q
    obtain ⟨_, ⟨od, a1, _, a3⟩, _, _⟩ := ok.hprop h hd f
    rw [e, f1] at a1
    simp only [Option.some.injEq] at a1
    rw [a1, a3]
  rcases d with d | d <;> rcases d1 with d1 | d1
  · exact same a b d d1
  · exact cross a b d d1
  · exact cross b a d d1
  · exact same b a d d1

/-- The result of `edge(s, t, c)` on two distinct stored vertices: null when
no half-edge leads from `s` to `t`, and otherwise the edge of a half-edge
between the two. -/
theorem edge_vv_run {m : mesh_t R} (ok : edges_ok m) {s t : vertex_descriptor_t}
    (hs : (map_find m.m_vertices s).isSome) (ht : (map_find m.m_vertices t).isSome)
    (hne : s ≠ t) (c : Bool) :
    ∃ r, edge_vv m s t c = Except.ok r ∧
      ((r = null_edge ∧ ¬ connected m s t) ∨
       (∃ h hd, map_find m.m_halfedges h = some hd ∧ hd.e = r ∧ r ≠ null_edge ∧
          (halfedge_from_to m h s t ∨ halfedge_from_to m h t s))) := by
  have found : ∀ h hd, map_find m.m_halfedges h = some hd →
      edge m h = Except.ok hd.e ∧ h ≠ null_halfedge ∧ hd.e ≠ null_edge := by
    intro h hd hf
    obtain ⟨_, _, _, ⟨ed, a3, _⟩⟩ := ok.hprop h hd hf
    exact ⟨edge_eq_ok.2 ⟨key_ne_null ok.dh hf, hd, hf, rfl⟩, key_ne_null ok.dh hf,
      key_ne_null ok.de a3⟩
  cases c with
  | true =>
    obtain ⟨r, h1, h2⟩ := halfedge_vv_strict_run ok hs ht hne
    rcases h2 with ⟨q1, q2⟩ | q
    · refine ⟨null_edge, ?_, Or.inl ⟨rfl, q2⟩⟩
      unfold edge_vv
      rw [h1, except_bind_ok, if_pos q1]
      rfl
    · obtain ⟨hd, od, q1, q2, q3, q4⟩ := q
      obtain ⟨e1, e2, e3⟩ := found r hd q1
      refine ⟨hd.e, ?_, Or.inr ⟨r, hd, q1, rfl, e3, Or.inl ⟨hd, od, q1, q2, q3, q4⟩⟩⟩
      unfold edge_vv
      rw [h1, except_bind_ok, if_neg e2]
      exact e1
  | false =>
    obtain ⟨r, h1, h2⟩ := halfedge_vv_lax_run ok hs ht hne
    rcases h2 with ⟨q1, q2⟩ | ⟨i, id, od, q1, q2, q3, q4⟩
    · refine ⟨null_edge, ?_, Or.inl ⟨rfl, q2⟩⟩
      unfold edge_vv
      rw [h1, except_bind_ok, if_pos q1]
      rfl
    · rcases q4 with ⟨_, rfl⟩ | ⟨_, rfl⟩
      · obtain ⟨e1, e2, e3⟩ := found id.o od q2
        refine ⟨od.e, ?_, Or.inr ⟨id.o, od, q2, rfl, e3, Or.inl q3⟩⟩
        unfold edge_vv
        rw [h1, except_bind_ok, if_neg e2]
        exact e1
      · obtain ⟨e1, e2, e3⟩ := found r id q1
        have back := from_to_opposite ok q2 q3
        obtain ⟨_, ⟨od1, a1, a2, _⟩, _, _⟩ := ok.hprop r id q1
        rw [q2] at a1
        simp only [Option.some.injEq] at a1
        subst a1
        rw [a2] at back
        refine ⟨id.e, ?_, Or.inr ⟨r, id, q1, rfl, e3, Or.inr back⟩⟩
        unfold edge_vv
        rw [h1, except_bind_ok, if_neg e2]
        exact e1

/-- C29. In a mesh built by `add_vertex`/`add_face`, for stored vertices
`s != t` and any two values `c`, `c1` of the flag, `edge(s, t, c)` and
`edge(t, s, c1)` return the same edge, which is null exactly when no edge
joins `s` and `t`. -/
theorem edge_lookup_symmetric (m : mesh_t R) (hm : Built m) (s t : vertex_descriptor_t)
    (hs : map_count m.m_vertices s = 1) (ht : map_count m.m_vertices t = 1) (hne : s ≠ t)
    (c c1 : Bool) :
    ∃ e, edge_vv m s t c = Except.ok e ∧ edge_vv m t s c1 = Except.ok e ∧
      (e = null_edge ↔ ¬ ∃ e1, edge_joins m e1 s t) := by
  obtain ⟨ok, _⟩ := reachable_ok (built_reachable hm)
  have sm := built_simple hm
  have hs1 : (map_find m.m_vertices s).isSome = true := by
    rw [← map_count_eq_one]; simp [hs]
  have ht1 : (map_find m.m_vertices t).isSome = true := by
    rw [← map_count_eq_one]; simp [ht]
  obtain ⟨r, h1, h2⟩ := edge_vv_run ok hs1 ht1 hne c
  obtain ⟨r1, g1, g2⟩ := edge_vv_run ok ht1 hs1 (fun x => hne x.symm) c1
  have conn : ∀ h, (halfedge_from_to m h s t ∨ halfedge_from_to m h t s) → connected m s t := by
    intro h d
    rcases d with d | d
    · exact ⟨h, d⟩
    · exact connected_symm ok ⟨h, d⟩
  rcases h2 with ⟨q1, q2⟩ | ⟨h, hd, q1, q2, q3, q4⟩
  · rcases g2 with ⟨p1, _⟩ | ⟨k, kd, _, _, _, p4⟩
    · subst q1
      subst p1
      refine ⟨null_edge, h1, g1, ?_⟩
      constructor
      · intro _ hj
        exact q2 ((joined_iff_connected ok s t).1 hj)
      · intro _
        rfl
    · exact absurd (conn k p4.symm) q2
  · rcases g2 with ⟨_, p2⟩ | ⟨k, kd, p1, p2, _, p4⟩
    · exact absurd (connected_symm ok (conn h q4)) p2
    · have e := edge_of_pair_unique ok sm q1 p1 q4 p4.symm
      rw [q2, p2] at e
      subst e
      refine ⟨r, h1, g1, ?_⟩
      constructor
      · intro x
        exact absurd x q3
      · intro nj
        exact absurd ((joined_iff_connected ok s t).2 (conn h q4)) nj

theorem edge_lookup_symmetric_witness :
    Built mesh_triangle ∧ map_count mesh_triangle.m_vertices (some 1) = 1 ∧
    map_count mesh_triangle.m_vertices (some 0) = 1 ∧ (some 1 : vertex_descriptor_t) ≠ some 0 ∧
    ∃ e, edge_vv mesh_triangle (some 1) (some 0) false = Except.ok e ∧
      edge_vv mesh_triangle (some 0) (some 1) true = Except.ok e ∧
      (e = null_edge ↔ ¬ ∃ e1, edge_joins mesh_triangle e1 (some 1) (some 0)) :=
  ⟨built_triangle, by decide!, by decide!, by decide,
    edge_lookup_symmetric mesh_triangle built_triangle (some 1) (some 0) (by decide!) (by decide!)
      (by decide) false true⟩

/-- On the triangle, the four lookups of the edge between the vertices 0
and 1 return the edge 0. -/
theorem triangle_edge_lookup :
    edge_vv mesh_triangle (some 0) (some 1) true = Except.ok (some 0) ∧
    edge_vv mesh_triangle (some 0) (some 1) false = Except.ok (some 0) ∧
    edge_vv mesh_triangle (some 1) (some 0) true = Except.ok (some 0) ∧
    edge_vv mesh_triangle (some 1) (some 0) false = Except.ok (some 0) := by
  decide!

/-! ## Where a traversal starts -/

theorem descriptor_lt_irrefl (k : descriptor_t) : descriptor_lt k k = false := by
  cases k <;> simp [descriptor_lt]

theorem descriptor_lt_asymm {a b : descriptor_t} (h : descriptor_lt a b = true) :
    descriptor_lt b a = false := by
  cases a <;> cases b <;> simp [descriptor_lt] at h ⊢
  omega

theorem map_find_mem {D : Type} {mp : map_t D} {k : descriptor_t} {d : D}
    (h : map_find mp k = some d) : (k, d) ∈ mp := by
  induction mp with
  | nil => simp [map_find] at h
  | cons kv rest ih =>
    simp only [map_find] at h
    split at h
    · rename_i e
      simp only [Option.some.injEq] at h
      subst h
      subst e
      exact List.mem_cons_self _ _
    · exact List.mem_cons_of_mem _ (ih h)

theorem map_find_of_mem {D : Type} {mp : map_t D} {kv : descriptor_t × D} (h : kv ∈ mp) :
    (map_find mp kv.1).isSome := by
  induction mp with
  | nil => simp at h
  | cons a rest ih =>
    simp only [map_find]
    split
    · rfl
    · rcases List.mem_cons.1 h with e | e
      · subst e
        rename_i c
        exact absurd rfl c
      · exact ih e

/-- The lookup of the key of a stored pair in a map with keys in order. -/
theorem map_find_sorted {D : Type} {pre rest : map_t D} {kv : descriptor_t × D}
    (hs : map_sorted (pre ++ kv :: rest)) : map_find (pre ++ kv :: rest) kv.1 = some kv.2 := by
  induction pre with
  | nil => simp [map_find]
  | cons a pre ih =>
    have hs1 : map_sorted (pre ++ kv :: rest) := (List.pairwise_cons.1 hs).2
    have lt : descriptor_lt a.1 kv.1 = true :=
      (List.pairwise_cons.1 hs).1 kv (List.mem_append_right _ (List.mem_cons_self _ _))
    have ne : a.1 ≠ kv.1 := by
      intro e
      rw [e, descriptor_lt_irrefl] at lt
      cases lt
    simp only [List.cons_append, map_find, if_neg ne]
    exact ih hs1

/-- The part of the map that `skip_removed` passes over holds removed keys
only, and the element it stops at is not removed. -/
theorem skip_removed_split {D : Type} (removed : List descriptor_t) (mp : map_t D) :
    ∃ pre, mp = pre ++ skip_removed removed mp ∧ (∀ kv, kv ∈ pre → kv.1 ∈ removed) ∧
      ∀ kv rest, skip_removed removed mp = kv :: rest → kv.1 ∉ removed := by
  induction mp with
  | nil => exact ⟨[], rfl, by simp, by simp [skip_removed]⟩
  | cons a rest ih =>
    obtain ⟨pre, e, p1, p2⟩ := ih
    by_cases c : a.1 ∈ removed
    · have s : skip_removed removed (a :: rest) = skip_removed removed rest := by
        simp [skip_removed, is_removed, c]
      rw [s]
      refine ⟨a :: pre, by rw [List.cons_append, ← e], ?_, p2⟩
      intro kv hkv
      rcases List.mem_cons.1 hkv with x | x
      · rw [x]; exact c
      · exact p1 kv x
    · have s : skip_removed removed (a :: rest) = a :: rest := by
        simp [skip_removed, is_removed, c]
      rw [s]
      refine ⟨[], rfl, by simp, ?_⟩
      intro kv r x
      simp only [List.cons.injEq] at x
      rw [← x.1]
      exact c

/-- The iterator that `skip_removed` returns is where a traversal starts. -/
theorem skip_removed_first_live {D : Type} (removed : List descriptor_t) (mp : map_t D)
    (hs : map_sorted mp) : first_live mp removed (skip_removed removed mp) := by
  obtain ⟨pre, e, p1, p2⟩ := skip_removed_split removed mp
  constructor
  · constructor
    · intro h k hk
      obtain ⟨d, hd⟩ := Option.isSome_iff_exists.mp hk
      have := map_find_mem hd
      rw [e, h, List.append_nil] at this
      exact p1 _ this
    · intro h
      cases hit : skip_removed removed mp with
      | nil => rfl
      | cons kv rest =>
        have mem : kv ∈ mp := by
          rw [e, hit]
          exact List.mem_append_right _ (List.mem_cons_self _ _)
        exact absurd (h kv.1 (map_find_of_mem mem)) (p2 kv rest hit)
  · intro kv rest hit
    rw [hit] at e
    have mem : kv ∈ mp := by
      rw [e]
      exact List.mem_append_right _ (List.mem_cons_self _ _)
    have found : map_find mp kv.1 = some kv.2 := by
      have := map_find_sorted (e ▸ hs)
      rw [← e] at this
      exact this
    refine ⟨⟨map_find_of_mem mem, p2 kv rest hit⟩, found, ?_⟩
    intro k hk
    obtain ⟨d, hd⟩ := Option.isSome_iff_exists.mp hk.1
    have km := map_find_mem hd
    rw [e] at km
    rcases List.mem_append.1 km with x | x
    · exact absurd (p1 _ x) hk.2
    · rcases List.mem_cons.1 x with y | y
      · rw [← y]
        exact descriptor_lt_irrefl k
      · have srt : map_sorted (kv :: rest) := by
          have : map_sorted (pre ++ kv :: rest) := e ▸ hs
          exact (List.pairwise_append.1 this).2.1
        exact descriptor_lt_asymm ((List.pairwise_cons.1 srt).1 (k, d) y)

theorem sorted_keys_nodup {D : Type} {mp : map_t D} (hs : map_sorted mp) :
    (mp.map (fun kv => kv.1)).Nodup := by
  unfold List.Nodup
  rw [List.pairwise_map]
  refine List.Pairwise.imp ?_ hs
  intro a b lt e
  rw [e, descriptor_lt_irrefl] at lt
  cases lt

theorem mem_keys_iff {D : Type} (mp : map_t D) (k : descriptor_t) :
    k ∈ mp.map (fun kv => kv.1) ↔ (map_find mp k).isSome := by
  constructor
  · intro h
    obtain ⟨kv, m1, rfl⟩ := List.mem_map.1 h
    exact map_find_of_mem m1
  · intro h
    obtain ⟨d, hd⟩ := Option.isSome_iff_exists.mp h
    exact List.mem_map.2 ⟨(k, d), map_find_mem hd, rfl⟩

/-- Every stored key is removed exactly when the list of removed keys is as
long as the map. -/
theorem all_removed_iff {D : Type} (mp : map_t D) (removed : List descriptor_t)
    (ok : storage_ok mp removed) :
    (∀ k, (map_find mp k).isSome → k ∈ removed) ↔ mp.length = removed.length := by
  obtain ⟨hs, nd, sub⟩ := ok
  have kn := sorted_keys_nodup hs
  have kl : (mp.map (fun kv => kv.1)).length = mp.length := List.length_map _ _
  have s1 : removed.Subperm (mp.map (fun kv => kv.1)) :=
    List.subperm_of_subset nd (fun k hk => (mem_keys_iff mp k).2 (sub k hk))
  have l1 := s1.length_le
  constructor
  · intro h
    have s2 : (mp.map (fun kv => kv.1)).Subperm removed :=
      List.subperm_of_subset kn (fun k hk => h k ((mem_keys_iff mp k).1 hk))
    have l2 := s2.length_le
    omega
  · intro h k hk
    have p := s1.perm_of_length_le (by omega)
    exact p.symm.subset ((mem_keys_iff mp k).2 hk)

/-- A traversal starts at its end exactly when the count of the category is
zero. -/
theorem begin_eq_end_iff {D : Type} (mp : map_t D) (removed : List descriptor_t)
    (ok : storage_ok mp removed) :
    skip_removed removed mp = [] ↔ (mp.length : Int) - (removed.length : Int) = 0 := by
  rw [(skip_removed_first_live removed mp ok.1).1, all_removed_iff mp removed ok]
  omega

/-- C28. In a mesh whose storage maps have their keys in order and whose
lists of removed descriptors have no duplicates and hold stored keys only,
for each of the vertices, edges, half-edges and faces: `X_begin()` equals
`X_end()` exactly when every stored element of the category is removed, which
is exactly when `number_of_X()` is 0; otherwise `X_begin()` is positioned on
a stored element that is not removed, and no stored element that is not
removed has a smaller descriptor. -/
theorem traversal_begins_at_first_live (m : mesh_t R) (ok : mesh_storage_ok m) :
    (first_live m.m_vertices m.m_vertices_removed (vertices_begin m) ∧
      (vertices_begin m = vertices_end m ↔ number_of_vertices m = 0)) ∧
    (first_live m.m_edges m.m_edges_removed (edges_begin m) ∧
      (edges_begin m = edges_end m ↔ number_of_edges m = 0)) ∧
    (first_live m.m_halfedges m.m_halfedges_removed (halfedges_begin m) ∧
      (halfedges_begin m = halfedges_end m ↔ number_of_halfedges m = 0)) ∧
    (first_live m.m_faces m.m_faces_removed (faces_begin m) ∧
      (faces_begin m = faces_end m ↔ number_of_faces m = 0)) := by
  obtain ⟨ov, oe, oh, of⟩ := ok
  exact ⟨⟨skip_removed_first_live _ _ ov.1, begin_eq_end_iff _ _ ov⟩,
    ⟨skip_removed_first_live _ _ oe.1, begin_eq_end_iff _ _ oe⟩,
    ⟨skip_removed_first_live _ _ oh.1, begin_eq_end_iff _ _ oh⟩,
    ⟨skip_removed_first_live _ _ of.1, begin_eq_end_iff _ _ of⟩⟩

theorem storage_ok_triangle_edge_removed : mesh_storage_ok mesh_triangle_edge_removed := by
  unfold mesh_storage_ok storage_ok map_sorted
  decide!

theorem traversal_begins_at_first_live_witness :
    mesh_storage_ok mesh_triangle_edge_removed ∧
    (first_live mesh_triangle_edge_removed.m_vertices
        mesh_triangle_edge_removed.m_vertices_removed
        (vertices_begin mesh_triangle_edge_removed) ∧
      (vertices_begin mesh_triangle_edge_removed = vertices_end mesh_triangle_edge_removed ↔
        number_of_vertices mesh_triangle_edge_removed = 0)) ∧
    (first_live mesh_triangle_edge_removed.m_edges mesh_triangle_edge_removed.m_edges_removed
        (edges_begin mesh_triangle_edge_removed) ∧
      (edges_begin mesh_triangle_edge_removed = edges_end mesh_triangle_edge_removed ↔
        number_of_edges mesh_triangle_edge_removed = 0)) ∧
    (first_live mesh_triangle_edge_removed.m_halfedges
        mesh_triangle_edge_removed.m_halfedges_removed
        (halfedges_begin mesh_triangle_edge_removed) ∧
      (halfedges_begin mesh_triangle_edge_removed = halfedges_end mesh_triangle_edge_removed ↔
        number_of_halfedges mesh_triangle_edge_removed = 0)) ∧
    (first_live mesh_triangle_edge_removed.m_faces mesh_triangle_edge_removed.m_faces_removed
        (faces_begin mesh_triangle_edge_removed) ∧
      (faces_begin mesh_triangle_edge_removed = faces_end mesh_triangle_edge_removed ↔
        number_of_faces mesh_triangle_edge_removed = 0)) :=
  ⟨storage_ok_triangle_edge_removed,
    traversal_begins_at_first_live mesh_triangle_edge_removed storage_ok_triangle_edge_removed⟩

/-- On the triangle whose face, edge 0 and half-edges 0 and 1 are removed,
the traversals start at the vertex 0, the edge 1 and the half-edge 2, and
the traversal of the faces starts at its end. -/
theorem triangle_edge_removed_begins :
    (vertices_begin mesh_triangle_edge_removed).head?.map (fun kv => kv.1) = some (some 0) ∧
    (edges_begin mesh_triangle_edge_removed).head?.map (fun kv => kv.1) = some (some 1) ∧
    (halfedges_begin mesh_triangle_edge_removed).head?.map (fun kv => kv.1) = some (some 2) ∧
    faces_begin mesh_triangle_edge_removed = faces_end mesh_triangle_edge_removed ∧
    number_of_faces mesh_triangle_edge_removed = 0 := by
  decide!

/-! ## Writing a mesh and reading it back -/

theorem read_int_failed (s : istream_t R) (v : Int) (h : s.fail = true) :
    read_int s v = (s, v) := by
  unfold read_int
  rw [if_pos h]

theorem read_int_empty (s : istream_t R) (v : Int) (h : s.rest = []) :
    (read_int s v).1.fail = true ∧ (read_int s v).2 = v := by
  unfold read_int
  by_cases c : s.fail = true
  · rw [if_pos c]
    exact ⟨c, rfl⟩
  · rw [if_neg c, h]
    exact ⟨rfl, rfl⟩

/-- Once the stream `info_stream` has no token left, the loop that fills the
vector `face` extracts nothing: every entry is `vmap[index]` for the value
that `index` had before the loop. -/
theorem read_off_face_exhausted (vmap : vmap_t) (n : Nat) :
    ∀ (s : istream_t R) (index : Int), s.fail = true ∨ s.rest = [] →
      (read_off_face vmap n s index).2 = List.replicate n (vmap_at vmap index) := by
  induction n with
  | zero =>
    intro s index _
    rfl
  | succ n ih =>
    intro s index h
    have step : (read_int s index).1.fail = true ∧ (read_int s index).2 = index := by
      rcases h with h | h
      · rw [read_int_failed s index h]
        exact ⟨h, rfl⟩
      · exact read_int_empty s index h
    simp only [read_off_face, List.replicate_succ]
    rw [ih (read_int s index).1 (read_int s index).2 (Or.inl step.1), step.2]

theorem vmap_at_three (index : Int) :
    vmap_at [(0, some 0), (1, some 1), (2, some 2)] index = some 0 ∨
    vmap_at [(0, some 0), (1, some 1), (2, some 2)] index = some 1 ∨
    vmap_at [(0, some 0), (1, some 1), (2, some 2)] index = some 2 ∨
    vmap_at [(0, some 0), (1, some 1), (2, some 2)] index = null_vertex := by
  by_cases c0 : index = 0
  · subst c0
    exact Or.inl rfl
  · by_cases c1 : index = 1
    · subst c1
      exact Or.inr (Or.inl rfl)
    · by_cases c2 : index = 2
      · subst c2
        exact Or.inr (Or.inr (Or.inl rfl))
      · right; right; right
        have b0 : ((0 : Int) == index) = false := beq_false_of_ne (fun e => c0 e.symm)
        have b1 : ((1 : Int) == index) = false := beq_false_of_ne (fun e => c1 e.symm)
        have b2 : ((2 : Int) == index) = false := beq_false_of_ne (fun e => c2 e.symm)
        simp only [vmap_at, List.find?, b0, b1, b2]

/-- The vector of one descriptor three times is no face of the mesh of the
three vertices: `add_face` stops at an assertion and stores no face. -/
theorem add_face_of_copies (d : vertex_descriptor_t)
    (h : d = some 0 ∨ d = some 1 ∨ d = some 2 ∨ d = null_vertex) :
    (add_face (List.replicate 3 d) mesh_three_vertices).1 =
      Except.error error.assertion_failed ∧
    number_of_faces (add_face (List.replicate 3 d) mesh_three_vertices).2 = 0 ∧
    number_of_vertices (add_face (List.replicate 3 d) mesh_three_vertices).2 = 3 := by
  rcases h with rfl | rfl | rfl | rfl <;> decide!

/-- The call of `read_off` on the text of the triangle, up to the call of
`add_face`. -/
theorem read_off_triangle (junk junk_real : Int) :
    read_off junk junk_real triangle_text (mesh_t.empty Int) =
      match add_face (read_off_face [(0, some 0), (1, some 1), (2, some 2)] 3
          ({ rest := [], fail := false } : istream_t Int) junk).2 mesh_three_vertices with
      | (Except.ok _, m1) => (Except.ok (), m1)
      | (Except.error e, m1) => (Except.error (off_error.stopped e), m1) := by
  have v0 : add_vertex 0 0 0 (mesh_t.empty Int) = (Except.ok (some 0), mesh_one_vertex) := by
    decide!
  have v1 : add_vertex 1 0 0 mesh_one_vertex = (Except.ok (some 1), mesh_two_vertices) := by
    decide!
  have v2 : add_vertex 0 1 0 mesh_two_vertices = (Except.ok (some 2), mesh_three_vertices) := by
    decide!
  simp [read_off, triangle_text, next_line, line_skipped, is_off_header, stream_of, read_int,
    read_double, read_off_vertices, read_off_faces, vmap_set, v0, v1, v2]
  generalize add_face (read_off_face [(0, some 0), (1, some 1), (2, some 2)] 3
    ({ rest := [], fail := false } : istream_t Int) junk).2 mesh_three_vertices = res
  rcases res with ⟨_ | _, m1⟩ <;> rfl

/-- C24, at the failing input. The text that `write_off` writes for the
triangle is `triangle_text`; its face line lists the vertices 1, 2, 0 that
`get_vertices_around_face` reports. Whatever value the uninitialised local
`index` of `read_off` holds, reading the text back does not return: the
vector given to `add_face` is one descriptor three times, `add_face` stops at
an assertion, and the mesh read has the three vertices and no face, while
the triangle has one face. -/
theorem read_off_loses_the_faces :
    write_off id mesh_triangle = Except.ok triangle_text ∧
    get_vertices_around_face mesh_triangle (some 0) = Except.ok [some 1, some 2, some 0] ∧
    number_of_faces mesh_triangle = 1 ∧
    ∀ junk junk_real : Int, ∃ m1,
      read_off junk junk_real triangle_text (mesh_t.empty Int) =
        (Except.error (off_error.stopped error.assertion_failed), m1) ∧
      number_of_faces m1 = 0 ∧ number_of_vertices m1 = 3 := by
  refine ⟨by decide!, by decide!, by decide!, ?_⟩
  intro junk junk_real
  rw [read_off_triangle junk junk_real,
    read_off_face_exhausted _ 3 _ junk (Or.inr rfl)]
  obtain ⟨a1, a2, a3⟩ := add_face_of_copies _ (vmap_at_three junk)
  generalize add_face (List.replicate 3 (vmap_at [(0, some 0), (1, some 1), (2, some 2)] junk))
    mesh_three_vertices = res at a1 a2 a3
  rcases res with ⟨r, m1⟩
  simp only at a1 a2 a3
  subst a1
  exact ⟨m1, rfl, a2, a3⟩

/-! ## At most one edge between two vertices -/

/-- The primary half-edge of an edge leads from the end 1 to the end 0. -/
theorem edge_ends_halfedge {m : mesh_t R} {e : edge_descriptor_t} {a b : vertex_descriptor_t}
    (h0 : vertex m e 0 = Except.ok a) (h1 : vertex m e 1 = Except.ok b) :
    ∃ ed hd, map_find m.m_edges e = some ed ∧ map_find m.m_halfedges ed.h = some hd ∧
      halfedge_from_to m ed.h b a := by
  obtain ⟨_, ed, hd, q1, q2, q3⟩ := vertex_zero_eq_ok.1 h0
  obtain ⟨_, ed1, hd1, od, r1, r2, r3, r4⟩ := vertex_one_eq_ok.1 h1
  rw [q1] at r1
  simp only [Option.some.injEq] at r1
  subst r1
  rw [q2] at r2
  simp only [Option.some.injEq] at r2
  subst r2
  exact ⟨ed, hd, q1, q2, hd, od, q2, q3, r3, r4⟩

theorem edge_joins_halfedge {m : mesh_t R} {e : edge_descriptor_t} {a b : vertex_descriptor_t}
    (j : edge_joins m e a b) :
    ∃ ed hd, map_find m.m_edges e = some ed ∧ map_find m.m_halfedges ed.h = some hd ∧
      (halfedge_from_to m ed.h a b ∨ halfedge_from_to m ed.h b a) := by
  rcases j with ⟨h0, h1⟩ | ⟨h0, h1⟩
  · obtain ⟨ed, hd, q1, q2, q3⟩ := edge_ends_halfedge h0 h1
    exact ⟨ed, hd, q1, q2, Or.inr q3⟩
  · obtain ⟨ed, hd, q1, q2, q3⟩ := edge_ends_halfedge h0 h1
    exact ⟨ed, hd, q1, q2, Or.inl q3⟩

/-- C31, amended. In a mesh built from the empty mesh by calls of
`add_vertex` and of `add_face` on pairwise distinct vertices, two edges that
join the same two vertices, in either order of their ends, are one edge, and
no edge has its two ends `vertex(e, 0)` and `vertex(e, 1)` equal. -/
theorem at_most_one_edge (m : mesh_t R) (hm : Built m) :
    (∀ e1 e2 a b, edge_joins m e1 a b → edge_joins m e2 a b → e1 = e2) ∧
    (∀ e a b, vertex m e 0 = Except.ok a → vertex m e 1 = Except.ok b → a ≠ b) := by
  obtain ⟨ok, _⟩ := reachable_ok (built_reachable hm)
  have sm := built_simple hm
  constructor
  · intro e1 e2 a b j1 j2
    obtain ⟨ed1, hd1, p1, p2, p3⟩ := edge_joins_halfedge j1
    obtain ⟨ed2, hd2, q1, q2, q3⟩ := edge_joins_halfedge j2
    have e := edge_of_pair_unique ok sm p2 q2 p3 q3
    obtain ⟨x1, y1, z1⟩ := ok.eprop e1 ed1 p1
    obtain ⟨x2, y2, z2⟩ := ok.eprop e2 ed2 q1
    rw [p2] at y1
    rw [q2] at y2
    simp only [Option.some.injEq] at y1 y2
    subst y1
    subst y2
    rw [← z1, ← z2]
    exact e
  · intro e a b h0 h1 c
    subst c
    obtain ⟨ed, hd, _, _, q3⟩ := edge_ends_halfedge h0 h1
    exact sm.2 ed.h a q3

theorem at_most_one_edge_witness :
    Built mesh_triangle ∧
    (∀ e1 e2 a b, edge_joins mesh_triangle e1 a b → edge_joins mesh_triangle e2 a b → e1 = e2) ∧
    (∀ e a b, vertex mesh_triangle e 0 = Except.ok a → vertex mesh_triangle e 1 = Except.ok b →
      a ≠ b) :=
  ⟨built_triangle, at_most_one_edge mesh_triangle built_triangle⟩

/-- The ends of the three edges of the triangle. -/
theorem triangle_edge_ends :
    vertex mesh_triangle (some 0) 0 = Except.ok (some 1) ∧
    vertex mesh_triangle (some 0) 1 = Except.ok (some 0) ∧
    vertex mesh_triangle (some 1) 0 = Except.ok (some 2) ∧
    vertex mesh_triangle (some 1) 1 = Except.ok (some 1) ∧
    vertex mesh_triangle (some 2) 0 = Except.ok (some 0) ∧
    vertex mesh_triangle (some 2) 1 = Except.ok (some 2) := by
  decide!

/-- C31, as stated, fails: after three calls of `add_vertex` on the empty
mesh, the call `add_face([0, 0, 1])`, whose list repeats the vertex 0,
returns a face; the mesh it leaves has the edge 0 with both ends
`vertex(0, 0)` and `vertex(0, 1)` equal to the vertex 0. -/
theorem add_face_repeated_vertex_makes_loop :
    ∃ (m1 m2 m3 m4 : mesh_t Int) (f : face_descriptor_t),
      add_vertex 0 0 0 (mesh_t.empty Int) = (Except.ok (some 0), m1) ∧
      add_vertex 1 0 0 m1 = (Except.ok (some 1), m2) ∧
      add_vertex 0 1 0 m2 = (Except.ok (some 2), m3) ∧
      add_face [some 0, some 0, some 1] m3 = (Except.ok f, m4) ∧
      vertex m4 (some 0) 0 = Except.ok (some 0) ∧ vertex m4 (some 0) 1 = Except.ok (some 0) := by
  refine ⟨mesh_one_vertex, mesh_two_vertices, mesh_three_vertices,
    (add_face [some 0, some 0, some 1] mesh_three_vertices).2, some 0, ?_, ?_, ?_, ?_, ?_, ?_⟩ <;>
    decide!

/-! ## The state of the slots is kept by the creation calls -/

theorem free_list_ok_nil {D : Type} (mp : map_t D) : free_list_ok mp [] :=
  ⟨List.nodup_nil, fun _ hk => by cases hk⟩

theorem free_list_ok_tail {D : Type} {mp : map_t D} {a : descriptor_t}
    {rest : List descriptor_t} (h : free_list_ok mp (a :: rest)) : free_list_ok mp rest :=
  ⟨(List.nodup_cons.1 h.1).2, fun k hk => h.2 k (List.mem_cons_of_mem _ hk)⟩

theorem free_list_ok_dropLast {D : Type} {mp : map_t D} {l : List descriptor_t}
    (h : free_list_ok mp l) : free_list_ok mp l.dropLast :=
  ⟨h.1.sublist (List.dropLast_sublist l), fun k hk => h.2 k (List.mem_of_mem_dropLast hk)⟩

theorem free_list_ok_keys {D : Type} {mp mp1 : map_t D} {l : List descriptor_t}
    (hk : ∀ k, (map_find mp k).isSome → (map_find mp1 k).isSome) (h : free_list_ok mp l) :
    free_list_ok mp1 l :=
  ⟨h.1, fun k hm => hk k (h.2 k hm)⟩

theorem free_list_ok_modify {D : Type} {mp : map_t D} {l : List descriptor_t}
    (k : descriptor_t) (f : D → D) (h : free_list_ok mp l) :
    free_list_ok (map_modify mp k f) l :=
  free_list_ok_keys (fun k1 hs => by rw [map_find_modify_isSome]; exact hs) h

theorem free_list_ok_insert {D : Type} {mp : map_t D} {l : List descriptor_t}
    {k : descriptor_t} (d : D) (hn : map_find mp k = none) (h : free_list_ok mp l) :
    free_list_ok (map_insert_sorted k d mp) l :=
  free_list_ok_keys (fun k1 hs => by
    rw [map_find_insert_sorted mp k d hn]
    split
    · rfl
    · exact hs) h

theorem dense_same {D : Type} {mp mp1 : map_t D} (h : dense mp)
    (hk : ∀ k, (map_find mp1 k).isSome = (map_find mp k).isSome)
    (hl : mp1.length = mp.length) : dense mp1 := by
  intro k
  rw [hk k, hl]
  exact h k

theorem same_keys_refl (m : mesh_t R) : same_keys m m :=
  ⟨fun _ => rfl, fun _ => rfl, fun _ => rfl, fun _ => rfl, rfl, rfl, rfl, rfl, rfl, rfl, rfl,
    rfl⟩

theorem slots_ok_same_keys {m m1 : mesh_t R} (s : same_keys m m1) (ok : slots_ok m) :
    slots_ok m1 := by
  refine ⟨dense_same ok.dv s.v s.vl, dense_same ok.de s.e s.el, dense_same ok.dh s.h s.hl,
    dense_same ok.df s.f s.fl, ?_, ?_, ?_, ?_⟩
  · rw [s.vr]
    exact free_list_ok_keys (fun k hk => by rw [s.v]; exact hk) ok.fv
  · rw [s.er]
    exact free_list_ok_keys (fun k hk => by rw [s.e]; exact hk) ok.fe
  · rw [s.hr]
    exact free_list_ok_keys (fun k hk => by rw [s.h]; exact hk) ok.fh
  · rw [s.fr]
    exact free_list_ok_keys (fun k hk => by rw [s.f]; exact hk) ok.ff

theorem same_keys_add_edge_write (m : mesh_t R) (v0 v1 : vertex_descriptor_t)
    (h0 h1 : halfedge_descriptor_t) (e : edge_descriptor_t) :
    same_keys m (add_edge_write m v0 v1 h0 h1 e) := by
  refine ⟨?_, ?_, ?_, fun _ => rfl, ?_, ?_, ?_, rfl, rfl, rfl, rfl, rfl⟩
  · intro k
    simp only [add_edge_write, map_find_modify_isSome]
  · intro k
    simp only [add_edge_write, map_find_modify_isSome]
  · intro k
    simp only [add_edge_write, map_find_modify_isSome]
  · simp only [add_edge_write, map_modify_length]
  · simp only [add_edge_write, map_modify_length]
  · simp only [add_edge_write, map_modify_length]

theorem same_keys_bind_face (m : mesh_t R) (h : halfedge_descriptor_t) (f : face_descriptor_t) :
    same_keys m (bind_face m h f) := by
  refine ⟨fun _ => rfl, fun _ => rfl, ?_, fun _ => rfl, rfl, rfl, ?_, rfl, rfl, rfl, rfl, rfl⟩
  · intro k
    simp only [bind_face, map_find_modify_isSome]
  · simp only [bind_face, map_modify_length]

theorem same_keys_face_push (m : mesh_t R) (f : face_descriptor_t) (reusing : Bool)
    (fd : face_data_t) : same_keys m (face_push m f reusing fd) := by
  cases reusing with
  | false => exact same_keys_refl m
  | true =>
    refine ⟨fun _ => rfl, fun _ => rfl, fun _ => rfl, ?_, rfl, rfl, rfl, ?_, rfl, rfl, rfl, rfl⟩
    · intro k
      simp only [face_push, if_true, map_find_modify_isSome]
    · simp only [face_push, if_true, map_modify_length]

theorem same_keys_link_next (m : mesh_t R) (a b : halfedge_descriptor_t) :
    same_keys m (link_next m a b) := by
  refine ⟨fun _ => rfl, fun _ => rfl, ?_, fun _ => rfl, rfl, rfl, ?_, rfl, rfl, rfl, rfl, rfl⟩
  · intro k
    simp only [link_next, map_find_modify_isSome]
  · simp only [link_next, map_modify_length]

theorem count_zero_of_fresh {D : Type} {mp : map_t D} (h : dense mp) :
    map_count mp (some mp.length) = 0 := by
  unfold map_count
  rw [dense_fresh h]
  rfl

/-! ### `add_vertex` -/

theorem slots_ok_add_vertex {m m1 : mesh_t R} (ok : slots_ok m) {x y z : R}
    {v : vertex_descriptor_t} (hrun : add_vertex x y z m = (Except.ok v, m1)) : slots_ok m1 := by
  rcases add_vertex_inv hrun with ⟨rest, q1, _, _, rfl⟩ | ⟨q1, _, _, _⟩
  · refine ⟨?_, ok.de, ok.dh, ok.df, ?_, ok.fe, ok.fh, ok.ff⟩
    · exact dense_modify ok.dv v (fun d => { d with p := { x := x, y := y, z := z } })
    · have := ok.fv
      rw [q1] at this
      exact free_list_ok_modify v (fun d => { d with p := { x := x, y := y, z := z } })
        (free_list_ok_tail this)
  · rw [add_vertex_run m x y z q1 ok.dv] at hrun
    simp only [Prod.mk.injEq, Except.ok.injEq] at hrun
    rw [← hrun.2]
    refine ⟨?_, ok.de, ok.dh, ok.df, ?_, ok.fe, ok.fh, ok.ff⟩
    · exact dense_insert ok.dv _
    · show free_list_ok _ m.m_vertices_removed
      rw [q1]
      exact free_list_ok_nil _

/-! ### The slots of `add_edge` -/

theorem slots_ok_h0 {m ma : mesh_t R} (ok : slots_ok m) {h : halfedge_descriptor_t}
    (hrun : add_edge_h0 m = (Except.ok h, ma)) : slots_ok ma := by
  rcases add_edge_h0_inv hrun with ⟨rest, q1, _, rfl⟩ | ⟨q1, _, _, _⟩
  · refine ⟨ok.dv, ok.de, ok.dh, ok.df, ok.fv, ok.fe, ?_, ok.ff⟩
    have := ok.fh
    rw [q1] at this
    exact free_list_ok_tail this
  · rw [add_edge_h0_run m q1 ok.dh] at hrun
    simp only [Prod.mk.injEq, Except.ok.injEq] at hrun
    rw [← hrun.2]
    refine ⟨ok.dv, ok.de, ?_, ok.df, ok.fv, ok.fe, ?_, ok.ff⟩
    · exact dense_insert ok.dh _
    · show free_list_ok _ m.m_halfedges_removed
      rw [q1]
      exact free_list_ok_nil _

theorem slots_ok_h1 {m ma : mesh_t R} (ok : slots_ok m) {h : halfedge_descriptor_t}
    (hrun : add_edge_h1 m = (Except.ok h, ma)) : slots_ok ma := by
  rcases add_edge_h1_inv hrun with ⟨_, _, rfl⟩ | ⟨q1, _, _, _⟩
  · exact ⟨ok.dv, ok.de, ok.dh, ok.df, ok.fv, ok.fe, free_list_ok_dropLast ok.fh, ok.ff⟩
  · rw [add_edge_h1_run m q1 ok.dh] at hrun
    simp only [Prod.mk.injEq, Except.ok.injEq] at hrun
    rw [← hrun.2]
    refine ⟨ok.dv, ok.de, ?_, ok.df, ok.fv, ok.fe, ?_, ok.ff⟩
    · exact dense_insert ok.dh _
    · show free_list_ok _ m.m_halfedges_removed
      rw [q1]
      exact free_list_ok_nil _

theorem slots_ok_e {m ma : mesh_t R} (ok : slots_ok m) {e : edge_descriptor_t}
    (hrun : add_edge_e m = (Except.ok e, ma)) : slots_ok ma := by
  rcases add_edge_e_inv hrun with ⟨rest, q1, _, rfl⟩ | ⟨q1, _, _, _⟩
  · refine ⟨ok.dv, ok.de, ok.dh, ok.df, ok.fv, ?_, ok.fh, ok.ff⟩
    have := ok.fe
    rw [q1] at this
    exact free_list_ok_tail this
  · rw [add_edge_e_run m q1 ok.de] at hrun
    simp only [Prod.mk.injEq, Except.ok.injEq] at hrun
    rw [← hrun.2]
    refine ⟨ok.dv, ?_, ok.dh, ok.df, ok.fv, ?_, ok.fh, ok.ff⟩
    · exact dense_insert ok.de _
    · show free_list_ok _ m.m_edges_removed
      rw [q1]
      exact free_list_ok_nil _

theorem slots_ok_add_edge {m m1 : mesh_t R} (ok : slots_ok m) {v0 v1 : vertex_descriptor_t}
    {h : halfedge_descriptor_t} (hrun : add_edge v0 v1 m = (Except.ok h, m1)) : slots_ok m1 := by
  obtain ⟨ma, h1, mb, e, mc, r0, r1, r2, _, _, _, _, rfl⟩ := add_edge_inv_any hrun
  exact slots_ok_same_keys (same_keys_add_edge_write mc v0 v1 h h1 e)
    (slots_ok_e (slots_ok_h1 (slots_ok_h0 ok r0) r1) r2)

/-! ## Fresh descriptors -/

/-- A call of `add_face` that returns keeps the state of the slots. -/
theorem slots_ok_add_face {m m1 : mesh_t R} (ok : slots_ok m) {vi : List vertex_descriptor_t}
    {f : face_descriptor_t} (hrun : add_face vi m = (Except.ok f, m1)) : slots_ok m1 := by
  obtain ⟨_, reusing, ma, fd, mb, mc, hslot, hloop, hstore, hlink⟩ := add_face_inv_any hrun
  have oka : slots_ok ma ∧ (reusing = false →
      ma = m ∧ m.m_faces_removed = [] ∧ f = descriptor_of_count (number_of_faces m)) := by
    rcases add_face_slot_inv hslot with ⟨rest, s1, rfl, _, rfl⟩ | ⟨s1, rfl, s3, hma⟩
    · refine ⟨⟨ok.dv, ok.de, ok.dh, ?_, ok.fv, ok.fe, ok.fh, ?_⟩, fun c => by cases c⟩
      · exact dense_modify ok.df f (fun _ => { m_halfedges := [] })
      · have := ok.ff
        rw [s1] at this
        exact free_list_ok_modify f (fun _ => { m_halfedges := [] }) (free_list_ok_tail this)
    · rw [hma]
      exact ⟨ok, fun _ => ⟨rfl, s1, s3⟩⟩
  have okb : slots_ok mb := by
    have h1 := add_face_loop_induct (fun (_ : Nat) mx (_ : face_data_t) => slots_ok mx)
      (fun k mx mx1 fx fx1 hp hs => by
        obtain ⟨v0, v1, h, me, hcase, _, rfl, rfl⟩ := add_face_step_inv_any hs
        have okme : slots_ok me := by
          rcases hcase with rfl | hadd
          · exact hp
          · exact slots_ok_add_edge hp hadd
        exact slots_ok_same_keys (same_keys_bind_face _ _ _)
          (slots_ok_same_keys (same_keys_face_push _ _ _ _) okme))
      vi.length 0 ma mb face_data_new fd oka.1 hloop
    exact h1
  obtain ⟨_, _, _, l4, l5, _⟩ := add_face_loop_kept (kept_refl ma) hloop
  have okc : slots_ok mc := by
    rcases add_face_store_inv_any hstore with ⟨_, rfl⟩ | ⟨c, _, rfl⟩
    · exact okb
    · obtain ⟨e1, e2, e3⟩ := oka.2 c
      subst e1
      have hf : f = some mb.m_faces.length := by
        rw [e3, l4]
        simp [number_of_faces, number_of_internal_faces, number_of_faces_removed, e2,
          descriptor_of_count]
      refine ⟨okb.dv, okb.de, okb.dh, ?_, okb.fv, okb.fe, okb.fh, ?_⟩
      · show dense (map_insert_sorted f fd mb.m_faces)
        rw [hf]
        exact dense_insert okb.df fd
      · show free_list_ok (map_insert_sorted f fd mb.m_faces) mb.m_faces_removed
        rw [l5, e2]
        exact free_list_ok_nil _
  have h2 := add_face_link_induct fd.m_halfedges (fun (_ : Nat) mx => slots_ok mx)
    (fun k mx a b hp _ _ => slots_ok_same_keys (same_keys_link_next mx a b) hp)
    fd.m_halfedges.length 0 mc m1 () okc hlink
  exact h2

/-! ### The slots of `add_edge` are always found -/

theorem add_edge_h0_returns {m : mesh_t R} (ok : slots_ok m) :
    ∃ h ma, add_edge_h0 m = (Except.ok h, ma) := by
  cases hr : m.m_halfedges_removed with
  | nil => exact ⟨_, _, add_edge_h0_run m hr ok.dh⟩
  | cons a rest =>
    have st := ok.fh.2 a (by rw [hr]; exact List.mem_cons_self _ _)
    obtain ⟨d, hd⟩ := Option.isSome_iff_exists.mp st
    refine ⟨a, { m with m_halfedges_removed := rest }, ?_⟩
    unfold add_edge_h0
    simp [hr, hd]

theorem add_edge_h1_returns {m : mesh_t R} (ok : slots_ok m) :
    ∃ h ma, add_edge_h1 m = (Except.ok h, ma) := by
  cases hl : m.m_halfedges_removed.getLast? with
  | none =>
    exact ⟨_, _, add_edge_h1_run m (List.getLast?_eq_none_iff.1 hl) ok.dh⟩
  | some a =>
    have st := ok.fh.2 a (List.mem_of_getLast?_eq_some hl)
    obtain ⟨d, hd⟩ := Option.isSome_iff_exists.mp st
    refine ⟨a, { m with m_halfedges_removed := m.m_halfedges_removed.dropLast }, ?_⟩
    unfold add_edge_h1
    simp [hl, hd]

theorem add_edge_e_returns {m : mesh_t R} (ok : slots_ok m) :
    ∃ e ma, add_edge_e m = (Except.ok e, ma) := by
  cases hr : m.m_edges_removed with
  | nil => exact ⟨_, _, add_edge_e_run m hr ok.de⟩
  | cons a rest =>
    have st := ok.fe.2 a (by rw [hr]; exact List.mem_cons_self _ _)
    obtain ⟨d, hd⟩ := Option.isSome_iff_exists.mp st
    refine ⟨a, { m with m_edges_removed := rest }, ?_⟩
    unfold add_edge_e
    simp [hr, hd]

/-- In a state of the slots as described, `add_edge` on two stored vertices
returns: the assertions on the slots it reuses or inserts hold. -/
theorem add_edge_returns_any {m : mesh_t R} (ok : slots_ok m) {v0 v1 : vertex_descriptor_t}
    (n0 : v0 ≠ none) (n1 : v1 ≠ none) (hv0 : (map_find m.m_vertices v0).isSome = true)
    (hv1 : (map_find m.m_vertices v1).isSome = true) :
    ∃ h m1, add_edge v0 v1 m = (Except.ok h, m1) := by
  obtain ⟨h0, ma, r0⟩ := add_edge_h0_returns ok
  have oka := slots_ok_h0 ok r0
  obtain ⟨h1, mb, r1⟩ := add_edge_h1_returns oka
  have okb := slots_ok_h1 oka r1
  obtain ⟨e, mc, r2⟩ := add_edge_e_returns okb
  have vs : mc.m_vertices = m.m_vertices := by
    rw [(edge_slot_e r2).v, (halfedge_slot_h1 r1).v, (halfedge_slot_h0 r0).v]
  unfold add_edge
  have a0 : (v0 != null_vertex) = true := (bne_null_iff v0).2 n0
  have a1 : (v1 != null_vertex) = true := (bne_null_iff v1).2 n1
  rw [bind_ok (show mesh_op.eval (fun _ => MCUT_ASSERT (v0 != null_vertex)) m = (Except.ok (), m) by
    rw [eval_run, a0, assert_true])]
  rw [bind_ok (show mesh_op.eval (fun _ => MCUT_ASSERT (v1 != null_vertex)) m = (Except.ok (), m) by
    rw [eval_run, a1, assert_true])]
  rw [bind_ok r0, bind_ok r1, bind_ok r2]
  simp only [bind_run, update_run, eval_run, add_edge_incidence, map_count_eq_one,
    map_find_modify_isSome, pure_run, vs, hv0, hv1, assert_true]
  exact ⟨_, _, rfl⟩

/-- The two half-edges of a pair made by `add_edge` have different
descriptors. -/
theorem add_edge_pair_distinct {m m1 : mesh_t R} (ok : slots_ok m) {v0 v1 : vertex_descriptor_t}
    {h : halfedge_descriptor_t} (hrun : add_edge v0 v1 m = (Except.ok h, m1)) :
    ∃ h1, opposite m1 h = Except.ok h1 ∧ h1 ≠ h := by
  obtain ⟨ma, h1, mb, e, mc, r0, r1, r2, _, _, _, _, rfl⟩ := add_edge_inv_any hrun
  have s0 := halfedge_slot_h0 r0
  have s1 := halfedge_slot_h1 r1
  have s2 := edge_slot_e r2
  have notin : h ∉ ma.m_halfedges_removed := by
    rcases add_edge_h0_inv r0 with ⟨rest, q1, _, rfl⟩ | ⟨q1, _, _, rfl⟩
    · have := ok.fh.1
      rw [q1] at this
      exact (List.nodup_cons.1 this).1
    · show h ∉ m.m_halfedges_removed
      rw [q1]
      exact List.not_mem_nil _
  have ne : h1 ≠ h := by
    intro c
    subst c
    exact notin (s1.free s0.stored)
  have stored : (map_find mc.m_halfedges h).isSome := by
    rw [s2.h, s1.old h (fun c => ne c.symm)]
    exact s0.stored
  obtain ⟨hd, hf⟩ := Option.isSome_iff_exists.mp stored
  have okc := slots_ok_e (slots_ok_h1 (slots_ok_h0 ok r0) r1) r2
  refine ⟨h1, opposite_eq_ok.2 ⟨key_ne_null okc.dh hf, { hd with t := v1, o := h1, e := e }, ?_,
    rfl⟩, ne⟩
  rw [add_edge_write_find, if_neg (fun c => ne c.symm), if_pos rfl, hf]
  rfl

/-! ## The states with removed elements -/

/-- A mesh reached by creation calls alone is in a state of the slots as
described, with empty lists of removed descriptors. -/
theorem slots_ok_of_reachable {m : mesh_t R} (r : Reachable m) : slots_ok m := by
  obtain ⟨eo, fo⟩ := reachable_ok r
  refine ⟨eo.dv, eo.de, eo.dh, fo.df, ?_, ?_, ?_, ?_⟩
  · rw [eo.vr]; exact free_list_ok_nil _
  · rw [eo.er]; exact free_list_ok_nil _
  · rw [eo.hr]; exact free_list_ok_nil _
  · rw [fo.fr]; exact free_list_ok_nil _

theorem free_list_ok_push {D : Type} {mp : map_t D} {l : List descriptor_t} {k : descriptor_t}
    (h : free_list_ok mp l) (hs : (map_find mp k).isSome) (hn : k ∉ l) :
    free_list_ok mp (l ++ [k]) := by
  refine ⟨List.Nodup.append h.1 (List.nodup_singleton k) ?_, ?_⟩
  · intro x hx hk
    rw [List.mem_singleton] at hk
    subst hk
    exact hn hx
  · intro x hx
    rcases List.mem_append.1 hx with c | c
    · exact h.2 x c
    · rw [List.mem_singleton] at c
      subst c
      exact hs

/-- The removal of a live vertex keeps the state of the slots. -/
theorem slots_ok_remove_vertex {m : mesh_t R} (ok : slots_ok m) {v : vertex_descriptor_t}
    (lv : live m.m_vertices m.m_vertices_removed v) : slots_ok (mesh_after (remove_vertex v) m) :=
  ⟨ok.dv, ok.de, ok.dh, ok.df, free_list_ok_push ok.fv lv.1 lv.2, ok.fe, ok.fh, ok.ff⟩

/-- The removal of a live edge keeps the state of the slots. -/
theorem slots_ok_remove_edge {m : mesh_t R} (ok : slots_ok m) {e : edge_descriptor_t}
    (lv : live m.m_edges m.m_edges_removed e) : slots_ok (mesh_after (remove_edge e) m) :=
  ⟨ok.dv, ok.de, ok.dh, ok.df, ok.fv, free_list_ok_push ok.fe lv.1 lv.2, ok.fh, ok.ff⟩

/-- The removal of a live half-edge keeps the state of the slots. -/
theorem slots_ok_remove_halfedge {m : mesh_t R} (ok : slots_ok m) {h : halfedge_descriptor_t}
    (lv : live m.m_halfedges m.m_halfedges_removed h) :
    slots_ok (mesh_after (remove_halfedge h) m) :=
  ⟨ok.dv, ok.de, ok.dh, ok.df, ok.fv, ok.fe, free_list_ok_push ok.fh lv.1 lv.2, ok.ff⟩

/-- The removal of a live face keeps the state of the slots. -/
theorem slots_ok_remove_face {m : mesh_t R} (ok : slots_ok m) {f : face_descriptor_t}
    (lv : live m.m_faces m.m_faces_removed f) : slots_ok (mesh_after (remove_face f) m) :=
  ⟨ok.dv, ok.de, ok.dh, ok.df, ok.fv, ok.fe, ok.fh, free_list_ok_push ok.ff lv.1 lv.2⟩

theorem slots_ok_triangle_edge_removed : slots_ok mesh_triangle_edge_removed := by
  have t := slots_ok_of_reachable (built_reachable built_triangle)
  have a := slots_ok_remove_face t (show live mesh_triangle.m_faces
    mesh_triangle.m_faces_removed (some 0) by unfold live; decide!)
  have b := slots_ok_remove_halfedge a (show live
    (mesh_after (remove_face (some 0)) mesh_triangle).m_halfedges
    (mesh_after (remove_face (some 0)) mesh_triangle).m_halfedges_removed (some 0) by
      unfold live; decide!)
  have c := slots_ok_remove_halfedge b (show live
    (mesh_after (remove_halfedge (some 0))
      (mesh_after (remove_face (some 0)) mesh_triangle)).m_halfedges
    (mesh_after (remove_halfedge (some 0))
      (mesh_after (remove_face (some 0)) mesh_triangle)).m_halfedges_removed (some 1) by
      unfold live; decide!)
  exact slots_ok_remove_edge c (show live
    (mesh_after (remove_halfedge (some 1)) (mesh_after (remove_halfedge (some 0))
      (mesh_after (remove_face (some 0)) mesh_triangle))).m_edges
    (mesh_after (remove_halfedge (some 1)) (mesh_after (remove_halfedge (some 0))
      (mesh_after (remove_face (some 0)) mesh_triangle))).m_edges_removed (some 0) by
      unfold live; decide!)

/-- C32. In a state of the mesh in which the keys of each storage map are
the descriptors `0 .. size - 1` and each list of removed descriptors has no
duplicates and holds stored keys only (the states reached from the empty mesh
by creation calls and removals of live elements): when the list of removed
descriptors of a category is empty, the count `number_of_X()` is the internal
count, the descriptor made from it is not a key of the map, and the insertion
succeeds, so that `add_vertex`, the three slots of `add_edge` and the slot and
the store of `add_face` pass their assertions; `add_edge` on two stored
vertices returns; the two half-edges of the pair it makes have different
descriptors; and every creation call that returns leaves the mesh in a state
of the same kind, the keys of each map being `0 .. size - 1` again. -/
theorem fresh_descriptors_never_collide (m : mesh_t R) (ok : slots_ok m) :
    (m.m_vertices_removed = [] →
      number_of_vertices m = number_of_internal_vertices m ∧
      map_count m.m_vertices (descriptor_of_count (number_of_vertices m)) = 0 ∧
      ∀ x y z, ∃ m1,
        add_vertex x y z m = (Except.ok (descriptor_of_count (number_of_vertices m)), m1)) ∧
    (m.m_halfedges_removed = [] →
      number_of_halfedges m = number_of_internal_halfedges m ∧
      map_count m.m_halfedges (descriptor_of_count (number_of_halfedges m)) = 0 ∧
      (∃ ma, add_edge_h0 m = (Except.ok (descriptor_of_count (number_of_halfedges m)), ma)) ∧
      (∃ ma, add_edge_h1 m = (Except.ok (descriptor_of_count (number_of_halfedges m)), ma))) ∧
    (m.m_edges_removed = [] →
      number_of_edges m = number_of_internal_edges m ∧
      map_count m.m_edges (descriptor_of_count (number_of_edges m)) = 0 ∧
      ∃ ma, add_edge_e m = (Except.ok (descriptor_of_count (number_of_edges m)), ma)) ∧
    (m.m_faces_removed = [] →
      number_of_faces m = number_of_internal_faces m ∧
      map_count m.m_faces (descriptor_of_count (number_of_faces m)) = 0 ∧
      add_face_slot m = (Except.ok (descriptor_of_count (number_of_faces m), false), m) ∧
      ∀ vi fd mb,
        add_face_loop vi (descriptor_of_count (number_of_faces m)) false (List.range vi.length)
          face_data_new m = (Except.ok fd, mb) →
        ∃ mc, add_face_store (descriptor_of_count (number_of_faces m)) false fd mb =
          (Except.ok (), mc)) ∧
    (∀ v0 v1, v0 ≠ null_vertex → v1 ≠ null_vertex → map_count m.m_vertices v0 = 1 →
      map_count m.m_vertices v1 = 1 → ∃ h m1, add_edge v0 v1 m = (Except.ok h, m1)) ∧
    (∀ v0 v1 h m1, add_edge v0 v1 m = (Except.ok h, m1) →
      ∃ h1, opposite m1 h = Except.ok h1 ∧ h1 ≠ h) ∧
    (∀ x y z v m1, add_vertex x y z m = (Except.ok v, m1) → slots_ok m1) ∧
    (∀ h ma, add_edge_h0 m = (Except.ok h, ma) → slots_ok ma) ∧
    (∀ h ma, add_edge_h1 m = (Except.ok h, ma) → slots_ok ma) ∧
    (∀ e ma, add_edge_e m = (Except.ok e, ma) → slots_ok ma) ∧
    (∀ v0 v1 h m1, add_edge v0 v1 m = (Except.ok h, m1) → slots_ok m1) ∧
    (∀ vi f m1, add_face vi m = (Except.ok f, m1) → slots_ok m1) := by
  refine ⟨?_, ?_, ?_, ?_, ?_, fun v0 v1 h m1 hrun => add_edge_pair_distinct ok hrun,
    fun x y z v m1 hrun => slots_ok_add_vertex ok hrun, fun h ma hrun => slots_ok_h0 ok hrun,
    fun h ma hrun => slots_ok_h1 ok hrun, fun e ma hrun => slots_ok_e ok hrun,
    fun v0 v1 h m1 hrun => slots_ok_add_edge ok hrun,
    fun vi f m1 hrun => slots_ok_add_face ok hrun⟩
  · intro hr
    have d : descriptor_of_count (number_of_vertices m) = some m.m_vertices.length := by
      simp [number_of_vertices, number_of_internal_vertices, number_of_vertices_removed, hr,
        descriptor_of_count]
    refine ⟨?_, ?_, ?_⟩
    · simp [number_of_vertices, number_of_vertices_removed, hr]
    · rw [d]
      exact count_zero_of_fresh ok.dv
    · intro x y z
      rw [d]
      exact ⟨_, add_vertex_run m x y z hr ok.dv⟩
  · intro hr
    have d : descriptor_of_count (number_of_halfedges m) = some m.m_halfedges.length := by
      simp [number_of_halfedges, number_of_internal_halfedges, number_of_halfedges_removed, hr,
        descriptor_of_count]
    refine ⟨?_, ?_, ?_, ?_⟩
    · simp [number_of_halfedges, number_of_halfedges_removed, hr]
    · rw [d]
      exact count_zero_of_fresh ok.dh
    · rw [d]
      exact ⟨_, add_edge_h0_run m hr ok.dh⟩
    · rw [d]
      exact ⟨_, add_edge_h1_run m hr ok.dh⟩
  · intro hr
    have d : descriptor_of_count (number_of_edges m) = some m.m_edges.length := by
      simp [number_of_edges, number_of_internal_edges, number_of_edges_removed, hr,
        descriptor_of_count]
    refine ⟨?_, ?_, ?_⟩
    · simp [number_of_edges, number_of_edges_removed, hr]
    · rw [d]
      exact count_zero_of_fresh ok.de
    · rw [d]
      exact ⟨_, add_edge_e_run m hr ok.de⟩
  · intro hr
    have d : descriptor_of_count (number_of_faces m) = some m.m_faces.length := by
      simp [number_of_faces, number_of_internal_faces, number_of_faces_removed, hr,
        descriptor_of_count]
    have c0 : map_count m.m_faces (some m.m_faces.length) = 0 := count_zero_of_fresh ok.df
    refine ⟨?_, ?_, ?_, ?_⟩
    · simp [number_of_faces, number_of_faces_removed, hr]
    · rw [d]
      exact c0
    · unfold add_face_slot
      simp only [hr]
    · intro vi fd mb hloop
      rw [List.range_eq_range'] at hloop
      obtain ⟨_, _, l3, _, _, _⟩ := add_face_loop_kept (kept_refl m) hloop
      rw [d]
      refine ⟨{ mb with m_faces := (map_insert mb.m_faces (some m.m_faces.length) fd).1 }, ?_⟩
      unfold add_face_store
      rw [l3 rfl, c0]
      rfl
  · intro v0 v1 n0 n1 c0 c1
    have hv0 : (map_find m.m_vertices v0).isSome = true := by
      rw [← map_count_eq_one]; simp [c0]
    have hv1 : (map_find m.m_vertices v1).isSome = true := by
      rw [← map_count_eq_one]; simp [c1]
    exact add_edge_returns_any ok n0 n1 hv0 hv1

theorem fresh_descriptors_never_collide_witness :
    slots_ok mesh_triangle_edge_removed ∧
    (mesh_triangle_edge_removed.m_vertices_removed = [] →
      number_of_vertices mesh_triangle_edge_removed =
        number_of_internal_vertices mesh_triangle_edge_removed ∧
      map_count mesh_triangle_edge_removed.m_vertices
        (descriptor_of_count (number_of_vertices mesh_triangle_edge_removed)) = 0 ∧
      ∀ x y z, ∃ m1, add_vertex x y z mesh_triangle_edge_removed =
        (Except.ok (descriptor_of_count (number_of_vertices mesh_triangle_edge_removed)), m1)) ∧
    (∀ v0 v1 h m1, add_edge v0 v1 mesh_triangle_edge_removed = (Except.ok h, m1) →
      ∃ h1, opposite m1 h = Except.ok h1 ∧ h1 ≠ h) ∧
    (∀ vi f m1, add_face vi mesh_triangle_edge_removed = (Except.ok f, m1) → slots_ok m1) :=
  ⟨slots_ok_triangle_edge_removed,
    (fresh_descriptors_never_collide mesh_triangle_edge_removed
      slots_ok_triangle_edge_removed).1,
    (fresh_descriptors_never_collide mesh_triangle_edge_removed
      slots_ok_triangle_edge_removed).2.2.2.2.2.1,
    (fresh_descriptors_never_collide mesh_triangle_edge_removed
      slots_ok_triangle_edge_removed).2.2.2.2.2.2.2.2.2.2.2⟩

/-- On the triangle whose face, edge 0 and half-edges 0 and 1 are removed,
`add_vertex` inserts the new descriptor 3; `add_edge(0, 1)` reuses the
half-edges 0 and 1 and the edge 0; after it the lists of removed half-edges
and edges are empty, and a second call `add_edge(1, 2)` inserts the new
half-edges 6 and 7 and the new edge 3. -/
theorem triangle_edge_removed_fresh :
    (add_vertex 5 5 5 mesh_triangle_edge_removed).1 = Except.ok (some 3) ∧
    (add_edge (some 0) (some 1) mesh_triangle_edge_removed).1 = Except.ok (some 0) ∧
    (add_edge (some 1) (some 2)
      (add_edge (some 0) (some 1) mesh_triangle_edge_removed).2).1 = Except.ok (some 6) ∧
    opposite (add_edge (some 1) (some 2)
      (add_edge (some 0) (some 1) mesh_triangle_edge_removed).2).2 (some 6) =
        Except.ok (some 7) ∧
    edge (add_edge (some 1) (some 2)
      (add_edge (some 0) (some 1) mesh_triangle_edge_removed).2).2 (some 6) =
        Except.ok (some 3) := by
  decide!

/-! ## The half-edge pair of `add_edge` in a mesh with removed elements -/

/-- `add_edge` does not write the face of a half-edge record: the half-edge
it returns and the opposite report the face that the record of their slot
held before the call, and the null face when the slot is new. -/
theorem add_edge_keeps_slot_face {m m1 : mesh_t R} (ok : slots_ok m)
    {v0 v1 : vertex_descriptor_t} {h : halfedge_descriptor_t}
    (hrun : add_edge v0 v1 m = (Except.ok h, m1)) :
    ∃ o, opposite m1 h = Except.ok o ∧
      face m1 h = Except.ok (((map_find m.m_halfedges h).map (fun d => d.f)).getD null_face) ∧
      face m1 o = Except.ok (((map_find m.m_halfedges o).map (fun d => d.f)).getD null_face) := by
  obtain ⟨ma, o, mb, e, mc, r0, r1, r2, _, _, _, _, rfl⟩ := add_edge_inv_any hrun
  have s0 := halfedge_slot_h0 r0
  have s1 := halfedge_slot_h1 r1
  have s2 := edge_slot_e r2
  have oka := slots_ok_h0 ok r0
  have okc := slots_ok_e (slots_ok_h1 oka r1) r2
  have notin : h ∉ ma.m_halfedges_removed := by
    rcases add_edge_h0_inv r0 with ⟨rest, q1, _, rfl⟩ | ⟨q1, _, _, rfl⟩
    · have := ok.fh.1
      rw [q1] at this
      exact (List.nodup_cons.1 this).1
    · show h ∉ m.m_halfedges_removed
      rw [q1]
      exact List.not_mem_nil _
  have ne : o ≠ h := by
    intro c
    subst c
    exact notin (s1.free s0.stored)
  -- the record of the slot `h` after the slots are chosen
  have rh : ∃ hd, map_find ma.m_halfedges h = some hd ∧
      hd.f = ((map_find m.m_halfedges h).map (fun d => d.f)).getD null_face := by
    rcases add_edge_h0_inv r0 with ⟨rest, _, q2, rfl⟩ | ⟨_, _, q3, rfl⟩
    · obtain ⟨hd, hf⟩ := Option.isSome_iff_exists.mp q2
      exact ⟨hd, hf, by rw [hf]; rfl⟩
    · exact ⟨halfedge_data_new, map_find_insert_self q3, by rw [q3]; rfl⟩
  have ro : ∃ od, map_find mb.m_halfedges o = some od ∧
      od.f = ((map_find m.m_halfedges o).map (fun d => d.f)).getD null_face := by
    rw [← s0.old o ne]
    rcases add_edge_h1_inv r1 with ⟨_, q2, rfl⟩ | ⟨_, _, q3, rfl⟩
    · obtain ⟨od, hf⟩ := Option.isSome_iff_exists.mp q2
      exact ⟨od, hf, by rw [hf]; rfl⟩
    · exact ⟨halfedge_data_new, map_find_insert_self q3, by rw [q3]; rfl⟩
  obtain ⟨hd, hf, hface⟩ := rh
  obtain ⟨od, of, oface⟩ := ro
  have hf1 : map_find mc.m_halfedges h = some hd := by
    rw [s2.h, s1.old h (fun c => ne c.symm)]
    exact hf
  have of1 : map_find mc.m_halfedges o = some od := by
    rw [s2.h]
    exact of
  have nh : h ≠ none := key_ne_null okc.dh hf1
  have no : o ≠ none := key_ne_null okc.dh of1
  have fh : map_find (add_edge_write mc v0 v1 h o e).m_halfedges h =
      some { hd with t := v1, o := o, e := e } := by
    rw [add_edge_write_find, if_neg (fun c => ne c.symm), if_pos rfl, hf1]
    rfl
  have fo : map_find (add_edge_write mc v0 v1 h o e).m_halfedges o =
      some { od with t := v0, o := h, e := e } := by
    rw [add_edge_write_find, if_pos rfl, if_neg ne, of1]
    rfl
  exact ⟨o, opposite_eq_ok.2 ⟨nh, _, fh, rfl⟩, face_eq_ok.2 ⟨nh, _, fh, hface⟩,
    face_eq_ok.2 ⟨no, _, fo, oface⟩⟩

/-- On the two vertices whose edge and half-edges are removed,
`add_edge(1, 0)` reuses the half-edge slots 0 and 1 and the edge slot 0: the
half-edge 0 now leads from 1 to 0, and both half-edges report the null
face. -/
theorem one_edge_removed_reuse :
    mesh_one_edge_removed.m_halfedges_removed = [some 0, some 1] ∧
    (add_edge (some 1) (some 0) mesh_one_edge_removed).1 = Except.ok (some 0) ∧
    target (mesh_after (add_edge (some 1) (some 0)) mesh_one_edge_removed) (some 0) =
      Except.ok (some 0) ∧
    source (mesh_after (add_edge (some 1) (some 0)) mesh_one_edge_removed) (some 0) =
      Except.ok (some 1) ∧
    opposite (mesh_after (add_edge (some 1) (some 0)) mesh_one_edge_removed) (some 0) =
      Except.ok (some 1) ∧
    face (mesh_after (add_edge (some 1) (some 0)) mesh_one_edge_removed) (some 0) =
      Except.ok null_face ∧
    face (mesh_after (add_edge (some 1) (some 0)) mesh_one_edge_removed) (some 1) =
      Except.ok null_face := by
  decide!

end mcut
